import Mathlib

/-!
# fwrite.c : field formatters, row encoder and writefile

A shallow embedding of `src/fwrite.c` (data.table's delimited-text writer).
Bytes are modelled as `Char`, a write through the cursor `*ch++ = c` as
appending `c` to the list of bytes written so far, and the file-level globals
(`na_str`, `col_sep`, `dec_sep`, `quote`, `qmethod_escape`) as one record
passed explicitly. The function writefile is modelled with one worker: what
the C library, the R API and the operating system return is a parameter, and
the result is the error raised, if any, with the bytes handed to the sink.
-/

namespace Fwrite

/-! ## Machine integers and bytes -/

/-- The value of a C `long long` after two's-complement wrap-around. -/
def wrap64 (x : Int) : Int :=
  (x + 9223372036854775808) % 18446744073709551616 - 9223372036854775808

/-- The smallest `long long`, `-2^63`; also `NAINT64`, the missing value of integer64. -/
def NAINT64 : Int := -9223372036854775808

/-- The largest `long long`, `2^63 - 1`. -/
def INT64_MAX : Int := 9223372036854775807

/-- The smallest `int`, `-2^31`; `NA_INTEGER` and `NA_LOGICAL` are this value. -/
def NA_INTEGER : Int := -2147483648

/-- Conversion of an integer to `char`: the low eight bits. -/
def toByte (v : Int) : Char := Char.ofNat (v % 256).toNat

/-! ## writeInteger (fwrite.c lines 30-50) -/

/-- The loop `while (x>0) { *ch++ = '0'+x%10; x /= 10; width++; }`: the bytes it
writes, in the order written (least significant digit first).  The first
argument bounds the number of iterations. -/
def digitsLoop : Nat → Int → List Char
  | 0, _ => []
  | fuel + 1, x =>
    if x > 0 then toByte (48 + Int.tmod x 10) :: digitsLoop fuel (Int.tdiv x 10) else []

/-- One pass of the body of the reversal loop, on the `width` bytes just written:
`tmp=*(ch-i); *(ch-i) = *(ch-width+i-1); *(ch-width+i-1) = tmp;`.
Offsets are taken from the first digit, so `ch-i` is index `width-i`. -/
def swapStep (width i : Nat) (buf : List Char) : List Char :=
  let tmp := buf.getD (width - i) '0'
  let buf1 := buf.set (width - i) (buf.getD (i - 1) '0')
  buf1.set (i - 1) tmp

/-- The loop `for (int i=width/2; i>0; i--) { ... }`, started at `i`. -/
def reverseLoop (width : Nat) : Nat → List Char → List Char
  | 0, buf => buf
  | i + 1, buf => reverseLoop width i (swapStep width (i + 1) buf)

/-- The bytes `writeInteger(x, &ch)` appends at the cursor, for every `long long`
but the smallest. There the negation `x=-x` of line 39 overflows, which C leaves
undefined; the callers test for `NAINT64` before the call (lines 405 and 579,
and the comment of lines 33-35), and no statement below is about that input. -/
def writeInteger (x : Int) : List Char :=
  if x = 0 then ['0']
  else
    let sign := if x < 0 then ['-'] else []
    let x1 := if x < 0 then wrap64 (-x) else x
    let buf := digitsLoop x1.toNat x1
    let width := buf.length
    sign ++ reverseLoop width (width / 2) buf

/-! ## Reference notions for decimal text -/

/-- The canonical decimal text of an integer, written independently of the code:
`0` for zero, else an optional `-` and the digits, most significant first. -/
def decimalText (x : Int) : List Char :=
  if x = 0 then ['0']
  else (if x < 0 then ['-'] else []) ++ ((Nat.digits 10 x.natAbs).reverse.map Nat.digitChar)

/-- Value of a decimal digit byte, if it is one. -/
def digitVal (c : Char) : Option Nat :=
  if '0' ≤ c ∧ c ≤ '9' then some (c.toNat - 48) else none

/-- Reads a run of decimal digits, most significant first, onto `acc`. -/
def readDigitsFrom : Nat → List Char → Option Nat
  | acc, [] => some acc
  | acc, c :: cs => (digitVal c).bind (fun v => readDigitsFrom (acc * 10 + v) cs)

/-- Reads a non-empty run of decimal digits, most significant first. -/
def readDigits (s : List Char) : Option Nat :=
  if s = [] then none else readDigitsFrom 0 s

/-- Reads decimal text as a signed 64-bit integer: an optional `-`, then digits;
text whose value does not fit a `long long` is rejected. -/
def parseInt64 (s : List Char) : Option Int :=
  let r : Option Int :=
    if s.head? = some '-' then (readDigits s.tail).map (fun (n : Nat) => -(n : Int))
    else (readDigits s).map (fun (n : Nat) => (n : Int))
  r.bind (fun v => if NAINT64 ≤ v ∧ v ≤ INT64_MAX then some v else none)

/-! ## File-level parameters -/

/-- The three values the global `quote` takes: `NA_LOGICAL` is quote="auto". -/
inductive Rboolean where
  | FALSE
  | TRUE
  | NA_LOGICAL
  deriving DecidableEq, Repr

/-- The globals of fwrite.c that the field writers read. `na_len` is the length of
`na_str`, so `memcpy(ch, na_str, na_len)` appends `na_str`. -/
structure Globals where
  na_str : List Char
  col_sep : Char
  dec_sep : Char
  quote : Rboolean
  qmethod_escape : Bool

/-- A `CHARSXP`: `none` is `NA_STRING`, otherwise the `LENGTH(x)` bytes of `CHAR(x)`,
which in memory are followed by a terminating NUL. -/
abbrev SEXPstr := Option (List Char)

/-- The NUL byte that terminates `CHAR(x)`. -/
def NUL : Char := Char.ofNat 0

/-! ## writeString (fwrite.c lines 219-261) -/

/-- `*tt` for a pointer into `CHAR(x)`: the next byte, or the terminator once the
bytes are used up. -/
def deref (tt : List Char) : Char := tt.headD NUL

/-- `while (*tt!='\0' && *tt!=col_sep && *tt!='\n') *ch++ = *tt++;`
Returns the bytes written and the position `tt` is left at. -/
def scanCopy (col_sep : Char) : List Char → List Char × List Char
  | [] => ([], [])
  | c :: tt =>
    if c ≠ NUL ∧ c ≠ col_sep ∧ c ≠ '\n' then
      ((c :: (scanCopy col_sep tt).1), (scanCopy col_sep tt).2)
    else ([], c :: tt)

/-- `while (*tt!='\0') { if (*tt=='"' || *tt=='\\') *ch++ = '\\'; *ch++ = *tt++; }` -/
def escapeLoop : List Char → List Char
  | [] => []
  | c :: tt =>
    if c = NUL then []
    else (if c = '"' ∨ c = '\\' then ['\\', c] else [c]) ++ escapeLoop tt

/-- `while (*tt!='\0') { if (*tt=='"') *ch++ = '"'; *ch++ = *tt++; }` -/
def doubleLoop : List Char → List Char
  | [] => []
  | c :: tt =>
    if c = NUL then []
    else (if c = '"' then ['"', c] else [c]) ++ doubleLoop tt

/-- The branch `q != FALSE` of writeString: opening quote, body, closing quote. -/
def writeQuoted (g : Globals) (s : List Char) : List Char :=
  ['"'] ++ (if g.qmethod_escape then escapeLoop s else doubleLoop s) ++ ['"']

/-- The bytes `writeString(x, &ch)` leaves between the old and the new cursor.
In auto mode the optimistic copy is kept when the scan stopped at the
terminator; otherwise the cursor is rewound and the field written quoted. -/
def writeString (g : Globals) (x : SEXPstr) : List Char :=
  match x with
  | none => g.na_str
  | some s =>
    match g.quote with
    | Rboolean.NA_LOGICAL =>
      let r := scanCopy g.col_sep s
      if deref r.2 = NUL then r.1 else writeQuoted g s
    | Rboolean.FALSE => s
    | Rboolean.TRUE => writeQuoted g s

/-! ## Doubles

A `double` argument is held as its 64 bits (the `u.ull` view of the union `u`).
The local doubles of writeNumeric (`acc`, `y`) are positive and far from the
overflow and underflow thresholds, so they are held as `m * 2^e` and every
operation rounds its exact result to the nearest value with 53 significant
bits, ties to even. -/

/-- The exponent field `(u.ull>>52) & 0x7FF`. -/
def exponentOf (x : Nat) : Nat := (x >>> 52) &&& 0x7FF

/-- The fraction field `u.ull & 0xFFFFFFFFFFFFF`. -/
def fractionOf (x : Nat) : Nat := x &&& 0xFFFFFFFFFFFFF

/-- The sign bit. -/
def signOf (x : Nat) : Bool := (x >>> 63) % 2 = 1

/-- `R_FINITE(x)`. -/
def R_FINITE (x : Nat) : Bool := exponentOf x ≠ 2047

/-- `ISNAN(x)`. -/
def ISNAN (x : Nat) : Bool := exponentOf x = 2047 ∧ fractionOf x ≠ 0

/-- `x == 0.0`, true of both zeros. -/
def isZero (x : Nat) : Bool := exponentOf x = 0 ∧ fractionOf x = 0

/-- A non-negative finite double value `m * 2^e`. -/
structure Dbl where
  m : Nat
  e : Int
  deriving DecidableEq, Repr

/-- Number of binary digits of `n`, computed with `fuel` halvings at most. -/
def bitLenAux : Nat → Nat → Nat
  | 0, _ => 0
  | fuel + 1, n => if n = 0 then 0 else bitLenAux fuel (n / 2) + 1

/-- Number of binary digits of `n`. -/
def bitLen (n : Nat) : Nat := bitLenAux n n

/-- The quotient `n / d` rounded to the nearest integer, ties to even. -/
def roundDiv (n d : Nat) : Nat :=
  let q := n / d
  let r := n % d
  if 2 * r > d ∨ (2 * r = d ∧ q % 2 = 1) then q + 1 else q

/-- Numerator of `n / d * 2^k` as a quotient of naturals. -/
def scaleNum (n : Nat) (k : Int) : Nat := n * 2 ^ k.toNat

/-- Denominator of `n / d * 2^k` as a quotient of naturals. -/
def scaleDen (d : Nat) (k : Int) : Nat := d * 2 ^ (-k).toNat

/-- The power of two by which `n / d` is scaled so that its integer part has
exactly 53 bits. -/
def rndShift (n d : Nat) : Int :=
  let k0 : Int := 53 + (bitLen d : Int) - (bitLen n : Int)
  if scaleNum n k0 / scaleDen d k0 < 2 ^ 53 then k0 else k0 - 1

/-- Round-to-nearest-even of the exact value `n / d * 2^e` to 53 significant bits:
the quotient is scaled to a 53-bit integer part and the remainder decides the
rounding. -/
def rnd (n d : Nat) (e : Int) : Dbl :=
  if n = 0 then ⟨0, 0⟩
  else
    let k := rndShift n d
    ⟨roundDiv (scaleNum n k) (scaleDen d k), e - k⟩

/-- The rational number a double stands for. -/
def Dbl.val (a : Dbl) : ℚ := (a.m : ℚ) * (2 : ℚ) ^ a.e

namespace Dbl

/-- The double `0.0`. -/
def zero : Dbl := ⟨0, 0⟩

/-- Conversion of an unsigned integer to double. -/
def ofNat (n : Nat) : Dbl := rnd n 1 0

/-- Double addition. -/
def add (a b : Dbl) : Dbl :=
  let e := min a.e b.e
  rnd (a.m * 2 ^ (a.e - e).toNat + b.m * 2 ^ (b.e - e).toNat) 1 e

/-- Double multiplication. -/
def mul (a b : Dbl) : Dbl := rnd (a.m * b.m) 1 (a.e + b.e)

/-- Double division. -/
def div (a b : Dbl) : Dbl := rnd a.m b.m (a.e - b.e)

/-- The comparison `a >= b`. -/
def ge (a b : Dbl) : Bool :=
  let e := min a.e b.e
  decide (b.m * 2 ^ (b.e - e).toNat ≤ a.m * 2 ^ (a.e - e).toNat)

/-- Conversion of a double to `unsigned long long`: the integer part. -/
def toULL (a : Dbl) : Nat :=
  (if 0 ≤ a.e then a.m * 2 ^ a.e.toNat else a.m / 2 ^ (-a.e).toNat) % 18446744073709551616

end Dbl

/-- The tables of fwriteLookups.h, which is not among the sources: they are a
parameter of the formatter. `sigparts` has 53 entries, the other two 2048. -/
structure Lookups where
  sigparts : Nat → Dbl
  expsig : Nat → Dbl
  exppow : Nat → Int

/-- Number of decimal digits of `n`, computed with `fuel` divisions at most. -/
def decLenAux : Nat → Nat → Nat
  | 0, _ => 0
  | fuel + 1, n => if n = 0 then 0 else decLenAux fuel (n / 10) + 1

/-- Number of decimal digits of `n`. -/
def decLen (n : Nat) : Nat := decLenAux n n

/-- Modelled from the spec: fwriteLookups.h is missing; `exppow[i]` is the decimal
exponent of `2^(i-1023)` (section 4.H, and the generator left in a comment at
fwrite.c lines 57-89, which prints `2^(i-1023)` with `%.40Le` and takes the part
after the `e`). -/
def exppowSpec (i : Nat) : Int :=
  if 1023 ≤ i then (decLen (2 ^ (i - 1023)) : Int) - 1
  else -(decLen (2 ^ (1023 - i)) : Int)

/-- Modelled from the spec: fwriteLookups.h is missing; `expsig[i]` is the mantissa
in `[1,10)` of `2^(i-1023)`, printed with 40 decimals and read back as a double
literal (section 4.H and the generator at fwrite.c lines 57-89). -/
def expsigSpec (i : Nat) : Dbl :=
  let mant40 :=
    if 1023 ≤ i then
      roundDiv (2 ^ (i - 1023) * 10 ^ 40) (10 ^ (decLen (2 ^ (i - 1023)) - 1))
    else roundDiv (10 ^ decLen (2 ^ (1023 - i)) * 10 ^ 40) (2 ^ (1023 - i))
  rnd mant40 (10 ^ 40) 0

/-- Modelled from the spec: fwriteLookups.h is missing; `sigparts[0] = 0` and
`sigparts[i] = 2^-i` for `i` from 1 to 52 (section 4.H). -/
def sigpartsSpec (i : Nat) : Dbl := if i = 0 then Dbl.zero else ⟨1, -(i : Int)⟩

/-- Modelled from the spec: fwriteLookups.h is missing; the three tables as section
4.H describes them. -/
def specLookups : Lookups where
  sigparts := sigpartsSpec
  expsig := expsigSpec
  exppow := exppowSpec

/-- `NUM_SF`. -/
def NUM_SF : Int := 15

/-- `SIZE_SF`, which is `10^NUM_SF`. -/
def SIZE_SF : Nat := 1000000000000000

/-! ## writeNumeric (fwrite.c lines 96-217) -/

/-- `while ((fraction & 0xFF) == 0) { fraction >>= 8; i-=8; }`
Returns `fraction` and `i` on exit. -/
def skipZeroBytes : Nat → Nat → Int → Nat × Int
  | 0, fraction, i => (fraction, i)
  | fuel + 1, fraction, i =>
    if fraction &&& 0xFF = 0 then skipZeroBytes fuel (fraction >>> 8) (i - 8)
    else (fraction, i)

/-- The index `(((fraction&1u)^1u)-1u) & i`, in unsigned 64-bit arithmetic. -/
def sigIndex (fraction : Nat) (i : Int) : Nat :=
  ((((fraction &&& 1) ^^^ 1) + 18446744073709551615) % 18446744073709551616) &&&
    (i % 18446744073709551616).toNat

/-- `while (fraction) { acc += sigparts[...]; i--; fraction >>= 1; }` -/
def sumBits (T : Lookups) : Nat → Nat → Int → Dbl → Dbl
  | 0, _, _, acc => acc
  | fuel + 1, fraction, i, acc =>
    if fraction ≠ 0 then
      sumBits T fuel (fraction >>> 1) (i - 1) (acc.add (T.sigparts (sigIndex fraction i)))
    else acc

/-- Lines 129-138: the sum `acc` of the powers of two selected by `fraction`. -/
def sumFraction (T : Lookups) (fraction : Nat) : Dbl :=
  if fraction ≠ 0 then
    let p := skipZeroBytes fraction fraction 52
    sumBits T p.1 p.1 p.2 Dbl.zero
  else Dbl.zero

/-- Lines 144-147: from the two bit fields to the integer `l` of `NUM_SF+1`
digits and the decimal exponent `exp`. -/
def significand (T : Lookups) (fraction exponent : Nat) : Nat × Int :=
  let acc := sumFraction T fraction
  let y := ((Dbl.ofNat 1).add acc).mul (T.expsig exponent)
  let exp := T.exppow exponent
  let big := y.ge (Dbl.ofNat 10)
  let y1 := if big then y.div (Dbl.ofNat 10) else y
  let exp1 := if big then exp + 1 else exp
  ((y1.mul (Dbl.ofNat SIZE_SF)).toULL, exp1)

/-- Lines 152-153: `if (l%10 >= 5) l+=10; l /= 10;` on an `unsigned long long`. -/
def roundLast (l : Nat) : Nat :=
  (if l % 10 ≥ 5 then (l + 10) % 18446744073709551616 else l) / 10

/-- `while (l%10 == 0) { l /= 10; trailZero++; }` Returns `l` and `trailZero`. -/
def stripZeros : Nat → Nat → Int → Nat × Int
  | 0, l, trailZero => (l, trailZero)
  | fuel + 1, l, trailZero =>
    if l % 10 = 0 then stripZeros fuel (l / 10) (trailZero + 1) else (l, trailZero)

/-- Lines 159-162: `l` without trailing zeros, the number `sf` of significant
digits, and `exp` (one more if `sf` had dropped to 0). -/
def normalise (l : Nat) (exp : Int) : Nat × Int × Int :=
  let p := stripZeros l l 0
  let sf := NUM_SF - p.2
  if sf = 0 then (p.1, 1, exp + 1) else (p.1, sf, exp)

/-- Lines 167-174: `dr`, `dl0` and `width` of the decimal format. -/
def decimalShape (sf exp : Int) : Int × Int × Int :=
  let dr := sf - exp - 1
  if dr ≤ 0 then (0, -dr, sf + (-dr))
  else if sf > dr then (dr, 0, sf + 1)
  else (dr, 1, dr + 1 + 1)

/-- The test of line 178 that selects the decimal format. -/
def useDecimal (width sf exp : Int) : Bool :=
  width ≤ sf + (if sf > 1 then 1 else 0) + 2 + (if exp.natAbs > 99 then 3 else 2)

/-- `while (dr && sf) { *ch--='0'+l%10; l/=10; dr--; sf--; }`
The field is built from its last byte to its first, so a write through `*ch--`
puts a byte in front of `out`. Returns `l`, `dr`, `sf` and the bytes. -/
def fracDigits : Nat → Nat → Int → Int → List Char → Nat × Int × Int × List Char
  | 0, l, dr, sf, out => (l, dr, sf, out)
  | fuel + 1, l, dr, sf, out =>
    if dr ≠ 0 ∧ sf ≠ 0 then
      fracDigits fuel (l / 10) (dr - 1) (sf - 1) (toByte (48 + ((l % 10 : Nat) : Int)) :: out)
    else (l, dr, sf, out)

/-- `while (n) { *ch--='0'; n--; }`, used for `dr` and for `dl0`. -/
def zeroFill : Nat → Int → List Char → List Char
  | 0, _, out => out
  | fuel + 1, n, out => if n ≠ 0 then zeroFill fuel (n - 1) ('0' :: out) else out

/-- `while (sf) { *ch--='0'+l%10; l/=10; sf--; }` -/
def intDigits : Nat → Nat → Int → List Char → List Char
  | 0, _, _, out => out
  | fuel + 1, l, sf, out =>
    if sf ≠ 0 then intDigits fuel (l / 10) (sf - 1) (toByte (48 + ((l % 10 : Nat) : Int)) :: out)
    else out

/-- Lines 182-191: the decimal format. The cursor is moved to the last byte of
the field, the bytes are written leftwards, and `ch += width+1` puts the cursor
behind the field. -/
def writeDecimal (g : Globals) (l : Nat) (sf dr dl0 : Int) : List Char :=
  let p :=
    if dr ≠ 0 then
      let q := fracDigits dr.toNat l dr sf []
      (q.1, q.2.2.1, g.dec_sep :: zeroFill q.2.1.toNat q.2.1 q.2.2.2)
    else (l, sf, [])
  let out1 := zeroFill dl0.toNat dl0 p.2.2
  intDigits p.2.1.toNat p.1 p.2.1 out1

/-- `for (int i=sf; i>1; i--) { *ch-- = '0' + l%10; l /= 10; }`
Returns `l` and the bytes. -/
def sciDigits : Nat → Nat → Int → List Char → Nat × List Char
  | 0, l, _, out => (l, out)
  | fuel + 1, l, i, out =>
    if i > 1 then sciDigits fuel (l / 10) (i - 1) (toByte (48 + ((l % 10 : Nat) : Int)) :: out)
    else (l, out)

/-- Lines 203-212: the sign and the two or three digits of the exponent. -/
def writeExponent (exp : Int) : List Char :=
  let sign := if exp < 0 then '-' else '+'
  let e1 := if exp < 0 then -exp else exp
  if e1 < 100 then
    [sign, toByte (48 + Int.tdiv e1 10), toByte (48 + Int.tmod e1 10)]
  else
    [sign, toByte (48 + Int.tdiv e1 100), toByte (48 + Int.tmod (Int.tdiv e1 10) 10),
      toByte (48 + Int.tmod e1 10)]

/-- Lines 194-212: the scientific format `D[.DDD]e±NN`. -/
def writeScientific (g : Globals) (l : Nat) (sf exp : Int) : List Char :=
  let q := sciDigits sf.toNat l sf []
  let frac := if sf = 1 then q.2 else g.dec_sep :: q.2
  (toByte (48 + (q.1 : Int)) :: frac) ++ ['e'] ++ writeExponent exp

/-- Lines 159-213: the layout of a rounded non-zero `l`. -/
def writeDigits (g : Globals) (l : Nat) (exp : Int) : List Char :=
  let n := normalise l exp
  let sf := n.2.1
  let exp1 := n.2.2
  let s := decimalShape sf exp1
  if useDecimal s.2.2 sf exp1 then writeDecimal g n.1 sf s.1 s.2.1
  else writeScientific g n.1 sf exp1

/-- The effect of `writeNumeric(x, &ch)` on the bytes `ch` of the buffer that lie
before the cursor. When the rounded `l` is 0 the byte before the cursor is
inspected, and given up if it is `-`. -/
def writeNumeric (T : Lookups) (g : Globals) (x : Nat) (ch : List Char) : List Char :=
  if !R_FINITE x then
    if ISNAN x then ch ++ g.na_str
    else if !signOf x then ch ++ ['I', 'n', 'f']
    else ch ++ ['-', 'I', 'n', 'f']
  else if isZero x then ch ++ ['0']
  else
    let ch1 := if signOf x then ch ++ ['-'] else ch
    let p := significand T (fractionOf x) (exponentOf x)
    let l := roundLast p.1
    if l = 0 then
      (if ch1.getLast? = some '-' then ch1.dropLast else ch1) ++ ['0']
    else ch1 ++ writeDigits g l p.2

/-! ## The table and the row loops of writefile (fwrite.c lines 514-632) -/

/-- A column of the list `DF`. The constructor is its `TYPEOF`; an `INTSXP` column
carries the levels when it is a factor (`levels[j]`, `NULL` otherwise) and a
`REALSXP` column its `integer64[j]` flag. Doubles are stored as their 64 bits.
`OTHER` stands for the types writefile has no case for; it carries the
`length` of the column. -/
inductive Column where
  | LGLSXP (v : List Int)
  | INTSXP (v : List Int) (levels : Option (List SEXPstr))
  | REALSXP (v : List Nat) (integer64 : Bool)
  | STRSXP (v : List SEXPstr)
  | OTHER (len : Nat)

/-- The C library formatter `sprintf`, with the three formats writefile uses when
`turbo` is off; it is outside this file and taken as a parameter. -/
structure Libc where
  sprintf_lld : Int → List Char
  sprintf_d : Int → List Char
  sprintf_15g : Nat → List Char

/-- The arguments of writefile that the row loops read. `rowNames` is `NULL`
(`none`) unless the table has character row names. -/
structure Args where
  row_sep : List Char
  logicalAsInt : Bool
  turbo : Bool
  doRowNames : Bool
  rowNames : Option (List SEXPstr)

/-- `*(long long *)&REAL(column)[i]`: the 64 bits of a double read as a signed
integer. -/
def asInt64 (bits : Nat) : Int :=
  if bits < 9223372036854775808 then (bits : Int) else (bits : Int) - 18446744073709551616

/-- The `case LGLSXP` of the switch. -/
def writeLogical (g : Globals) (A : Args) (bool : Int) : List Char :=
  if bool = NA_INTEGER then g.na_str
  else if A.logicalAsInt then [toByte (48 + bool)]
  else if bool ≠ 0 then ['T', 'R', 'U', 'E']
  else ['F', 'A', 'L', 'S', 'E']

/-- The body of `for (int j=0; j<ncol; j++)` before `*ch++ = col_sep`: the switch
on `TYPEOF(column)` for row `i`, acting on the bytes before the cursor. All
columns have `nrow` elements (checked on entry to writefile) and `i < nrow`. -/
def writeCell (T : Lookups) (g : Globals) (L : Libc) (A : Args) (column : Column) (i : Nat)
    (ch : List Char) : List Char :=
  match column with
  | Column.LGLSXP v => ch ++ writeLogical g A (v.getD i NA_INTEGER)
  | Column.REALSXP v integer64 =>
    if integer64 then
      let i64 := asInt64 (v.getD i 0)
      if i64 = NAINT64 then ch ++ g.na_str
      else if A.turbo then ch ++ writeInteger i64
      else ch ++ L.sprintf_lld i64
    else if A.turbo then writeNumeric T g (v.getD i 0) ch
    else if ISNAN (v.getD i 0) then ch ++ g.na_str
    else ch ++ L.sprintf_15g (v.getD i 0)
  | Column.INTSXP v levels =>
    if v.getD i NA_INTEGER = NA_INTEGER then ch ++ g.na_str
    else
      match levels with
      | some lev => ch ++ writeString g (lev.getD (v.getD i NA_INTEGER - 1).toNat none)
      | none =>
        if A.turbo then ch ++ writeInteger (v.getD i NA_INTEGER)
        else ch ++ L.sprintf_d (v.getD i NA_INTEGER)
  | Column.STRSXP v => ch ++ writeString g (v.getD i none)
  | Column.OTHER _ => ch

/-- Lines 552-558: the row number between quotes (unless quote is FALSE), or the
row name written by writeString. -/
def rowNameField (g : Globals) (A : Args) (i : Nat) : List Char :=
  match A.rowNames with
  | none =>
    let q := if g.quote ≠ Rboolean.FALSE then ['"'] else []
    q ++ writeInteger ((i : Int) + 1) ++ q
  | some rn => writeString g (rn.getD i none)

/-- Lines 551-560: the row name or row number and its `col_sep`. -/
def writeRowName (g : Globals) (A : Args) (i : Nat) (ch : List Char) : List Char :=
  if A.doRowNames then ch ++ rowNameField g A i ++ [g.col_sep] else ch

/-- Lines 550-631, one pass of `for (RLEN i=start; i<end; i++)` on the general
path: the row name, every cell followed by `col_sep`, then `ch--` and the copy
of `row_sep` over the last `col_sep`. -/
def writeRow (T : Lookups) (g : Globals) (L : Libc) (A : Args) (DF : List Column) (i : Nat)
    (ch : List Char) : List Char :=
  let ch1 := writeRowName g A i ch
  let ch2 := DF.foldl (fun c column => writeCell T g L A column i c ++ [g.col_sep]) ch1
  ch2.dropLast ++ A.row_sep

/-- `REAL(column)[i]`. -/
def realAt (column : Column) (i : Nat) : Nat :=
  match column with
  | Column.REALSXP v _ => v.getD i 0
  | _ => 0

/-- `INTEGER(column)[i]`. -/
def integerAt (column : Column) (i : Nat) : Int :=
  match column with
  | Column.INTSXP v _ => v.getD i NA_INTEGER
  | Column.LGLSXP v => v.getD i NA_INTEGER
  | _ => NA_INTEGER

/-- Line 526, the cell of the all-double loop. -/
def writeCellReal (T : Lookups) (g : Globals) (column : Column) (i : Nat) (ch : List Char) :
    List Char :=
  writeNumeric T g (realAt column i) ch

/-- Lines 537-541, the cell of the all-integer loop. -/
def writeCellInt (g : Globals) (column : Column) (i : Nat) (ch : List Char) : List Char :=
  if integerAt column i = NA_INTEGER then ch ++ g.na_str
  else ch ++ writeInteger (integerAt column i)

/-- Lines 523-532, one row of the all-double loop. -/
def writeRowReal (T : Lookups) (g : Globals) (A : Args) (DF : List Column) (i : Nat)
    (ch : List Char) : List Char :=
  let ch2 := DF.foldl (fun c column => writeCellReal T g column i c ++ [g.col_sep]) ch
  ch2.dropLast ++ A.row_sep

/-- Lines 534-547, one row of the all-integer loop. -/
def writeRowInt (g : Globals) (A : Args) (DF : List Column) (i : Nat)
    (ch : List Char) : List Char :=
  let ch2 := DF.foldl (fun c column => writeCellInt g column i c ++ [g.col_sep]) ch
  ch2.dropLast ++ A.row_sep

/-- `TYPEOF(column)`, with R's numbering of the types. -/
def TYPEOF : Column → Nat
  | Column.LGLSXP _ => 10
  | Column.INTSXP _ _ => 13
  | Column.REALSXP _ _ => 14
  | Column.STRSXP _ => 16
  | Column.OTHER _ => 15

/-- `isFactor(column)`. -/
def isFactor : Column → Bool
  | Column.INTSXP _ (some _) => true
  | _ => false

/-- `isInteger64(column)`. -/
def isInteger64 : Column → Bool
  | Column.REALSXP _ true => true
  | _ => false

/-- Lines 347-363: `sameType` after the loop over the columns. -/
def sameType (DF : List Column) : Nat :=
  DF.foldl (fun st column =>
    if isFactor column then 0
    else if isInteger64 column then 0
    else if TYPEOF column ≠ st then 0 else st) (TYPEOF (DF.headD (Column.OTHER 0)))

/-- Lines 517-632: the rows `start ≤ i < end` of one batch, formatted into the
worker's buffer from its start. -/
def writeBatch (T : Lookups) (g : Globals) (L : Libc) (A : Args) (DF : List Column)
    (start stop : Nat) : List Char :=
  let rows := (List.range (stop - start)).map (fun k => start + k)
  if A.turbo ∧ sameType DF = 14 ∧ ¬ A.doRowNames then
    rows.foldl (fun c i => writeRowReal T g A DF i c) []
  else if A.turbo ∧ sameType DF = 13 ∧ ¬ A.doRowNames then
    rows.foldl (fun c i => writeRowInt g A DF i c) []
  else rows.foldl (fun c i => writeRow T g L A DF i c) []

/-! ## Reference notions for quoted fields -/

/-- The escape rule in words: a backslash goes before every `"` and every `\`. -/
def escapeBody (s : List Char) : List Char :=
  s.flatMap (fun c => if c = '"' ∨ c = '\\' then ['\\', c] else [c])

/-- The doubling rule in words: every `"` is written twice. -/
def doubleBody (s : List Char) : List Char :=
  s.flatMap (fun c => if c = '"' then ['"', '"'] else [c])

/-- Undoes backslash escaping: a backslash is dropped and the byte after it kept. -/
def unescape : List Char → List Char
  | [] => []
  | [c] => [c]
  | c :: d :: r => if c = '\\' then d :: unescape r else c :: unescape (d :: r)

/-- Undoes quote doubling: of two adjacent `"` one is kept. -/
def undouble : List Char → List Char
  | [] => []
  | [c] => [c]
  | c :: d :: r => if c = '"' ∧ d = '"' then '"' :: undouble r else c :: undouble (d :: r)

/-- Whether auto mode has to quote `s`: it holds `col_sep` or a newline. -/
def hasTrigger (g : Globals) (s : List Char) : Prop := g.col_sep ∈ s ∨ '\n' ∈ s

instance (g : Globals) (s : List Char) : Decidable (hasTrigger g s) := by
  unfold hasTrigger; infer_instance

/-- Whether a field reads as quoted: it has at least two bytes, and the first and
the last of them are `"`. -/
def looksQuoted (out : List Char) : Prop :=
  2 ≤ out.length ∧ out.head? = some '"' ∧ out.getLast? = some '"'

instance (out : List Char) : Decidable (looksQuoted out) := by
  unfold looksQuoted; infer_instance

/-- Undoes the escaping of the quote method. -/
def undoEscaping (g : Globals) (t : List Char) : List Char :=
  if g.qmethod_escape then unescape t else undouble t

/-- Reads an emitted field back from its bytes alone, "unquoted and unescaped": the
surrounding quotes are taken off when the field is quoted, and the escaping of
the quote method is undone. -/
def decodeField (g : Globals) (out : List Char) : List Char :=
  undoEscaping g (if looksQuoted out then out.tail.dropLast else out)

/-- Every `col_sep` or newline byte of `out` lies strictly between a first and a
last byte that are both `"`. -/
def sepOnlyInsideQuotes (g : Globals) (out : List Char) : Prop :=
  ∀ i, i < out.length → (out.getD i NUL = g.col_sep ∨ out.getD i NUL = '\n') →
    0 < i ∧ i + 1 < out.length ∧ out.head? = some '"' ∧ out.getLast? = some '"'

/-- The claim about auto mode as the specification words it: separators and
newlines occur only inside the quotes, and the emitted field, read back, is the
string. -/
def autoFieldClaim (g : Globals) (s : List Char) : Prop :=
  sepOnlyInsideQuotes g (writeString g (some s)) ∧
    decodeField g (writeString g (some s)) = s

/-- Whether the cell of `column` in row `i` is missing: `NA_LOGICAL`, `NA_INTEGER`
(also for a factor), `NAINT64`, a NaN, or `NA_STRING`. -/
def isMissing (column : Column) (i : Nat) : Bool :=
  match column with
  | Column.LGLSXP v => v.getD i NA_INTEGER = NA_INTEGER
  | Column.INTSXP v _ => v.getD i NA_INTEGER = NA_INTEGER
  | Column.REALSXP v true => asInt64 (v.getD i 0) = NAINT64
  | Column.REALSXP v false => ISNAN (v.getD i 0)
  | Column.STRSXP v => v.getD i none = none
  | Column.OTHER _ => false

/-- The options of the specification's scenarios: `,` between fields, `.` in
numbers, empty `na`, quote="auto", qmethod="escape". -/
def scenarioGlobals : Globals := ⟨[], ',', '.', Rboolean.NA_LOGICAL, true⟩

/-- The arguments of the specification's scenarios: rows end in a newline, no row
names, `turbo` on. -/
def scenarioArgs : Args := ⟨['\n'], false, true, false, none⟩

/-- A stand-in for `sprintf` that writes nothing; the scenarios run with `turbo`
on and never call it. -/
def noLibc : Libc := ⟨fun _ => [], fun _ => [], fun _ => []⟩

/-- What section 4.H of the specification says of the tables: `sigparts[0]` is 0,
`sigparts[i]` is `2^-i`, and every `expsig[i]` that a finite double reaches is a
mantissa between 1 and 10. -/
structure Lookups.WellFormed (T : Lookups) : Prop where
  sigparts_zero : (T.sigparts 0).val = 0
  sigparts_pow : ∀ i, 1 ≤ i → i ≤ 52 → (T.sigparts i).val = (2 : ℚ) ^ (-(i : Int))
  expsig_range : ∀ i, i < 2047 → 1 ≤ (T.expsig i).val ∧ (T.expsig i).val ≤ 10

/-! ## Reference notions for reading a number back -/

/-- Reads the digits of `text` (a run before and, after `dec_sep`, a run behind)
as a non-negative decimal fraction. -/
def readFixed (dec_sep : Char) (text : List Char) : Option ℚ :=
  let p := text.span (fun c => c ≠ dec_sep)
  match p.2 with
  | [] => (readDigits p.1).map (fun (n : Nat) => (n : ℚ))
  | _ :: frac =>
    (readDigits p.1).bind (fun (n : Nat) =>
      (readDigits frac).map (fun (k : Nat) => (n : ℚ) + (k : ℚ) / (10 : ℚ) ^ frac.length))

/-- Reads `text` as an unsigned decimal numeral with an optional exponent part
`e+NN` or `e-NN`. -/
def readUnsigned (dec_sep : Char) (text : List Char) : Option ℚ :=
  let p := text.span (fun c => c ≠ 'e')
  match p.2 with
  | [] => readFixed dec_sep p.1
  | _ :: ex =>
    (readFixed dec_sep p.1).bind (fun (v : ℚ) =>
      if ex.head? = some '-' then
        (readDigits ex.tail).map (fun (k : Nat) => v / (10 : ℚ) ^ k)
      else if ex.head? = some '+' then
        (readDigits ex.tail).map (fun (k : Nat) => v * (10 : ℚ) ^ k)
      else none)

/-- The rational number a decimal text denotes, with `dec_sep` as decimal point:
an optional `-`, digits, an optional fraction, an optional exponent. -/
def decimalValue (dec_sep : Char) (text : List Char) : Option ℚ :=
  if text.head? = some '-' then (readUnsigned dec_sep text.tail).map (fun (v : ℚ) => -v)
  else readUnsigned dec_sep text

/-- The 64 bits of the double nearest to the rational `q` (ties to even), for `q`
in the range of the normal doubles; `none` outside it. -/
def nearestDouble (q : ℚ) : Option Nat :=
  if q = 0 then some 0
  else
    let a := rnd q.num.natAbs q.den 0
    let m := if a.m = 9007199254740992 then 4503599627370496 else a.m
    let e := if a.m = 9007199254740992 then a.e + 1 else a.e
    let E := e + 1075
    if 1 ≤ E ∧ E ≤ 2046 then
      some ((if q < 0 then 9223372036854775808 else 0) + E.toNat * 4503599627370496 +
        (m - 4503599627370496))
    else none

/-- Reading a text back "as IEEE-754 double", as the round-trip property of the
specification has it: the double nearest to the number the text denotes. -/
def parseDouble (dec_sep : Char) (text : List Char) : Option Nat :=
  (decimalValue dec_sep text).bind nearestDouble

/-- The `k` low decimal digits of `l`, most significant first. -/
def lowDigits : Nat → Nat → List Char
  | 0, _ => []
  | k + 1, l => lowDigits k (l / 10) ++ [Nat.digitChar (l % 10)]

/-! ## writeString : how far it stores (fwrite.c lines 219-261) -/

/-- The number of bytes from the start of the field that `writeString(x, &ch)`
stores to. Every store is `*ch++ = ...` or a `memcpy` at the cursor, so the
bytes touched are the offsets below this number; in auto mode the optimistic
copy runs first and, after the rewind, the quoted field is written over it. -/
def writeStringReach (g : Globals) (x : SEXPstr) : Nat :=
  match x with
  | none => g.na_str.length
  | some s =>
    match g.quote with
    | Rboolean.NA_LOGICAL =>
      let r := scanCopy g.col_sep s
      if deref r.2 = NUL then r.1.length else max r.1.length (writeQuoted g s).length
    | Rboolean.FALSE => s.length
    | Rboolean.TRUE => (writeQuoted g s).length

/-- Whether writeString puts the field between quotes: quote is TRUE, or it is
"auto" and the scan stopped before the terminator. -/
def isQuoted (g : Globals) (s : List Char) : Bool :=
  match g.quote with
  | Rboolean.NA_LOGICAL => decide (deref (scanCopy g.col_sep s).2 ≠ NUL)
  | Rboolean.FALSE => false
  | Rboolean.TRUE => true

/-- Whether the quoted writer puts a byte before `c`: a backslash before `"` and
`\` under qmethod "escape", a second `"` before `"` under qmethod "double". -/
def needsEscape (g : Globals) (c : Char) : Bool :=
  if g.qmethod_escape then decide (c = '"' ∨ c = '\\') else decide (c = '"')

/-! ## writefile : entry checks, line length estimate and header (lines 291-466) -/

/-- `length(VECTOR_ELT(DF, j))`. -/
def Column.length : Column → Nat
  | Column.LGLSXP v => v.length
  | Column.INTSXP v _ => v.length
  | Column.REALSXP v _ => v.length
  | Column.STRSXP v => v.length
  | Column.OTHER len => len

/-- `LENGTH(STRING_ELT(x, i))`: the number of bytes of the string; `NA_STRING` is
the CHARSXP holding `NA`, of length 2. -/
def LENGTH (x : SEXPstr) : Int :=
  match x with
  | none => 2
  | some s => s.length

/-- What writefile gets from outside fwrite.c: `(int)log10(nrow)` of the C
library, the bytes `Rprintf(buffer)` puts on the console, and how the calls
of open, malloc, write and close turn out. A write that does not return -1
is taken to have written the whole buffer; `writeErr k` is the `errno` of the
write of batch `k` when it returns -1. -/
structure Sys where
  log10 : Nat → Int
  Rprintf : List Char → List Char
  openOK : Bool
  mallocNames : Bool
  mallocBuffer : Bool
  writeNamesErr : Option Int
  writeErr : Nat → Option Int
  closeOK : Bool

/-- The arguments of one call of writefile: the list `DF`, its names attribute
(`none` for `NULL`), whether `filename` is empty, the arguments the row loops
read, `col_names` and `buffMB`. -/
structure Call where
  DF : List Column
  names : Option (List SEXPstr)
  toStdout : Bool
  args : Args
  col_names : Bool
  buffMB : Int

/-- The calls of `error` in writefile, and the division by a zero `rowsPerBatch`
at line 483, which stops the process. Columns are counted from 0. -/
inductive FwriteError where
  | emptyList
  | columnLength (i : Nat)
  | openFailed
  | columnType (j : Nat)
  | namesLength
  | namesAlloc
  | writeFailed (errno : Int)
  | closeFailed
  | buffMB
  | zeroDivide
  | outOfMemory
  deriving DecidableEq

/-- How a call of writefile ends: the error raised, if any, and the bytes that
were handed to the file or the console up to then. -/
structure Outcome where
  error : Option FwriteError
  sink : List Char
  deriving DecidableEq

/-- Line 294: `length(VECTOR_ELT(DF, 0))`, the number of rows. -/
def nrowOf (DF : List Column) : Nat := (DF.headD (Column.OTHER 0)).length

/-- Lines 295-298: the first column after column 0 whose length is not `nrow`. -/
def checkLengths (nrow : Nat) : List Column → Nat → Option Nat
  | [], _ => none
  | column :: rest, i =>
    if nrow ≠ column.length then some i else checkLengths nrow rest (i + 1)

/-- Lines 382-387: the length the estimate gives the row name of row `i`. -/
def estimateRowName (g : Globals) (S : Sys) (A : Args) (nrow i : Nat) : Int :=
  if A.doRowNames then
    let l1 : Int :=
      match A.rowNames with
      | some rn => LENGTH (rn.getD i none)
      | none => 1 + S.log10 nrow
    let l2 : Int := if g.quote = Rboolean.TRUE then l1 + 2 else l1
    l2 + 1
  else 0

/-- Lines 392-414: the switch of the estimate for one column of row `i`, acting on
`thisLineLen`. The numbers are written to the scratch array `tmp` from its
start. `none` is the `default:` case, which raises the column type error. -/
def estimateCell (T : Lookups) (g : Globals) (A : Args) (column : Column) (i : Nat)
    (thisLineLen : Int) : Option Int :=
  match column with
  | Column.LGLSXP _ => some (if A.logicalAsInt then 1 else 5)
  | Column.INTSXP v levels =>
    let i32 := v.getD i NA_INTEGER
    if i32 = NA_INTEGER then some (thisLineLen + g.na_str.length)
    else
      match levels with
      | some lev => some (thisLineLen + LENGTH (lev.getD (i32 - 1).toNat none))
      | none => some (thisLineLen + (writeInteger i32).length)
  | Column.REALSXP v integer64 =>
    if integer64 then
      let i64 := asInt64 (v.getD i 0)
      if i64 = NAINT64 then some (thisLineLen + g.na_str.length)
      else some (thisLineLen + (writeInteger i64).length)
    else some (thisLineLen + (writeNumeric T g (v.getD i 0) []).length)
  | Column.STRSXP v => some (thisLineLen + LENGTH (v.getD i none))
  | Column.OTHER _ => none

/-- Lines 388-416: `for (int j=0; j<ncol; j++)` of the estimate from column `j` on;
`error j` is the column type error for column `j`. -/
def estimateCells (T : Lookups) (g : Globals) (A : Args) (i : Nat) :
    List Column → Nat → Int → Except Nat Int
  | [], _, thisLineLen => Except.ok thisLineLen
  | column :: rest, j, thisLineLen =>
    match estimateCell T g A column i thisLineLen with
    | none => Except.error j
    | some len => estimateCells T g A i rest (j + 1) (len + 1)

/-- Lines 378-379: the rows the two sampling loops visit, in order, from `start`
on; each pass of the outer loop moves `start` by `step`. -/
def sampleLoop (nrow step : Nat) : Nat → Nat → List Nat
  | 0, _ => []
  | fuel + 1, start =>
    if start < nrow then
      let stop := if nrow - start < 100 then nrow else start + 100
      (List.range (stop - start)).map (fun k => start + k) ++
        sampleLoop nrow step fuel (start + step)
    else []

/-- Lines 377-380: the rows the estimate looks at. The step is at least 100, so
`nrow` passes suffice. -/
def sampleRows (nrow : Nat) : List Nat :=
  sampleLoop nrow (if nrow < 1000 then 100 else nrow / 10) nrow 0

/-- Lines 380-419 over the sampled rows: `maxLineLen` after them, or the column
type error. -/
def estimateLoop (T : Lookups) (g : Globals) (S : Sys) (A : Args) (DF : List Column)
    (nrow : Nat) : List Nat → Int → Except Nat Int
  | [], maxLineLen => Except.ok maxLineLen
  | i :: rest, maxLineLen =>
    match estimateCells T g A i DF 0 (estimateRowName g S A nrow i) with
    | Except.error j => Except.error j
    | Except.ok len =>
      let thisLineLen := len + A.row_sep.length
      estimateLoop T g S A DF nrow rest
        (if thisLineLen > maxLineLen then thisLineLen else maxLineLen)

/-- Lines 376-420: `maxLineLen`, or the column type error. -/
def estimateMaxLineLen (T : Lookups) (g : Globals) (S : Sys) (A : Args) (DF : List Column)
    (nrow : Nat) : Except Nat Int :=
  estimateLoop T g S A DF nrow (sampleRows nrow) 0

/-- Lines 439-450: the line of column names built in `buffer`. -/
def writeColNames (g : Globals) (A : Args) (names : List SEXPstr) : List Char :=
  let ch0 :=
    if A.doRowNames then
      (if g.quote ≠ Rboolean.FALSE then ['"', '"'] else []) ++ [g.col_sep]
    else []
  let ch1 := names.foldl (fun c name => c ++ writeString g name ++ [g.col_sep]) ch0
  ch1.dropLast ++ A.row_sep

/-- Lines 428-460: the column names are written, unless `col_names` is off or
there is no names attribute. -/
def headerStep (g : Globals) (S : Sys) (A : Args) (C : Call) : Outcome :=
  if C.col_names then
    match C.names with
    | none => ⟨none, []⟩
    | some names =>
      if names.length ≠ C.DF.length then ⟨some FwriteError.namesLength, []⟩
      else if ¬ S.mallocNames then ⟨some FwriteError.namesAlloc, []⟩
      else if C.toStdout then ⟨none, S.Rprintf (writeColNames g A names)⟩
      else
        match S.writeNamesErr with
        | some errno => ⟨some (FwriteError.writeFailed errno), []⟩
        | none => ⟨none, writeColNames g A names⟩
  else ⟨none, []⟩

/-! ## writefile : batches, the ordered writes and the end (lines 476-709) -/

/-- An `int` result kept to 32 bits, two's complement. -/
def wrap32 (x : Int) : Int := (x + 2147483648) % 4294967296 - 2147483648

/-- The largest `int`. -/
def INT_MAX : Int := 2147483647

/-- Conversion of a double to `int`: the integer part. -/
def Dbl.toInt (a : Dbl) : Int := wrap32 (a.toULL : Int)

/-- The double literal `0.9`: the double nearest to nine tenths. -/
def point9 : Dbl := rnd 9 10 0

/-- Line 478: `1024*1024*buffMB`. -/
def buffSizeOf (buffMB : Int) : Int := 1024 * 1024 * buffMB

/-- Lines 479-482: `rowsPerBatch`. The product `10*maxLineLen` is an `int`; the
other arm is computed in doubles and converted to `int`. -/
def rowsPerBatchOf (maxLineLen buffSize nrow : Int) : Int :=
  let r : Int :=
    if wrap32 (10 * maxLineLen) > buffSize then 1
    else ((point9.mul (Dbl.ofNat buffSize.toNat)).div (Dbl.ofNat maxLineLen.toNat)).toInt
  if r > nrow then nrow else r

/-- Line 483: `(nrow-1)/rowsPerBatch + 1`. -/
def numBatches (nrow rowsPerBatch : Int) : Int := (nrow - 1) / rowsPerBatch + 1

/-- Line 484: the number of threads asked of OpenMP. -/
def clampThreads (nth numBatches : Int) : Int := if numBatches < nth then numBatches else nth

/-- Line 517: `end` of the batch that begins at `start`. -/
def batchEnd (nrow rowsPerBatch start : Nat) : Nat :=
  if nrow - start < rowsPerBatch then nrow else start + rowsPerBatch

/-- Line 515: the values `start` takes in
`for(start=0; start<nrow; start+=rowsPerBatch)`, from `start` on. With
`rowsPerBatch >= 1` the loop ends within `nrow` passes. -/
def batchStarts (nrow rowsPerBatch : Nat) : Nat → Nat → List Nat
  | 0, _ => []
  | fuel + 1, start =>
    if start < nrow then start :: batchStarts nrow rowsPerBatch fuel (start + rowsPerBatch)
    else []

/-- The row ranges `[start, end)` of the batch loop, in the order of the loop. -/
def batches (nrow rowsPerBatch : Nat) : List (Nat × Nat) :=
  (batchStarts nrow rowsPerBatch nrow 0).map (fun start => (start, batchEnd nrow rowsPerBatch start))

/-- The variables shared by the workers (line 492) and the bytes handed to the
file or console so far. -/
structure SinkState where
  failed : Bool
  failed_reason : Int
  sink : List Char
  deriving DecidableEq

/-- Line 501: a worker whose malloc returned `NULL` sets the latch. -/
def allocFailed (s : SinkState) : SinkState :=
  { s with failed := true, failed_reason := -1 }

/-- Lines 633-682: the ordered region of batch `k` with the worker's `buffer`. -/
def orderedWrite (S : Sys) (toStdout : Bool) (k : Nat) (buffer : List Char) (s : SinkState) :
    SinkState :=
  if ! s.failed then
    if toStdout then { s with sink := s.sink ++ S.Rprintf buffer }
    else
      match S.writeErr k with
      | some errno => { s with failed := true, failed_reason := errno }
      | none => { s with sink := s.sink ++ buffer }
  else s

/-- Lines 515-683: one pass of the batch loop, for the batch that begins at
`start`: nothing when the latch is set, else the rows are formatted into the
worker's buffer and the ordered region runs. -/
def batchStep (T : Lookups) (g : Globals) (L : Libc) (S : Sys) (A : Args) (DF : List Column)
    (toStdout : Bool) (nrow rowsPerBatch : Nat) (s : SinkState) (start : Nat) : SinkState :=
  if s.failed then s
  else
    orderedWrite S toStdout (start / rowsPerBatch)
      (writeBatch T g L A DF start (batchEnd nrow rowsPerBatch start)) s

/-- What can happen to the shared variables during the parallel region: a worker
fails to get its buffer, or a worker runs one pass of the batch loop. -/
inductive Event where
  | alloc
  | batch (start : Nat)

/-- The step of the shared variables under one event. -/
def step (T : Lookups) (g : Globals) (L : Libc) (S : Sys) (A : Args) (DF : List Column)
    (toStdout : Bool) (nrow rowsPerBatch : Nat) (s : SinkState) (ev : Event) : SinkState :=
  match ev with
  | Event.alloc => allocFailed s
  | Event.batch start => batchStep T g L S A DF toStdout nrow rowsPerBatch s start

/-- Lines 494-687 with one worker: its malloc, then the batches in the order of
the loop. -/
def parallelRegion (T : Lookups) (g : Globals) (L : Libc) (S : Sys) (A : Args)
    (DF : List Column) (toStdout : Bool) (nrow rowsPerBatch : Nat) (s : SinkState) : SinkState :=
  let s1 := if S.mallocBuffer then s else allocFailed s
  (batchStarts nrow rowsPerBatch nrow 0).foldl
    (batchStep T g L S A DF toStdout nrow rowsPerBatch) s1

/-- Lines 476-708: the part of writefile after the `nrow == 0` return, started
with the bytes of the header in the sink. -/
def writeRows (T : Lookups) (g : Globals) (L : Libc) (S : Sys) (A : Args) (C : Call)
    (nrow : Nat) (maxLineLen : Int) (header : List Char) : Outcome :=
  if C.buffMB < 1 ∨ C.buffMB > 1024 then ⟨some FwriteError.buffMB, header⟩
  else
    let rowsPerBatch := rowsPerBatchOf maxLineLen (buffSizeOf C.buffMB) nrow
    if rowsPerBatch = 0 then ⟨some FwriteError.zeroDivide, header⟩
    else
      let s :=
        parallelRegion T g L S A C.DF C.toStdout nrow rowsPerBatch.toNat ⟨false, 0, header⟩
      if ¬ C.toStdout ∧ ¬ S.closeOK ∧ ¬ s.failed then ⟨some FwriteError.closeFailed, s.sink⟩
      else if s.failed then
        if s.failed_reason = -1 then ⟨some FwriteError.outOfMemory, s.sink⟩
        else ⟨some (FwriteError.writeFailed s.failed_reason), s.sink⟩
      else ⟨none, s.sink⟩

/-- The function writefile (lines 273-709) with one worker: the error it raises,
if any, and the bytes handed to the file or console. `DF` is a list by its
type, so the test of line 291 has no counterpart. -/
def writefile (T : Lookups) (g : Globals) (L : Libc) (S : Sys) (C : Call) : Outcome :=
  if C.DF.length = 0 then ⟨some FwriteError.emptyList, []⟩
  else
    let nrow := nrowOf C.DF
    match checkLengths nrow C.DF.tail 1 with
    | some i => ⟨some (FwriteError.columnLength i), []⟩
    | none =>
      if ¬ C.toStdout ∧ ¬ S.openOK then ⟨some FwriteError.openFailed, []⟩
      else
        let A : Args := if C.toStdout then { C.args with row_sep := ['\n'] } else C.args
        match estimateMaxLineLen T g S A C.DF nrow with
        | Except.error j => ⟨some (FwriteError.columnType j), []⟩
        | Except.ok maxLineLen =>
          let h := headerStep g S A C
          if h.error.isSome then h
          else if nrow = 0 then
            if ¬ C.toStdout ∧ ¬ S.closeOK then ⟨some FwriteError.closeFailed, h.sink⟩
            else ⟨none, h.sink⟩
          else writeRows T g L S A C nrow maxLineLen h.sink

/-- A run in which every call outside fwrite.c succeeds; `log10` and `Rprintf` are
stand-ins that the scenarios, written to a file without row names, never
call. -/
def scenarioSys : Sys := ⟨fun _ => 0, fun b => b, true, true, true, none, fun _ => none, true⟩

/-! ## Stages of writeNumeric and of the estimate, named for the statements -/

/-- Lines 167-213: the layout of `l`, which has `sf` digits, with the decimal
exponent `exp`: the shape of the decimal format, the test of line 178, and
one of the two formats. -/
def writeLayout (g : Globals) (l : Nat) (sf exp : Int) : List Char :=
  let s := decimalShape sf exp
  if useDecimal s.2.2 sf exp then writeDecimal g l sf s.1 s.2.1
  else writeScientific g l sf exp

/-- Lines 378-379: the row ranges `[start, end)` of the sampling loops from `start`
on, in the order of the outer loop. -/
def sampleRangeLoop (nrow step : Nat) : Nat → Nat → List (Nat × Nat)
  | 0, _ => []
  | fuel + 1, start =>
    if start < nrow then
      (start, if nrow - start < 100 then nrow else start + 100) ::
        sampleRangeLoop nrow step fuel (start + step)
    else []

/-- Line 377: `step`. -/
def sampleStep (nrow : Nat) : Nat := if nrow < 1000 then 100 else nrow / 10

/-- Lines 377-379: the row ranges the estimate looks at. -/
def sampleRanges (nrow : Nat) : List (Nat × Nat) :=
  sampleRangeLoop nrow (sampleStep nrow) nrow 0

/-- Lines 381-417: `thisLineLen` of row `i` when it is compared with `maxLineLen`,
or the column type error. -/
def estimateRow (T : Lookups) (g : Globals) (S : Sys) (A : Args) (DF : List Column)
    (nrow i : Nat) : Except Nat Int :=
  match estimateCells T g A i DF 0 (estimateRowName g S A nrow i) with
  | Except.error j => Except.error j
  | Except.ok len => Except.ok (len + A.row_sep.length)

/-- A run of decimal digit bytes. -/
def IsDigits (a : List Char) : Prop := ∀ c ∈ a, ∃ d, d < 10 ∧ c = Nat.digitChar d

/-- The string the switch hands to writeString for row `i` of a column:
`STRING_ELT(column, i)` of a character column, `STRING_ELT(levels[j], i32-1)` of a
factor cell that is not NA; `none` for every other cell. -/
def stringAt (column : Column) (i : Nat) : Option SEXPstr :=
  match column with
  | Column.STRSXP v => some (v.getD i none)
  | Column.INTSXP v (some lev) =>
    if v.getD i NA_INTEGER = NA_INTEGER then none
    else some (lev.getD (v.getD i NA_INTEGER - 1).toNat none)
  | _ => none

/-- A string field whose text is written as it is: a string that writeString does
not put between quotes, or `NA_STRING` when the text for missing values has at
most the two bytes of `NA`. -/
def plainField (g : Globals) (x : SEXPstr) : Prop :=
  match x with
  | none => g.na_str.length ≤ 2
  | some s => isQuoted g s = false

/-- What the switch of the estimate adds to `thisLineLen` for one column of row
`i`, read off a run that starts from 0. -/
def cellEstimate (T : Lookups) (g : Globals) (A : Args) (column : Column) (i : Nat) : Int :=
  (estimateCell T g A column i 0).getD 0

/-- The estimate of row `i` in words: the row name or row number, for every column
the estimate of its cell and one separator, and the row terminator. -/
def sumLineLen (T : Lookups) (g : Globals) (S : Sys) (A : Args) (DF : List Column)
    (nrow i : Nat) : Int :=
  estimateRowName g S A nrow i + (DF.map (fun column => cellEstimate T g A column i + 1)).sum +
    A.row_sep.length

/-- The largest estimate in words: the largest of 0 and the estimates of the rows
looked at. -/
def maxSumLineLen (T : Lookups) (g : Globals) (S : Sys) (A : Args) (DF : List Column)
    (nrow : Nat) : Int :=
  (sampleRows nrow).foldl (fun m i => max m (sumLineLen T g S A DF nrow i)) 0

/-- What section 4.H of the specification and the generator (lines 71-84) say of the
precision of the tables: `expsig[i]` is the double literal read from the mantissa
of `2^(i-1023)` printed with 40 decimals and `exppow[i]` its decimal exponent, so
`expsig[i]` is the quotient of `2^(i-1023)` by `10^exppow[i]` up to half a unit in
the last place of a double and one unit of the 40th decimal. -/
def Lookups.Accurate (T : Lookups) : Prop :=
  ∀ i, 1 ≤ i → i ≤ 2046 →
    |(T.expsig i).val - (2 : ℚ) ^ ((i : Int) - 1023) / (10 : ℚ) ^ (T.exppow i)| ≤
      (T.expsig i).val / 9007199254740992 + 1 / 10 ^ 40

end Fwrite

namespace Fwrite

/-! ## writeInteger : the digit loop and the in-place reversal -/

theorem toByte_digit (d : Nat) (h : d < 10) : toByte (48 + (d : Int)) = Nat.digitChar d := by
  interval_cases d <;> decide

theorem digitsLoop_eq (n : Nat) : ∀ fuel, n ≤ fuel →
    digitsLoop fuel (n : Int) = (Nat.digits 10 n).map Nat.digitChar := by
  induction n using Nat.strong_induction_on with
  | _ n ih =>
    intro fuel hf
    rcases Nat.eq_zero_or_pos n with h0 | hpos
    · subst h0
      cases fuel <;> simp [digitsLoop]
    · obtain ⟨f, rfl⟩ : ∃ f, fuel = f + 1 := ⟨fuel - 1, by omega⟩
      have hx : (n : Int) > 0 := by exact_mod_cast hpos
      rw [digitsLoop, if_pos hx, Nat.digits_def' (by norm_num) hpos]
      have h1 : Int.tmod (n : Int) 10 = ((n % 10 : Nat) : Int) := by
        rw [Int.ofNat_tmod]; rfl
      have h2 : Int.tdiv (n : Int) 10 = ((n / 10 : Nat) : Int) := by
        rw [Int.ofNat_tdiv]; rfl
      rw [h1, h2, toByte_digit _ (Nat.mod_lt _ (by norm_num)),
        ih (n / 10) (Nat.div_lt_self hpos (by norm_num)) f (by omega)]
      simp

theorem swapStep_length (w i : Nat) (buf : List Char) :
    (swapStep w i buf).length = buf.length := by
  simp [swapStep]

theorem reverseLoop_length (w : Nat) : ∀ (k : Nat) (buf : List Char),
    (reverseLoop w k buf).length = buf.length := by
  intro k
  induction k with
  | zero => intro buf; rfl
  | succ k ih => intro buf; rw [reverseLoop, ih, swapStep_length]

theorem swapStep_getElem? (w i : Nat) (buf : List Char) (hw : buf.length = w)
    (hi : 1 ≤ i) (hi2 : i ≤ w) (j : Nat) :
    (swapStep w i buf)[j]? =
      if j = i - 1 then buf[w - i]? else if j = w - i then buf[i - 1]? else buf[j]? := by
  have ha : w - i < buf.length := by omega
  have hb : i - 1 < buf.length := by omega
  simp only [swapStep, List.getElem?_set, List.getD_eq_getElem?_getD, List.length_set]
  by_cases h1 : j = i - 1
  · subst h1
    simp [ha, hb, List.getElem?_eq_getElem]
  · by_cases h2 : j = w - i
    · subst h2
      have h3 : ¬ (i - 1 = w - i) := fun h => h1 h.symm
      simp [h1, h3, ha, hb, List.getElem?_eq_getElem]
    · have h3 : ¬ (i - 1 = j) := fun h => h1 h.symm
      have h4 : ¬ (w - i = j) := fun h => h2 h.symm
      simp [h1, h2, h3, h4]

theorem reverseLoop_getElem? (w : Nat) : ∀ (k : Nat) (buf : List Char), buf.length = w →
    2 * k ≤ w → ∀ j, j < w →
    (reverseLoop w k buf)[j]? = if j < k ∨ w - k ≤ j then buf[w - 1 - j]? else buf[j]? := by
  intro k
  induction k with
  | zero =>
    intro buf hw _ j hj
    have : ¬ (w ≤ j) := by omega
    simp [reverseLoop, this]
  | succ k ih =>
    intro buf hw hk j hj
    rw [reverseLoop, ih _ (by rw [swapStep_length]; exact hw) (by omega) j hj]
    rw [swapStep_getElem? w (k + 1) buf hw (by omega) (by omega),
      swapStep_getElem? w (k + 1) buf hw (by omega) (by omega)]
    by_cases c1 : j < k ∨ w - k ≤ j
    · have c2 : j < k + 1 ∨ w - (k + 1) ≤ j := by omega
      have c3 : ¬ (w - 1 - j = k + 1 - 1) := by omega
      have c4 : ¬ (w - 1 - j = w - (k + 1)) := by omega
      simp only [c1, c2, c3, c4, if_true, if_false]
    · rw [if_neg c1]
      by_cases c5 : j = k + 1 - 1
      · have c6 : j < k + 1 ∨ w - (k + 1) ≤ j := by omega
        have c7 : w - (k + 1) = w - 1 - j := by omega
        simp only [c5, c6, if_true]
        rw [if_pos (by omega)]
        congr 1
        omega
      · by_cases c8 : j = w - (k + 1)
        · have c6 : j < k + 1 ∨ w - (k + 1) ≤ j := by omega
          rw [if_neg c5, if_pos c8, if_pos c6]
          congr 1
          omega
        · have c6 : ¬ (j < k + 1 ∨ w - (k + 1) ≤ j) := by omega
          rw [if_neg c5, if_neg c8, if_neg c6]

/-- The two-pointer swap loop of `writeInteger` reverses the digits it is given. -/
theorem reverseLoop_eq_reverse (buf : List Char) :
    reverseLoop buf.length (buf.length / 2) buf = buf.reverse := by
  apply List.ext_getElem?
  intro j
  by_cases hj : j < buf.length
  · rw [reverseLoop_getElem? buf.length (buf.length / 2) buf rfl (by omega) j hj,
      List.getElem?_reverse hj]
    by_cases c : j < buf.length / 2 ∨ buf.length - buf.length / 2 ≤ j
    · rw [if_pos c]
    · rw [if_neg c]
      congr 1
      omega
  · rw [List.getElem?_eq_none (by rw [reverseLoop_length]; omega),
      List.getElem?_eq_none (by rw [List.length_reverse]; omega)]

/-- For a positive `long long` the bytes written are the decimal digits, most
significant first. -/
theorem writeInteger_pos (n : Nat) (hn : 0 < n) :
    writeInteger (n : Int) = ((Nat.digits 10 n).reverse.map Nat.digitChar) := by
  have h0 : ¬ ((n : Int) = 0) := by omega
  have h1 : ¬ ((n : Int) < 0) := by omega
  simp only [writeInteger, if_neg h0, if_neg h1, Int.toNat_ofNat, List.nil_append]
  rw [digitsLoop_eq n n le_rfl, reverseLoop_eq_reverse, List.map_reverse]

theorem wrap64_neg (x : Int) (h1 : NAINT64 < x) (h2 : x < 0) : wrap64 (-x) = -x := by
  unfold wrap64
  unfold NAINT64 at h1
  omega

theorem writeInteger_neg (x : Int) (h1 : NAINT64 < x) (h2 : x < 0) :
    writeInteger x = '-' :: ((Nat.digits 10 x.natAbs).reverse.map Nat.digitChar) := by
  have h0 : ¬ (x = 0) := by omega
  have hx : -x = ((x.natAbs : Nat) : Int) := by omega
  simp only [writeInteger, if_neg h0, if_pos h2, wrap64_neg x h1 h2]
  rw [hx, Int.toNat_ofNat, digitsLoop_eq _ _ le_rfl, reverseLoop_eq_reverse, List.map_reverse]
  rfl

theorem writeInteger_eq_decimalText (x : Int) (h1 : NAINT64 < x) :
    writeInteger x = decimalText x := by
  rcases lt_trichotomy x 0 with h | h | h
  · rw [writeInteger_neg x h1 h]
    simp [decimalText, h, h.ne]
  · subst h
    rfl
  · obtain ⟨n, rfl⟩ : ∃ n : Nat, x = (n : Int) := ⟨x.toNat, by omega⟩
    have hn : 0 < n := by omega
    rw [writeInteger_pos n hn]
    have h3 : ¬ ((n : Int) = 0) := by omega
    have h4 : ¬ ((n : Int) < 0) := by omega
    simp [decimalText, h3, h4]

theorem digitVal_digitChar (d : Nat) (h : d < 10) : digitVal (Nat.digitChar d) = some d := by
  interval_cases d <;> decide

theorem digitChar_not_sign (d : Nat) (h : d < 10) :
    Nat.digitChar d ≠ '+' ∧ Nat.digitChar d ≠ '-' := by
  interval_cases d <;> decide

theorem readDigitsFrom_map (L : List Nat) : ∀ acc, (∀ d ∈ L, d < 10) →
    readDigitsFrom acc (L.map Nat.digitChar) = some (L.foldl (fun a d => a * 10 + d) acc) := by
  induction L with
  | nil => intro acc _; rfl
  | cons d L ih =>
    intro acc h
    simp only [List.map_cons, readDigitsFrom, List.foldl_cons]
    rw [digitVal_digitChar d (h d (List.mem_cons_self _ _))]
    exact ih _ (fun e he => h e (List.mem_cons_of_mem _ he))

theorem foldl_digits_reverse (n : Nat) :
    (Nat.digits 10 n).reverse.foldl (fun a d => a * 10 + d) 0 = n := by
  rw [List.foldl_reverse]
  have h := Nat.ofDigits_digits 10 n
  rw [Nat.ofDigits_eq_foldr] at h
  have hf : (fun (x y : Nat) => y * 10 + x) = (fun (x y : Nat) => ((x : Nat) : Nat) + 10 * y) := by
    funext x y
    show y * 10 + x = x + 10 * y
    omega
  rw [hf]
  simpa using h

/-- Reading back the digits of a positive number gives the number. -/
theorem readDigits_digits (n : Nat) (hn : 0 < n) :
    readDigits ((Nat.digits 10 n).reverse.map Nat.digitChar) = some n := by
  have hne : (Nat.digits 10 n).reverse.map Nat.digitChar ≠ [] := by
    simp [Nat.digits_ne_nil_iff_ne_zero, hn.ne']
  rw [readDigits, if_neg hne, readDigitsFrom_map _ 0, foldl_digits_reverse]
  intro d hd
  exact Nat.digits_lt_base (by norm_num) (List.mem_reverse.mp hd)

theorem parseInt64_neg_digits (n : Nat) (hn : 0 < n) (h1 : NAINT64 ≤ -(n : Int)) :
    parseInt64 ('-' :: ((Nat.digits 10 n).reverse.map Nat.digitChar)) = some (-(n : Int)) := by
  have h2 : -(n : Int) ≤ INT64_MAX := by
    unfold INT64_MAX
    omega
  unfold parseInt64
  rw [List.head?_cons, if_pos rfl, List.tail_cons, readDigits_digits _ hn]
  show (if NAINT64 ≤ -(n : Int) ∧ -(n : Int) ≤ INT64_MAX then some (-(n : Int)) else none) = _
  rw [if_pos ⟨h1, h2⟩]

theorem parseInt64_pos_digits (n : Nat) (hn : 0 < n) (h2 : (n : Int) ≤ INT64_MAX) :
    parseInt64 ((Nat.digits 10 n).reverse.map Nat.digitChar) = some (n : Int) := by
  have h1 : NAINT64 ≤ (n : Int) := by
    unfold NAINT64
    omega
  have hne : ((Nat.digits 10 n).reverse.map Nat.digitChar).head? ≠ some '-' := by
    intro hh
    have hm : '-' ∈ (Nat.digits 10 n).reverse.map Nat.digitChar := List.mem_of_mem_head? hh
    obtain ⟨d, hd1, hd2⟩ := List.mem_map.mp hm
    exact (digitChar_not_sign d
      (Nat.digits_lt_base (by norm_num) (List.mem_reverse.mp hd1))).2 hd2
  unfold parseInt64
  rw [if_neg hne, readDigits_digits _ hn]
  show (if NAINT64 ≤ (n : Int) ∧ (n : Int) ≤ INT64_MAX then some (n : Int) else none) = _
  rw [if_pos ⟨h1, h2⟩]

theorem decimalText_neg (x : Int) (h : x < 0) :
    decimalText x = '-' :: ((Nat.digits 10 x.natAbs).reverse.map Nat.digitChar) := by
  simp [decimalText, h, h.ne]

theorem decimalText_pos (x : Int) (h : 0 < x) :
    decimalText x = ((Nat.digits 10 x.natAbs).reverse.map Nat.digitChar) := by
  have h3 : ¬ (x = 0) := by omega
  have h4 : ¬ (x < 0) := by omega
  simp [decimalText, h3, h4]

theorem parseInt64_decimalText (x : Int) (h1 : NAINT64 ≤ x) (h2 : x ≤ INT64_MAX) :
    parseInt64 (decimalText x) = some x := by
  rcases lt_trichotomy x 0 with h | h | h
  · have hn : 0 < x.natAbs := by omega
    have hx : -((x.natAbs : Nat) : Int) = x := by omega
    rw [decimalText_neg x h]
    have := parseInt64_neg_digits x.natAbs hn (by rw [hx]; exact h1)
    rw [this, hx]
  · subst h
    have hd : decimalText 0 = ['0'] := rfl
    rw [hd]
    decide
  · have hn : 0 < x.natAbs := by omega
    have hx : ((x.natAbs : Nat) : Int) = x := by omega
    rw [decimalText_pos x h]
    have := parseInt64_pos_digits x.natAbs hn (by rw [hx]; exact h2)
    rw [this, hx]

/-- The digit list of a nonzero integer, most significant first, as `writeInteger`
lays it out after the sign. -/
theorem writeInteger_shape (x : Int) (h1 : NAINT64 < x) (h0 : x ≠ 0) :
    ∃ ds : List Nat, ds ≠ [] ∧ (∀ d ∈ ds, d < 10) ∧ ds.head? ≠ some 0 ∧
      writeInteger x = (if x < 0 then ['-'] else []) ++ ds.map Nat.digitChar := by
  have hn : x.natAbs ≠ 0 := by omega
  refine ⟨(Nat.digits 10 x.natAbs).reverse, ?_, ?_, ?_, ?_⟩
  · simpa [Nat.digits_ne_nil_iff_ne_zero] using hn
  · intro d hd
    exact Nat.digits_lt_base (by norm_num) (List.mem_reverse.mp hd)
  · have hnil : Nat.digits 10 x.natAbs ≠ [] := Nat.digits_ne_nil_iff_ne_zero.mpr hn
    have hl := Nat.getLast_digit_ne_zero 10 hn
    rw [List.head?_reverse, List.getLast?_eq_getLast _ hnil]
    intro hc
    exact hl (Option.some.inj hc)
  · rw [writeInteger_eq_decimalText x h1]
    simp [decimalText, h0]


/-! ## writeString : scanning, escaping and reading back -/

theorem NUL_ne_newline : NUL ≠ '\n' := by decide

theorem scanCopy_no_trigger (sep : Char) : ∀ s : List Char, NUL ∉ s → sep ∉ s → '\n' ∉ s →
    scanCopy sep s = (s, []) := by
  intro s
  induction s with
  | nil => intro _ _ _; rfl
  | cons c t ih =>
    intro h0 h1 h2
    simp only [List.mem_cons, not_or] at h0 h1 h2
    have hc : c ≠ NUL ∧ c ≠ sep ∧ c ≠ '\n' :=
      ⟨fun h => h0.1 h.symm, fun h => h1.1 h.symm, fun h => h2.1 h.symm⟩
    rw [scanCopy, if_pos hc, ih h0.2 h1.2 h2.2]

theorem scanCopy_trigger (sep : Char) : ∀ s : List Char, NUL ∉ s → (sep ∈ s ∨ '\n' ∈ s) →
    deref (scanCopy sep s).2 ≠ NUL := by
  intro s
  induction s with
  | nil => intro _ h; simp at h
  | cons c t ih =>
    intro h0 h
    simp only [List.mem_cons, not_or] at h0
    by_cases hc : c ≠ NUL ∧ c ≠ sep ∧ c ≠ '\n'
    · rw [scanCopy, if_pos hc]
      apply ih h0.2
      rcases h with h | h
      · rcases List.mem_cons.mp h with h | h
        · exact absurd h.symm hc.2.1
        · exact Or.inl h
      · rcases List.mem_cons.mp h with h | h
        · exact absurd h.symm hc.2.2
        · exact Or.inr h
    · rw [scanCopy, if_neg hc]
      show c ≠ NUL
      exact fun h => h0.1 h.symm

theorem escapeLoop_eq (s : List Char) (h0 : NUL ∉ s) : escapeLoop s = escapeBody s := by
  induction s with
  | nil => rfl
  | cons c t ih =>
    simp only [List.mem_cons, not_or] at h0
    have hc : ¬ (c = NUL) := fun h => h0.1 h.symm
    rw [escapeLoop, if_neg hc, ih h0.2]
    simp [escapeBody, List.flatMap_cons]

theorem doubleLoop_eq (s : List Char) (h0 : NUL ∉ s) : doubleLoop s = doubleBody s := by
  induction s with
  | nil => rfl
  | cons c t ih =>
    simp only [List.mem_cons, not_or] at h0
    have hc : ¬ (c = NUL) := fun h => h0.1 h.symm
    rw [doubleLoop, if_neg hc, ih h0.2]
    by_cases hq : c = '"'
    · subst hq
      simp [doubleBody, List.flatMap_cons]
    · simp [doubleBody, List.flatMap_cons, hq]

theorem unescape_cons_plain (c : Char) (r : List Char) (hc : c ≠ '\\') :
    unescape (c :: r) = c :: unescape r := by
  cases r with
  | nil => rfl
  | cons d r => rw [unescape, if_neg hc]

theorem undouble_cons_plain (c : Char) (r : List Char) (hc : c ≠ '"') :
    undouble (c :: r) = c :: undouble r := by
  cases r with
  | nil => rfl
  | cons d r =>
    have : ¬ (c = '"' ∧ d = '"') := fun h => hc h.1
    rw [undouble, if_neg this]

/-- Backslash escaping can be undone. -/
theorem unescape_escapeBody (s : List Char) : unescape (escapeBody s) = s := by
  induction s with
  | nil => rfl
  | cons c t ih =>
    have hcons : escapeBody (c :: t) =
        (if c = '"' ∨ c = '\\' then ['\\', c] else [c]) ++ escapeBody t := by
      simp [escapeBody, List.flatMap_cons]
    rw [hcons]
    by_cases hc : c = '"' ∨ c = '\\'
    · rw [if_pos hc]
      show unescape ('\\' :: c :: escapeBody t) = c :: t
      rw [unescape, if_pos rfl, ih]
    · rw [if_neg hc]
      show unescape (c :: escapeBody t) = c :: t
      rw [unescape_cons_plain c _ (fun h => hc (Or.inr h)), ih]

/-- Quote doubling can be undone. -/
theorem undouble_doubleBody (s : List Char) : undouble (doubleBody s) = s := by
  induction s with
  | nil => rfl
  | cons c t ih =>
    have hcons : doubleBody (c :: t) =
        (if c = '"' then ['"', '"'] else [c]) ++ doubleBody t := by
      simp [doubleBody, List.flatMap_cons]
    rw [hcons]
    by_cases hc : c = '"'
    · rw [if_pos hc]
      show undouble ('"' :: '"' :: doubleBody t) = c :: t
      rw [undouble, if_pos ⟨rfl, rfl⟩, ih, hc]
    · rw [if_neg hc]
      show undouble (c :: doubleBody t) = c :: t
      rw [undouble_cons_plain c _ hc, ih]

/-- The quoted branch, with the body stated by the quoting rule. -/
theorem writeQuoted_eq (g : Globals) (s : List Char) (h0 : NUL ∉ s) :
    writeQuoted g s =
      ['"'] ++ (if g.qmethod_escape then escapeBody s else doubleBody s) ++ ['"'] := by
  unfold writeQuoted
  cases g.qmethod_escape
  · simp [doubleLoop_eq s h0]
  · simp [escapeLoop_eq s h0]

theorem writeString_auto_trigger (g : Globals) (s : List Char)
    (hq : g.quote = Rboolean.NA_LOGICAL) (h0 : NUL ∉ s) (ht : hasTrigger g s) :
    writeString g (some s) = writeQuoted g s := by
  simp only [writeString, hq]
  rw [if_neg (scanCopy_trigger g.col_sep s h0 ht)]

theorem writeString_auto_plain (g : Globals) (s : List Char)
    (hq : g.quote = Rboolean.NA_LOGICAL) (h0 : NUL ∉ s) (ht : ¬ hasTrigger g s) :
    writeString g (some s) = s := by
  unfold hasTrigger at ht
  rw [not_or] at ht
  simp only [writeString, hq]
  rw [scanCopy_no_trigger g.col_sep s h0 ht.1 ht.2]
  rfl

theorem escapeBody_length_ge (s : List Char) : s.length ≤ (escapeBody s).length := by
  induction s with
  | nil => simp [escapeBody]
  | cons c t ih =>
    by_cases hc : c = '"' ∨ c = '\\'
    · simp only [escapeBody, List.flatMap_cons, if_pos hc, List.length_append,
        List.length_cons, List.length_nil] at ih ⊢
      omega
    · simp only [escapeBody, List.flatMap_cons, if_neg hc, List.length_append,
        List.length_cons, List.length_nil] at ih ⊢
      omega

theorem doubleBody_length_ge (s : List Char) : s.length ≤ (doubleBody s).length := by
  induction s with
  | nil => simp [doubleBody]
  | cons c t ih =>
    by_cases hc : c = '"'
    · simp only [doubleBody, List.flatMap_cons, if_pos hc, List.length_append,
        List.length_cons, List.length_nil] at ih ⊢
      omega
    · simp only [doubleBody, List.flatMap_cons, if_neg hc, List.length_append,
        List.length_cons, List.length_nil] at ih ⊢
      omega

theorem writeQuoted_length_gt (g : Globals) (s : List Char) (h0 : NUL ∉ s) :
    s.length < (writeQuoted g s).length := by
  have he := escapeBody_length_ge s
  have hd := doubleBody_length_ge s
  rw [writeQuoted_eq g s h0]
  cases g.qmethod_escape
  · simp only [List.length_append, List.length_cons, List.length_nil, Bool.false_eq_true,
      if_false]
    omega
  · simp only [List.length_append, List.length_cons, List.length_nil, if_true]
    omega

theorem flatMap_plain (f : Char → List Char) (s : List Char) (h : ∀ c ∈ s, f c = [c]) :
    s.flatMap f = s := by
  induction s with
  | nil => rfl
  | cons c t ih =>
    rw [List.flatMap_cons, h c (List.mem_cons_self _ _),
      ih (fun d hd => h d (List.mem_cons_of_mem _ hd))]
    rfl

theorem escapeBody_plain (s : List Char) (h1 : '"' ∉ s) (h2 : '\\' ∉ s) : escapeBody s = s := by
  apply flatMap_plain
  intro c hc
  have : ¬ (c = '"' ∨ c = '\\') := by
    rintro (h | h)
    · exact h1 (h ▸ hc)
    · exact h2 (h ▸ hc)
  rw [if_neg this]

theorem doubleBody_plain (s : List Char) (h1 : '"' ∉ s) : doubleBody s = s := by
  apply flatMap_plain
  intro c hc
  have : ¬ (c = '"') := fun h => h1 (h ▸ hc)
  rw [if_neg this]

/-! ## Rounding to 53 bits -/

theorem bitLenAux_zero (fuel : Nat) : bitLenAux fuel 0 = 0 := by
  cases fuel <;> simp [bitLenAux]

theorem bitLenAux_bounds : ∀ (fuel n : Nat), n ≤ fuel → 0 < n →
    2 ^ bitLenAux fuel n ≤ 2 * n ∧ n < 2 ^ bitLenAux fuel n := by
  intro fuel
  induction fuel with
  | zero => intro n h1 h2; omega
  | succ f ih =>
    intro n h1 h2
    have hn : ¬ (n = 0) := by omega
    rw [bitLenAux, if_neg hn]
    rcases Nat.eq_zero_or_pos (n / 2) with h | h
    · have hn1 : n = 1 := by omega
      rw [h, bitLenAux_zero]
      subst hn1
      norm_num
    · obtain ⟨i1, i2⟩ := ih (n / 2) (by omega) h
      rw [pow_succ]
      constructor <;> omega

theorem bitLen_bounds (n : Nat) (h : 0 < n) : 2 ^ bitLen n ≤ 2 * n ∧ n < 2 ^ bitLen n :=
  bitLenAux_bounds n n le_rfl h

theorem scale_eq (n d : Nat) (k : Int) :
    ((scaleNum n k : Nat) : ℚ) / ((scaleDen d k : Nat) : ℚ) = (n : ℚ) / (d : ℚ) * (2 : ℚ) ^ k := by
  obtain ⟨j, rfl | rfl⟩ := Int.eq_nat_or_neg k
  · simp only [scaleNum, scaleDen, Int.toNat_ofNat, Int.toNat_neg_nat, pow_zero, mul_one,
      Nat.cast_mul, Nat.cast_pow, Nat.cast_ofNat, zpow_natCast]
    ring
  · simp only [scaleNum, scaleDen, Int.toNat_neg_nat, neg_neg, Int.toNat_ofNat, pow_zero,
      mul_one, Nat.cast_mul, Nat.cast_pow, Nat.cast_ofNat, zpow_neg, zpow_natCast]
    have h2 : ((2 : ℚ) ^ j) ≠ 0 := pow_ne_zero _ (by norm_num)
    by_cases hd : (d : ℚ) = 0
    · simp [hd]
    · field_simp

theorem scaleDen_pos (d : Nat) (k : Int) (hd : 0 < d) : 0 < scaleDen d k :=
  Nat.mul_pos hd (Nat.pow_pos (by norm_num))

/-- The scaled quotient has at least 53 bits. -/
theorem rndShift_lower (n d : Nat) (hn : 0 < n) (hd : 0 < d) :
    (2 : ℚ) ^ (52 : ℕ) ≤ (n : ℚ) / (d : ℚ) * (2 : ℚ) ^ (rndShift n d) := by
  have hdq : (0 : ℚ) < (d : ℚ) := by exact_mod_cast hd
  obtain ⟨n1, _⟩ := bitLen_bounds n hn
  obtain ⟨_, d2⟩ := bitLen_bounds d hd
  have n1q : (2 : ℚ) ^ (bitLen n) ≤ 2 * (n : ℚ) := by exact_mod_cast n1
  have d2q : (d : ℚ) ≤ (2 : ℚ) ^ (bitLen d) := by exact_mod_cast d2.le
  have hbn : (0 : ℚ) < (2 : ℚ) ^ (bitLen n) := by positivity
  have hbd : (0 : ℚ) < (2 : ℚ) ^ (bitLen d) := by positivity
  have hk0 : (2 : ℚ) ^ (52 : ℕ) ≤
      (n : ℚ) / (d : ℚ) * (2 : ℚ) ^ ((53 : Int) + (bitLen d : Int) - (bitLen n : Int)) := by
    rw [zpow_sub₀ (by norm_num : (2 : ℚ) ≠ 0), zpow_add₀ (by norm_num : (2 : ℚ) ≠ 0),
      zpow_natCast, zpow_natCast]
    have e1 : (n : ℚ) / (d : ℚ) * ((2 : ℚ) ^ (53 : Int) * (2 : ℚ) ^ bitLen d / (2 : ℚ) ^ bitLen n)
        = ((2 : ℚ) ^ (52 : ℕ)) * ((2 * (n : ℚ)) * (2 : ℚ) ^ bitLen d) /
          ((d : ℚ) * (2 : ℚ) ^ bitLen n) := by
      have : (2 : ℚ) ^ (53 : Int) = 2 ^ (52 : ℕ) * 2 := by norm_num
      rw [this]
      field_simp
      ring
    rw [e1, le_div_iff₀ (by positivity)]
    have : (d : ℚ) * (2 : ℚ) ^ bitLen n ≤ (2 * (n : ℚ)) * (2 : ℚ) ^ bitLen d := by
      calc (d : ℚ) * (2 : ℚ) ^ bitLen n ≤ (2 : ℚ) ^ bitLen d * (2 : ℚ) ^ bitLen n := by
              exact mul_le_mul_of_nonneg_right d2q hbn.le
        _ ≤ (2 : ℚ) ^ bitLen d * (2 * (n : ℚ)) := by
              exact mul_le_mul_of_nonneg_left n1q hbd.le
        _ = (2 * (n : ℚ)) * (2 : ℚ) ^ bitLen d := by ring
    have h52 : (0 : ℚ) < (2 : ℚ) ^ (52 : ℕ) := by positivity
    nlinarith [mul_le_mul_of_nonneg_left this h52.le]
  unfold rndShift
  simp only []
  split
  · exact hk0
  · next hq =>
    have hq' : 2 ^ 53 ≤ scaleNum n (53 + (bitLen d : Int) - (bitLen n : Int)) /
        scaleDen d (53 + (bitLen d : Int) - (bitLen n : Int)) := by omega
    have hD := scaleDen_pos d (53 + (bitLen d : Int) - (bitLen n : Int)) hd
    have hle := (Nat.le_div_iff_mul_le hD).mp hq'
    have hleq : ((2 : ℚ) ^ (53 : ℕ)) *
        ((scaleDen d (53 + (bitLen d : Int) - (bitLen n : Int)) : ℕ) : ℚ) ≤
        ((scaleNum n (53 + (bitLen d : Int) - (bitLen n : Int)) : ℕ) : ℚ) := by
      exact_mod_cast hle
    have hDq : (0 : ℚ) <
        ((scaleDen d (53 + (bitLen d : Int) - (bitLen n : Int)) : ℕ) : ℚ) := by
      exact_mod_cast hD
    have h53 : (2 : ℚ) ^ (53 : ℕ) ≤
        (n : ℚ) / (d : ℚ) * (2 : ℚ) ^ ((53 : Int) + (bitLen d : Int) - (bitLen n : Int)) := by
      rw [← scale_eq, le_div_iff₀ hDq]
      exact hleq
    rw [zpow_sub₀ (by norm_num : (2 : ℚ) ≠ 0) _ 1, zpow_one, ← mul_div_assoc,
      le_div_iff₀ (by norm_num)]
    calc (2 : ℚ) ^ (52 : ℕ) * 2 = (2 : ℚ) ^ (53 : ℕ) := by norm_num
      _ ≤ _ := h53

theorem le_roundDiv (N D : Nat) : N / D ≤ roundDiv N D := by
  unfold roundDiv
  simp only []
  split <;> omega

theorem roundDiv_le (N D B : Nat) (hD : 0 < D) (h : N ≤ B * D) : roundDiv N D ≤ B := by
  have hq : N / D ≤ B := by
    calc N / D ≤ B * D / D := Nat.div_le_div_right h
      _ = B := Nat.mul_div_cancel _ hD
  unfold roundDiv
  simp only []
  split
  · next hr =>
    have hr0 : 0 < N % D := by
      rcases hr with hr | hr <;> omega
    have hlt : N / D * D < N := by
      have := Nat.div_add_mod N D
      have h2 : D * (N / D) = N / D * D := Nat.mul_comm _ _
      omega
    have hlt2 : N / D * D < B * D := lt_of_lt_of_le hlt h
    have : N / D < B := lt_of_mul_lt_mul_right hlt2 (Nat.zero_le _)
    omega
  · exact hq

theorem rnd_val (n d : Nat) (e : Int) (hn : 0 < n) :
    (rnd n d e).val =
      (roundDiv (scaleNum n (rndShift n d)) (scaleDen d (rndShift n d)) : ℚ) *
        (2 : ℚ) ^ (e - rndShift n d) := by
  have : ¬ (n = 0) := by omega
  simp [rnd, this, Dbl.val]

/-- Rounding does not go below a representable lower bound of the exact value. -/
theorem rnd_lower (n d : Nat) (e : Int) (A : Nat) (a : Int) (hn : 0 < n) (hd : 0 < d)
    (hA : A < 2 ^ 53) (h : (A : ℚ) * (2 : ℚ) ^ a ≤ (n : ℚ) / (d : ℚ) * (2 : ℚ) ^ e) :
    (A : ℚ) * (2 : ℚ) ^ a ≤ (rnd n d e).val := by
  rw [rnd_val n d e hn]
  set k := rndShift n d with hk
  set N := scaleNum n k with hN
  set D := scaleDen d k with hD
  have hDpos : 0 < D := scaleDen_pos d k hd
  have hDq : (0 : ℚ) < (D : ℚ) := by exact_mod_cast hDpos
  have two : (2 : ℚ) ≠ 0 := by norm_num
  have hnorm := rndShift_lower n d hn hd
  rw [← hk, ← scale_eq, le_div_iff₀ hDq] at hnorm
  have hnormN : 2 ^ 52 * D ≤ N := by exact_mod_cast hnorm
  have hq52 : 2 ^ 52 ≤ N / D := (Nat.le_div_iff_mul_le hDpos).mpr hnormN
  have hm : N / D ≤ roundDiv N D := le_roundDiv N D
  -- scale the hypothesis by `2^(k-e)`
  have hs : (A : ℚ) * (2 : ℚ) ^ (a + k - e) ≤ (N : ℚ) / (D : ℚ) := by
    rw [scale_eq]
    have hpos : (0 : ℚ) < (2 : ℚ) ^ (k - e) := by positivity
    have := mul_le_mul_of_nonneg_right h hpos.le
    have e1 : (A : ℚ) * 2 ^ a * 2 ^ (k - e) = (A : ℚ) * (2 : ℚ) ^ (a + k - e) := by
      rw [mul_assoc, ← zpow_add₀ two]
      congr 2
      ring
    have e2 : (n : ℚ) / (d : ℚ) * 2 ^ e * 2 ^ (k - e) = (n : ℚ) / (d : ℚ) * (2 : ℚ) ^ k := by
      rw [mul_assoc, ← zpow_add₀ two]
      congr 2
      ring
    rw [e1, e2] at this
    exact this
  have hgoal : (A : ℚ) * (2 : ℚ) ^ (a + k - e) ≤ (roundDiv N D : ℚ) := by
    rcases le_or_lt 0 (a + k - e) with hs0 | hs0
    · obtain ⟨j, hj⟩ := Int.eq_ofNat_of_zero_le hs0
      rw [hj, zpow_natCast] at hs ⊢
      rw [le_div_iff₀ hDq] at hs
      have hsN : A * 2 ^ j * D ≤ N := by exact_mod_cast hs
      have : A * 2 ^ j ≤ N / D := (Nat.le_div_iff_mul_le hDpos).mpr hsN
      have := le_trans this hm
      exact_mod_cast this
    · have h1 : (2 : ℚ) ^ (a + k - e) ≤ (2 : ℚ) ^ (-1 : Int) :=
        zpow_le_zpow_right₀ (by norm_num) (by omega)
      have hAq : (A : ℚ) ≤ (2 : ℚ) ^ (53 : ℕ) := by exact_mod_cast hA.le
      have hA0 : (0 : ℚ) ≤ (A : ℚ) := by positivity
      have hmq : ((2 : ℚ) ^ (52 : ℕ)) ≤ (roundDiv N D : ℚ) := by
        exact_mod_cast le_trans hq52 hm
      calc (A : ℚ) * (2 : ℚ) ^ (a + k - e) ≤ (A : ℚ) * (2 : ℚ) ^ (-1 : Int) :=
            mul_le_mul_of_nonneg_left h1 hA0
        _ ≤ (2 : ℚ) ^ (53 : ℕ) * (2 : ℚ) ^ (-1 : Int) :=
            mul_le_mul_of_nonneg_right hAq (by positivity)
        _ = (2 : ℚ) ^ (52 : ℕ) := by norm_num
        _ ≤ _ := hmq
  have hpos : (0 : ℚ) < (2 : ℚ) ^ (e - k) := by positivity
  have := mul_le_mul_of_nonneg_right hgoal hpos.le
  have e3 : (A : ℚ) * 2 ^ (a + k - e) * 2 ^ (e - k) = (A : ℚ) * (2 : ℚ) ^ a := by
    rw [mul_assoc, ← zpow_add₀ two]
    congr 2
    ring
  rw [e3] at this
  exact this

/-- Rounding does not go above a representable upper bound of the exact value. -/
theorem rnd_upper (n d : Nat) (e : Int) (A : Nat) (a : Int) (hn : 0 < n) (hd : 0 < d)
    (hA : A < 2 ^ 53) (h : (n : ℚ) / (d : ℚ) * (2 : ℚ) ^ e ≤ (A : ℚ) * (2 : ℚ) ^ a) :
    (rnd n d e).val ≤ (A : ℚ) * (2 : ℚ) ^ a := by
  rw [rnd_val n d e hn]
  set k := rndShift n d with hk
  set N := scaleNum n k with hN
  set D := scaleDen d k with hD
  have hDpos : 0 < D := scaleDen_pos d k hd
  have hDq : (0 : ℚ) < (D : ℚ) := by exact_mod_cast hDpos
  have two : (2 : ℚ) ≠ 0 := by norm_num
  have hnorm := rndShift_lower n d hn hd
  rw [← hk, ← scale_eq] at hnorm
  have hs : (N : ℚ) / (D : ℚ) ≤ (A : ℚ) * (2 : ℚ) ^ (a + k - e) := by
    rw [scale_eq]
    have hpos : (0 : ℚ) < (2 : ℚ) ^ (k - e) := by positivity
    have := mul_le_mul_of_nonneg_right h hpos.le
    have e1 : (A : ℚ) * 2 ^ a * 2 ^ (k - e) = (A : ℚ) * (2 : ℚ) ^ (a + k - e) := by
      rw [mul_assoc, ← zpow_add₀ two]
      congr 2
      ring
    have e2 : (n : ℚ) / (d : ℚ) * 2 ^ e * 2 ^ (k - e) = (n : ℚ) / (d : ℚ) * (2 : ℚ) ^ k := by
      rw [mul_assoc, ← zpow_add₀ two]
      congr 2
      ring
    rw [e1, e2] at this
    exact this
  have hgoal : (roundDiv N D : ℚ) ≤ (A : ℚ) * (2 : ℚ) ^ (a + k - e) := by
    rcases le_or_lt 0 (a + k - e) with hs0 | hs0
    · obtain ⟨j, hj⟩ := Int.eq_ofNat_of_zero_le hs0
      rw [hj, zpow_natCast] at hs ⊢
      rw [div_le_iff₀ hDq] at hs
      have hsN : N ≤ A * 2 ^ j * D := by exact_mod_cast hs
      have := roundDiv_le N D (A * 2 ^ j) hDpos hsN
      exact_mod_cast this
    · exfalso
      have h1 : (2 : ℚ) ^ (a + k - e) ≤ (2 : ℚ) ^ (-1 : Int) :=
        zpow_le_zpow_right₀ (by norm_num) (by omega)
      have hAq : (A : ℚ) < (2 : ℚ) ^ (53 : ℕ) := by exact_mod_cast hA
      have hA0 : (0 : ℚ) ≤ (A : ℚ) := by positivity
      have : (A : ℚ) * (2 : ℚ) ^ (a + k - e) < (2 : ℚ) ^ (52 : ℕ) := by
        calc (A : ℚ) * (2 : ℚ) ^ (a + k - e) ≤ (A : ℚ) * (2 : ℚ) ^ (-1 : Int) :=
              mul_le_mul_of_nonneg_left h1 hA0
          _ < (2 : ℚ) ^ (53 : ℕ) * (2 : ℚ) ^ (-1 : Int) :=
              mul_lt_mul_of_pos_right hAq (by positivity)
          _ = (2 : ℚ) ^ (52 : ℕ) := by norm_num
      linarith
  have hpos : (0 : ℚ) < (2 : ℚ) ^ (e - k) := by positivity
  have := mul_le_mul_of_nonneg_right hgoal hpos.le
  have e3 : (A : ℚ) * 2 ^ (a + k - e) * 2 ^ (e - k) = (A : ℚ) * (2 : ℚ) ^ a := by
    rw [mul_assoc, ← zpow_add₀ two]
    congr 2
    ring
  rw [e3] at this
  exact this

/-- A value that fits 53 bits is not changed by rounding. -/
theorem rnd_exact (n d : Nat) (e : Int) (A : Nat) (a : Int) (hd : 0 < d)
    (hA : A < 2 ^ 53) (h : (n : ℚ) / (d : ℚ) * (2 : ℚ) ^ e = (A : ℚ) * (2 : ℚ) ^ a) :
    (rnd n d e).val = (A : ℚ) * (2 : ℚ) ^ a := by
  rcases Nat.eq_zero_or_pos n with h0 | hn
  · subst h0
    simp only [Nat.cast_zero, zero_div, zero_mul] at h
    rw [← h]
    simp [rnd, Dbl.val]
  · exact le_antisymm (rnd_upper n d e A a hn hd hA h.le) (rnd_lower n d e A a hn hd hA h.ge)

/-! ## Values of the double operations -/

theorem rnd_zero_val (d : Nat) (e : Int) : (rnd 0 d e).val = 0 := by
  simp [rnd, Dbl.val]

theorem rnd_val_nonneg (n d : Nat) (e : Int) : 0 ≤ (rnd n d e).val := by
  unfold Dbl.val
  positivity

theorem rnd_ge (n d : Nat) (e : Int) (A : Nat) (a : Int) (hd : 0 < d) (hA : A < 2 ^ 53)
    (h : (A : ℚ) * (2 : ℚ) ^ a ≤ (n : ℚ) / (d : ℚ) * (2 : ℚ) ^ e) :
    (A : ℚ) * (2 : ℚ) ^ a ≤ (rnd n d e).val := by
  rcases Nat.eq_zero_or_pos n with h0 | hn
  · subst h0
    rw [rnd_zero_val]
    simpa using h
  · exact rnd_lower n d e A a hn hd hA h

theorem rnd_le (n d : Nat) (e : Int) (A : Nat) (a : Int) (hd : 0 < d) (hA : A < 2 ^ 53)
    (h : (n : ℚ) / (d : ℚ) * (2 : ℚ) ^ e ≤ (A : ℚ) * (2 : ℚ) ^ a) :
    (rnd n d e).val ≤ (A : ℚ) * (2 : ℚ) ^ a := by
  rcases Nat.eq_zero_or_pos n with h0 | hn
  · subst h0
    rw [rnd_zero_val]
    positivity
  · exact rnd_upper n d e A a hn hd hA h

theorem Dbl.ofNat_val (n : Nat) (h : n < 2 ^ 53) : (Dbl.ofNat n).val = (n : ℚ) := by
  have := rnd_exact n 1 0 n 0 (by norm_num) h (by simp)
  simpa [Dbl.ofNat] using this

/-- The exact sum that `Dbl.add` rounds. -/
theorem Dbl.add_exact_sum (a b : Dbl) :
    ((a.m * 2 ^ (a.e - min a.e b.e).toNat + b.m * 2 ^ (b.e - min a.e b.e).toNat : ℕ) : ℚ) /
      ((1 : ℕ) : ℚ) * (2 : ℚ) ^ (min a.e b.e) = a.val + b.val := by
  have two : (2 : ℚ) ≠ 0 := by norm_num
  have ha : (0 : Int) ≤ a.e - min a.e b.e := by omega
  have hb : (0 : Int) ≤ b.e - min a.e b.e := by omega
  have ea : ((2 : ℚ) ^ (a.e - min a.e b.e).toNat) = (2 : ℚ) ^ (a.e - min a.e b.e) := by
    rw [← zpow_natCast, Int.toNat_of_nonneg ha]
  have eb : ((2 : ℚ) ^ (b.e - min a.e b.e).toNat) = (2 : ℚ) ^ (b.e - min a.e b.e) := by
    rw [← zpow_natCast, Int.toNat_of_nonneg hb]
  simp only [Nat.cast_add, Nat.cast_mul, Nat.cast_pow, Nat.cast_ofNat, Nat.cast_one, div_one,
    Dbl.val]
  rw [ea, eb, add_mul, mul_assoc, mul_assoc, ← zpow_add₀ two, ← zpow_add₀ two]
  congr 3 <;> ring

theorem Dbl.add_exact (a b : Dbl) (A : Nat) (x : Int) (hA : A < 2 ^ 53)
    (h : a.val + b.val = (A : ℚ) * (2 : ℚ) ^ x) : (a.add b).val = (A : ℚ) * (2 : ℚ) ^ x := by
  unfold Dbl.add
  exact rnd_exact _ 1 _ A x (by norm_num) hA (by rw [Dbl.add_exact_sum, h])

theorem Dbl.mul_exact_prod (a b : Dbl) :
    ((a.m * b.m : ℕ) : ℚ) / ((1 : ℕ) : ℚ) * (2 : ℚ) ^ (a.e + b.e) = a.val * b.val := by
  have two : (2 : ℚ) ≠ 0 := by norm_num
  simp only [Nat.cast_mul, Nat.cast_one, div_one, Dbl.val]
  rw [zpow_add₀ two]
  ring

theorem Dbl.mul_ge (a b : Dbl) (A : Nat) (x : Int) (hA : A < 2 ^ 53)
    (h : (A : ℚ) * (2 : ℚ) ^ x ≤ a.val * b.val) : (A : ℚ) * (2 : ℚ) ^ x ≤ (a.mul b).val := by
  unfold Dbl.mul
  exact rnd_ge _ 1 _ A x (by norm_num) hA (by rw [Dbl.mul_exact_prod]; exact h)

theorem Dbl.mul_le (a b : Dbl) (A : Nat) (x : Int) (hA : A < 2 ^ 53)
    (h : a.val * b.val ≤ (A : ℚ) * (2 : ℚ) ^ x) : (a.mul b).val ≤ (A : ℚ) * (2 : ℚ) ^ x := by
  unfold Dbl.mul
  exact rnd_le _ 1 _ A x (by norm_num) hA (by rw [Dbl.mul_exact_prod]; exact h)

theorem Dbl.mul_exact (a b : Dbl) (A : Nat) (x : Int) (hA : A < 2 ^ 53)
    (h : a.val * b.val = (A : ℚ) * (2 : ℚ) ^ x) : (a.mul b).val = (A : ℚ) * (2 : ℚ) ^ x :=
  le_antisymm (Dbl.mul_le a b A x hA h.le) (Dbl.mul_ge a b A x hA h.ge)

theorem Dbl.div_exact_quot (a b : Dbl) :
    ((a.m : ℕ) : ℚ) / ((b.m : ℕ) : ℚ) * (2 : ℚ) ^ (a.e - b.e) = a.val / b.val := by
  have two : (2 : ℚ) ≠ 0 := by norm_num
  simp only [Dbl.val]
  rw [zpow_sub₀ two]
  have : (2 : ℚ) ^ b.e ≠ 0 := zpow_ne_zero _ two
  by_cases hb : (b.m : ℚ) = 0
  · simp [hb]
  · field_simp

theorem Dbl.div_ge (a b : Dbl) (A : Nat) (x : Int) (hb : 0 < b.m) (hA : A < 2 ^ 53)
    (h : (A : ℚ) * (2 : ℚ) ^ x ≤ a.val / b.val) : (A : ℚ) * (2 : ℚ) ^ x ≤ (a.div b).val := by
  unfold Dbl.div
  exact rnd_ge _ _ _ A x hb hA (by rw [Dbl.div_exact_quot]; exact h)

theorem Dbl.div_le (a b : Dbl) (A : Nat) (x : Int) (hb : 0 < b.m) (hA : A < 2 ^ 53)
    (h : a.val / b.val ≤ (A : ℚ) * (2 : ℚ) ^ x) : (a.div b).val ≤ (A : ℚ) * (2 : ℚ) ^ x := by
  unfold Dbl.div
  exact rnd_le _ _ _ A x hb hA (by rw [Dbl.div_exact_quot]; exact h)

theorem Dbl.ge_iff (a b : Dbl) : a.ge b = true ↔ b.val ≤ a.val := by
  have two : (2 : ℚ) ≠ 0 := by norm_num
  have ha : (0 : Int) ≤ a.e - min a.e b.e := by omega
  have hb : (0 : Int) ≤ b.e - min a.e b.e := by omega
  have ea : ((2 : ℚ) ^ (a.e - min a.e b.e).toNat) = (2 : ℚ) ^ (a.e - min a.e b.e) := by
    rw [← zpow_natCast, Int.toNat_of_nonneg ha]
  have eb : ((2 : ℚ) ^ (b.e - min a.e b.e).toNat) = (2 : ℚ) ^ (b.e - min a.e b.e) := by
    rw [← zpow_natCast, Int.toNat_of_nonneg hb]
  have hpos : (0 : ℚ) < (2 : ℚ) ^ (min a.e b.e) := by positivity
  have va : a.val = ((a.m * 2 ^ (a.e - min a.e b.e).toNat : ℕ) : ℚ) * (2 : ℚ) ^ (min a.e b.e) := by
    simp only [Dbl.val, Nat.cast_mul, Nat.cast_pow, Nat.cast_ofNat]
    rw [ea, mul_assoc, ← zpow_add₀ two]
    congr 2
    ring
  have vb : b.val = ((b.m * 2 ^ (b.e - min a.e b.e).toNat : ℕ) : ℚ) * (2 : ℚ) ^ (min a.e b.e) := by
    simp only [Dbl.val, Nat.cast_mul, Nat.cast_pow, Nat.cast_ofNat]
    rw [eb, mul_assoc, ← zpow_add₀ two]
    congr 2
    ring
  unfold Dbl.ge
  simp only [decide_eq_true_eq]
  rw [va, vb, mul_le_mul_right hpos]
  exact Nat.cast_le.symm

/-- The integer part taken by the conversion to `unsigned long long` lies between
any two whole numbers that enclose the value. -/
theorem Dbl.toULL_bounds (a : Dbl) (A B : Nat) (hB : B < 18446744073709551616)
    (h1 : (A : ℚ) ≤ a.val) (h2 : a.val ≤ (B : ℚ)) : A ≤ a.toULL ∧ a.toULL ≤ B := by
  have key : A ≤ (if 0 ≤ a.e then a.m * 2 ^ a.e.toNat else a.m / 2 ^ (-a.e).toNat) ∧
      (if 0 ≤ a.e then a.m * 2 ^ a.e.toNat else a.m / 2 ^ (-a.e).toNat) ≤ B := by
    by_cases he : 0 ≤ a.e
    · rw [if_pos he]
      have hv : a.val = ((a.m * 2 ^ a.e.toNat : ℕ) : ℚ) := by
        simp only [Dbl.val, Nat.cast_mul, Nat.cast_pow, Nat.cast_ofNat]
        rw [← zpow_natCast, Int.toNat_of_nonneg he]
      rw [hv] at h1 h2
      exact ⟨by exact_mod_cast h1, by exact_mod_cast h2⟩
    · rw [if_neg he]
      have hne : (0 : Int) ≤ -a.e := by omega
      have hpos : (0 : ℚ) < ((2 ^ (-a.e).toNat : ℕ) : ℚ) := by positivity
      have hv : a.val = (a.m : ℚ) / ((2 ^ (-a.e).toNat : ℕ) : ℚ) := by
        simp only [Dbl.val, Nat.cast_pow, Nat.cast_ofNat]
        rw [← zpow_natCast, Int.toNat_of_nonneg hne, zpow_neg, div_inv_eq_mul]
      rw [hv] at h1 h2
      constructor
      · rw [le_div_iff₀ hpos] at h1
        have : A * 2 ^ (-a.e).toNat ≤ a.m := by exact_mod_cast h1
        exact (Nat.le_div_iff_mul_le (Nat.pow_pos (by norm_num))).mpr this
      · have h3 : ((a.m / 2 ^ (-a.e).toNat : ℕ) : ℚ) ≤ (a.m : ℚ) / ((2 ^ (-a.e).toNat : ℕ) : ℚ) :=
          Nat.cast_div_le
        exact_mod_cast le_trans h3 h2
  unfold Dbl.toULL
  rw [Nat.mod_eq_of_lt (lt_of_le_of_lt key.2 hB)]
  exact key

/-! ## The significand stage of writeNumeric -/

theorem sigIndex_eq (F j : Nat) (hj : j ≤ 52) :
    sigIndex F (j : Int) = if F % 2 = 1 then j else 0 := by
  have hjj : ((j : Int) % 18446744073709551616).toNat = j := by
    rw [Int.emod_eq_of_lt (by omega) (by omega), Int.toNat_ofNat]
  have hmask : (18446744073709551615 : Nat) &&& j = j := by
    have h := Nat.and_pow_two_sub_one_eq_mod j 64
    have e : (2 : Nat) ^ 64 - 1 = 18446744073709551615 := by norm_num
    rw [e] at h
    rw [Nat.land_comm, h]
    exact Nat.mod_eq_of_lt (by omega)
  unfold sigIndex
  rw [hjj, Nat.and_one_is_mod]
  rcases Nat.mod_two_eq_zero_or_one F with h | h
  · rw [h]
    have : ¬ ((0 : Nat) = 1) := by decide
    rw [if_neg this]
    have e1 : ((0 : Nat) ^^^ 1) = 1 := by decide
    rw [e1]
    have e2 : (1 + 18446744073709551615) % 18446744073709551616 = 0 := by decide
    rw [e2, Nat.zero_and]
  · rw [h, if_pos rfl]
    have e1 : ((1 : Nat) ^^^ 1) = 0 := by decide
    rw [e1]
    have e2 : (0 + 18446744073709551615) % 18446744073709551616 = 18446744073709551615 := by
      decide
    rw [e2, hmask]

theorem skipZeroBytes_spec : ∀ (fuel F : Nat) (i : Int), ∃ t : Nat,
    (skipZeroBytes fuel F i).2 = i - 8 * (t : Int) ∧
      (skipZeroBytes fuel F i).1 * 2 ^ (8 * t) = F := by
  intro fuel
  induction fuel with
  | zero => intro F i; exact ⟨0, by simp [skipZeroBytes], by simp [skipZeroBytes]⟩
  | succ f ih =>
    intro F i
    by_cases h : F &&& 0xFF = 0
    · rw [skipZeroBytes, if_pos h]
      obtain ⟨t, h1, h2⟩ := ih (F >>> 8) (i - 8)
      refine ⟨t + 1, ?_, ?_⟩
      · rw [h1]
        push_cast
        ring
      · have hm : F % 256 = 0 := by
          have := Nat.and_pow_two_sub_one_eq_mod F 8
          norm_num at this
          rw [← this]
          exact h
        have hs : F >>> 8 = F / 256 := by
          rw [Nat.shiftRight_eq_div_pow]
        rw [hs] at h2 ⊢
        have : 2 ^ (8 * (t + 1)) = 2 ^ (8 * t) * 256 := by
          rw [Nat.mul_add, pow_add]
          norm_num
        rw [this, ← Nat.mul_assoc, h2]
        omega
    · rw [skipZeroBytes, if_neg h]
      exact ⟨0, by simp, by simp⟩

theorem sumBits_val (T : Lookups) (hT : T.WellFormed) : ∀ (fuel F j L : Nat) (acc : Dbl),
    F ≤ fuel → j ≤ 52 → F < 2 ^ j → L < 2 ^ (52 - j) →
    acc.val = (L : ℚ) * (2 : ℚ) ^ (-52 : Int) →
    (sumBits T fuel F (j : Int) acc).val =
      ((F * 2 ^ (52 - j) + L : ℕ) : ℚ) * (2 : ℚ) ^ (-52 : Int) := by
  intro fuel
  induction fuel with
  | zero =>
    intro F j L acc hF _ _ _ hacc
    have : F = 0 := by omega
    subst this
    simp [sumBits, hacc]
  | succ f ih =>
    intro F j L acc hF hj hFj hL hacc
    by_cases h0 : F = 0
    · subst h0
      simp [sumBits, hacc]
    · rw [sumBits, if_pos h0]
      have hj1 : 1 ≤ j := by
        rcases Nat.eq_zero_or_pos j with h | h
        · subst h
          simp at hFj
          exact absurd hFj h0
        · exact h
      have hcast : ((j : Int) - 1) = ((j - 1 : ℕ) : Int) := by omega
      have hs : F >>> 1 = F / 2 := by
        rw [Nat.shiftRight_eq_div_pow, pow_one]
      have hp1 : 2 ^ (52 - (j - 1)) = 2 * 2 ^ (52 - j) := by
        have : 52 - (j - 1) = (52 - j) + 1 := by omega
        rw [this, pow_succ, Nat.mul_comm]
      have hpj : 2 ^ j = 2 * 2 ^ (j - 1) := by
        have : j = (j - 1) + 1 := by omega
        rw [this, pow_succ, Nat.mul_comm]
        simp
      have two : (2 : ℚ) ≠ 0 := by norm_num
      -- the value of the table entry that is added
      have hsig : (T.sigparts (sigIndex F (j : Int))).val =
          ((F % 2 * 2 ^ (52 - j) : ℕ) : ℚ) * (2 : ℚ) ^ (-52 : Int) := by
        rw [sigIndex_eq F j hj]
        rcases Nat.mod_two_eq_zero_or_one F with h | h
        · have : ¬ (F % 2 = 1) := by omega
          rw [if_neg this, hT.sigparts_zero, h]
          simp
        · rw [if_pos h, hT.sigparts_pow j hj1 hj, h]
          have : (-(j : Int)) = ((52 - j : ℕ) : Int) + (-52) := by omega
          rw [this, zpow_add₀ two, zpow_natCast]
          push_cast
          ring
      have hpos : 0 < 2 ^ (52 - j) := Nat.pow_pos (by norm_num)
      have hmod : F % 2 < 2 := Nat.mod_lt _ (by norm_num)
      have hbL : L + F % 2 * 2 ^ (52 - j) < 2 * 2 ^ (52 - j) := by
        rcases Nat.mod_two_eq_zero_or_one F with h | h <;> rw [h] <;> omega
      have hA : L + F % 2 * 2 ^ (52 - j) < 2 ^ 53 := by
        have : 2 * 2 ^ (52 - j) ≤ 2 ^ 53 := by
          rw [← hp1]
          exact Nat.pow_le_pow_right (by norm_num) (by omega)
        omega
      have hadd := Dbl.add_exact acc (T.sigparts (sigIndex F (j : Int)))
        (L + F % 2 * 2 ^ (52 - j)) (-52) hA (by rw [hacc, hsig]; push_cast; ring)
      rw [hs, hcast]
      rw [ih (F / 2) (j - 1) (L + F % 2 * 2 ^ (52 - j)) _ (by omega) (by omega)
        (by omega) (by rw [hp1]; exact hbL) hadd]
      congr 2
      rw [hp1]
      have := Nat.div_add_mod F 2
      calc F / 2 * (2 * 2 ^ (52 - j)) + (L + F % 2 * 2 ^ (52 - j))
          = (2 * (F / 2) + F % 2) * 2 ^ (52 - j) + L := by ring
        _ = F * 2 ^ (52 - j) + L := by rw [this]

/-- With the tables as specified, `acc` is exactly `fraction / 2^52`. -/
theorem sumFraction_val (T : Lookups) (hT : T.WellFormed) (f : Nat) (hf : f < 2 ^ 52) :
    (sumFraction T f).val = (f : ℚ) * (2 : ℚ) ^ (-52 : Int) := by
  unfold sumFraction
  by_cases h0 : f = 0
  · subst h0
    simp [Dbl.zero, Dbl.val]
  · rw [if_pos h0]
    simp only []
    obtain ⟨t, h1, h2⟩ := skipZeroBytes_spec f f 52
    set F := (skipZeroBytes f f 52).1 with hFdef
    have hFpos : 0 < F := by
      rcases Nat.eq_zero_or_pos F with h | h
      · rw [h, Nat.zero_mul] at h2
        exact absurd h2.symm h0
      · exact h
    have hFf : F ≤ f := by
      calc F = F * 1 := (Nat.mul_one F).symm
        _ ≤ F * 2 ^ (8 * t) := Nat.mul_le_mul_left F (Nat.pow_pos (by norm_num))
        _ = f := h2
    have ht : 8 * t < 52 := by
      by_contra hc
      have : 2 ^ 52 ≤ 2 ^ (8 * t) := Nat.pow_le_pow_right (by norm_num) (by omega)
      have : 2 ^ 52 ≤ F * 2 ^ (8 * t) := by
        calc 2 ^ 52 ≤ 1 * 2 ^ (8 * t) := by omega
          _ ≤ F * 2 ^ (8 * t) := Nat.mul_le_mul_right _ hFpos
      omega
    have hi : (skipZeroBytes f f 52).2 = ((52 - 8 * t : ℕ) : Int) := by
      rw [h1]
      omega
    rw [hi]
    have hsub : 52 - (52 - 8 * t) = 8 * t := by omega
    have hlt : F < 2 ^ (52 - 8 * t) := by
      have hsplit : (2 : Nat) ^ 52 = 2 ^ (52 - 8 * t) * 2 ^ (8 * t) := by
        rw [← pow_add]
        congr 1
        omega
      have : F * 2 ^ (8 * t) < 2 ^ (52 - 8 * t) * 2 ^ (8 * t) := by
        rw [h2, ← hsplit]
        exact hf
      exact lt_of_mul_lt_mul_right this (Nat.zero_le _)
    rw [sumBits_val T hT F F (52 - 8 * t) 0 Dbl.zero le_rfl (by omega) hlt
      (Nat.pow_pos (by norm_num)) (by simp [Dbl.zero, Dbl.val])]
    rw [hsub, Nat.add_zero, h2]

theorem Dbl.m_pos_of_val_pos (a : Dbl) (h : 0 < a.val) : 0 < a.m := by
  rcases Nat.eq_zero_or_pos a.m with h0 | h0
  · simp [Dbl.val, h0] at h
  · exact h0

/-- With the tables as specified, the integer `l` handed to the rounding step has
16 digits (or is `10^16`). -/
theorem significand_bounds (T : Lookups) (hT : T.WellFormed) (f e : Nat) (hf : f < 2 ^ 52)
    (he : e < 2047) :
    1000000000000000 ≤ (significand T f e).1 ∧ (significand T f e).1 ≤ 10000000000000000 := by
  have hacc := sumFraction_val T hT f hf
  have hone : (Dbl.ofNat 1).val = 1 := by
    have := Dbl.ofNat_val 1 (by norm_num)
    simpa using this
  have hten : (Dbl.ofNat 10).val = 10 := by
    have := Dbl.ofNat_val 10 (by norm_num)
    simpa using this
  have hsize : (Dbl.ofNat SIZE_SF).val = 1000000000000000 := by
    have := Dbl.ofNat_val SIZE_SF (by norm_num [SIZE_SF])
    simpa [SIZE_SF] using this
  have htenm : 0 < (Dbl.ofNat 10).m := Dbl.m_pos_of_val_pos _ (by rw [hten]; norm_num)
  have hfq : (f : ℚ) < 4503599627370496 := by exact_mod_cast hf
  have hf0 : (0 : ℚ) ≤ (f : ℚ) := by positivity
  have hs : ((Dbl.ofNat 1).add (sumFraction T f)).val =
      ((2 ^ 52 + f : ℕ) : ℚ) * (2 : ℚ) ^ (-52 : Int) := by
    apply Dbl.add_exact _ _ (2 ^ 52 + f) (-52) (by omega)
    rw [hone, hacc]
    push_cast
    norm_num
    ring
  have hs1 : 1 ≤ ((Dbl.ofNat 1).add (sumFraction T f)).val := by
    rw [hs]
    push_cast
    norm_num
    linarith
  have hs2 : ((Dbl.ofNat 1).add (sumFraction T f)).val ≤ 2 := by
    rw [hs]
    push_cast
    norm_num
    linarith
  obtain ⟨hx1, hx2⟩ := hT.expsig_range e he
  set s := (Dbl.ofNat 1).add (sumFraction T f) with hsdef
  set y := s.mul (T.expsig e) with hydef
  have hy1 : 1 ≤ y.val := by
    have := Dbl.mul_ge s (T.expsig e) 1 0 (by norm_num)
      (by
        have : (1 : ℚ) ≤ s.val * (T.expsig e).val := by nlinarith
        simpa using this)
    simpa using this
  have hy2 : y.val ≤ 20 := by
    have := Dbl.mul_le s (T.expsig e) 20 0 (by norm_num) (by
      have : s.val * (T.expsig e).val ≤ 2 * 10 :=
        mul_le_mul hs2 hx2 (by linarith) (by norm_num)
      simpa using (by linarith : s.val * (T.expsig e).val ≤ 20))
    simpa using this
  have hy1' : 1 ≤ (if y.ge (Dbl.ofNat 10) then y.div (Dbl.ofNat 10) else y).val ∧
      (if y.ge (Dbl.ofNat 10) then y.div (Dbl.ofNat 10) else y).val ≤ 10 := by
    by_cases hbig : y.ge (Dbl.ofNat 10) = true
    · rw [if_pos hbig]
      have h10 : (10 : ℚ) ≤ y.val := by
        have := (Dbl.ge_iff y (Dbl.ofNat 10)).mp hbig
        rwa [hten] at this
      constructor
      · have := Dbl.div_ge y (Dbl.ofNat 10) 1 0 htenm (by norm_num) (by
          rw [hten, le_div_iff₀ (by norm_num)]
          simpa using h10)
        simpa using this
      · have := Dbl.div_le y (Dbl.ofNat 10) 2 0 htenm (by norm_num) (by
          rw [hten, div_le_iff₀ (by norm_num)]
          norm_num
          linarith)
        have h2 : (y.div (Dbl.ofNat 10)).val ≤ 2 := by simpa using this
        linarith
    · rw [if_neg hbig]
      have h10 : ¬ ((10 : ℚ) ≤ y.val) := by
        intro hc
        apply hbig
        rw [Dbl.ge_iff, hten]
        exact hc
      exact ⟨hy1, by linarith⟩
  set y1 := (if y.ge (Dbl.ofNat 10) then y.div (Dbl.ofNat 10) else y) with hy1def
  have hp1 : (1000000000000000 : ℚ) ≤ (y1.mul (Dbl.ofNat SIZE_SF)).val := by
    have := Dbl.mul_ge y1 (Dbl.ofNat SIZE_SF) 1000000000000000 0 (by norm_num) (by
      rw [hsize]
      simp only [Nat.cast_ofNat, zpow_zero, mul_one]
      nlinarith [hy1'.1])
    simpa using this
  have hp2 : (y1.mul (Dbl.ofNat SIZE_SF)).val ≤ (10000000000000000 : ℚ) := by
    have := Dbl.mul_le y1 (Dbl.ofNat SIZE_SF) 152587890625 16 (by norm_num) (by
      rw [hsize]
      norm_num
      nlinarith [hy1'.2])
    have e : ((152587890625 : ℕ) : ℚ) * (2 : ℚ) ^ (16 : Int) = 10000000000000000 := by
      norm_num
    rw [e] at this
    exact this
  have hfin := Dbl.toULL_bounds (y1.mul (Dbl.ofNat SIZE_SF)) 1000000000000000
    10000000000000000 (by norm_num) (by exact_mod_cast hp1) (by exact_mod_cast hp2)
  exact hfin

theorem roundLast_bounds (l : Nat) (h1 : 1000000000000000 ≤ l) (h2 : l ≤ 10000000000000000) :
    100000000000000 ≤ roundLast l ∧ roundLast l ≤ 1000000000000000 := by
  unfold roundLast
  split
  · rw [Nat.mod_eq_of_lt (by omega)]
    omega
  · omega

theorem fractionOf_lt (x : Nat) : fractionOf x < 2 ^ 52 := by
  unfold fractionOf
  have := Nat.and_pow_two_sub_one_eq_mod x 52
  norm_num at this
  rw [this]
  exact Nat.mod_lt _ (by norm_num)

theorem exponentOf_le (x : Nat) : exponentOf x ≤ 2047 := by
  unfold exponentOf
  have := Nat.and_pow_two_sub_one_eq_mod (x >>> 52) 11
  norm_num at this
  rw [this]
  have := Nat.mod_lt (x >>> 52) (by norm_num : 0 < 2048)
  omega

/-- With the tables as specified the rounded significand of a finite non-zero
double is not zero, so writeNumeric only appends to the buffer. -/
theorem writeNumeric_append (T : Lookups) (hT : T.WellFormed) (g : Globals) (x : Nat)
    (ch : List Char) : writeNumeric T g x ch = ch ++ writeNumeric T g x [] := by
  unfold writeNumeric
  by_cases hfin : R_FINITE x = true
  · by_cases hz : isZero x = true
    · simp [hfin, hz]
    · have he : exponentOf x < 2047 := by
        have h1 := exponentOf_le x
        have h2 : exponentOf x ≠ 2047 := by simpa [R_FINITE] using hfin
        omega
      have hb := significand_bounds T hT (fractionOf x) (exponentOf x) (fractionOf_lt x) he
      have hl := roundLast_bounds _ hb.1 hb.2
      have hl0 : ¬ (roundLast (significand T (fractionOf x) (exponentOf x)).1 = 0) := by omega
      simp only [hfin, hz, Bool.not_true, Bool.false_eq_true, if_false, hl0]
      split <;> simp
  · have hfin' : R_FINITE x = false := by simpa using hfin
    simp only [hfin', Bool.not_false, if_true]
    split
    · simp
    · split <;> simp

/-! ## The tables of section 4.H are well formed -/

theorem decLenAux_zero (fuel : Nat) : decLenAux fuel 0 = 0 := by
  cases fuel <;> simp [decLenAux]

theorem decLenAux_bounds : ∀ (fuel n : Nat), n ≤ fuel → 0 < n →
    10 ^ decLenAux fuel n ≤ 10 * n ∧ n < 10 ^ decLenAux fuel n := by
  intro fuel
  induction fuel with
  | zero => intro n h1 h2; omega
  | succ f ih =>
    intro n h1 h2
    have hn : ¬ (n = 0) := by omega
    rw [decLenAux, if_neg hn]
    rcases Nat.eq_zero_or_pos (n / 10) with h | h
    · rw [h, decLenAux_zero]
      constructor <;> omega
    · obtain ⟨i1, i2⟩ := ih (n / 10) (by omega) h
      rw [pow_succ]
      constructor <;> omega

theorem decLen_bounds (n : Nat) (h : 0 < n) : 10 ^ decLen n ≤ 10 * n ∧ n < 10 ^ decLen n :=
  decLenAux_bounds n n le_rfl h

theorem decLen_pos (n : Nat) (h : 0 < n) : 0 < decLen n := by
  rcases Nat.eq_zero_or_pos (decLen n) with h0 | h0
  · have := (decLen_bounds n h).2
    rw [h0] at this
    omega
  · exact h0

theorem expsigSpec_range (i : Nat) :
    1 ≤ (expsigSpec i).val ∧ (expsigSpec i).val ≤ 10 := by
  have key : ∀ m : Nat, 10 ^ 40 ≤ m → m ≤ 10 ^ 41 →
      1 ≤ (rnd m (10 ^ 40) 0).val ∧ (rnd m (10 ^ 40) 0).val ≤ 10 := by
    intro m h1 h2
    have h1q : ((10 ^ 40 : ℕ) : ℚ) ≤ (m : ℚ) := by exact_mod_cast h1
    have h2q : (m : ℚ) ≤ ((10 ^ 41 : ℕ) : ℚ) := by exact_mod_cast h2
    have hpos : (0 : ℚ) < ((10 ^ 40 : ℕ) : ℚ) := by positivity
    constructor
    · have := rnd_ge m (10 ^ 40) 0 1 0 (by positivity) (by norm_num) (by
        simp only [Nat.cast_one, zpow_zero, mul_one]
        rw [le_div_iff₀ hpos]
        simpa using h1q)
      simpa using this
    · have := rnd_le m (10 ^ 40) 0 10 0 (by positivity) (by norm_num) (by
        simp only [zpow_zero, mul_one]
        rw [div_le_iff₀ hpos]
        have e : ((10 : ℕ) : ℚ) * ((10 ^ 40 : ℕ) : ℚ) = ((10 ^ 41 : ℕ) : ℚ) := by norm_num
        rw [e]
        exact h2q)
      simpa using this
  unfold expsigSpec
  simp only []
  apply key
  · split
    · have hN : 0 < 2 ^ (i - 1023) := Nat.pow_pos (by norm_num)
      obtain ⟨b1, _⟩ := decLen_bounds _ hN
      have hL := decLen_pos _ hN
      have hp : 10 ^ decLen (2 ^ (i - 1023)) = 10 * 10 ^ (decLen (2 ^ (i - 1023)) - 1) := by
        have : decLen (2 ^ (i - 1023)) = (decLen (2 ^ (i - 1023)) - 1) + 1 := by omega
        rw [this, pow_succ, Nat.mul_comm]
        simp
      refine le_trans ?_ (le_roundDiv _ _)
      rw [Nat.le_div_iff_mul_le (Nat.pow_pos (by norm_num))]
      rw [hp] at b1
      have : 10 ^ (decLen (2 ^ (i - 1023)) - 1) ≤ 2 ^ (i - 1023) := by omega
      calc 10 ^ 40 * 10 ^ (decLen (2 ^ (i - 1023)) - 1)
          ≤ 10 ^ 40 * 2 ^ (i - 1023) := Nat.mul_le_mul_left _ this
        _ = 2 ^ (i - 1023) * 10 ^ 40 := Nat.mul_comm _ _
    · have hM : 0 < 2 ^ (1023 - i) := Nat.pow_pos (by norm_num)
      obtain ⟨_, b2⟩ := decLen_bounds _ hM
      refine le_trans ?_ (le_roundDiv _ _)
      rw [Nat.le_div_iff_mul_le hM]
      calc 10 ^ 40 * 2 ^ (1023 - i) ≤ 10 ^ 40 * 10 ^ decLen (2 ^ (1023 - i)) :=
            Nat.mul_le_mul_left _ b2.le
        _ = 10 ^ decLen (2 ^ (1023 - i)) * 10 ^ 40 := Nat.mul_comm _ _
  · split
    · have hN : 0 < 2 ^ (i - 1023) := Nat.pow_pos (by norm_num)
      obtain ⟨_, b2⟩ := decLen_bounds _ hN
      have hL := decLen_pos _ hN
      have hp : 10 ^ decLen (2 ^ (i - 1023)) = 10 * 10 ^ (decLen (2 ^ (i - 1023)) - 1) := by
        have : decLen (2 ^ (i - 1023)) = (decLen (2 ^ (i - 1023)) - 1) + 1 := by omega
        rw [this, pow_succ, Nat.mul_comm]
        simp
      apply roundDiv_le _ _ _ (Nat.pow_pos (by norm_num))
      calc 2 ^ (i - 1023) * 10 ^ 40 ≤ 10 ^ decLen (2 ^ (i - 1023)) * 10 ^ 40 :=
            Nat.mul_le_mul_right _ b2.le
        _ = 10 ^ 41 * 10 ^ (decLen (2 ^ (i - 1023)) - 1) := by
            rw [hp]
            ring
    · have hM : 0 < 2 ^ (1023 - i) := Nat.pow_pos (by norm_num)
      obtain ⟨b1, _⟩ := decLen_bounds _ hM
      apply roundDiv_le _ _ _ hM
      calc 10 ^ decLen (2 ^ (1023 - i)) * 10 ^ 40 ≤ 10 * 2 ^ (1023 - i) * 10 ^ 40 :=
            Nat.mul_le_mul_right _ b1
        _ = 10 ^ 41 * 2 ^ (1023 - i) := by ring

/-- The tables modelled from section 4.H satisfy what the section says of them. -/
theorem specLookups_wellFormed : specLookups.WellFormed where
  sigparts_zero := by simp [specLookups, sigpartsSpec, Dbl.zero, Dbl.val]
  sigparts_pow := by
    intro i h1 _
    have : ¬ (i = 0) := by omega
    simp [specLookups, sigpartsSpec, this, Dbl.val]
  expsig_range := fun i _ => expsigSpec_range i

/-! ## Rows -/

theorem writeCell_append (T : Lookups) (hT : T.WellFormed) (g : Globals) (L : Libc) (A : Args)
    (column : Column) (i : Nat) (ch : List Char) :
    writeCell T g L A column i ch = ch ++ writeCell T g L A column i [] := by
  cases column with
  | LGLSXP v => simp [writeCell]
  | INTSXP v levels =>
    simp only [writeCell]
    split
    · simp
    · cases levels with
      | none => simp only []; split <;> simp
      | some lev => simp
  | REALSXP v integer64 =>
    simp only [writeCell]
    split
    · split
      · simp
      · split <;> simp
    · split
      · exact writeNumeric_append T hT g _ ch
      · split <;> simp
  | STRSXP v => simp [writeCell]
  | OTHER len => simp [writeCell]

theorem foldl_cells (f : Column → List Char → List Char) (sep : Char)
    (hf : ∀ column ch, f column ch = ch ++ f column []) :
    ∀ (DF : List Column) (ch : List Char),
      DF.foldl (fun c column => f column c ++ [sep]) ch =
        ch ++ (DF.map (fun column => f column [] ++ [sep])).flatten := by
  intro DF
  induction DF with
  | nil => intro ch; simp
  | cons column rest ih =>
    intro ch
    rw [List.foldl_cons, ih, hf column ch]
    simp

theorem flatten_sep (sep : Char) : ∀ (fields : List (List Char)), fields ≠ [] →
    (fields.map (fun fld => fld ++ [sep])).flatten = [sep].intercalate fields ++ [sep] := by
  intro fields
  induction fields with
  | nil => intro h; exact absurd rfl h
  | cons fld rest ih =>
    intro _
    cases rest with
    | nil => simp [List.intercalate]
    | cons f2 r2 =>
      have := ih (by simp)
      rw [List.map_cons, List.flatten_cons, this]
      simp [List.intercalate, List.intersperse]

theorem length_intercalate (sep : Char) : ∀ (fields : List (List Char)), fields ≠ [] →
    ([sep].intercalate fields).length + 1 = (fields.map List.length).sum + fields.length := by
  intro fields
  induction fields with
  | nil => intro h; exact absurd rfl h
  | cons fld rest ih =>
    intro _
    cases rest with
    | nil => simp [List.intercalate]
    | cons f2 r2 =>
      have := ih (by simp)
      simp only [List.intercalate, List.intersperse, List.flatten_cons, List.length_append,
        List.length_cons, List.length_nil, List.map_cons, List.sum_cons] at this ⊢
      omega

/-! ## The rounded value: size and error -/

theorem roundDiv_le_succ (N D : Nat) : roundDiv N D ≤ N / D + 1 := by
  unfold roundDiv
  simp only []
  split <;> omega

/-- The scaled quotient has at most 53 bits. -/
theorem rndShift_upper (n d : Nat) (hn : 0 < n) (hd : 0 < d) :
    (n : ℚ) / (d : ℚ) * (2 : ℚ) ^ (rndShift n d) < (2 : ℚ) ^ (53 : ℕ) := by
  have hdq : (0 : ℚ) < (d : ℚ) := by exact_mod_cast hd
  obtain ⟨_, n2⟩ := bitLen_bounds n hn
  obtain ⟨d1, _⟩ := bitLen_bounds d hd
  have n2q : (n : ℚ) < (2 : ℚ) ^ (bitLen n) := by exact_mod_cast n2
  have d1q : (2 : ℚ) ^ (bitLen d) ≤ 2 * (d : ℚ) := by exact_mod_cast d1
  have hbn : (0 : ℚ) < (2 : ℚ) ^ (bitLen n) := by positivity
  have hbd : (0 : ℚ) < (2 : ℚ) ^ (bitLen d) := by positivity
  have two : (2 : ℚ) ≠ 0 := by norm_num
  have hk0 : (n : ℚ) / (d : ℚ) * (2 : ℚ) ^ ((53 : Int) + (bitLen d : Int) - (bitLen n : Int))
      < (2 : ℚ) ^ (54 : ℕ) := by
    rw [zpow_sub₀ two, zpow_add₀ two, zpow_natCast, zpow_natCast]
    have e1 : (n : ℚ) / (d : ℚ) * ((2 : ℚ) ^ (53 : Int) * (2 : ℚ) ^ bitLen d / (2 : ℚ) ^ bitLen n)
        = ((2 : ℚ) ^ (53 : ℕ)) * ((n : ℚ) * (2 : ℚ) ^ bitLen d) /
          ((d : ℚ) * (2 : ℚ) ^ bitLen n) := by
      have : (2 : ℚ) ^ (53 : Int) = 2 ^ (53 : ℕ) := by norm_num
      rw [this]
      field_simp
      ring
    rw [e1, div_lt_iff₀ (by positivity)]
    have h1 : (n : ℚ) * (2 : ℚ) ^ bitLen d < (2 : ℚ) ^ bitLen n * (2 * (d : ℚ)) := by
      calc (n : ℚ) * (2 : ℚ) ^ bitLen d < (2 : ℚ) ^ bitLen n * (2 : ℚ) ^ bitLen d :=
            mul_lt_mul_of_pos_right n2q hbd
        _ ≤ (2 : ℚ) ^ bitLen n * (2 * (d : ℚ)) := mul_le_mul_of_nonneg_left d1q hbn.le
    have h53 : (0 : ℚ) < (2 : ℚ) ^ (53 : ℕ) := by positivity
    have := mul_lt_mul_of_pos_left h1 h53
    have e54 : (2 : ℚ) ^ (54 : ℕ) = 2 ^ (53 : ℕ) * 2 := by norm_num
    rw [e54]
    nlinarith [this]
  unfold rndShift
  simp only []
  split
  · next hq =>
    have hD := scaleDen_pos d (53 + (bitLen d : Int) - (bitLen n : Int)) hd
    have hDq : (0 : ℚ) <
        ((scaleDen d (53 + (bitLen d : Int) - (bitLen n : Int)) : ℕ) : ℚ) := by
      exact_mod_cast hD
    have hlt := (Nat.div_lt_iff_lt_mul hD).mp hq
    have hltq : ((scaleNum n (53 + (bitLen d : Int) - (bitLen n : Int)) : ℕ) : ℚ) <
        ((2 : ℚ) ^ (53 : ℕ)) *
          ((scaleDen d (53 + (bitLen d : Int) - (bitLen n : Int)) : ℕ) : ℚ) := by
      exact_mod_cast hlt
    rw [← scale_eq, div_lt_iff₀ hDq]
    exact hltq
  · rw [zpow_sub₀ two _ 1, zpow_one, ← mul_div_assoc, div_lt_iff₀ (by norm_num)]
    calc _ < (2 : ℚ) ^ (54 : ℕ) := hk0
      _ = (2 : ℚ) ^ (53 : ℕ) * 2 := by norm_num

/-- The significand of a rounded value has 53 bits, or is `2^53` after a carry. -/
theorem rnd_m_bounds (n d : Nat) (e : Int) (hn : 0 < n) (hd : 0 < d) :
    2 ^ 52 ≤ (rnd n d e).m ∧ (rnd n d e).m ≤ 2 ^ 53 := by
  have hne : ¬ (n = 0) := by omega
  have hm : (rnd n d e).m = roundDiv (scaleNum n (rndShift n d)) (scaleDen d (rndShift n d)) := by
    simp [rnd, hne]
  rw [hm]
  set k := rndShift n d with hk
  have hD := scaleDen_pos d k hd
  have hDq : (0 : ℚ) < ((scaleDen d k : ℕ) : ℚ) := by exact_mod_cast hD
  have h1 := rndShift_lower n d hn hd
  have h2 := rndShift_upper n d hn hd
  rw [← hk, ← scale_eq] at h1 h2
  rw [le_div_iff₀ hDq] at h1
  rw [div_lt_iff₀ hDq] at h2
  have h1n : 2 ^ 52 * scaleDen d k ≤ scaleNum n k := by exact_mod_cast h1
  have h2n : scaleNum n k < 2 ^ 53 * scaleDen d k := by exact_mod_cast h2
  have hq1 : 2 ^ 52 ≤ scaleNum n k / scaleDen d k := (Nat.le_div_iff_mul_le hD).mpr h1n
  have hq2 : scaleNum n k / scaleDen d k < 2 ^ 53 := (Nat.div_lt_iff_lt_mul hD).mpr h2n
  have := le_roundDiv (scaleNum n k) (scaleDen d k)
  have := roundDiv_le_succ (scaleNum n k) (scaleDen d k)
  constructor <;> omega

theorem roundDiv_error (N D : Nat) (hD : 0 < D) :
    |(roundDiv N D : ℚ) - (N : ℚ) / (D : ℚ)| ≤ 1 / 2 := by
  have hDq : (0 : ℚ) < (D : ℚ) := by exact_mod_cast hD
  have hdm := Nat.div_add_mod N D
  have hmod := Nat.mod_lt N hD
  have hN : (N : ℚ) = (D : ℚ) * ((N / D : ℕ) : ℚ) + ((N % D : ℕ) : ℚ) := by
    exact_mod_cast hdm.symm
  have hr0 : (0 : ℚ) ≤ ((N % D : ℕ) : ℚ) := by positivity
  have hrD : ((N % D : ℕ) : ℚ) < (D : ℚ) := by exact_mod_cast hmod
  have hfrac : (N : ℚ) / (D : ℚ) = ((N / D : ℕ) : ℚ) + ((N % D : ℕ) : ℚ) / (D : ℚ) := by
    rw [hN]
    field_simp
    ring
  unfold roundDiv
  simp only []
  split
  · next h =>
    have h2 : (D : ℚ) ≤ 2 * ((N % D : ℕ) : ℚ) := by
      rcases h with h | h
      · exact_mod_cast h.le
      · exact_mod_cast h.1.ge
    rw [hfrac, abs_le]
    push_cast
    constructor
    · have : ((N % D : ℕ) : ℚ) / (D : ℚ) ≤ 1 := by
        rw [div_le_one hDq]
        exact hrD.le
      linarith
    · have : (1 : ℚ) / 2 ≤ ((N % D : ℕ) : ℚ) / (D : ℚ) := by
        rw [le_div_iff₀ hDq]
        linarith
      linarith
  · next h =>
    have h2 : 2 * ((N % D : ℕ) : ℚ) ≤ (D : ℚ) := by
      have : 2 * (N % D) ≤ D := by
        by_contra hc
        exact h (Or.inl (by omega))
      exact_mod_cast this
    rw [hfrac, abs_le]
    have t1 : (0 : ℚ) ≤ ((N % D : ℕ) : ℚ) / (D : ℚ) := by positivity
    have t2 : ((N % D : ℕ) : ℚ) / (D : ℚ) ≤ 1 / 2 := by
      rw [div_le_iff₀ hDq]
      linarith
    constructor <;> linarith

/-- Rounding moves a value by at most half a unit of the last place. -/
theorem rnd_error (n d : Nat) (e : Int) (hn : 0 < n) (hd : 0 < d) :
    |(rnd n d e).val - (n : ℚ) / (d : ℚ) * (2 : ℚ) ^ e| ≤ (2 : ℚ) ^ ((rnd n d e).e - 1) := by
  have hne : ¬ (n = 0) := by omega
  have he : (rnd n d e).e = e - rndShift n d := by simp [rnd, hne]
  rw [rnd_val n d e hn, he]
  set k := rndShift n d with hk
  have hD := scaleDen_pos d k hd
  have herr := roundDiv_error (scaleNum n k) (scaleDen d k) hD
  rw [scale_eq] at herr
  have two : (2 : ℚ) ≠ 0 := by norm_num
  have hpos : (0 : ℚ) < (2 : ℚ) ^ (e - k) := by positivity
  have e1 : (n : ℚ) / (d : ℚ) * (2 : ℚ) ^ e =
      ((n : ℚ) / (d : ℚ) * (2 : ℚ) ^ k) * (2 : ℚ) ^ (e - k) := by
    rw [mul_assoc, ← zpow_add₀ two]
    congr 2
    ring
  rw [e1, ← sub_mul, abs_mul, abs_of_pos hpos]
  have e2 : (2 : ℚ) ^ (e - k - 1) = 1 / 2 * (2 : ℚ) ^ (e - k) := by
    rw [zpow_sub₀ two, zpow_one]
    ring
  rw [e2]
  exact mul_le_mul_of_nonneg_right herr hpos.le

/-! ## The fields of a double -/

theorem fields_of_bits (S E frac : Nat) (hS : S = 0 ∨ S = 9223372036854775808) (hE : E < 2048)
    (hf : frac < 4503599627370496) :
    exponentOf (S + E * 4503599627370496 + frac) = E ∧
    fractionOf (S + E * 4503599627370496 + frac) = frac ∧
    signOf (S + E * 4503599627370496 + frac) = decide (S = 9223372036854775808) := by
  refine ⟨?_, ?_, ?_⟩
  · unfold exponentOf
    have h := Nat.and_pow_two_sub_one_eq_mod ((S + E * 4503599627370496 + frac) >>> 52) 11
    norm_num at h
    rw [h, Nat.shiftRight_eq_div_pow]
    norm_num
    rcases hS with hS | hS <;> subst hS <;> omega
  · unfold fractionOf
    have h := Nat.and_pow_two_sub_one_eq_mod (S + E * 4503599627370496 + frac) 52
    norm_num at h
    rw [h]
    rcases hS with hS | hS <;> subst hS <;> omega
  · unfold signOf
    rw [Nat.shiftRight_eq_div_pow]
    norm_num
    rcases hS with hS | hS <;> subst hS <;> simp <;> omega

theorem decimalValue_neg_of (dec_sep : Char) (text : List Char) (v : ℚ)
    (h : decimalValue dec_sep text = some v) (hh : text.head? ≠ some '-') :
    decimalValue dec_sep ('-' :: text) = some (-v) := by
  unfold decimalValue at h ⊢
  rw [if_neg hh] at h
  simp [h]

theorem Dbl.toULL_floor (a : Dbl) (A B : Nat) (hB : B < 18446744073709551616)
    (h1 : (A : ℚ) ≤ a.val) (h2 : a.val < (B : ℚ) + 1) : A ≤ a.toULL ∧ a.toULL ≤ B := by
  have key : A ≤ (if 0 ≤ a.e then a.m * 2 ^ a.e.toNat else a.m / 2 ^ (-a.e).toNat) ∧
      (if 0 ≤ a.e then a.m * 2 ^ a.e.toNat else a.m / 2 ^ (-a.e).toNat) ≤ B := by
    by_cases he : 0 ≤ a.e
    · rw [if_pos he]
      have hv : a.val = ((a.m * 2 ^ a.e.toNat : ℕ) : ℚ) := by
        simp only [Dbl.val, Nat.cast_mul, Nat.cast_pow, Nat.cast_ofNat]
        rw [← zpow_natCast, Int.toNat_of_nonneg he]
      rw [hv] at h1 h2
      refine ⟨by exact_mod_cast h1, ?_⟩
      have : a.m * 2 ^ a.e.toNat < B + 1 := by exact_mod_cast h2
      omega
    · rw [if_neg he]
      have hne : (0 : Int) ≤ -a.e := by omega
      have hpos : (0 : ℚ) < ((2 ^ (-a.e).toNat : ℕ) : ℚ) := by positivity
      have hv : a.val = (a.m : ℚ) / ((2 ^ (-a.e).toNat : ℕ) : ℚ) := by
        simp only [Dbl.val, Nat.cast_pow, Nat.cast_ofNat]
        rw [← zpow_natCast, Int.toNat_of_nonneg hne, zpow_neg, div_inv_eq_mul]
      rw [hv] at h1 h2
      constructor
      · rw [le_div_iff₀ hpos] at h1
        have : A * 2 ^ (-a.e).toNat ≤ a.m := by exact_mod_cast h1
        exact (Nat.le_div_iff_mul_le (Nat.pow_pos (by norm_num))).mpr this
      · have h3 : ((a.m / 2 ^ (-a.e).toNat : ℕ) : ℚ) ≤ (a.m : ℚ) / ((2 ^ (-a.e).toNat : ℕ) : ℚ) :=
          Nat.cast_div_le
        have h4 : ((a.m / 2 ^ (-a.e).toNat : ℕ) : ℚ) < ((B + 1 : ℕ) : ℚ) := by
          push_cast
          exact lt_of_le_of_lt h3 h2
        have : a.m / 2 ^ (-a.e).toNat < B + 1 := by exact_mod_cast h4
        omega
  unfold Dbl.toULL
  rw [Nat.mod_eq_of_lt (lt_of_le_of_lt key.2 hB)]
  exact key

/-! ## The digit loops of the layout stage -/

theorem lowDigits_length : ∀ (k l : Nat), (lowDigits k l).length = k := by
  intro k
  induction k with
  | zero => intro l; rfl
  | succ k ih => intro l; simp [lowDigits, ih]

theorem lowDigits_mem : ∀ (k l : Nat) (c : Char), c ∈ lowDigits k l →
    ∃ d, d < 10 ∧ c = Nat.digitChar d := by
  intro k
  induction k with
  | zero => intro l c h; simp [lowDigits] at h
  | succ k ih =>
    intro l c h
    rw [lowDigits, List.mem_append] at h
    rcases h with h | h
    · exact ih _ c h
    · exact ⟨l % 10, Nat.mod_lt _ (by norm_num), by simpa using h⟩

theorem fracDigits_run : ∀ (k l : Nat) (sf : Int) (out : List Char), (k : Int) ≤ sf →
    fracDigits k l (k : Int) sf out = (l / 10 ^ k, 0, sf - k, lowDigits k l ++ out) := by
  intro k
  induction k with
  | zero => intro l sf out _; simp [fracDigits, lowDigits]
  | succ k ih =>
    intro l sf out h
    have hc : ((k + 1 : ℕ) : Int) ≠ 0 ∧ sf ≠ 0 := by constructor <;> omega
    rw [fracDigits, if_pos hc]
    have e1 : ((k + 1 : ℕ) : Int) - 1 = (k : Int) := by omega
    rw [e1, ih (l / 10) (sf - 1) _ (by omega), toByte_digit _ (Nat.mod_lt _ (by norm_num))]
    have e2 : l / 10 / 10 ^ k = l / 10 ^ (k + 1) := by
      rw [Nat.div_div_eq_div_mul, pow_succ, Nat.mul_comm]
    have e3 : sf - 1 - (k : Int) = sf - ((k + 1 : ℕ) : Int) := by omega
    rw [e2, e3, lowDigits]
    simp

theorem intDigits_run : ∀ (k l : Nat) (out : List Char),
    intDigits k l (k : Int) out = lowDigits k l ++ out := by
  intro k
  induction k with
  | zero => intro l out; simp [intDigits, lowDigits]
  | succ k ih =>
    intro l out
    have hc : ((k + 1 : ℕ) : Int) ≠ 0 := by omega
    rw [intDigits, if_pos hc]
    have e1 : ((k + 1 : ℕ) : Int) - 1 = (k : Int) := by omega
    rw [e1, ih, toByte_digit _ (Nat.mod_lt _ (by norm_num)), lowDigits]
    simp

theorem readDigitsFrom_append : ∀ (a b : List Char) (acc : Nat),
    readDigitsFrom acc (a ++ b) = (readDigitsFrom acc a).bind (fun v => readDigitsFrom v b) := by
  intro a
  induction a with
  | nil => intro b acc; rfl
  | cons c a ih =>
    intro b acc
    simp only [List.cons_append, readDigitsFrom]
    cases digitVal c with
    | none => rfl
    | some v => simp [ih]

theorem readDigitsFrom_lowDigits : ∀ (k l acc : Nat),
    readDigitsFrom acc (lowDigits k l) = some (acc * 10 ^ k + l % 10 ^ k) := by
  intro k
  induction k with
  | zero => intro l acc; simp [lowDigits, readDigitsFrom, Nat.mod_one]
  | succ k ih =>
    intro l acc
    rw [lowDigits, readDigitsFrom_append, ih]
    simp only [Option.some_bind, readDigitsFrom,
      digitVal_digitChar _ (Nat.mod_lt l (by norm_num : 0 < 10))]
    congr 1
    have h1 : l % 10 ^ (k + 1) = l % 10 + 10 * (l / 10 % 10 ^ k) := by
      rw [pow_succ, Nat.mul_comm, Nat.mod_mul]
    rw [h1, pow_succ]
    ring

theorem readDigits_lowDigits (k l : Nat) (hk : 0 < k) :
    readDigits (lowDigits k l) = some (l % 10 ^ k) := by
  have hne : lowDigits k l ≠ [] := by
    intro h
    have := lowDigits_length k l
    rw [h] at this
    simp at this
    omega
  rw [readDigits, if_neg hne, readDigitsFrom_lowDigits]
  simp

theorem stripZeros_spec : ∀ (fuel l : Nat) (tz : Int), 0 < l → l ≤ fuel →
    ∃ t : Nat, stripZeros fuel l tz = (l / 10 ^ t, tz + t) ∧ l / 10 ^ t * 10 ^ t = l ∧
      (l / 10 ^ t) % 10 ≠ 0 := by
  intro fuel
  induction fuel with
  | zero => intro l tz h1 h2; omega
  | succ f ih =>
    intro l tz h1 h2
    by_cases h : l % 10 = 0
    · rw [stripZeros, if_pos h]
      obtain ⟨t, e1, e2, e3⟩ := ih (l / 10) (tz + 1) (by omega) (by omega)
      have hd : l / 10 / 10 ^ t = l / 10 ^ (t + 1) := by
        rw [Nat.div_div_eq_div_mul, pow_succ, Nat.mul_comm]
      refine ⟨t + 1, ?_, ?_, ?_⟩
      · rw [e1, hd]
        congr 1
        push_cast
        ring
      · rw [← hd, pow_succ, ← Nat.mul_assoc, e2]
        omega
      · rw [← hd]
        exact e3
    · rw [stripZeros, if_neg h]
      exact ⟨0, by simp, by simp, by simpa using h⟩

theorem digitChar_ne_e (d : Nat) (h : d < 10) : Nat.digitChar d ≠ 'e' := by
  interval_cases d <;> decide

/-- Reading back a leading digit followed by `dec_sep` and `k` further digits. -/
theorem decimalValue_fixed (dec_sep : Char) (hs1 : digitVal dec_sep = none)
    (hs2 : dec_sep ≠ 'e') (lead k l : Nat) (hlead : lead < 10) :
    decimalValue dec_sep
        (Nat.digitChar lead :: (if k = 0 then [] else dec_sep :: lowDigits k l)) =
      some (if k = 0 then (lead : ℚ) else (lead : ℚ) + ((l % 10 ^ k : ℕ) : ℚ) / (10 : ℚ) ^ k) := by
  have hc1 : Nat.digitChar lead ≠ '-' := (digitChar_not_sign lead hlead).2
  have hc2 : Nat.digitChar lead ≠ 'e' := digitChar_ne_e lead hlead
  have hc3 : Nat.digitChar lead ≠ dec_sep := by
    intro h
    rw [← h, digitVal_digitChar lead hlead] at hs1
    exact absurd hs1 (by simp)
  have hrd : readDigits [Nat.digitChar lead] = some lead := by
    simp [readDigits, readDigitsFrom, digitVal_digitChar lead hlead]
  have hlow_e : ∀ c ∈ lowDigits k l, c ≠ 'e' := by
    intro c hc
    obtain ⟨d, hd, rfl⟩ := lowDigits_mem k l c hc
    exact digitChar_ne_e d hd
  have hlow_s : ∀ c ∈ lowDigits k l, c ≠ dec_sep := by
    intro c hc
    obtain ⟨d, hd, rfl⟩ := lowDigits_mem k l c hc
    intro h
    rw [← h, digitVal_digitChar d hd] at hs1
    exact absurd hs1 (by simp)
  unfold decimalValue
  have hh : (Nat.digitChar lead :: (if k = 0 then [] else dec_sep :: lowDigits k l)).head? ≠
      some '-' := by
    simp only [List.head?_cons, ne_eq, Option.some.injEq]
    exact hc1
  rw [if_neg hh]
  unfold readUnsigned
  have hall : ∀ c ∈ (Nat.digitChar lead :: (if k = 0 then [] else dec_sep :: lowDigits k l)),
      (fun c => decide (c ≠ 'e')) c = true := by
    intro c hc
    simp only [decide_eq_true_eq]
    rcases List.mem_cons.mp hc with h | h
    · rw [h]; exact hc2
    · split at h
      · simp at h
      · rcases List.mem_cons.mp h with h | h
        · rw [h]; exact hs2
        · exact hlow_e c h
  have hspan : (Nat.digitChar lead :: (if k = 0 then [] else dec_sep :: lowDigits k l)).span
      (fun c => decide (c ≠ 'e')) =
      (Nat.digitChar lead :: (if k = 0 then [] else dec_sep :: lowDigits k l), []) := by
    rw [List.span_eq_take_drop, List.takeWhile_eq_self_iff.mpr hall,
      List.dropWhile_eq_nil_iff.mpr hall]
  simp only [hspan]
  unfold readFixed
  by_cases hk : k = 0
  · simp only [hk, if_true]
    have hspan2 : [Nat.digitChar lead].span (fun c => decide (c ≠ dec_sep)) =
        ([Nat.digitChar lead], []) := by
      rw [List.span_eq_take_drop]
      simp [List.takeWhile, List.dropWhile, hc3]
    simp only [hspan2, hrd, Option.map_some']
  · simp only [hk, if_false]
    have hspan2 : (Nat.digitChar lead :: dec_sep :: lowDigits k l).span
        (fun c => decide (c ≠ dec_sep)) = ([Nat.digitChar lead], dec_sep :: lowDigits k l) := by
      rw [List.span_eq_take_drop]
      simp [List.takeWhile, List.dropWhile, hc3]
    simp only [hspan2, hrd, Option.some_bind,
      readDigits_lowDigits k l (Nat.pos_of_ne_zero hk), Option.map_some', lowDigits_length]

/-! ## Special values and missing cells -/

theorem writeNumeric_nan (T : Lookups) (g : Globals) (x : Nat) (ch : List Char)
    (h : ISNAN x = true) : writeNumeric T g x ch = ch ++ g.na_str := by
  have hf : R_FINITE x = false := by
    simp only [ISNAN, decide_eq_true_eq] at h
    simp [R_FINITE, h.1]
  simp [writeNumeric, hf, h]

theorem writeCell_missing_eq (T : Lookups) (g : Globals) (L : Libc) (A : Args)
    (column : Column) (i : Nat) (ch : List Char) (h : isMissing column i = true) :
    writeCell T g L A column i ch = ch ++ g.na_str := by
  cases column with
  | LGLSXP v =>
    simp only [isMissing, decide_eq_true_eq] at h
    simp only [writeCell, writeLogical]
    rw [if_pos h]
  | INTSXP v levels =>
    simp only [isMissing, decide_eq_true_eq] at h
    simp only [writeCell]
    rw [if_pos h]
  | REALSXP v integer64 =>
    cases integer64 with
    | true =>
      simp only [isMissing, decide_eq_true_eq] at h
      simp only [writeCell, if_true]
      rw [if_pos h]
    | false =>
      simp only [isMissing] at h
      cases hturbo : A.turbo
      · simp only [writeCell, hturbo, Bool.false_eq_true, if_false]
        rw [if_pos h]
      · simp only [writeCell, hturbo, Bool.false_eq_true, if_false, if_true]
        exact writeNumeric_nan T g _ ch h
  | STRSXP v =>
    simp only [isMissing, decide_eq_true_eq] at h
    simp only [writeCell]
    rw [h]
    rfl
  | OTHER len => simp [isMissing] at h

/-- A double below the normal range is formatted as if its leading bit were set:
the smallest subnormal, bits `0x1` (about `4.9e-324`), is written as
`1.1125369292536e-308`, with the tables as section 4.H describes them. -/
theorem writeNumeric_subnormal_example :
    writeNumeric specLookups scenarioGlobals 1 [] =
      ['1', '.', '1', '1', '2', '5', '3', '6', '9', '2', '9', '2', '5', '3', '6', 'e', '-',
        '3', '0', '8'] := by
  set_option maxRecDepth 100000 in
  decide

/-! ## The specialised row loops against the general one -/

theorem writeCell_plain_real (T : Lookups) (g : Globals) (L : Libc) (A : Args) (v : List Nat)
    (i : Nat) (ch : List Char) (hturbo : A.turbo = true) :
    writeCell T g L A (Column.REALSXP v false) i ch =
      writeCellReal T g (Column.REALSXP v false) i ch := by
  simp [writeCell, writeCellReal, realAt, hturbo]

theorem writeCell_plain_int (T : Lookups) (g : Globals) (L : Libc) (A : Args) (v : List Int)
    (i : Nat) (ch : List Char) (hturbo : A.turbo = true) :
    writeCell T g L A (Column.INTSXP v none) i ch =
      writeCellInt g (Column.INTSXP v none) i ch := by
  simp only [writeCell, writeCellInt, integerAt, hturbo, if_true]

theorem writeRow_plain_real (T : Lookups) (g : Globals) (L : Libc) (A : Args) (DF : List Column)
    (i : Nat) (ch : List Char) (hturbo : A.turbo = true) (hrn : A.doRowNames = false)
    (hDF : ∀ column ∈ DF, ∃ v, column = Column.REALSXP v false) :
    writeRowReal T g A DF i ch = writeRow T g L A DF i ch := by
  simp only [writeRow, writeRowReal, writeRowName, hrn]
  congr 2
  apply List.foldl_ext
  intro c column hmem
  obtain ⟨v, rfl⟩ := hDF column hmem
  rw [writeCell_plain_real T g L A v i c hturbo]

theorem writeRow_plain_int (T : Lookups) (g : Globals) (L : Libc) (A : Args) (DF : List Column)
    (i : Nat) (ch : List Char) (hturbo : A.turbo = true) (hrn : A.doRowNames = false)
    (hDF : ∀ column ∈ DF, ∃ v, column = Column.INTSXP v none) :
    writeRowInt g A DF i ch = writeRow T g L A DF i ch := by
  simp only [writeRow, writeRowInt, writeRowName, hrn]
  congr 2
  apply List.foldl_ext
  intro c column hmem
  obtain ⟨v, rfl⟩ := hDF column hmem
  rw [writeCell_plain_int T g L A v i c hturbo]

theorem sameType_fold_real : ∀ (DF : List Column),
    (∀ column ∈ DF, ∃ v, column = Column.REALSXP v false) →
    DF.foldl (fun st column =>
      if isFactor column then 0
      else if isInteger64 column then 0
      else if TYPEOF column ≠ st then 0 else st) 14 = 14 := by
  intro DF
  induction DF with
  | nil => intro _; rfl
  | cons column rest ih =>
    intro h
    obtain ⟨v, rfl⟩ := h _ (List.mem_cons_self _ _)
    rw [List.foldl_cons]
    simp only [isFactor, isInteger64, TYPEOF]
    exact ih (fun c hc => h c (List.mem_cons_of_mem _ hc))

theorem sameType_fold_int : ∀ (DF : List Column),
    (∀ column ∈ DF, ∃ v, column = Column.INTSXP v none) →
    DF.foldl (fun st column =>
      if isFactor column then 0
      else if isInteger64 column then 0
      else if TYPEOF column ≠ st then 0 else st) 13 = 13 := by
  intro DF
  induction DF with
  | nil => intro _; rfl
  | cons column rest ih =>
    intro h
    obtain ⟨v, rfl⟩ := h _ (List.mem_cons_self _ _)
    rw [List.foldl_cons]
    simp only [isFactor, isInteger64, TYPEOF]
    exact ih (fun c hc => h c (List.mem_cons_of_mem _ hc))

theorem sameType_plain_real (DF : List Column) (hne : DF ≠ [])
    (hDF : ∀ column ∈ DF, ∃ v, column = Column.REALSXP v false) : sameType DF = 14 := by
  cases DF with
  | nil => exact absurd rfl hne
  | cons column rest =>
    obtain ⟨v, hv⟩ := hDF column (List.mem_cons_self _ _)
    unfold sameType
    have : TYPEOF ((column :: rest).headD (Column.OTHER 0)) = 14 := by
      rw [hv]; rfl
    rw [this]
    exact sameType_fold_real _ hDF

theorem sameType_plain_int (DF : List Column) (hne : DF ≠ [])
    (hDF : ∀ column ∈ DF, ∃ v, column = Column.INTSXP v none) : sameType DF = 13 := by
  cases DF with
  | nil => exact absurd rfl hne
  | cons column rest =>
    obtain ⟨v, hv⟩ := hDF column (List.mem_cons_self _ _)
    unfold sameType
    have : TYPEOF ((column :: rest).headD (Column.OTHER 0)) = 13 := by
      rw [hv]; rfl
    rw [this]
    exact sameType_fold_int _ hDF

/-! ## The batch loop -/

theorem batchEnd_eq_min (nrow rpb start : Nat) (h : 1 ≤ rpb) :
    batchEnd nrow rpb start = min nrow (start + rpb) := by
  unfold batchEnd
  split <;> omega

theorem batchCount_step (nrow rpb start : Nat) (h : 1 ≤ rpb) (hs : start < nrow) :
    (nrow - start + rpb - 1) / rpb = (nrow - (start + rpb) + rpb - 1) / rpb + 1 := by
  rcases Nat.lt_or_ge nrow (start + rpb) with hlt | hge
  · have h0 : (nrow - (start + rpb) + rpb - 1) / rpb = 0 :=
      Nat.div_eq_of_lt (by omega)
    rw [h0]
    exact Nat.div_eq_of_lt_le (by omega) (by omega)
  · have : nrow - start + rpb - 1 = (nrow - (start + rpb) + rpb - 1) + rpb := by omega
    rw [this, Nat.add_div_right _ (by omega : 0 < rpb)]

theorem batchStarts_eq (nrow rpb : Nat) (h : 1 ≤ rpb) : ∀ (fuel start : Nat),
    nrow - start ≤ fuel →
    batchStarts nrow rpb fuel start =
      (List.range ((nrow - start + rpb - 1) / rpb)).map (fun k => start + k * rpb) := by
  intro fuel
  induction fuel with
  | zero =>
    intro start hf
    have : (nrow - start + rpb - 1) / rpb = 0 := Nat.div_eq_of_lt (by omega)
    rw [this]
    rfl
  | succ fuel ih =>
    intro start hf
    unfold batchStarts
    by_cases hs : start < nrow
    · rw [if_pos hs, ih (start + rpb) (by omega), batchCount_step nrow rpb start h hs,
        List.range_succ_eq_map, List.map_cons, List.map_map]
      congr 1
      · simp
      · apply List.map_congr_left
        intro k _
        simp only [Function.comp, Nat.succ_eq_add_one]
        ring
    · rw [if_neg hs]
      have : (nrow - start + rpb - 1) / rpb = 0 := Nat.div_eq_of_lt (by omega)
      rw [this]
      rfl

theorem batchCount_zero (nrow rpb : Nat) (h1 : 1 ≤ nrow) (h : 1 ≤ rpb) :
    (nrow - 0 + rpb - 1) / rpb = (nrow - 1) / rpb + 1 := by
  have : nrow - 0 + rpb - 1 = (nrow - 1) + rpb := by omega
  rw [this, Nat.add_div_right _ (by omega : 0 < rpb)]

theorem batches_eq (nrow rpb : Nat) (h1 : 1 ≤ nrow) (h : 1 ≤ rpb) :
    batches nrow rpb =
      (List.range ((nrow - 1) / rpb + 1)).map
        (fun k => (k * rpb, min nrow (k * rpb + rpb))) := by
  unfold batches
  rw [batchStarts_eq nrow rpb h nrow 0 (by omega), batchCount_zero nrow rpb h1 h,
    List.map_map]
  apply List.map_congr_left
  intro k _
  simp only [Function.comp, Nat.zero_add, batchEnd_eq_min nrow rpb (k * rpb) h]

theorem batches_getElem? (nrow rpb k : Nat) (h1 : 1 ≤ nrow) (h : 1 ≤ rpb)
    (hk : k < (nrow - 1) / rpb + 1) :
    (batches nrow rpb)[k]? = some (k * rpb, min nrow (k * rpb + rpb)) := by
  rw [batches_eq nrow rpb h1 h, List.getElem?_map, List.getElem?_range hk]
  rfl

theorem batches_length (nrow rpb : Nat) (h1 : 1 ≤ nrow) (h : 1 ≤ rpb) :
    (batches nrow rpb).length = (nrow - 1) / rpb + 1 := by
  rw [batches_eq nrow rpb h1 h, List.length_map, List.length_range]

/-- The last batch begins below `nrow`. -/
theorem batch_start_lt (nrow rpb k : Nat) (h1 : 1 ≤ nrow)
    (hk : k < (nrow - 1) / rpb + 1) : k * rpb < nrow := by
  have hk2 : k ≤ (nrow - 1) / rpb := by omega
  have := Nat.mul_le_mul_right rpb hk2
  have h3 := Nat.div_mul_le_self (nrow - 1) rpb
  omega

/-- The batch that holds row `i` is batch `i / rowsPerBatch` and no other. -/
theorem batch_of_row (nrow rpb i k : Nat) (h : 1 ≤ rpb) (hi : i < nrow) :
    (k * rpb ≤ i ∧ i < min nrow (k * rpb + rpb)) ↔ k = i / rpb := by
  constructor
  · rintro ⟨hlo, hhi⟩
    have hhi2 : i < (k + 1) * rpb := by
      have : i < k * rpb + rpb := lt_of_lt_of_le hhi (min_le_right _ _)
      rw [Nat.add_mul, Nat.one_mul]; exact this
    exact (Nat.div_eq_of_lt_le hlo hhi2).symm
  · intro hk
    subst hk
    have hlo := Nat.div_mul_le_self i rpb
    have hhi := Nat.lt_div_mul_add (a := i) (b := rpb) (by omega)
    refine ⟨hlo, lt_min hi ?_⟩
    omega

theorem batch_index_lt (nrow rpb i : Nat) (hi : i < nrow) :
    i / rpb < (nrow - 1) / rpb + 1 := by
  have : i / rpb ≤ (nrow - 1) / rpb := Nat.div_le_div_right (by omega)
  omega

theorem batches_getElem?_some (nrow rpb k : Nat) (b : Nat × Nat) (h1 : 1 ≤ nrow) (h : 1 ≤ rpb)
    (hb : (batches nrow rpb)[k]? = some b) :
    k < (nrow - 1) / rpb + 1 ∧ b = (k * rpb, min nrow (k * rpb + rpb)) := by
  by_cases hk : k < (nrow - 1) / rpb + 1
  · rw [batches_getElem? nrow rpb k h1 h hk] at hb
    exact ⟨hk, (Option.some.inj hb).symm⟩
  · have hlen := batches_length nrow rpb h1 h
    have : (batches nrow rpb)[k]? = none := List.getElem?_eq_none (by omega)
    rw [this] at hb
    exact absurd hb (by simp)

theorem numBatches_eq (nrow rpb : Nat) (h1 : 1 ≤ nrow) :
    numBatches nrow rpb = (((nrow - 1) / rpb + 1 : Nat) : Int) := by
  unfold numBatches
  push_cast [Nat.cast_sub h1]
  rfl

theorem numBatches_ceil (nrow rpb : Nat) (h1 : 1 ≤ nrow) (h : 1 ≤ rpb) :
    numBatches nrow rpb = ⌈(nrow : ℚ) / (rpb : ℚ)⌉ := by
  rw [numBatches_eq nrow rpb h1]
  symm
  rw [Int.ceil_eq_iff]
  have hr : (0 : ℚ) < (rpb : ℚ) := by exact_mod_cast h
  have hlo := Nat.div_mul_le_self (nrow - 1) rpb
  have hhi := Nat.lt_mul_div_succ (nrow - 1) (by omega : 0 < rpb)
  generalize (nrow - 1) / rpb = q at hlo hhi
  have e1 : (((q + 1 : Nat) : Int) : ℚ) = (q : ℚ) + 1 := by push_cast; ring
  rw [e1]
  constructor
  · rw [lt_div_iff₀ hr]
    have : q * rpb < nrow := by omega
    have h2 : ((q * rpb : Nat) : ℚ) < (nrow : ℚ) := by exact_mod_cast this
    push_cast at h2
    linarith
  · rw [div_le_iff₀ hr]
    have : nrow ≤ rpb * (q + 1) := by omega
    have h2 : (nrow : ℚ) ≤ ((rpb * (q + 1) : Nat) : ℚ) := by exact_mod_cast this
    push_cast at h2
    linarith

/-! ## Rows and batches only append -/

theorem dropLast_append_flatten (sep : Char) (ch : List Char) (cells : List (List Char))
    (hne : cells ≠ []) :
    (ch ++ (cells.map (fun c => c ++ [sep])).flatten).dropLast =
      ch ++ ((cells.map (fun c => c ++ [sep])).flatten).dropLast := by
  apply List.dropLast_append_of_ne_nil
  cases cells with
  | nil => exact absurd rfl hne
  | cons c rest => simp

theorem rowFold_append (f : Column → List Char → List Char) (sep : Char) (row_sep : List Char)
    (hf : ∀ column ch, f column ch = ch ++ f column [])
    (DF : List Column) (hne : DF ≠ []) (ch : List Char) :
    (DF.foldl (fun c column => f column c ++ [sep]) ch).dropLast ++ row_sep =
      ch ++ ((DF.foldl (fun c column => f column c ++ [sep]) []).dropLast ++ row_sep) := by
  rw [foldl_cells f sep hf DF ch, foldl_cells f sep hf DF []]
  have hm : DF.map (fun column => f column []) ≠ [] := by
    cases DF with
    | nil => exact absurd rfl hne
    | cons c rest => simp
  have e : DF.map (fun column => f column [] ++ [sep]) =
      (DF.map (fun column => f column [])).map (fun c => c ++ [sep]) := by
    rw [List.map_map]; rfl
  rw [e, dropLast_append_flatten sep ch _ hm, dropLast_append_flatten sep [] _ hm]
  simp

theorem writeRow_append (T : Lookups) (hT : T.WellFormed) (g : Globals) (L : Libc) (A : Args)
    (DF : List Column) (hne : DF ≠ []) (i : Nat) (ch : List Char) :
    writeRow T g L A DF i ch = ch ++ writeRow T g L A DF i [] := by
  unfold writeRow
  simp only []
  rw [rowFold_append (fun column c => writeCell T g L A column i c) g.col_sep A.row_sep
      (fun column c => writeCell_append T hT g L A column i c) DF hne (writeRowName g A i ch),
    rowFold_append (fun column c => writeCell T g L A column i c) g.col_sep A.row_sep
      (fun column c => writeCell_append T hT g L A column i c) DF hne (writeRowName g A i [])]
  unfold writeRowName
  split <;> simp

theorem writeRowReal_append (T : Lookups) (hT : T.WellFormed) (g : Globals) (A : Args)
    (DF : List Column) (hne : DF ≠ []) (i : Nat) (ch : List Char) :
    writeRowReal T g A DF i ch = ch ++ writeRowReal T g A DF i [] := by
  unfold writeRowReal
  simp only []
  exact rowFold_append (fun column c => writeCellReal T g column i c) g.col_sep A.row_sep
      (fun column c => writeNumeric_append T hT g _ c) DF hne ch

theorem writeCellInt_append (g : Globals) (column : Column) (i : Nat) (ch : List Char) :
    writeCellInt g column i ch = ch ++ writeCellInt g column i [] := by
  unfold writeCellInt
  split <;> simp

theorem writeRowInt_append (g : Globals) (A : Args)
    (DF : List Column) (hne : DF ≠ []) (i : Nat) (ch : List Char) :
    writeRowInt g A DF i ch = ch ++ writeRowInt g A DF i [] := by
  unfold writeRowInt
  simp only []
  exact rowFold_append (fun column c => writeCellInt g column i c) g.col_sep A.row_sep
      (fun column c => writeCellInt_append g column i c) DF hne ch

theorem foldl_rows (f : Nat → List Char → List Char)
    (hf : ∀ i ch, f i ch = ch ++ f i []) : ∀ (rows : List Nat) (ch : List Char),
    rows.foldl (fun c i => f i c) ch = ch ++ rows.flatMap (fun i => f i []) := by
  intro rows
  induction rows with
  | nil => intro ch; simp
  | cons i rest ih =>
    intro ch
    rw [List.foldl_cons, ih, hf i ch]
    simp

/-- A batch of one row. -/
theorem writeBatch_single (T : Lookups) (g : Globals) (L : Libc) (A : Args) (DF : List Column)
    (i : Nat) :
    writeBatch T g L A DF i (i + 1) =
      if A.turbo ∧ sameType DF = 14 ∧ ¬ A.doRowNames then writeRowReal T g A DF i []
      else if A.turbo ∧ sameType DF = 13 ∧ ¬ A.doRowNames then writeRowInt g A DF i []
      else writeRow T g L A DF i [] := by
  unfold writeBatch
  have : ((List.range (i + 1 - i)).map (fun k => i + k)) = [i] := by
    rw [Nat.add_sub_cancel_left]; rfl
  simp only [this, List.foldl_cons, List.foldl_nil]

/-- The bytes of a batch are the bytes of its rows, each formatted from an empty
buffer, one after another. -/
theorem writeBatch_eq_flatMap (T : Lookups) (hT : T.WellFormed) (g : Globals) (L : Libc)
    (A : Args) (DF : List Column) (hne : DF ≠ []) (start stop : Nat) :
    writeBatch T g L A DF start stop =
      ((List.range (stop - start)).map (fun k => start + k)).flatMap
        (fun i => writeBatch T g L A DF i (i + 1)) := by
  simp only [writeBatch_single]
  unfold writeBatch
  simp only []
  split
  · rw [foldl_rows (fun i c => writeRowReal T g A DF i c)
      (fun i c => writeRowReal_append T hT g A DF hne i c)]
    simp
  · split
    · rw [foldl_rows (fun i c => writeRowInt g A DF i c)
        (fun i c => writeRowInt_append g A DF hne i c)]
      simp
    · rw [foldl_rows (fun i c => writeRow T g L A DF i c)
        (fun i c => writeRow_append T hT g L A DF hne i c)]
      simp

theorem rows_split (a b c : Nat) (hab : a ≤ b) (hbc : b ≤ c) :
    (List.range (c - a)).map (fun k => a + k) =
      (List.range (b - a)).map (fun k => a + k) ++ (List.range (c - b)).map (fun k => b + k) := by
  obtain ⟨m, rfl⟩ := Nat.exists_eq_add_of_le hab
  obtain ⟨n, rfl⟩ := Nat.exists_eq_add_of_le hbc
  have e1 : a + m + n - a = m + n := by omega
  have e2 : a + m - a = m := by omega
  have e3 : a + m + n - (a + m) = n := by omega
  rw [e1, e2, e3, List.range_add, List.map_append, List.map_map]
  congr 1
  apply List.map_congr_left
  intro k _
  simp only [Function.comp]
  omega

/-- The buffers of the batches from `start` on, one after another, are the rows
from `start` to `nrow`. -/
theorem batchStarts_flatten (enc : Nat → List Char) (nrow rpb : Nat) (h : 1 ≤ rpb) :
    ∀ (fuel start : Nat), nrow - start ≤ fuel →
    ((batchStarts nrow rpb fuel start).map (fun s =>
      ((List.range (batchEnd nrow rpb s - s)).map (fun k => s + k)).flatMap enc)).flatten =
      ((List.range (nrow - start)).map (fun k => start + k)).flatMap enc := by
  intro fuel
  induction fuel with
  | zero =>
    intro start hf
    have : nrow - start = 0 := by omega
    simp [batchStarts, this]
  | succ fuel ih =>
    intro start hf
    unfold batchStarts
    by_cases hs : start < nrow
    · rw [if_pos hs, List.map_cons, List.flatten_cons, ih (start + rpb) (by omega),
        batchEnd_eq_min nrow rpb start h]
      rcases Nat.lt_or_ge nrow (start + rpb) with hlt | hge
      · have e1 : min nrow (start + rpb) = nrow := min_eq_left (by omega)
        have e2 : nrow - (start + rpb) = 0 := by omega
        rw [e1, e2]
        simp
      · have e1 : min nrow (start + rpb) = start + rpb := min_eq_right hge
        rw [e1, rows_split start (start + rpb) nrow (by omega) hge, List.flatMap_append]
    · rw [if_neg hs]
      have : nrow - start = 0 := by omega
      simp [this]

/-- The buffers of all batches, in the order of the loop, are the rows `0..nrow-1`
one after another. -/
theorem batches_flatten (T : Lookups) (hT : T.WellFormed) (g : Globals) (L : Libc)
    (A : Args) (DF : List Column) (hne : DF ≠ []) (nrow rpb : Nat) (h : 1 ≤ rpb) :
    ((batches nrow rpb).map (fun b => writeBatch T g L A DF b.1 b.2)).flatten =
      (List.range nrow).flatMap (fun i => writeBatch T g L A DF i (i + 1)) := by
  unfold batches
  rw [List.map_map]
  have e : ((fun b : Nat × Nat => writeBatch T g L A DF b.1 b.2) ∘
      fun start => (start, batchEnd nrow rpb start)) =
      fun s => ((List.range (batchEnd nrow rpb s - s)).map (fun k => s + k)).flatMap
        (fun i => writeBatch T g L A DF i (i + 1)) := by
    funext s
    exact writeBatch_eq_flatMap T hT g L A DF hne s (batchEnd nrow rpb s)
  rw [e, batchStarts_flatten _ nrow rpb h nrow 0 (by omega)]
  simp

/-- While no write fails, the batch loop appends the buffers to the file. -/
theorem foldl_batchStep_ok (T : Lookups) (g : Globals) (L : Libc) (S : Sys) (A : Args)
    (DF : List Column) (nrow rpb : Nat) (hw : ∀ k, S.writeErr k = none) :
    ∀ (starts : List Nat) (r : Int) (snk : List Char),
    starts.foldl (batchStep T g L S A DF false nrow rpb) ⟨false, r, snk⟩ =
      ⟨false, r, snk ++ (starts.map (fun s =>
        writeBatch T g L A DF s (batchEnd nrow rpb s))).flatten⟩ := by
  intro starts
  induction starts with
  | nil => intro r snk; simp
  | cons s rest ih =>
    intro r snk
    rw [List.foldl_cons]
    have : batchStep T g L S A DF false nrow rpb ⟨false, r, snk⟩ s =
        ⟨false, r, snk ++ writeBatch T g L A DF s (batchEnd nrow rpb s)⟩ := by
      simp [batchStep, orderedWrite, hw]
    rw [this, ih]
    simp

/-! ## The failure latch -/

theorem step_failed (T : Lookups) (g : Globals) (L : Libc) (S : Sys) (A : Args)
    (DF : List Column) (toStdout : Bool) (nrow rpb : Nat) (s : SinkState) (ev : Event)
    (hf : s.failed = true) :
    (step T g L S A DF toStdout nrow rpb s ev).failed = true ∧
      (step T g L S A DF toStdout nrow rpb s ev).sink = s.sink := by
  cases ev with
  | alloc => exact ⟨rfl, rfl⟩
  | batch start =>
    simp [step, batchStep, hf]

theorem foldl_step_failed (T : Lookups) (g : Globals) (L : Libc) (S : Sys) (A : Args)
    (DF : List Column) (toStdout : Bool) (nrow rpb : Nat) :
    ∀ (evs : List Event) (s : SinkState), s.failed = true →
    (evs.foldl (step T g L S A DF toStdout nrow rpb) s).failed = true ∧
      (evs.foldl (step T g L S A DF toStdout nrow rpb) s).sink = s.sink := by
  intro evs
  induction evs with
  | nil => intro s hf; exact ⟨hf, rfl⟩
  | cons ev rest ih =>
    intro s hf
    rw [List.foldl_cons]
    have h1 := step_failed T g L S A DF toStdout nrow rpb s ev hf
    have h2 := ih _ h1.1
    exact ⟨h2.1, h2.2.trans h1.2⟩

/-! ## The header and the whole run -/

theorem foldl_names (f : SEXPstr → List Char) (sep : Char) :
    ∀ (names : List SEXPstr) (ch : List Char),
    names.foldl (fun c name => c ++ f name ++ [sep]) ch =
      ch ++ ((names.map f).map (fun c => c ++ [sep])).flatten := by
  intro names
  induction names with
  | nil => intro ch; simp
  | cons name rest ih =>
    intro ch
    rw [List.foldl_cons, ih]
    simp

/-- The line of column names: the cell of the row names when they are written,
the names between separators, the row separator. -/
theorem writeColNames_eq (g : Globals) (A : Args) (names : List SEXPstr) (hne : names ≠ []) :
    writeColNames g A names =
      (if A.doRowNames then
        (if g.quote ≠ Rboolean.FALSE then ['"', '"'] else []) ++ [g.col_sep]
      else []) ++ [g.col_sep].intercalate (names.map (writeString g)) ++ A.row_sep := by
  unfold writeColNames
  simp only []
  have hm : names.map (writeString g) ≠ [] := by
    cases names with
    | nil => exact absurd rfl hne
    | cons c rest => simp
  rw [foldl_names (writeString g) g.col_sep names, dropLast_append_flatten g.col_sep _ _ hm,
    flatten_sep g.col_sep _ hm, List.dropLast_concat]

/-- With a worker that gets its buffer and writes that succeed, the parallel
region adds the rows `0..nrow-1` to the file. -/
theorem parallelRegion_ok (T : Lookups) (hT : T.WellFormed) (g : Globals) (L : Libc)
    (S : Sys) (A : Args) (DF : List Column) (hne : DF ≠ []) (nrow rpb : Nat) (h : 1 ≤ rpb)
    (header : List Char) (hm : S.mallocBuffer = true) (hw : ∀ k, S.writeErr k = none) :
    parallelRegion T g L S A DF false nrow rpb ⟨false, 0, header⟩ =
      ⟨false, 0, header ++
        (List.range nrow).flatMap (fun i => writeBatch T g L A DF i (i + 1))⟩ := by
  unfold parallelRegion
  simp only [hm, if_true]
  rw [foldl_batchStep_ok T g L S A DF nrow rpb hw,
    ← batches_flatten T hT g L A DF hne nrow rpb h]
  unfold batches
  rw [List.map_map]
  rfl

/-- A successful run to a file with column names and at least one row: the line of
names, then the rows. -/
theorem writefile_ok (T : Lookups) (hT : T.WellFormed) (g : Globals) (L : Libc) (S : Sys)
    (C : Call) (names : List SEXPstr) (maxLineLen : Int)
    (hne : C.DF ≠ [])
    (hlens : checkLengths (nrowOf C.DF) C.DF.tail 1 = none)
    (hfile : C.toStdout = false) (hopen : S.openOK = true)
    (hest : estimateMaxLineLen T g S C.args C.DF (nrowOf C.DF) = Except.ok maxLineLen)
    (hcol : C.col_names = true) (hnames : C.names = some names)
    (hlen : names.length = C.DF.length)
    (hmn : S.mallocNames = true) (hwn : S.writeNamesErr = none)
    (hrows : 1 ≤ nrowOf C.DF) (hMB : 1 ≤ C.buffMB ∧ C.buffMB ≤ 1024)
    (hrpb : 1 ≤ rowsPerBatchOf maxLineLen (buffSizeOf C.buffMB) (nrowOf C.DF))
    (hmb : S.mallocBuffer = true) (hw : ∀ k, S.writeErr k = none)
    (hclose : S.closeOK = true) :
    writefile T g L S C =
      ⟨none, writeColNames g C.args names ++
        (List.range (nrowOf C.DF)).flatMap
          (fun i => writeBatch T g L C.args C.DF i (i + 1))⟩ := by
  have hlen0 : C.DF.length ≠ 0 := by
    intro h0; exact hne (List.length_eq_zero.mp h0)
  have hhead : headerStep g S C.args C = ⟨none, writeColNames g C.args names⟩ := by
    unfold headerStep
    simp [hcol, hnames, hlen, hmn, hfile, hwn]
  have hrows0 : nrowOf C.DF ≠ 0 := by omega
  have hMB2 : ¬ (C.buffMB < 1 ∨ C.buffMB > 1024) := by omega
  have hnat : 1 ≤ (rowsPerBatchOf maxLineLen (buffSizeOf C.buffMB) (nrowOf C.DF)).toNat := by
    omega
  unfold writefile
  rw [if_neg hlen0]
  simp only [hlens, hfile, hopen, hest, hhead, Bool.false_eq_true, not_false_eq_true,
    not_true_eq_false, and_false, if_false, Option.isSome_none, hrows0]
  have hr0 : ¬ rowsPerBatchOf maxLineLen (buffSizeOf C.buffMB) (nrowOf C.DF) = 0 := by
    omega
  unfold writeRows
  rw [if_neg hMB2]
  simp only [hfile, if_neg hr0]
  rw [parallelRegion_ok T hT g L S C.args C.DF hne _ _ hnat _ hmb hw]
  simp [hclose]

/-! ## The estimate and the column types -/

theorem estimateCell_some (T : Lookups) (g : Globals) (A : Args) (column : Column) (i : Nat)
    (len : Int) (h : ∀ n, column ≠ Column.OTHER n) :
    ∃ x, estimateCell T g A column i len = some x := by
  cases column with
  | LGLSXP v => exact ⟨_, rfl⟩
  | INTSXP v levels =>
    simp only [estimateCell]
    split
    · exact ⟨_, rfl⟩
    · cases levels with
      | none => exact ⟨_, rfl⟩
      | some lev => exact ⟨_, rfl⟩
  | REALSXP v integer64 =>
    simp only [estimateCell]
    split
    · split <;> exact ⟨_, rfl⟩
    · exact ⟨_, rfl⟩
  | STRSXP v => exact ⟨_, rfl⟩
  | OTHER n => exact absurd rfl (h n)

/-- The loop over the columns stops with the error at the first column that has
no case in the switch. -/
theorem estimateCells_error (T : Lookups) (g : Globals) (A : Args) (i : Nat) :
    ∀ (DF : List Column), (∃ column ∈ DF, ∃ n, column = Column.OTHER n) →
    ∃ j, j < DF.length ∧ (∃ n, DF[j]? = some (Column.OTHER n)) ∧
      (∀ k, k < j → ∀ n, DF[k]? ≠ some (Column.OTHER n)) ∧
      ∀ (j0 : Nat) (len0 : Int), estimateCells T g A i DF j0 len0 = Except.error (j0 + j) := by
  intro DF
  induction DF with
  | nil => rintro ⟨c, hc, _⟩; simp at hc
  | cons column rest ih =>
    intro hbad
    by_cases hcol : ∃ n, column = Column.OTHER n
    · obtain ⟨n, rfl⟩ := hcol
      refine ⟨0, by simp, ⟨n, by simp⟩, fun k hk => absurd hk (by omega), ?_⟩
      intro j0 len0
      simp [estimateCells, estimateCell]
    · have hcol2 : ∀ n, column ≠ Column.OTHER n := fun n hn => hcol ⟨n, hn⟩
      have hrest : ∃ c ∈ rest, ∃ n, c = Column.OTHER n := by
        obtain ⟨c, hc, n, hn⟩ := hbad
        rcases List.mem_cons.mp hc with h1 | h1
        · exact absurd (h1 ▸ hn) (hcol2 n)
        · exact ⟨c, h1, n, hn⟩
      obtain ⟨j, hj, hjo, hmin, herr⟩ := ih hrest
      refine ⟨j + 1, by simp; omega, by simpa using hjo, ?_, ?_⟩
      · intro k hk n
        cases k with
        | zero => simpa using (fun h => hcol2 n h)
        | succ k => simpa using hmin k (by omega) n
      · intro j0 len0
        obtain ⟨x, hx⟩ := estimateCell_some T g A column i len0 hcol2
        simp only [estimateCells, hx]
        rw [herr]
        congr 1
        omega

theorem sampleRows_head (nrow : Nat) (h : 1 ≤ nrow) : ∃ rest, sampleRows nrow = 0 :: rest := by
  unfold sampleRows
  obtain ⟨n, rfl⟩ : ∃ n, nrow = n + 1 := ⟨nrow - 1, by omega⟩
  unfold sampleLoop
  rw [if_pos (by omega)]
  simp only []
  have : ∃ m, (if n + 1 - 0 < 100 then n + 1 else 0 + 100) - 0 = m + 1 := by
    split
    · exact ⟨n, by omega⟩
    · exact ⟨99, by omega⟩
  obtain ⟨m, hm⟩ := this
  rw [hm, List.range_succ_eq_map]
  exact ⟨_, rfl⟩

/-- With at least one row, the estimate raises the column type error for the
first column that has no case in the switch. -/
theorem estimateMaxLineLen_error (T : Lookups) (g : Globals) (S : Sys) (A : Args)
    (DF : List Column) (nrow : Nat) (h : 1 ≤ nrow)
    (hbad : ∃ column ∈ DF, ∃ n, column = Column.OTHER n) :
    ∃ j, j < DF.length ∧ (∃ n, DF[j]? = some (Column.OTHER n)) ∧
      (∀ k, k < j → ∀ n, DF[k]? ≠ some (Column.OTHER n)) ∧
      estimateMaxLineLen T g S A DF nrow = Except.error j := by
  obtain ⟨j, hj, hjo, hmin, herr⟩ := estimateCells_error T g A 0 DF hbad
  obtain ⟨rest, hrest⟩ := sampleRows_head nrow h
  refine ⟨j, hj, hjo, hmin, ?_⟩
  unfold estimateMaxLineLen
  rw [hrest]
  unfold estimateLoop
  rw [herr]
  simp

theorem estimateMaxLineLen_zero (T : Lookups) (g : Globals) (S : Sys) (A : Args)
    (DF : List Column) : estimateMaxLineLen T g S A DF 0 = Except.ok 0 := rfl

/-! ## The double arithmetic of rowsPerBatch -/

theorem point9_eq : point9 = ⟨8106479329266893, -53⟩ := by decide

theorem point9_val : point9.val = (8106479329266893 : ℚ) / 9007199254740992 := by
  rw [point9_eq]
  simp only [Dbl.val]
  rw [zpow_neg]
  norm_num

theorem wrap32_small (x : Int) (h0 : 0 ≤ x) (h1 : x ≤ INT_MAX) : wrap32 x = x := by
  unfold INT_MAX at h1
  unfold wrap32
  omega

/-- The quotient `0.9 * B / L` computed in doubles and cut to its integer part is
the integer part of the exact quotient, for `B` up to `2^30` and
`10 * L ≤ B`. -/
theorem rowsPerBatch_double (B L : Nat) (hL : 1 ≤ L) (hLB : 10 * L ≤ B) (hB : B ≤ 2 ^ 30) :
    ((point9.mul (Dbl.ofNat B)).div (Dbl.ofNat L)).toULL = 9 * B / (10 * L) := by
  have hk1 := Nat.div_mul_le_self (9 * B) (10 * L)
  have hk2 := Nat.lt_mul_div_succ (9 * B) (by omega : 0 < 10 * L)
  generalize 9 * B / (10 * L) = k at hk1 hk2
  have hBv : (Dbl.ofNat B).val = (B : ℚ) := Dbl.ofNat_val B (by
    have : (2 : Nat) ^ 30 < 2 ^ 53 := by norm_num
    omega)
  have hLv : (Dbl.ofNat L).val = (L : ℚ) := Dbl.ofNat_val L (by
    have : (2 : Nat) ^ 30 < 2 ^ 53 := by norm_num
    omega)
  have hLq : (1 : ℚ) ≤ (L : ℚ) := by exact_mod_cast hL
  have hBq : (B : ℚ) ≤ 2 ^ 30 := by exact_mod_cast hB
  have hB0 : (0 : ℚ) ≤ (B : ℚ) := Nat.cast_nonneg B
  have q1 : (k : ℚ) * (10 * (L : ℚ)) ≤ 9 * (B : ℚ) := by exact_mod_cast hk1
  have q2 : 9 * (B : ℚ) + 1 ≤ 10 * (L : ℚ) * ((k : ℚ) + 1) := by
    have : 9 * B + 1 ≤ 10 * L * (k + 1) := hk2
    exact_mod_cast this
  -- sizes
  have hkL : (k + 1) * L ≤ 2 ^ 30 := by
    have h1 : k * (10 * L) + 10 * L ≤ 10 * 2 ^ 30 := by omega
    have h2 : (k + 1) * L * 10 = k * (10 * L) + 10 * L := by ring
    omega
  -- the product
  have hP1 : ((k * L : Nat) : ℚ) * (2 : ℚ) ^ (0 : Int) ≤ (point9.mul (Dbl.ofNat B)).val := by
    apply Dbl.mul_ge
    · have : (2 : Nat) ^ 30 < 2 ^ 53 := by norm_num
      have : k * L ≤ (k + 1) * L := Nat.mul_le_mul_right L (by omega)
      omega
    · rw [point9_val, hBv]
      push_cast
      rw [zpow_zero]
      nlinarith
  have hApos : 1 ≤ 16 * ((k + 1) * L) := by
    have : 1 ≤ (k + 1) * L := Nat.mul_pos (by omega) (by omega)
    omega
  have hP2 : (point9.mul (Dbl.ofNat B)).val ≤
      ((16 * ((k + 1) * L) - 1 : Nat) : ℚ) * (2 : ℚ) ^ (-4 : Int) := by
    apply Dbl.mul_le
    · have : (2 : Nat) ^ 30 * 16 < 2 ^ 53 := by norm_num
      omega
    · rw [point9_val, hBv, Nat.cast_sub hApos, zpow_neg]
      push_cast
      norm_num
      nlinarith
  have hP3 : (point9.mul (Dbl.ofNat B)).val ≤ ((k : ℚ) + 1) * (L : ℚ) - 1 / 16 := by
    refine le_trans hP2 (le_of_eq ?_)
    rw [Nat.cast_sub hApos, zpow_neg]
    push_cast
    norm_num
    ring
  -- the quotient
  have hLm : 0 < (Dbl.ofNat L).m := Dbl.m_pos_of_val_pos _ (by rw [hLv]; linarith)
  have hQ1 : ((k : Nat) : ℚ) * (2 : ℚ) ^ (0 : Int) ≤
      ((point9.mul (Dbl.ofNat B)).div (Dbl.ofNat L)).val := by
    apply Dbl.div_ge _ _ _ _ hLm
    · have : (2 : Nat) ^ 30 < 2 ^ 53 := by norm_num
      have : k ≤ (k + 1) * L := by nlinarith
      omega
    · rw [hLv, zpow_zero, mul_one, le_div_iff₀ (by linarith)]
      rw [zpow_zero, mul_one] at hP1
      push_cast at hP1
      exact hP1
  obtain ⟨hj1, hj2⟩ := bitLen_bounds (16 * L) (by omega)
  generalize bitLen (16 * L) = j at hj1 hj2
  have hjq1 : ((2 : ℚ) ^ j) ≤ 32 * (L : ℚ) := by
    have : 2 ^ j ≤ 32 * L := by omega
    exact_mod_cast this
  have hjq2 : 16 * (L : ℚ) < (2 : ℚ) ^ j := by exact_mod_cast hj2
  have hA2pos : 1 ≤ (k + 1) * 2 ^ j := Nat.mul_pos (by omega) (Nat.pow_pos (by norm_num))
  have hQ2 : ((point9.mul (Dbl.ofNat B)).div (Dbl.ofNat L)).val ≤
      (((k + 1) * 2 ^ j - 1 : Nat) : ℚ) * (2 : ℚ) ^ (-(j : Int)) := by
    apply Dbl.div_le _ _ _ _ hLm
    · have h1 : (k + 1) * 2 ^ j ≤ (k + 1) * (32 * L) := Nat.mul_le_mul_left _ (by omega)
      have h2 : (k + 1) * (32 * L) = 32 * ((k + 1) * L) := by ring
      have : (2 : Nat) ^ 30 * 32 < 2 ^ 53 := by norm_num
      omega
    · rw [hLv, Nat.cast_sub hA2pos, zpow_neg, zpow_natCast]
      push_cast
      have h2j : (0 : ℚ) < (2 : ℚ) ^ j := by positivity
      rw [div_le_iff₀ (by linarith)]
      have e : (((k : ℚ) + 1) * 2 ^ j - 1) * ((2 : ℚ) ^ j)⁻¹ * (L : ℚ) =
          ((k : ℚ) + 1) * L - L / 2 ^ j := by
        field_simp
        ring
      rw [e]
      have h3 : (L : ℚ) / 2 ^ j ≤ 1 / 16 := by
        rw [div_le_iff₀ h2j]
        linarith
      linarith
  have hQ3 : ((point9.mul (Dbl.ofNat B)).div (Dbl.ofNat L)).val < (k : ℚ) + 1 := by
    refine lt_of_le_of_lt hQ2 ?_
    rw [Nat.cast_sub hA2pos, zpow_neg, zpow_natCast]
    push_cast
    have h2j : (0 : ℚ) < (2 : ℚ) ^ j := by positivity
    have e : (((k : ℚ) + 1) * 2 ^ j - 1) * ((2 : ℚ) ^ j)⁻¹ = ((k : ℚ) + 1) - 1 / 2 ^ j := by
      field_simp
    rw [e]
    have : (0 : ℚ) < 1 / 2 ^ j := by positivity
    linarith
  rw [zpow_zero, mul_one] at hQ1
  have hk64 : k < 18446744073709551616 := by
    have : k ≤ (k + 1) * L := by nlinarith
    have : (2 : Nat) ^ 30 < 18446744073709551616 := by norm_num
    omega
  have := Dbl.toULL_floor _ k k hk64 hQ1 hQ3
  omega

theorem floor_nine_tenths (B L : Nat) (hL : 1 ≤ L) :
    ⌊(9 / 10 : ℚ) * (B : ℚ) / (L : ℚ)⌋ = ((9 * B / (10 * L) : Nat) : Int) := by
  have hk1 := Nat.div_mul_le_self (9 * B) (10 * L)
  have hk2 := Nat.lt_mul_div_succ (9 * B) (by omega : 0 < 10 * L)
  generalize 9 * B / (10 * L) = k at hk1 hk2
  have hLq : (0 : ℚ) < (L : ℚ) := by exact_mod_cast hL
  have q1 : (k : ℚ) * (10 * (L : ℚ)) ≤ 9 * (B : ℚ) := by exact_mod_cast hk1
  have q2 : 9 * (B : ℚ) < 10 * (L : ℚ) * ((k : ℚ) + 1) := by exact_mod_cast hk2
  rw [Int.floor_eq_iff]
  constructor
  · rw [le_div_iff₀ hLq]
    push_cast
    linarith
  · rw [div_lt_iff₀ hLq]
    push_cast
    linarith

/-- Lines 479-482 for an `int` product that does not overflow. -/
theorem rowsPerBatchOf_eq (L b : Nat) (nrow : Int) (hrow : 1 ≤ nrow) (hb1 : 1 ≤ b)
    (hb2 : b ≤ 1024) (hL : 1 ≤ L) (hfit : 10 * (L : Int) ≤ INT_MAX) :
    rowsPerBatchOf (L : Int) (buffSizeOf (b : Int)) nrow =
      min nrow (if 10 * (L : Int) > buffSizeOf (b : Int) then 1
        else ((9 * (1048576 * b) / (10 * L) : Nat) : Int)) ∧
    (¬ 10 * (L : Int) > buffSizeOf (b : Int) → 9 ≤ 9 * (1048576 * b) / (10 * L)) := by
  have hBnat : (buffSizeOf (b : Int)).toNat = 1048576 * b := by
    unfold buffSizeOf; omega
  have hw : wrap32 (10 * (L : Int)) = 10 * (L : Int) := wrap32_small _ (by omega) hfit
  unfold rowsPerBatchOf
  simp only [hw, hBnat, Int.toNat_ofNat]
  by_cases h : 10 * (L : Int) > buffSizeOf (b : Int)
  · simp only [if_pos h]
    refine ⟨?_, fun h2 => absurd h h2⟩
    rw [min_def]
    split <;> split <;> omega
  · simp only [if_neg h]
    have hLB : 10 * L ≤ 1048576 * b := by
      unfold buffSizeOf at h; omega
    have hB : 1048576 * b ≤ 2 ^ 30 := by
      have : (2 : Nat) ^ 30 = 1048576 * 1024 := by norm_num
      omega
    have hd := rowsPerBatch_double (1048576 * b) L hL hLB hB
    have hk9 : 9 ≤ 9 * (1048576 * b) / (10 * L) := by
      rw [Nat.le_div_iff_mul_le (by omega)]
      omega
    have hkle : 9 * (1048576 * b) / (10 * L) ≤ 9 * (1048576 * b) / 10 :=
      Nat.div_le_div_left (by omega) (by omega)
    have hk30 : 9 * (1048576 * b) / (10 * L) ≤ 2 ^ 30 := by
      have : 9 * (1048576 * b) / 10 ≤ 2 ^ 30 := by omega
      omega
    generalize 9 * (1048576 * b) / (10 * L) = k at hd hk9 hk30 ⊢
    have hti : ((point9.mul (Dbl.ofNat (1048576 * b))).div (Dbl.ofNat L)).toInt = (k : Int) := by
      unfold Dbl.toInt
      rw [hd]
      apply wrap32_small
      · omega
      · unfold INT_MAX
        have : (2 : Nat) ^ 30 = 1073741824 := by norm_num
        omega
    rw [hti]
    clear hti hd
    refine ⟨?_, fun _ => hk9⟩
    rw [min_def]
    split <;> split <;> omega

/-! ## writeString : the bytes it reaches -/

theorem scanCopy_length_le (sep : Char) : ∀ s : List Char,
    (scanCopy sep s).1.length ≤ s.length := by
  intro s
  induction s with
  | nil => simp [scanCopy]
  | cons c t ih =>
    unfold scanCopy
    split
    · simp only [List.length_cons]; omega
    · simp

theorem quotedBody_length (g : Globals) (s : List Char) :
    (if g.qmethod_escape then escapeBody s else doubleBody s).length =
      s.length + s.countP (needsEscape g) := by
  cases hq : g.qmethod_escape with
  | true =>
    simp only [if_true]
    induction s with
    | nil => simp [escapeBody]
    | cons c t ih =>
      simp only [escapeBody, List.flatMap_cons, List.length_append, List.countP_cons,
        List.length_cons] at ih ⊢
      rw [ih]
      by_cases hc : c = '"' ∨ c = '\\'
      · simp [needsEscape, hq, hc]; omega
      · simp [needsEscape, hq, hc]; omega
  | false =>
    simp only [Bool.false_eq_true, if_false]
    induction s with
    | nil => simp [doubleBody]
    | cons c t ih =>
      simp only [doubleBody, List.flatMap_cons, List.length_append, List.countP_cons,
        List.length_cons] at ih ⊢
      rw [ih]
      by_cases hc : c = '"'
      · simp [needsEscape, hq, hc]; omega
      · simp [needsEscape, hq, hc]; omega

theorem writeQuoted_length (g : Globals) (s : List Char) (h0 : NUL ∉ s) :
    (writeQuoted g s).length = s.length + s.countP (needsEscape g) + 2 := by
  rw [writeQuoted_eq g s h0]
  simp only [List.length_append, List.length_cons, List.length_nil, quotedBody_length]
  omega

theorem writeQuoted_length_le (g : Globals) (s : List Char) (h0 : NUL ∉ s) :
    (writeQuoted g s).length ≤ 2 * s.length + 2 := by
  rw [writeQuoted_length g s h0]
  have := List.countP_le_length (needsEscape g) (l := s)
  omega

theorem writeQuoted_length_max (g : Globals) (s : List Char) (h0 : NUL ∉ s) :
    (writeQuoted g s).length = 2 * s.length + 2 ↔ ∀ c ∈ s, needsEscape g c = true := by
  rw [writeQuoted_length g s h0, ← List.countP_eq_length]
  omega

/-- With a line of 300000000 bytes the `int` product `10*maxLineLen` wraps to a
negative number, the double arm is taken and gives 0 rows per batch. -/
theorem rowsPerBatchOf_overflow_example : rowsPerBatchOf 300000000 (buffSizeOf 1) 5 = 0 := by
  set_option maxRecDepth 100000 in decide

/-! ## Rounding the last digit and stripping zeros -/

theorem roundLast_eq (l0 : Nat) (h : l0 ≤ 10000000000000000) :
    roundLast l0 = (l0 + 5) / 10 := by
  unfold roundLast
  split
  · rw [Nat.mod_eq_of_lt (by omega)]
    omega
  · omega

/-- What lines 157-162 leave for a rounded `l` between `10^14` and `10^15`: `t`
trailing zeros are taken off, `sf = 15 - t`, and for `l = 10^15` the one
digit left counts as `sf = 1` with `exp` one more. -/
theorem normalise_spec (R : Nat) (e : Int) (h1 : 100000000000000 ≤ R)
    (h2 : R ≤ 1000000000000000) :
    ∃ t : Nat, t ≤ 15 ∧ R / 10 ^ t * 10 ^ t = R ∧ (R / 10 ^ t) % 10 ≠ 0 ∧
      (t = 15 ↔ R = 1000000000000000) ∧
      normalise R e =
        (R / 10 ^ t, if t = 15 then 1 else 15 - (t : Int), if t = 15 then e + 1 else e) := by
  obtain ⟨t, e1, e2, e3⟩ := stripZeros_spec R R 0 (by omega) le_rfl
  have hl0 : 0 < R / 10 ^ t := by
    rcases Nat.eq_zero_or_pos (R / 10 ^ t) with h | h
    · rw [h] at e3; simp at e3
    · exact h
  have hpow : 10 ^ t ≤ R := by
    calc 10 ^ t = 1 * 10 ^ t := (Nat.one_mul _).symm
      _ ≤ R / 10 ^ t * 10 ^ t := Nat.mul_le_mul_right _ hl0
      _ = R := e2
  have ht : t ≤ 15 := by
    by_contra hc
    have h3 : 10 ^ 16 ≤ 10 ^ t := Nat.pow_le_pow_right (by norm_num) (by omega)
    have h4 : (10 : Nat) ^ 16 = 10000000000000000 := by norm_num
    omega
  have h15 : t = 15 ↔ R = 1000000000000000 := by
    constructor
    · intro h
      subst h
      have h4 : (10 : Nat) ^ 15 = 1000000000000000 := by norm_num
      omega
    · intro h
      subst h
      by_contra hc
      have hlt : t < 15 := by omega
      have h5 : (1000000000000000 : Nat) = 10 ^ (15 - t) * 10 ^ t := by
        rw [← pow_add]
        have : 15 - t + t = 15 := by omega
        rw [this]
        norm_num
      have h6 : 1000000000000000 / 10 ^ t = 10 ^ (15 - t) := by
        rw [h5, Nat.mul_div_cancel _ (Nat.pow_pos (by norm_num))]
      rw [h6] at e3
      have h7 : 15 - t = (15 - t - 1) + 1 := by omega
      rw [h7, pow_succ, Nat.mul_mod_left] at e3
      exact e3 rfl
  refine ⟨t, ht, e2, e3, h15, ?_⟩
  unfold normalise
  simp only [e1, NUM_SF]
  by_cases h : t = 15
  · subst h
    simp
  · have hne : ¬ ((15 : Int) - (0 + (t : Int)) = 0) := by omega
    rw [if_neg hne]
    simp [h]

/-- The number left after the zeros are taken off has exactly `15 - t` digits. -/
theorem normalise_digits (R t : Nat) (h1 : 100000000000000 ≤ R) (h2 : R < 1000000000000000)
    (ht : t ≤ 14) (hR : R / 10 ^ t * 10 ^ t = R) :
    10 ^ (14 - t) ≤ R / 10 ^ t ∧ R / 10 ^ t < 10 ^ (15 - t) := by
  have hp : 0 < 10 ^ t := Nat.pow_pos (by norm_num)
  have e14 : (10 : Nat) ^ 14 = 10 ^ (14 - t) * 10 ^ t := by
    rw [← pow_add]; congr 1; omega
  have e15 : (10 : Nat) ^ 15 = 10 ^ (15 - t) * 10 ^ t := by
    rw [← pow_add]; congr 1; omega
  have n14 : (10 : Nat) ^ 14 = 100000000000000 := by norm_num
  have n15 : (10 : Nat) ^ 15 = 1000000000000000 := by norm_num
  constructor
  · rw [Nat.le_div_iff_mul_le hp, ← e14]
    omega
  · rw [Nat.div_lt_iff_lt_mul hp, ← e15]
    omega

/-! ## The text of the two formats -/

theorem fracDigits_run_sf : ∀ (k fuel l : Nat) (dr : Int) (out : List Char), k ≤ fuel →
    (k : Int) ≤ dr →
    fracDigits fuel l dr (k : Int) out = (l / 10 ^ k, dr - k, 0, lowDigits k l ++ out) := by
  intro k
  induction k with
  | zero =>
    intro fuel l dr out _ _
    cases fuel with
    | zero => simp [fracDigits, lowDigits]
    | succ f => simp [fracDigits, lowDigits]
  | succ k ih =>
    intro fuel l dr out hf hd
    obtain ⟨f, rfl⟩ : ∃ f, fuel = f + 1 := ⟨fuel - 1, by omega⟩
    have hc : dr ≠ 0 ∧ ((k + 1 : ℕ) : Int) ≠ 0 := by constructor <;> omega
    rw [fracDigits, if_pos hc]
    have e1 : ((k + 1 : ℕ) : Int) - 1 = (k : Int) := by omega
    rw [e1, ih f (l / 10) (dr - 1) _ (by omega) (by omega),
      toByte_digit _ (Nat.mod_lt _ (by norm_num))]
    have e2 : l / 10 / 10 ^ k = l / 10 ^ (k + 1) := by
      rw [Nat.div_div_eq_div_mul, pow_succ, Nat.mul_comm]
    have e3 : dr - 1 - (k : Int) = dr - ((k + 1 : ℕ) : Int) := by omega
    rw [e2, e3, lowDigits]
    simp

theorem zeroFill_run : ∀ (n : Nat) (out : List Char),
    zeroFill n (n : Int) out = List.replicate n '0' ++ out := by
  intro n
  induction n with
  | zero => intro out; simp [zeroFill]
  | succ n ih =>
    intro out
    have hc : ((n + 1 : ℕ) : Int) ≠ 0 := by omega
    rw [zeroFill, if_pos hc]
    have e1 : ((n + 1 : ℕ) : Int) - 1 = (n : Int) := by omega
    rw [e1, ih, List.replicate_succ']
    simp

theorem sciDigits_run : ∀ (k fuel l : Nat) (out : List Char), k ≤ fuel →
    sciDigits fuel l ((k : Int) + 1) out = (l / 10 ^ k, lowDigits k l ++ out) := by
  intro k
  induction k with
  | zero =>
    intro fuel l out _
    cases fuel with
    | zero => simp [sciDigits, lowDigits]
    | succ f => simp [sciDigits, lowDigits]
  | succ k ih =>
    intro fuel l out hf
    obtain ⟨f, rfl⟩ : ∃ f, fuel = f + 1 := ⟨fuel - 1, by omega⟩
    have hc : ((k + 1 : ℕ) : Int) + 1 > 1 := by omega
    rw [sciDigits, if_pos hc]
    have e1 : ((k + 1 : ℕ) : Int) + 1 - 1 = (k : Int) + 1 := by omega
    rw [e1, ih f (l / 10) _ (by omega), toByte_digit _ (Nat.mod_lt _ (by norm_num))]
    have e2 : l / 10 / 10 ^ k = l / 10 ^ (k + 1) := by
      rw [Nat.div_div_eq_div_mul, pow_succ, Nat.mul_comm]
    rw [e2, lowDigits]
    simp

/-- The decimal format with nothing behind the decimal point: the digits of `l`
and `d` zeros. -/
theorem writeDecimal_whole (g : Globals) (l n d : Nat) :
    writeDecimal g l (n : Int) 0 (d : Int) = lowDigits n l ++ List.replicate d '0' := by
  unfold writeDecimal
  simp only [ne_eq, not_true_eq_false, if_false, Int.toNat_ofNat]
  rw [zeroFill_run, intDigits_run]
  simp

/-- The decimal format with `r` digits behind the decimal point, `r` less than
the number of digits of `l`. -/
theorem writeDecimal_split (g : Globals) (l n r : Nat) (hr : 0 < r) (hrn : r < n) :
    writeDecimal g l (n : Int) (r : Int) 0 =
      lowDigits (n - r) (l / 10 ^ r) ++ g.dec_sep :: lowDigits r l := by
  unfold writeDecimal
  have hr0 : (r : Int) ≠ 0 := by omega
  simp only [ne_eq, hr0, not_false_eq_true, if_true, Int.toNat_ofNat]
  rw [fracDigits_run r l (n : Int) [] (by omega)]
  simp only [Int.toNat_zero, zeroFill]
  have e : ((n : Int) - (r : Int)) = ((n - r : Nat) : Int) := by omega
  rw [e, Int.toNat_ofNat, intDigits_run]
  simp

/-- The decimal format of a number below 1: `0`, the decimal point, `r - n` zeros
and the digits of `l`. -/
theorem writeDecimal_small (g : Globals) (l n r : Nat) (hr : 0 < r) (hrn : n ≤ r) :
    writeDecimal g l (n : Int) (r : Int) 1 =
      '0' :: g.dec_sep :: (List.replicate (r - n) '0' ++ lowDigits n l) := by
  unfold writeDecimal
  have hr0 : (r : Int) ≠ 0 := by omega
  simp only [ne_eq, hr0, not_false_eq_true, if_true, Int.toNat_ofNat]
  rw [fracDigits_run_sf n r l (r : Int) [] hrn (by omega)]
  simp only []
  have e : ((r : Int) - (n : Int)) = ((r - n : Nat) : Int) := by omega
  rw [e, Int.toNat_ofNat, zeroFill_run]
  simp [zeroFill, intDigits]

/-- The scientific format: the first digit, the other digits behind the decimal
point if there are any, `e` and the exponent. -/
theorem writeScientific_text (g : Globals) (l k : Nat) (exp : Int) :
    writeScientific g l ((k : Int) + 1) exp =
      toByte (48 + ((l / 10 ^ k : Nat) : Int)) ::
        ((if k = 0 then [] else g.dec_sep :: lowDigits k l) ++ 'e' :: writeExponent exp) := by
  unfold writeScientific
  have e : ((k : Int) + 1).toNat = k + 1 := by omega
  rw [e, sciDigits_run k (k + 1) l [] (by omega)]
  by_cases hk : k = 0
  · subst hk
    simp [lowDigits]
  · have h1 : ¬ ((k : Int) + 1 = 1) := by omega
    simp [hk, h1]

theorem writeExponent_length (exp : Int) :
    (writeExponent exp).length = if |exp| > 99 then 4 else 3 := by
  unfold writeExponent
  by_cases h : exp < 0
  · simp only [if_pos h]
    have ha : |exp| = -exp := abs_of_neg h
    rw [ha]
    by_cases h2 : -exp < 100
    · rw [if_pos h2, if_neg (by omega)]; rfl
    · rw [if_neg h2, if_pos (by omega)]; rfl
  · simp only [if_neg h]
    have ha : |exp| = exp := abs_of_nonneg (by omega)
    rw [ha]
    by_cases h2 : exp < 100
    · rw [if_pos h2, if_neg (by omega)]; rfl
    · rw [if_neg h2, if_pos (by omega)]; rfl

/-! ## The lengths of the two formats -/

/-- The decimal format takes `width` bytes. -/
theorem writeDecimal_length (g : Globals) (l n : Nat) (exp : Int) :
    ((writeDecimal g l (n : Int) (decimalShape (n : Int) exp).1
      (decimalShape (n : Int) exp).2.1).length : Int) = (decimalShape (n : Int) exp).2.2 := by
  unfold decimalShape
  simp only []
  by_cases h1 : (n : Int) - exp - 1 ≤ 0
  · simp only [if_pos h1]
    obtain ⟨d, hd⟩ : ∃ d : Nat, -((n : Int) - exp - 1) = (d : Int) :=
      ⟨(-((n : Int) - exp - 1)).toNat, by omega⟩
    rw [hd, writeDecimal_whole]
    simp [lowDigits_length]
  · simp only [if_neg h1]
    obtain ⟨r, hr⟩ : ∃ r : Nat, (n : Int) - exp - 1 = (r : Int) :=
      ⟨((n : Int) - exp - 1).toNat, by omega⟩
    rw [hr]
    by_cases h2 : (n : Int) > (r : Int)
    · simp only [if_pos h2]
      rw [writeDecimal_split g l n r (by omega) (by omega)]
      simp only [List.length_append, List.length_cons, lowDigits_length]
      omega
    · simp only [if_neg h2]
      rw [writeDecimal_small g l n r (by omega) (by omega)]
      simp only [List.length_append, List.length_cons, lowDigits_length,
        List.length_replicate]
      omega

/-- The scientific format takes `sf`, one more for the decimal point if `sf > 1`,
two for `e` and the sign, and two or three for the exponent. -/
theorem writeScientific_length (g : Globals) (l n : Nat) (exp : Int) (hn : 1 ≤ n) :
    ((writeScientific g l (n : Int) exp).length : Int) =
      (n : Int) + (if (n : Int) > 1 then 1 else 0) + 2 + (if |exp| > 99 then 3 else 2) := by
  obtain ⟨k, rfl⟩ : ∃ k, n = k + 1 := ⟨n - 1, by omega⟩
  have e : ((k + 1 : Nat) : Int) = (k : Int) + 1 := by push_cast; rfl
  rw [e, writeScientific_text]
  simp only [List.length_cons, List.length_append, writeExponent_length]
  by_cases hx : |exp| > 99
  · by_cases hk : k = 0
    · subst hk
      simp [hx]
    · have h1 : (k : Int) + 1 > 1 := by omega
      simp only [if_neg hk, if_pos h1, if_pos hx, List.length_cons, lowDigits_length]
      push_cast
      omega
  · by_cases hk : k = 0
    · subst hk
      simp [hx]
    · have h1 : (k : Int) + 1 > 1 := by omega
      simp only [if_neg hk, if_pos h1, if_neg hx, List.length_cons, lowDigits_length]
      push_cast
      omega

theorem useDecimal_iff (width sf exp : Int) :
    useDecimal width sf exp = true ↔
      width ≤ sf + (if sf > 1 then 1 else 0) + 2 + (if |exp| > 99 then 3 else 2) := by
  unfold useDecimal
  have h : (exp.natAbs > 99) ↔ (|exp| > 99) := by
    rw [← Int.natCast_natAbs]
    omega
  simp only [decide_eq_true_eq, h]

/-- The layout takes the smaller of the two lengths. -/
theorem writeLayout_length (g : Globals) (l n : Nat) (exp : Int) (hn : 1 ≤ n) :
    ((writeLayout g l (n : Int) exp).length : Int) =
      min (decimalShape (n : Int) exp).2.2
        ((n : Int) + (if (n : Int) > 1 then 1 else 0) + 2 + (if |exp| > 99 then 3 else 2)) := by
  unfold writeLayout
  simp only []
  by_cases h : useDecimal (decimalShape (n : Int) exp).2.2 (n : Int) exp = true
  · rw [if_pos h, writeDecimal_length g l n exp]
    rw [useDecimal_iff] at h
    exact (min_eq_left h).symm
  · rw [if_neg h, writeScientific_length g l n exp hn]
    rw [useDecimal_iff] at h
    exact (min_eq_right (by omega)).symm

/-! ## How many bytes writeNumeric writes -/

theorem writeDigits_eq_layout (g : Globals) (l : Nat) (exp : Int) :
    writeDigits g l exp =
      writeLayout g (normalise l exp).1 (normalise l exp).2.1 (normalise l exp).2.2 := rfl

/-- The digits of a rounded `l` between `10^14` and `10^15` take between 1 and 21
bytes. -/
theorem writeDigits_length (g : Globals) (R : Nat) (e : Int) (h1 : 100000000000000 ≤ R)
    (h2 : R ≤ 1000000000000000) :
    1 ≤ (writeDigits g R e).length ∧ (writeDigits g R e).length ≤ 21 := by
  obtain ⟨t, ht, _, _, _, hn⟩ := normalise_spec R e h1 h2
  rw [writeDigits_eq_layout, hn]
  simp only []
  obtain ⟨n, hn1, hn2, hsf⟩ : ∃ n : Nat, 1 ≤ n ∧ n ≤ 15 ∧
      (if t = 15 then (1 : Int) else 15 - (t : Int)) = (n : Int) := by
    by_cases h : t = 15
    · exact ⟨1, by omega, by omega, by simp [h]⟩
    · exact ⟨15 - t, by omega, by omega, by rw [if_neg h]; omega⟩
  rw [hsf]
  generalize (if t = 15 then e + 1 else e) = exp
  have hlen := writeLayout_length g (R / 10 ^ t) n exp hn1
  have hw : 1 ≤ (decimalShape (n : Int) exp).2.2 := by
    unfold decimalShape
    simp only []
    split
    · simp only []; omega
    · split <;> simp only [] <;> omega
  generalize (writeLayout g (R / 10 ^ t) (n : Int) exp).length = len at hlen
  generalize (decimalShape (n : Int) exp).2.2 = w at hlen hw
  have h3 : (if (n : Int) > 1 then (1 : Int) else 0) ≤ 1 := by split <;> omega
  have h4 : (0 : Int) ≤ (if (n : Int) > 1 then (1 : Int) else 0) := by split <;> omega
  have h5 : (if |exp| > 99 then (3 : Int) else 2) ≤ 3 := by split <;> omega
  have h6 : (2 : Int) ≤ (if |exp| > 99 then (3 : Int) else 2) := by split <;> omega
  generalize (if (n : Int) > 1 then (1 : Int) else 0) = a at hlen h3 h4
  generalize (if |exp| > 99 then (3 : Int) else 2) = b at hlen h5 h6
  rw [min_def] at hlen
  split at hlen <;> omega

/-- For a finite double other than zero writeNumeric appends a sign, if any, and
between 1 and 21 bytes of digits. -/
theorem writeNumeric_finite_length (T : Lookups) (hT : T.WellFormed) (g : Globals) (x : Nat)
    (ch : List Char) (hfin : R_FINITE x = true) (hz : isZero x = false) :
    ∃ out, writeNumeric T g x ch = ch ++ out ∧ 1 ≤ out.length ∧ out.length ≤ 22 := by
  have he : exponentOf x < 2047 := by
    have h1 := exponentOf_le x
    have h2 : exponentOf x ≠ 2047 := by simpa [R_FINITE] using hfin
    omega
  have hb := significand_bounds T hT (fractionOf x) (exponentOf x) (fractionOf_lt x) he
  have hl := roundLast_bounds _ hb.1 hb.2
  have hl0 : ¬ (roundLast (significand T (fractionOf x) (exponentOf x)).1 = 0) := by omega
  have hd := writeDigits_length g _ (significand T (fractionOf x) (exponentOf x)).2 hl.1 hl.2
  unfold writeNumeric
  simp only [hfin, hz, Bool.not_true, Bool.false_eq_true, if_false, hl0]
  by_cases hs : signOf x = true
  · refine ⟨'-' :: writeDigits g (roundLast (significand T (fractionOf x) (exponentOf x)).1)
      (significand T (fractionOf x) (exponentOf x)).2, by simp [hs], ?_, ?_⟩
    · simp only [List.length_cons]
      exact Nat.succ_le_succ (Nat.zero_le _)
    · simp only [List.length_cons]
      exact Nat.succ_le_succ hd.2
  · exact ⟨writeDigits g (roundLast (significand T (fractionOf x) (exponentOf x)).1)
      (significand T (fractionOf x) (exponentOf x)).2, by simp [hs], hd.1,
      le_trans hd.2 (by norm_num)⟩

/-! ## Reading decimal text -/

theorem isDigits_lowDigits (k l : Nat) : IsDigits (lowDigits k l) :=
  fun c hc => lowDigits_mem k l c hc

theorem isDigits_zeros (n : Nat) : IsDigits (List.replicate n '0') := by
  intro c hc
  rw [List.mem_replicate] at hc
  exact ⟨0, by norm_num, by rw [hc.2]; rfl⟩

theorem isDigits_append (a b : List Char) (ha : IsDigits a) (hb : IsDigits b) :
    IsDigits (a ++ b) := by
  intro c hc
  rcases List.mem_append.mp hc with h | h
  · exact ha c h
  · exact hb c h

theorem isDigits_ne_sep (sep : Char) (hs1 : digitVal sep = none) (a : List Char)
    (ha : IsDigits a) : ∀ c ∈ a, c ≠ sep := by
  intro c hc h
  obtain ⟨d, hd, rfl⟩ := ha c hc
  rw [← h, digitVal_digitChar d hd] at hs1
  exact absurd hs1 (by simp)

theorem isDigits_ne_e (a : List Char) (ha : IsDigits a) : ∀ c ∈ a, c ≠ 'e' := by
  intro c hc
  obtain ⟨d, hd, rfl⟩ := ha c hc
  exact digitChar_ne_e d hd

theorem isDigits_head_ne_minus (a b : List Char) (ha : IsDigits a) (hne : a ≠ []) :
    (a ++ b).head? ≠ some '-' := by
  cases a with
  | nil => exact absurd rfl hne
  | cons c t =>
    obtain ⟨d, hd, rfl⟩ := ha c (List.mem_cons_self _ _)
    simp only [List.cons_append, List.head?_cons, ne_eq, Option.some.injEq]
    exact (digitChar_not_sign d hd).2

theorem span_all (p : Char → Bool) (a : List Char) (h : ∀ c ∈ a, p c = true) :
    a.span p = (a, []) := by
  rw [List.span_eq_take_drop, List.takeWhile_eq_self_iff.mpr h,
    List.dropWhile_eq_nil_iff.mpr h]

theorem span_stop (p : Char → Bool) (x : Char) (b : List Char) (hx : p x = false) :
    ∀ (a : List Char), (∀ c ∈ a, p c = true) → (a ++ x :: b).span p = (a, x :: b) := by
  intro a
  induction a with
  | nil =>
    intro _
    rw [List.span_eq_take_drop]
    simp [List.takeWhile, List.dropWhile, hx]
  | cons c t ih =>
    intro h
    have h1 := ih (fun y hy => h y (List.mem_cons_of_mem _ hy))
    rw [List.span_eq_take_drop] at h1 ⊢
    have hc := h c (List.mem_cons_self _ _)
    rw [Prod.mk.injEq] at h1
    rw [List.cons_append, List.takeWhile_cons_of_pos hc, List.dropWhile_cons_of_pos hc,
      h1.1, h1.2]

theorem readDigitsFrom_zeros : ∀ (n acc : Nat),
    readDigitsFrom acc (List.replicate n '0') = some (acc * 10 ^ n) := by
  intro n
  induction n with
  | zero => intro acc; simp [readDigitsFrom]
  | succ n ih =>
    intro acc
    have h0 : digitVal '0' = some 0 := by decide
    rw [List.replicate_succ, readDigitsFrom, h0, Option.some_bind, ih]
    congr 1
    rw [pow_succ]
    ring

theorem readDigits_of_ne (a : List Char) (hne : a ≠ []) :
    readDigits a = readDigitsFrom 0 a := by
  rw [readDigits, if_neg hne]

/-- Digits without a decimal point are read as a whole number. -/
theorem readFixed_whole (sep : Char) (hs1 : digitVal sep = none) (ip : List Char)
    (hip : IsDigits ip) :
    readFixed sep ip = (readDigits ip).map (fun (n : Nat) => (n : ℚ)) := by
  unfold readFixed
  have hall : ∀ c ∈ ip, (fun c => decide (c ≠ sep)) c = true := by
    intro c hc
    simpa using isDigits_ne_sep sep hs1 ip hip c hc
  simp only [span_all _ ip hall]

/-- Digits, the decimal point and digits are read as a whole number and a
fraction. -/
theorem readFixed_point (sep : Char) (hs1 : digitVal sep = none) (ip fp : List Char)
    (hip : IsDigits ip) :
    readFixed sep (ip ++ sep :: fp) =
      (readDigits ip).bind (fun (n : Nat) =>
        (readDigits fp).map (fun (k : Nat) => (n : ℚ) + (k : ℚ) / (10 : ℚ) ^ fp.length)) := by
  unfold readFixed
  have hall : ∀ c ∈ ip, (fun c => decide (c ≠ sep)) c = true := by
    intro c hc
    simpa using isDigits_ne_sep sep hs1 ip hip c hc
  simp only [span_stop (fun c => decide (c ≠ sep)) sep fp (by simp) ip hall]

/-- Text without an `e` is read as a fixed-point numeral. -/
theorem readUnsigned_plain (sep : Char) (text : List Char) (h : ∀ c ∈ text, c ≠ 'e') :
    readUnsigned sep text = readFixed sep text := by
  unfold readUnsigned
  have hall : ∀ c ∈ text, (fun c => decide (c ≠ 'e')) c = true := by
    intro c hc
    simpa using h c hc
  simp only [span_all _ text hall]

/-- A mantissa without an `e`, then `e`, a sign and the digits of the exponent. -/
theorem readUnsigned_exp (sep : Char) (mant ex : List Char) (h : ∀ c ∈ mant, c ≠ 'e') :
    readUnsigned sep (mant ++ 'e' :: ex) =
      (readFixed sep mant).bind (fun (v : ℚ) =>
        if ex.head? = some '-' then
          (readDigits ex.tail).map (fun (k : Nat) => v / (10 : ℚ) ^ k)
        else if ex.head? = some '+' then
          (readDigits ex.tail).map (fun (k : Nat) => v * (10 : ℚ) ^ k)
        else none) := by
  unfold readUnsigned
  have hall : ∀ c ∈ mant, (fun c => decide (c ≠ 'e')) c = true := by
    intro c hc
    simpa using h c hc
  simp only [span_stop (fun c => decide (c ≠ 'e')) 'e' ex (by simp) mant hall]

theorem decimalValue_unsigned (sep : Char) (text : List Char) (h : text.head? ≠ some '-') :
    decimalValue sep text = readUnsigned sep text := by
  unfold decimalValue
  rw [if_neg h]

/-! ## The value of the decimal format -/

theorem decimalValue_digits (sep : Char) (hs1 : digitVal sep = none) (ip : List Char)
    (hip : IsDigits ip) (hne : ip ≠ []) :
    decimalValue sep ip = (readDigits ip).map (fun (n : Nat) => (n : ℚ)) := by
  have hh : ip.head? ≠ some '-' := by
    have := isDigits_head_ne_minus ip [] hip hne
    simpa using this
  rw [decimalValue_unsigned sep ip hh, readUnsigned_plain sep ip (isDigits_ne_e ip hip),
    readFixed_whole sep hs1 ip hip]

theorem decimalValue_digits_point (sep : Char) (hs1 : digitVal sep = none) (hs2 : sep ≠ 'e')
    (ip fp : List Char) (hip : IsDigits ip) (hfp : IsDigits fp) (hne : ip ≠ []) :
    decimalValue sep (ip ++ sep :: fp) =
      (readDigits ip).bind (fun (n : Nat) =>
        (readDigits fp).map (fun (k : Nat) => (n : ℚ) + (k : ℚ) / (10 : ℚ) ^ fp.length)) := by
  have hh : (ip ++ sep :: fp).head? ≠ some '-' := isDigits_head_ne_minus ip _ hip hne
  have he : ∀ c ∈ ip ++ sep :: fp, c ≠ 'e' := by
    intro c hc
    rcases List.mem_append.mp hc with h | h
    · exact isDigits_ne_e ip hip c h
    · rcases List.mem_cons.mp h with h | h
      · rw [h]; exact hs2
      · exact isDigits_ne_e fp hfp c h
  rw [decimalValue_unsigned sep _ hh, readUnsigned_plain sep _ he,
    readFixed_point sep hs1 ip fp hip]

theorem lowDigits_ne_nil (k l : Nat) (hk : 0 < k) : lowDigits k l ≠ [] := by
  intro h
  have := lowDigits_length k l
  rw [h] at this
  simp at this
  omega

/-- Case `dr <= 0`: the digits of `l` and `d` zeros denote `l * 10^d`. -/
theorem decimalValue_whole (sep : Char) (hs1 : digitVal sep = none) (l n d : Nat)
    (hn : 1 ≤ n) (hl : l < 10 ^ n) :
    decimalValue sep (lowDigits n l ++ List.replicate d '0') =
      some ((l : ℚ) * (10 : ℚ) ^ d) := by
  have hne : lowDigits n l ++ List.replicate d '0' ≠ [] := by
    intro h
    exact lowDigits_ne_nil n l (by omega) (List.append_eq_nil.mp h).1
  rw [decimalValue_digits sep hs1 _
    (isDigits_append _ _ (isDigits_lowDigits n l) (isDigits_zeros d)) hne,
    readDigits_of_ne _ hne, readDigitsFrom_append, readDigitsFrom_lowDigits,
    Option.some_bind, readDigitsFrom_zeros, Nat.mod_eq_of_lt hl]
  simp

/-- Case `0 < dr < sf`: the high digits, the decimal point and the `r` low
digits denote `l / 10^r`. -/
theorem decimalValue_split (sep : Char) (hs1 : digitVal sep = none) (hs2 : sep ≠ 'e')
    (l n r : Nat) (hr : 0 < r) (hrn : r < n) (hl : l < 10 ^ n) :
    decimalValue sep (lowDigits (n - r) (l / 10 ^ r) ++ sep :: lowDigits r l) =
      some ((l : ℚ) / (10 : ℚ) ^ r) := by
  have hq : l / 10 ^ r < 10 ^ (n - r) := by
    rw [Nat.div_lt_iff_lt_mul (Nat.pow_pos (by norm_num)), ← pow_add]
    have : n - r + r = n := by omega
    rw [this]
    exact hl
  rw [decimalValue_digits_point sep hs1 hs2 _ _ (isDigits_lowDigits _ _)
    (isDigits_lowDigits _ _) (lowDigits_ne_nil _ _ (by omega)),
    readDigits_lowDigits _ _ (by omega), readDigits_lowDigits _ _ hr,
    Option.some_bind, Option.map_some', lowDigits_length, Nat.mod_eq_of_lt hq]
  congr 1
  have h10 : ((10 : ℚ) ^ r) ≠ 0 := by positivity
  have hdm : (l : ℚ) = ((l / 10 ^ r : Nat) : ℚ) * (10 : ℚ) ^ r + ((l % 10 ^ r : Nat) : ℚ) := by
    have := Nat.div_add_mod l (10 ^ r)
    have h2 : ((10 ^ r * (l / 10 ^ r) + l % 10 ^ r : Nat) : ℚ) = (l : ℚ) := by rw [this]
    push_cast at h2
    linarith
  field_simp
  linarith

/-- Case `dr >= sf`: `0`, the decimal point, zeros and the digits of `l` denote
`l / 10^r`. -/
theorem decimalValue_small (sep : Char) (hs1 : digitVal sep = none) (hs2 : sep ≠ 'e')
    (l n r : Nat) (hn : 1 ≤ n) (hrn : n ≤ r) (hl : l < 10 ^ n) :
    decimalValue sep ('0' :: sep :: (List.replicate (r - n) '0' ++ lowDigits n l)) =
      some ((l : ℚ) / (10 : ℚ) ^ r) := by
  have hz : IsDigits ['0'] := by
    intro c hc
    simp only [List.mem_singleton] at hc
    exact ⟨0, by norm_num, by rw [hc]; rfl⟩
  have hfp : List.replicate (r - n) '0' ++ lowDigits n l ≠ [] := by
    intro h
    exact lowDigits_ne_nil n l (by omega) (List.append_eq_nil.mp h).2
  have e : '0' :: sep :: (List.replicate (r - n) '0' ++ lowDigits n l) =
      ['0'] ++ sep :: (List.replicate (r - n) '0' ++ lowDigits n l) := rfl
  have h0 : readDigits ['0'] = some 0 := by decide
  rw [e, decimalValue_digits_point sep hs1 hs2 _ _ hz
    (isDigits_append _ _ (isDigits_zeros _) (isDigits_lowDigits _ _)) (by simp),
    h0, Option.some_bind, readDigits_of_ne _ hfp, readDigitsFrom_append,
    readDigitsFrom_zeros, Option.some_bind, readDigitsFrom_lowDigits, Option.map_some',
    Nat.mod_eq_of_lt hl]
  congr 1
  simp only [List.length_append, List.length_replicate, lowDigits_length]
  have : r - n + n = r := by omega
  rw [this]
  simp

/-! ## The value of the scientific format -/

theorem lowDigits_two (m : Nat) (h : m < 100) :
    lowDigits 2 m = [Nat.digitChar (m / 10), Nat.digitChar (m % 10)] := by
  have h1 : m / 10 % 10 = m / 10 := Nat.mod_eq_of_lt (by omega)
  simp [lowDigits, h1]

theorem lowDigits_three (m : Nat) (h : m < 1000) :
    lowDigits 3 m =
      [Nat.digitChar (m / 100), Nat.digitChar (m / 10 % 10), Nat.digitChar (m % 10)] := by
  have h1 : m / 10 / 10 % 10 = m / 100 := by omega
  simp [lowDigits, h1]

/-- The exponent part for `|exp| < 1000`: the sign and two digits, or three from
100 on. -/
theorem writeExponent_text (exp : Int) (h : |exp| < 1000) :
    writeExponent exp =
      (if exp < 0 then '-' else '+') ::
        (if |exp| < 100 then lowDigits 2 exp.natAbs else lowDigits 3 exp.natAbs) := by
  obtain ⟨m, hm⟩ : ∃ m : Nat, |exp| = (m : Int) := ⟨exp.natAbs, (Int.natCast_natAbs exp).symm⟩
  have hnat : exp.natAbs = m := by
    have := Int.natCast_natAbs exp
    omega
  have he1 : (if exp < 0 then -exp else exp) = (m : Int) := by
    rw [← hm]
    by_cases h0 : exp < 0
    · rw [if_pos h0, abs_of_neg h0]
    · rw [if_neg h0, abs_of_nonneg (by omega)]
  have hm3 : m < 1000 := by omega
  unfold writeExponent
  simp only [he1, hm, hnat]
  have t10 : Int.tdiv (m : Int) 10 = ((m / 10 : Nat) : Int) := by
    rw [Int.tdiv_eq_ediv (by omega) (by norm_num)]; rfl
  have t100 : Int.tdiv (m : Int) 100 = ((m / 100 : Nat) : Int) := by
    rw [Int.tdiv_eq_ediv (by omega) (by norm_num)]; rfl
  have m10 : Int.tmod (m : Int) 10 = ((m % 10 : Nat) : Int) := by
    rw [Int.tmod_eq_emod (by omega) (by omega)]; rfl
  have m1010 : Int.tmod ((m / 10 : Nat) : Int) 10 = ((m / 10 % 10 : Nat) : Int) := by
    rw [Int.tmod_eq_emod (by omega) (by omega)]; rfl
  by_cases h2 : (m : Int) < 100
  · have h2n : m < 100 := by omega
    rw [if_pos h2, if_pos h2, t10, m10, toByte_digit _ (by omega), toByte_digit _ (by omega),
      lowDigits_two m h2n]
  · rw [if_neg h2, if_neg h2, t100, t10, m1010, m10, toByte_digit _ (by omega),
      toByte_digit _ (by omega), toByte_digit _ (by omega), lowDigits_three m hm3]

/-- The mantissa of the scientific format denotes `l / 10^k`. -/
theorem readFixed_mantissa (sep : Char) (hs1 : digitVal sep = none) (l k : Nat)
    (hl : l < 10 ^ (k + 1)) :
    readFixed sep (Nat.digitChar (l / 10 ^ k) ::
        (if k = 0 then [] else sep :: lowDigits k l)) = some ((l : ℚ) / (10 : ℚ) ^ k) := by
  have hlead : l / 10 ^ k < 10 := by
    rw [Nat.div_lt_iff_lt_mul (Nat.pow_pos (by norm_num))]
    rw [pow_succ] at hl
    omega
  have hd : IsDigits [Nat.digitChar (l / 10 ^ k)] := by
    intro c hc
    simp only [List.mem_singleton] at hc
    exact ⟨_, hlead, hc⟩
  have hrd : readDigits [Nat.digitChar (l / 10 ^ k)] = some (l / 10 ^ k) := by
    simp [readDigits, readDigitsFrom, digitVal_digitChar _ hlead]
  by_cases hk : k = 0
  · subst hk
    simp only [if_true]
    rw [readFixed_whole sep hs1 _ hd, hrd]
    simp
  · simp only [if_neg hk]
    have e : Nat.digitChar (l / 10 ^ k) :: sep :: lowDigits k l =
        [Nat.digitChar (l / 10 ^ k)] ++ sep :: lowDigits k l := rfl
    rw [e, readFixed_point sep hs1 _ _ hd, hrd, Option.some_bind,
      readDigits_lowDigits k l (by omega), Option.map_some', lowDigits_length]
    congr 1
    have h10 : ((10 : ℚ) ^ k) ≠ 0 := by positivity
    have hdm : (l : ℚ) = ((l / 10 ^ k : Nat) : ℚ) * (10 : ℚ) ^ k + ((l % 10 ^ k : Nat) : ℚ) := by
      have := Nat.div_add_mod l (10 ^ k)
      have h2 : ((10 ^ k * (l / 10 ^ k) + l % 10 ^ k : Nat) : ℚ) = (l : ℚ) := by rw [this]
      push_cast at h2
      linarith
    field_simp
    linarith

/-- The scientific format denotes `l * 10^(exp - k)`, where `l` has `k + 1`
digits. -/
theorem decimalValue_scientific (g : Globals) (hs1 : digitVal g.dec_sep = none)
    (hs2 : g.dec_sep ≠ 'e') (l k : Nat) (exp : Int) (hl : l < 10 ^ (k + 1))
    (hexp : |exp| < 1000) :
    decimalValue g.dec_sep (writeScientific g l ((k : Int) + 1) exp) =
      some ((l : ℚ) * (10 : ℚ) ^ (exp - (k : Int))) := by
  have hlead : l / 10 ^ k < 10 := by
    rw [Nat.div_lt_iff_lt_mul (Nat.pow_pos (by norm_num))]
    rw [pow_succ] at hl
    omega
  rw [writeScientific_text, toByte_digit _ hlead]
  have hmant : ∀ c ∈ Nat.digitChar (l / 10 ^ k) ::
      (if k = 0 then [] else g.dec_sep :: lowDigits k l), c ≠ 'e' := by
    intro c hc
    rcases List.mem_cons.mp hc with h | h
    · rw [h]; exact digitChar_ne_e _ hlead
    · split at h
      · simp at h
      · rcases List.mem_cons.mp h with h | h
        · rw [h]; exact hs2
        · exact isDigits_ne_e _ (isDigits_lowDigits k l) c h
  have hh : (Nat.digitChar (l / 10 ^ k) ::
      ((if k = 0 then [] else g.dec_sep :: lowDigits k l) ++ 'e' :: writeExponent exp)).head? ≠
      some '-' := by
    simp only [List.head?_cons, ne_eq, Option.some.injEq]
    exact (digitChar_not_sign _ hlead).2
  have e : Nat.digitChar (l / 10 ^ k) ::
      ((if k = 0 then [] else g.dec_sep :: lowDigits k l) ++ 'e' :: writeExponent exp) =
      (Nat.digitChar (l / 10 ^ k) :: (if k = 0 then [] else g.dec_sep :: lowDigits k l)) ++
        'e' :: writeExponent exp := rfl
  rw [decimalValue_unsigned _ _ hh, e, readUnsigned_exp _ _ _ hmant,
    readFixed_mantissa g.dec_sep hs1 l k hl, Option.some_bind, writeExponent_text exp hexp]
  have ten : (10 : ℚ) ≠ 0 := by norm_num
  have hrd : readDigits (if |exp| < 100 then lowDigits 2 exp.natAbs
      else lowDigits 3 exp.natAbs) = some exp.natAbs := by
    have hn : exp.natAbs < 1000 := by
      have := Int.natCast_natAbs exp
      omega
    by_cases h2 : |exp| < 100
    · rw [if_pos h2, readDigits_lowDigits _ _ (by norm_num)]
      have : exp.natAbs < 100 := by
        have := Int.natCast_natAbs exp
        omega
      congr 1
      exact Nat.mod_eq_of_lt (by norm_num; omega)
    · rw [if_neg h2, readDigits_lowDigits _ _ (by norm_num)]
      congr 1
      exact Nat.mod_eq_of_lt (by norm_num; omega)
  by_cases h0 : exp < 0
  · simp only [if_pos h0, List.head?_cons, List.tail_cons, if_true, hrd, Option.map_some']
    congr 1
    have hab : ((exp.natAbs : Nat) : Int) = -exp := by
      rw [Int.natCast_natAbs, abs_of_neg h0]
    have e2 : exp - (k : Int) = -((exp.natAbs : Nat) : Int) + (-(k : Int)) := by
      rw [hab]; ring
    rw [e2, zpow_add₀ ten, zpow_neg, zpow_neg, zpow_natCast, zpow_natCast]
    field_simp
    left
    ring
  · have hne : ¬ (some '+' = some '-') := by decide
    simp only [if_neg h0, List.head?_cons, List.tail_cons, hne, if_false, if_true, hrd,
      Option.map_some']
    congr 1
    have hab : ((exp.natAbs : Nat) : Int) = exp := by
      rw [Int.natCast_natAbs, abs_of_nonneg (by omega)]
    have e2 : exp - (k : Int) = ((exp.natAbs : Nat) : Int) + (-(k : Int)) := by
      rw [hab]; ring
    rw [e2, zpow_add₀ ten, zpow_neg, zpow_natCast, zpow_natCast]
    field_simp

/-! ## The layout stage: value and shape -/

/-- A number of `n` digits times `10^(exp - n + 1)` is at least `10^exp`. -/
theorem layout_value_ge (l n : Nat) (exp : Int) (hn : 1 ≤ n) (hl : 10 ^ (n - 1) ≤ l) :
    (10 : ℚ) ^ exp ≤ (l : ℚ) * (10 : ℚ) ^ (exp - (n : Int) + 1) := by
  have ten : (10 : ℚ) ≠ 0 := by norm_num
  have hq : ((10 : ℚ) ^ (n - 1)) ≤ (l : ℚ) := by exact_mod_cast hl
  have e : exp = ((n - 1 : Nat) : Int) + (exp - (n : Int) + 1) := by omega
  have hpos : (0 : ℚ) < (10 : ℚ) ^ (exp - (n : Int) + 1) := by positivity
  calc (10 : ℚ) ^ exp = (10 : ℚ) ^ (((n - 1 : Nat) : Int) + (exp - (n : Int) + 1)) := by
        rw [← e]
    _ = (10 : ℚ) ^ (n - 1) * (10 : ℚ) ^ (exp - (n : Int) + 1) := by
        rw [zpow_add₀ ten, zpow_natCast]
    _ ≤ (l : ℚ) * (10 : ℚ) ^ (exp - (n : Int) + 1) :=
        mul_le_mul_of_nonneg_right hq hpos.le

/-- The decimal format: its value, and its shape of digits with at most one
decimal point, the digits before it being a single `0` for an `exp` below
0. -/
theorem writeDecimal_spec (g : Globals) (hs1 : digitVal g.dec_sep = none)
    (hs2 : g.dec_sep ≠ 'e') (l n : Nat) (exp : Int) (hn : 1 ≤ n) (hl : l < 10 ^ n) :
    decimalValue g.dec_sep
        (writeDecimal g l (n : Int) (decimalShape (n : Int) exp).1
          (decimalShape (n : Int) exp).2.1) =
      some ((l : ℚ) * (10 : ℚ) ^ (exp - (n : Int) + 1)) ∧
    ∃ ip fp : List Char, IsDigits ip ∧ IsDigits fp ∧ ip ≠ [] ∧
      writeDecimal g l (n : Int) (decimalShape (n : Int) exp).1
          (decimalShape (n : Int) exp).2.1 =
        ip ++ (if fp = [] then [] else g.dec_sep :: fp) ∧
      (exp < 0 → ip = ['0']) := by
  have ten : (10 : ℚ) ≠ 0 := by norm_num
  unfold decimalShape
  simp only []
  by_cases h1 : (n : Int) - exp - 1 ≤ 0
  · simp only [if_pos h1]
    obtain ⟨d, hd⟩ : ∃ d : Nat, -((n : Int) - exp - 1) = (d : Int) :=
      ⟨(-((n : Int) - exp - 1)).toNat, by omega⟩
    rw [hd, writeDecimal_whole]
    constructor
    · rw [decimalValue_whole g.dec_sep hs1 l n d hn hl]
      have e : exp - (n : Int) + 1 = (d : Int) := by omega
      rw [e, zpow_natCast]
    · refine ⟨lowDigits n l ++ List.replicate d '0', [],
        isDigits_append _ _ (isDigits_lowDigits n l) (isDigits_zeros d),
        fun c hc => absurd hc (by simp), ?_, by simp, fun h => absurd h (by omega)⟩
      intro h
      exact lowDigits_ne_nil n l (by omega) (List.append_eq_nil.mp h).1
  · simp only [if_neg h1]
    obtain ⟨r, hr⟩ : ∃ r : Nat, (n : Int) - exp - 1 = (r : Int) :=
      ⟨((n : Int) - exp - 1).toNat, by omega⟩
    rw [hr]
    have e : exp - (n : Int) + 1 = -(r : Int) := by omega
    rw [e, zpow_neg, zpow_natCast, ← div_eq_mul_inv]
    by_cases h2 : (n : Int) > (r : Int)
    · simp only [if_pos h2]
      rw [writeDecimal_split g l n r (by omega) (by omega)]
      refine ⟨decimalValue_split g.dec_sep hs1 hs2 l n r (by omega) (by omega) hl,
        lowDigits (n - r) (l / 10 ^ r), lowDigits r l, isDigits_lowDigits _ _,
        isDigits_lowDigits _ _, lowDigits_ne_nil _ _ (by omega), ?_,
        fun h => absurd h (by omega)⟩
      rw [if_neg (lowDigits_ne_nil r l (by omega))]
    · simp only [if_neg h2]
      rw [writeDecimal_small g l n r (by omega) (by omega)]
      refine ⟨decimalValue_small g.dec_sep hs1 hs2 l n r hn (by omega) hl,
        ['0'], List.replicate (r - n) '0' ++ lowDigits n l, ?_,
        isDigits_append _ _ (isDigits_zeros _) (isDigits_lowDigits _ _), by simp, ?_,
        fun _ => rfl⟩
      · intro c hc
        simp only [List.mem_singleton] at hc
        exact ⟨0, by norm_num, by rw [hc]; rfl⟩
      · have hne : List.replicate (r - n) '0' ++ lowDigits n l ≠ [] := by
          intro h
          exact lowDigits_ne_nil n l (by omega) (List.append_eq_nil.mp h).2
        rw [if_neg hne]
        rfl

/-- The scientific format: a digit, the other digits behind the decimal point if
there are any, `e`, the sign of the exponent, and two digits of exponent
below 100, three from 100 on. -/
theorem writeScientific_shape (g : Globals) (l n : Nat) (exp : Int) (hn : 1 ≤ n)
    (hl : l < 10 ^ n) (hexp : |exp| < 1000) :
    ∃ (d : Nat) (fp ex : List Char), d < 10 ∧ IsDigits fp ∧ IsDigits ex ∧
      fp.length + 1 = n ∧ ex.length = (if |exp| < 100 then 2 else 3) ∧
      writeScientific g l (n : Int) exp =
        Nat.digitChar d :: ((if n = 1 then [] else g.dec_sep :: fp) ++
          'e' :: (if exp < 0 then '-' else '+') :: ex) := by
  obtain ⟨k, rfl⟩ : ∃ k, n = k + 1 := ⟨n - 1, by omega⟩
  have hlead : l / 10 ^ k < 10 := by
    rw [Nat.div_lt_iff_lt_mul (Nat.pow_pos (by norm_num))]
    rw [pow_succ] at hl
    omega
  have e : ((k + 1 : Nat) : Int) = (k : Int) + 1 := by push_cast; rfl
  refine ⟨l / 10 ^ k, lowDigits k l,
    (if |exp| < 100 then lowDigits 2 exp.natAbs else lowDigits 3 exp.natAbs), hlead,
    isDigits_lowDigits k l, ?_, by rw [lowDigits_length], ?_, ?_⟩
  · split
    · exact isDigits_lowDigits _ _
    · exact isDigits_lowDigits _ _
  · split <;> rw [lowDigits_length]
  · rw [e, writeScientific_text, toByte_digit _ hlead, writeExponent_text exp hexp]
    by_cases hk : k = 0
    · simp [hk]
    · have : ¬ (k + 1 = 1) := by omega
      simp [hk, this]

/-! ## The rows the estimate samples -/

theorem sampleRangeLoop_eq (nrow step : Nat) : ∀ (fuel start : Nat),
    sampleRangeLoop nrow step fuel start =
      (batchStarts nrow step fuel start).map
        (fun s => (s, if nrow - s < 100 then nrow else s + 100)) := by
  intro fuel
  induction fuel with
  | zero => intro start; rfl
  | succ f ih =>
    intro start
    unfold sampleRangeLoop batchStarts
    by_cases h : start < nrow
    · rw [if_pos h, if_pos h, List.map_cons, ih]
    · rw [if_neg h, if_neg h]; rfl

theorem sampleLoop_eq (nrow step : Nat) : ∀ (fuel start : Nat),
    sampleLoop nrow step fuel start =
      (sampleRangeLoop nrow step fuel start).flatMap
        (fun b => (List.range (b.2 - b.1)).map (fun k => b.1 + k)) := by
  intro fuel
  induction fuel with
  | zero => intro start; rfl
  | succ f ih =>
    intro start
    unfold sampleLoop sampleRangeLoop
    by_cases h : start < nrow
    · rw [if_pos h, if_pos h, List.flatMap_cons, ih]
    · rw [if_neg h, if_neg h]; rfl

theorem sampleStep_ge (nrow : Nat) : 100 ≤ sampleStep nrow := by
  unfold sampleStep
  split <;> omega

theorem sampleRanges_eq (nrow : Nat) (h1 : 1 ≤ nrow) :
    sampleRanges nrow =
      (List.range ((nrow - 1) / sampleStep nrow + 1)).map
        (fun k => (k * sampleStep nrow,
          if nrow - k * sampleStep nrow < 100 then nrow else k * sampleStep nrow + 100)) := by
  have hs := sampleStep_ge nrow
  unfold sampleRanges
  rw [sampleRangeLoop_eq, batchStarts_eq nrow _ (by omega) nrow 0 (by omega),
    batchCount_zero nrow _ h1 (by omega), List.map_map]
  apply List.map_congr_left
  intro k _
  simp only [Function.comp, Nat.zero_add]

theorem sampleRanges_zero : sampleRanges 0 = [] := rfl

/-- The number of ranges: at most 11, at most 10 below 1000 rows and for a
multiple of 10, and 11 otherwise. -/
theorem sampleRanges_count (nrow : Nat) (h1 : 1 ≤ nrow) :
    (nrow - 1) / sampleStep nrow + 1 ≤ 11 ∧
    ((nrow < 1000 ∨ nrow % 10 = 0) → (nrow - 1) / sampleStep nrow + 1 ≤ 10) ∧
    ((1000 ≤ nrow ∧ nrow % 10 ≠ 0) → (nrow - 1) / sampleStep nrow + 1 = 11) := by
  have hs := sampleStep_ge nrow
  have hpos : 0 < sampleStep nrow := by omega
  by_cases h : nrow < 1000
  · have e : sampleStep nrow = 100 := by unfold sampleStep; rw [if_pos h]
    rw [e]
    refine ⟨by omega, fun _ => by omega, fun h2 => absurd h2.1 (by omega)⟩
  · have e : sampleStep nrow = nrow / 10 := by unfold sampleStep; rw [if_neg h]
    have hlo : 10 * sampleStep nrow ≤ nrow := by rw [e]; omega
    have hhi : nrow < 10 * sampleStep nrow + 10 := by rw [e]; omega
    have hm : nrow % 10 = nrow - 10 * sampleStep nrow := by rw [e]; omega
    generalize sampleStep nrow = s at hs hpos hlo hhi hm
    have h11 : (nrow - 1) / s ≤ 10 := by
      rw [← Nat.lt_succ_iff, Nat.div_lt_iff_lt_mul hpos]
      omega
    refine ⟨by omega, ?_, ?_⟩
    · intro h2
      have h3 : nrow % 10 = 0 := by
        rcases h2 with h2 | h2
        · omega
        · exact h2
      have : (nrow - 1) / s < 10 := by
        rw [Nat.div_lt_iff_lt_mul hpos]
        omega
      omega
    · intro h2
      have : 10 ≤ (nrow - 1) / s := by
        rw [Nat.le_div_iff_mul_le hpos]
        omega
      omega

theorem sampleRanges_getElem?_some (nrow k : Nat) (b : Nat × Nat)
    (hb : (sampleRanges nrow)[k]? = some b) :
    1 ≤ nrow ∧ k < (nrow - 1) / sampleStep nrow + 1 ∧
      b = (k * sampleStep nrow,
        if nrow - k * sampleStep nrow < 100 then nrow else k * sampleStep nrow + 100) := by
  rcases Nat.eq_zero_or_pos nrow with h0 | h1
  · subst h0
    rw [sampleRanges_zero] at hb
    simp at hb
  · rw [sampleRanges_eq nrow h1, List.getElem?_map] at hb
    by_cases hk : k < (nrow - 1) / sampleStep nrow + 1
    · rw [List.getElem?_range hk] at hb
      exact ⟨h1, hk, (Option.some.inj hb).symm⟩
    · have : (List.range ((nrow - 1) / sampleStep nrow + 1))[k]? = none :=
        List.getElem?_eq_none (by rw [List.length_range]; omega)
      rw [this] at hb
      simp at hb

/-- A range of the sample begins at a multiple of the step, is not empty, has at
most 100 rows, and ends at or before `nrow`. -/
theorem sampleRanges_range (nrow k : Nat) (b : Nat × Nat)
    (hb : (sampleRanges nrow)[k]? = some b) :
    b.1 = k * sampleStep nrow ∧ b.1 < b.2 ∧ b.2 ≤ nrow ∧ b.2 - b.1 ≤ 100 := by
  obtain ⟨h1, hk, rfl⟩ := sampleRanges_getElem?_some nrow k b hb
  have hlt := batch_start_lt nrow (sampleStep nrow) k h1 hk
  simp only []
  generalize k * sampleStep nrow = s at hlt
  refine ⟨trivial, ?_, ?_, ?_⟩ <;> split <;> omega

theorem sampleRows_eq (nrow : Nat) :
    sampleRows nrow =
      (sampleRanges nrow).flatMap (fun b => (List.range (b.2 - b.1)).map (fun k => b.1 + k)) := by
  unfold sampleRows sampleRanges sampleStep
  exact sampleLoop_eq nrow _ nrow 0

theorem sampleRows_lt (nrow i : Nat) (hi : i ∈ sampleRows nrow) : i < nrow := by
  rw [sampleRows_eq, List.mem_flatMap] at hi
  obtain ⟨b, hb, hi⟩ := hi
  obtain ⟨k, hk⟩ := List.getElem?_of_mem hb
  obtain ⟨_, h2, h3, _⟩ := sampleRanges_range nrow k b hk
  rw [List.mem_map] at hi
  obtain ⟨j, hj, rfl⟩ := hi
  rw [List.mem_range] at hj
  omega

/-! ## The estimate of a row as a sum -/

theorem estimateCell_add (T : Lookups) (g : Globals) (A : Args) (column : Column) (i : Nat)
    (t : Int) (h1 : ∀ v, column ≠ Column.LGLSXP v) (h2 : ∀ n, column ≠ Column.OTHER n) :
    estimateCell T g A column i t = some (t + cellEstimate T g A column i) := by
  cases column with
  | LGLSXP v => exact absurd rfl (h1 v)
  | OTHER n => exact absurd rfl (h2 n)
  | INTSXP v levels =>
    unfold cellEstimate estimateCell
    simp only []
    split
    · simp
    · cases levels <;> simp
  | REALSXP v integer64 =>
    unfold cellEstimate estimateCell
    simp only []
    split
    · split <;> simp
    · simp
  | STRSXP v =>
    unfold cellEstimate estimateCell
    simp

theorem estimateCells_sum (T : Lookups) (g : Globals) (A : Args) (i : Nat) :
    ∀ (DF : List Column),
    (∀ column ∈ DF, (∀ v, column ≠ Column.LGLSXP v) ∧ ∀ n, column ≠ Column.OTHER n) →
    ∀ (j : Nat) (t : Int), estimateCells T g A i DF j t =
      Except.ok (t + (DF.map (fun column => cellEstimate T g A column i + 1)).sum) := by
  intro DF
  induction DF with
  | nil => intro _ j t; simp [estimateCells]
  | cons c rest ih =>
    intro h j t
    have hc := h c (List.mem_cons_self _ _)
    unfold estimateCells
    rw [estimateCell_add T g A c i t hc.1 hc.2]
    simp only []
    rw [ih (fun column hm => h column (List.mem_cons_of_mem _ hm))]
    simp only [List.map_cons, List.sum_cons]
    congr 1
    ring

theorem estimateRow_eq_sum (T : Lookups) (g : Globals) (S : Sys) (A : Args) (DF : List Column)
    (h : ∀ column ∈ DF, (∀ v, column ≠ Column.LGLSXP v) ∧ ∀ n, column ≠ Column.OTHER n)
    (nrow i : Nat) :
    estimateRow T g S A DF nrow i = Except.ok (sumLineLen T g S A DF nrow i) := by
  unfold estimateRow sumLineLen
  rw [estimateCells_sum T g A i DF h]

theorem estimateLoop_eq_max (T : Lookups) (g : Globals) (S : Sys) (A : Args) (DF : List Column)
    (nrow : Nat) (v : Nat → Int) (hv : ∀ i, estimateRow T g S A DF nrow i = Except.ok (v i)) :
    ∀ (rows : List Nat) (m : Int),
    estimateLoop T g S A DF nrow rows m = Except.ok (rows.foldl (fun a i => max a (v i)) m) := by
  intro rows
  induction rows with
  | nil => intro m; rfl
  | cons i rest ih =>
    intro m
    have h := hv i
    unfold estimateRow at h
    unfold estimateLoop
    cases hc : estimateCells T g A i DF 0 (estimateRowName g S A nrow i) with
    | error j => rw [hc] at h; cases h
    | ok len =>
      rw [hc] at h
      simp only [] at h ⊢
      have e : len + (A.row_sep.length : Int) = v i := by injection h
      rw [ih, List.foldl_cons, e]
      congr 2
      split
      · rw [max_eq_right]; omega
      · rw [max_eq_left]; omega

theorem foldl_max_ge (v : Nat → Int) : ∀ (rows : List Nat) (m : Int),
    m ≤ rows.foldl (fun a i => max a (v i)) m ∧
    ∀ i ∈ rows, v i ≤ rows.foldl (fun a i => max a (v i)) m := by
  intro rows
  induction rows with
  | nil => intro m; simp
  | cons i rest ih =>
    intro m
    rw [List.foldl_cons]
    obtain ⟨h1, h2⟩ := ih (max m (v i))
    refine ⟨le_trans (le_max_left _ _) h1, ?_⟩
    intro k hk
    rcases List.mem_cons.mp hk with rfl | hk
    · exact le_trans (le_max_right _ _) h1
    · exact h2 k hk

theorem foldl_max_mem (v : Nat → Int) : ∀ (rows : List Nat) (m : Int),
    rows.foldl (fun a i => max a (v i)) m = m ∨
    ∃ i ∈ rows, rows.foldl (fun a i => max a (v i)) m = v i := by
  intro rows
  induction rows with
  | nil => intro m; simp
  | cons i rest ih =>
    intro m
    rw [List.foldl_cons]
    rcases ih (max m (v i)) with h | ⟨k, hk, h⟩
    · rcases max_choice m (v i) with hm | hm
      · left; rw [h, hm]
      · right; exact ⟨i, List.mem_cons_self _ _, by rw [h, hm]⟩
    · right; exact ⟨k, List.mem_cons_of_mem _ hk, h⟩

/-! ## The estimate of a row against the bytes written -/

theorem writeString_plain (g : Globals) (x : SEXPstr) (h : plainField g x) :
    ((writeString g x).length : Int) ≤ LENGTH x := by
  cases x with
  | none =>
    have h2 : g.na_str.length ≤ 2 := h
    show ((g.na_str.length : Nat) : Int) ≤ 2
    omega
  | some s =>
    have h2 : isQuoted g s = false := h
    unfold isQuoted at h2
    unfold writeString LENGTH
    simp only []
    cases hq : g.quote with
    | NA_LOGICAL =>
      rw [hq] at h2
      simp only [decide_eq_false_iff_not, not_not] at h2
      simp only [h2, if_true]
      exact_mod_cast scanCopy_length_le g.col_sep s
    | FALSE => simp
    | TRUE => rw [hq] at h2; cases h2

theorem writeCell_le_estimate (T : Lookups) (g : Globals) (L : Libc) (A : Args)
    (column : Column) (i : Nat) (hturbo : A.turbo = true)
    (h1 : ∀ v, column ≠ Column.LGLSXP v)
    (hs : ∀ x, stringAt column i = some x → plainField g x) :
    ((writeCell T g L A column i []).length : Int) ≤ cellEstimate T g A column i := by
  cases column with
  | LGLSXP v => exact absurd rfl (h1 v)
  | OTHER n => simp [writeCell, cellEstimate, estimateCell]
  | STRSXP v =>
    have := writeString_plain g (v.getD i none) (hs _ rfl)
    simpa [writeCell, cellEstimate, estimateCell] using this
  | REALSXP v integer64 =>
    unfold writeCell cellEstimate estimateCell
    simp only [hturbo, if_true]
    split
    · split <;> simp
    · simp
  | INTSXP v levels =>
    unfold writeCell cellEstimate estimateCell
    simp only [hturbo, if_true]
    split
    · simp
    · rename_i hna
      cases levels with
      | none => simp
      | some lev =>
        have := writeString_plain g (lev.getD (v.getD i NA_INTEGER - 1).toNat none)
          (hs _ (by simp only [stringAt]; rw [if_neg hna]))
        simpa using this

theorem digits_length_le (m k : Nat) (hm : m ≠ 0) (h : m < 10 ^ k) :
    (Nat.digits 10 m).length ≤ k := by
  have h1 := Nat.base_pow_length_digits_le 10 m (by norm_num) hm
  have h2 : 10 ^ (Nat.digits 10 m).length < 10 ^ (k + 1) := by
    rw [pow_succ]
    omega
  have h3 := (Nat.pow_lt_pow_iff_right (by norm_num : 1 < 10)).mp h2
  omega

/-- The row number of a row below `nrow` has at most as many digits as the estimate
counts, when `(int)log10(nrow)` is not too small for `nrow`. -/
theorem rowNumber_length (S : Sys) (nrow i : Nat) (hi : i < nrow)
    (hlog : nrow < 10 ^ (1 + S.log10 nrow).toNat) :
    ((writeInteger ((i : Int) + 1)).length : Int) ≤ 1 + S.log10 nrow := by
  have e : ((i : Int) + 1) = ((i + 1 : Nat) : Int) := by push_cast; ring
  rw [e, writeInteger_pos (i + 1) (by omega)]
  simp only [List.length_map, List.length_reverse]
  have h1 := digits_length_le (i + 1) _ (by omega) (lt_of_le_of_lt (by omega : i + 1 ≤ nrow) hlog)
  have h2 : 0 ≤ 1 + S.log10 nrow := by
    by_contra hneg
    have : (1 + S.log10 nrow).toNat = 0 := by omega
    rw [this] at hlog
    simp at hlog
    omega
  have h3 : (((1 + S.log10 nrow).toNat : Nat) : Int) = 1 + S.log10 nrow := Int.toNat_of_nonneg h2
  rw [← h3]
  exact_mod_cast h1

theorem writeRowName_le_estimate (g : Globals) (S : Sys) (A : Args) (nrow i : Nat)
    (hi : i < nrow)
    (hnum : A.doRowNames = true → A.rowNames = none →
      g.quote ≠ Rboolean.NA_LOGICAL ∧ nrow < 10 ^ (1 + S.log10 nrow).toNat)
    (hnam : A.doRowNames = true → ∀ rn, A.rowNames = some rn → plainField g (rn.getD i none)) :
    ((writeRowName g A i []).length : Int) ≤ estimateRowName g S A nrow i := by
  unfold writeRowName estimateRowName
  by_cases hd : A.doRowNames = true
  · rw [if_pos hd, if_pos hd]
    unfold rowNameField
    cases hr : A.rowNames with
    | none =>
      obtain ⟨hq, hlog⟩ := hnum hd hr
      have h1 := rowNumber_length S nrow i hi hlog
      cases hq2 : g.quote with
      | NA_LOGICAL => exact absurd hq2 hq
      | FALSE =>
        simp only [List.nil_append, List.length_append, List.length_singleton, ne_eq,
          not_true_eq_false, if_false, List.append_nil, reduceCtorEq]
        push_cast
        omega
      | TRUE =>
        simp only [List.nil_append, List.length_append, List.length_singleton, ne_eq,
          not_false_eq_true, if_true, List.length_cons, List.length_nil, reduceCtorEq]
        push_cast
        omega
    | some rn =>
      have h1 := writeString_plain g (rn.getD i none) (hnam hd rn hr)
      simp only [List.nil_append, List.length_append, List.length_singleton]
      push_cast
      split <;> omega
  · rw [if_neg hd, if_neg hd]
    simp

theorem sum_cells_length (cells : List (List Char)) (sep : Char) :
    (((cells.map (fun c => c ++ [sep])).flatten.length : Nat) : Int) =
      (cells.map (fun c => (c.length : Int) + 1)).sum := by
  induction cells with
  | nil => simp
  | cons c rest ih =>
    simp only [List.map_cons, List.flatten_cons, List.length_append, List.sum_cons,
      List.length_singleton]
    push_cast
    rw [← ih]

/-- The length of a row: the row name, every cell with its separator, the row
terminator in place of the last separator. -/
theorem writeRow_length (T : Lookups) (hT : T.WellFormed) (g : Globals) (L : Libc) (A : Args)
    (DF : List Column) (hne : DF ≠ []) (i : Nat) :
    ((writeRow T g L A DF i []).length : Int) + 1 =
      (writeRowName g A i []).length +
        (DF.map (fun column => ((writeCell T g L A column i []).length : Int) + 1)).sum +
        A.row_sep.length := by
  unfold writeRow
  simp only []
  rw [foldl_cells (fun column c => writeCell T g L A column i c) g.col_sep
    (fun column c => writeCell_append T hT g L A column i c) DF (writeRowName g A i [])]
  have e : DF.map (fun column => writeCell T g L A column i [] ++ [g.col_sep]) =
      (DF.map (fun column => writeCell T g L A column i [])).map (fun c => c ++ [g.col_sep]) := by
    rw [List.map_map]; rfl
  have hs := sum_cells_length (DF.map (fun column => writeCell T g L A column i [])) g.col_sep
  have hs2 : (DF.map (fun column => writeCell T g L A column i [])).map
      (fun c => ((c.length : Nat) : Int) + 1) =
      DF.map (fun column => ((writeCell T g L A column i []).length : Int) + 1) := by
    rw [List.map_map]; rfl
  rw [hs2] at hs
  have hpos : 1 ≤ ((DF.map (fun column => writeCell T g L A column i [])).map
      (fun c => c ++ [g.col_sep])).flatten.length := by
    cases DF with
    | nil => exact absurd rfl hne
    | cons c rest => simp; omega
  rw [e, List.length_append, List.length_dropLast, List.length_append]
  rw [← hs]
  generalize ((DF.map (fun column => writeCell T g L A column i [])).map
      (fun c => c ++ [g.col_sep])).flatten.length = n at hpos
  push_cast
  omega

theorem sum_le_sum_map (DF : List Column) (f h : Column → Int)
    (hle : ∀ column ∈ DF, f column ≤ h column) : (DF.map f).sum ≤ (DF.map h).sum := by
  induction DF with
  | nil => simp
  | cons c rest ih =>
    simp only [List.map_cons, List.sum_cons]
    have h1 := hle c (List.mem_cons_self _ _)
    have h2 := ih (fun column hm => hle column (List.mem_cons_of_mem _ hm))
    omega

/-- A row that is written with `turbo` on, has no logical column, and has its
strings and its row name or number written as they are, takes fewer bytes than
its estimate. -/
theorem writeRow_lt_estimate (T : Lookups) (hT : T.WellFormed) (g : Globals) (L : Libc)
    (S : Sys) (A : Args) (DF : List Column) (hne : DF ≠ []) (nrow i : Nat) (hi : i < nrow)
    (hturbo : A.turbo = true)
    (hlgl : ∀ column ∈ DF, ∀ v, column ≠ Column.LGLSXP v)
    (hstr : ∀ column ∈ DF, ∀ x, stringAt column i = some x → plainField g x)
    (hnum : A.doRowNames = true → A.rowNames = none →
      g.quote ≠ Rboolean.NA_LOGICAL ∧ nrow < 10 ^ (1 + S.log10 nrow).toNat)
    (hnam : A.doRowNames = true → ∀ rn, A.rowNames = some rn → plainField g (rn.getD i none)) :
    ((writeRow T g L A DF i []).length : Int) + 1 ≤ sumLineLen T g S A DF nrow i := by
  rw [writeRow_length T hT g L A DF hne i]
  unfold sumLineLen
  have h1 := writeRowName_le_estimate g S A nrow i hi hnum hnam
  have h2 := sum_le_sum_map DF
    (fun column => ((writeCell T g L A column i []).length : Int) + 1)
    (fun column => cellEstimate T g A column i + 1)
    (fun column hm => by
      have := writeCell_le_estimate T g L A column i hturbo (hlgl column hm) (hstr column hm)
      simp only []
      omega)
  omega

theorem typeof_supported (column : Column)
    (h : TYPEOF column = 13 ∨ TYPEOF column = 14 ∨ TYPEOF column = 16) :
    (∀ v, column ≠ Column.LGLSXP v) ∧ ∀ n, column ≠ Column.OTHER n := by
  cases column <;> simp [TYPEOF] at h ⊢

/-- The estimate of a logical cell overwrites the running sum: for the row
`123456,TRUE` of 12 bytes the estimate is 7. -/
theorem estimateRow_logical_example :
    estimateRow specLookups scenarioGlobals scenarioSys scenarioArgs
      [Column.INTSXP [123456] none, Column.LGLSXP [1]] 1 0 = Except.ok 7 ∧
    writeRow specLookups scenarioGlobals noLibc scenarioArgs
      [Column.INTSXP [123456] none, Column.LGLSXP [1]] 0 [] = "123456,TRUE\n".toList :=
  ⟨rfl, by decide⟩

/-- With quote "auto" the row number is written between quotes that the estimate
does not count: for the row `"1",5` of 6 bytes the estimate is 5. -/
theorem estimateRow_rowNumber_example :
    estimateRow specLookups scenarioGlobals scenarioSys ⟨['\n'], false, true, true, none⟩
      [Column.INTSXP [5] none] 1 0 = Except.ok 5 ∧
    writeRow specLookups scenarioGlobals noLibc ⟨['\n'], false, true, true, none⟩
      [Column.INTSXP [5] none] 0 [] = "\"1\",5\n".toList :=
  ⟨rfl, by decide⟩

/-! ## The estimate is positive, and a batch against the buffer -/

theorem estimateCell_nonneg (T : Lookups) (g : Globals) (A : Args) (column : Column) (i : Nat)
    (t x : Int) (ht : 0 ≤ t) (h : estimateCell T g A column i t = some x) : 0 ≤ x := by
  have hL : ∀ y : SEXPstr, 0 ≤ LENGTH y := by
    intro y
    cases y with
    | none => decide
    | some s => exact Int.ofNat_nonneg _
  cases column with
  | OTHER n => cases h
  | LGLSXP v =>
    simp only [estimateCell] at h
    have e := Option.some.inj h
    rw [← e]
    split <;> decide
  | STRSXP v =>
    simp only [estimateCell] at h
    have e := Option.some.inj h
    have := hL (v.getD i none)
    omega
  | INTSXP v levels =>
    simp only [estimateCell] at h
    split at h
    · have e := Option.some.inj h
      omega
    · cases levels with
      | none =>
        have e := Option.some.inj h
        omega
      | some lev =>
        have e := Option.some.inj h
        have := hL (lev.getD (v.getD i NA_INTEGER - 1).toNat none)
        omega
  | REALSXP v integer64 =>
    simp only [estimateCell] at h
    split at h
    · split at h
      · have e := Option.some.inj h
        omega
      · have e := Option.some.inj h
        omega
    · have e := Option.some.inj h
      omega

theorem estimateCells_pos (T : Lookups) (g : Globals) (A : Args) (i : Nat) :
    ∀ (DF : List Column) (j : Nat) (t len : Int), 1 ≤ t →
      estimateCells T g A i DF j t = Except.ok len → 1 ≤ len := by
  intro DF
  induction DF with
  | nil =>
    intro j t len ht h
    simp only [estimateCells] at h
    injection h with e
    omega
  | cons c rest ih =>
    intro j t len ht h
    unfold estimateCells at h
    cases hc : estimateCell T g A c i t with
    | none => rw [hc] at h; cases h
    | some x =>
      rw [hc] at h
      have hx := estimateCell_nonneg T g A c i t x (by omega) hc
      exact ih (j + 1) (x + 1) len (by omega) h

theorem estimateCells_pos_of_ne (T : Lookups) (g : Globals) (A : Args) (i : Nat)
    (DF : List Column) (hne : DF ≠ []) (j : Nat) (t len : Int) (ht : 0 ≤ t)
    (h : estimateCells T g A i DF j t = Except.ok len) : 1 ≤ len := by
  cases DF with
  | nil => exact absurd rfl hne
  | cons c rest =>
    unfold estimateCells at h
    cases hc : estimateCell T g A c i t with
    | none => rw [hc] at h; cases h
    | some x =>
      rw [hc] at h
      have hx := estimateCell_nonneg T g A c i t x ht hc
      exact estimateCells_pos T g A i rest (j + 1) (x + 1) len (by omega) h

theorem estimateRowName_nonneg (g : Globals) (S : Sys) (A : Args) (nrow i : Nat)
    (hlog : 0 ≤ S.log10 nrow) : 0 ≤ estimateRowName g S A nrow i := by
  unfold estimateRowName
  split
  · have hL : ∀ y : SEXPstr, 0 ≤ LENGTH y := by
      intro y
      cases y with
      | none => decide
      | some s => exact Int.ofNat_nonneg _
    cases hr : A.rowNames with
    | none => simp only []; split <;> omega
    | some rn =>
      have := hL (rn.getD i none)
      simp only []
      split <;> omega
  · exact le_rfl

theorem estimateLoop_mono (T : Lookups) (g : Globals) (S : Sys) (A : Args) (DF : List Column)
    (nrow : Nat) : ∀ (rows : List Nat) (m r : Int),
    estimateLoop T g S A DF nrow rows m = Except.ok r → m ≤ r := by
  intro rows
  induction rows with
  | nil =>
    intro m r h
    simp only [estimateLoop] at h
    injection h with e
    omega
  | cons i rest ih =>
    intro m r h
    unfold estimateLoop at h
    cases hc : estimateCells T g A i DF 0 (estimateRowName g S A nrow i) with
    | error j => rw [hc] at h; cases h
    | ok len =>
      rw [hc] at h
      have := ih _ r h
      clear h
      split at this <;> omega

/-- With a row to look at, `maxLineLen` is at least 1. -/
theorem estimateMaxLineLen_pos (T : Lookups) (g : Globals) (S : Sys) (A : Args)
    (DF : List Column) (hne : DF ≠ []) (nrow : Nat) (h1 : 1 ≤ nrow) (hlog : 0 ≤ S.log10 nrow)
    (m : Int) (h : estimateMaxLineLen T g S A DF nrow = Except.ok m) : 1 ≤ m := by
  unfold estimateMaxLineLen at h
  obtain ⟨rest, hr⟩ := sampleRows_head nrow h1
  rw [hr] at h
  unfold estimateLoop at h
  cases hc : estimateCells T g A 0 DF 0 (estimateRowName g S A nrow 0) with
  | error j => rw [hc] at h; cases h
  | ok len =>
    rw [hc] at h
    have h2 := estimateCells_pos_of_ne T g A 0 DF hne 0 _ len
      (estimateRowName_nonneg g S A nrow 0 hlog) hc
    have h3 := estimateLoop_mono T g S A DF nrow rest _ m h
    clear h hc
    have h4 : (0 : Int) ≤ (A.row_sep.length : Int) := Int.ofNat_nonneg _
    split at h3 <;> omega

theorem flatMap_length_le (f : Nat → List Char) (m : Nat) : ∀ (rows : List Nat),
    (∀ i ∈ rows, (f i).length ≤ m) → (rows.flatMap f).length ≤ rows.length * m := by
  intro rows
  induction rows with
  | nil => intro _; simp
  | cons i rest ih =>
    intro h
    have h1 := h i (List.mem_cons_self _ _)
    have h2 := ih (fun k hk => h k (List.mem_cons_of_mem _ hk))
    simp only [List.flatMap_cons, List.length_append, List.length_cons]
    rw [Nat.add_mul]
    omega

/-- A batch of rows that each take at most `m` bytes takes at most `m` bytes for
every row. -/
theorem writeBatch_length_le (T : Lookups) (hT : T.WellFormed) (g : Globals) (L : Libc)
    (A : Args) (DF : List Column) (hne : DF ≠ []) (start stop m : Nat)
    (h : ∀ i, start ≤ i → i < stop → (writeBatch T g L A DF i (i + 1)).length ≤ m) :
    (writeBatch T g L A DF start stop).length ≤ (stop - start) * m := by
  rw [writeBatch_eq_flatMap T hT g L A DF hne start stop]
  have := flatMap_length_le (fun i => writeBatch T g L A DF i (i + 1)) m
    ((List.range (stop - start)).map (fun k => start + k))
    (by
      intro i hi
      rw [List.mem_map] at hi
      obtain ⟨k, hk, rfl⟩ := hi
      rw [List.mem_range] at hk
      exact h (start + k) (by omega) (by omega))
  rw [List.length_map, List.length_range] at this
  exact this

/-- The rows of a batch against the buffer: when `maxLineLen` is below `buffSize`
and no row takes more than `maxLineLen` bytes, the bytes of a batch and one more
fit in `buffSize`. -/
theorem batch_fits (T : Lookups) (hT : T.WellFormed) (g : Globals) (L : Libc)
    (A : Args) (DF : List Column) (hne : DF ≠ []) (nrow : Nat) (h1 : 1 ≤ nrow)
    (m b : Nat) (hb1 : 1 ≤ b) (hb2 : b ≤ 1024) (hm : 1 ≤ m) (hmb : m < 1048576 * b)
    (hfit : 10 * (m : Int) ≤ INT_MAX)
    (hrows : ∀ i, i < nrow → (writeBatch T g L A DF i (i + 1)).length ≤ m) :
    1 ≤ rowsPerBatchOf (m : Int) (buffSizeOf (b : Int)) nrow ∧
    ∀ bt ∈ batches nrow (rowsPerBatchOf (m : Int) (buffSizeOf (b : Int)) nrow).toNat,
      (writeBatch T g L A DF bt.1 bt.2).length + 1 ≤ 1048576 * b := by
  obtain ⟨hr, h9⟩ := rowsPerBatchOf_eq m b (nrow : Int) (by omega) hb1 hb2 hm hfit
  have hB : buffSizeOf (b : Int) = ((1048576 * b : Nat) : Int) := by
    unfold buffSizeOf; push_cast; ring
  rw [hB] at hr h9
  obtain ⟨r, hrr, hr1, hrm⟩ : ∃ r : Nat,
      rowsPerBatchOf (m : Int) (buffSizeOf (b : Int)) nrow = (r : Int) ∧ 1 ≤ r ∧
        r * m + 1 ≤ 1048576 * b := by
    rw [hB, hr]
    by_cases hc : 10 * (m : Int) > ((1048576 * b : Nat) : Int)
    · rw [if_pos hc]
      refine ⟨1, ?_, le_rfl, by omega⟩
      rw [min_eq_right] <;> omega
    · rw [if_neg hc]
      have h9b := h9 hc
      have hq : 9 * (1048576 * b) / (10 * m) * (10 * m) ≤ 9 * (1048576 * b) :=
        Nat.div_mul_le_self _ _
      generalize 9 * (1048576 * b) / (10 * m) = q at h9b hq
      refine ⟨min nrow q, by push_cast; rfl, by omega, ?_⟩
      have hle : min nrow q * m ≤ q * m := Nat.mul_le_mul_right m (min_le_right _ _)
      have e : q * (10 * m) = 10 * (q * m) := by ring
      rw [e] at hq
      omega
  rw [hrr, Int.toNat_ofNat]
  refine ⟨by omega, ?_⟩
  intro bt hbt
  obtain ⟨k, hk⟩ := List.getElem?_of_mem hbt
  obtain ⟨hk1, rfl⟩ := batches_getElem?_some nrow r k bt h1 hr1 hk
  have hlen := writeBatch_length_le T hT g L A DF hne (k * r) (min nrow (k * r + r)) m
    (fun i _ hi => hrows i (by omega))
  have hd : min nrow (k * r + r) - k * r ≤ r := by omega
  have := Nat.mul_le_mul_right m hd
  simp only []
  omega

/-- A table of one row and one character column, written with quote FALSE: the
estimate and the bytes of its only batch. -/
theorem one_string_table (s : List Char) :
    estimateMaxLineLen specLookups ⟨[], ',', '.', Rboolean.FALSE, true⟩ scenarioSys scenarioArgs
      [Column.STRSXP [some s]] 1 = Except.ok ((s.length : Int) + 2) ∧
    writeBatch specLookups ⟨[], ',', '.', Rboolean.FALSE, true⟩ noLibc scenarioArgs
      [Column.STRSXP [some s]] 0 1 = s ++ ['\n'] := by
  constructor
  · have h : sampleRows 1 = [0] := by decide
    unfold estimateMaxLineLen
    rw [h]
    simp only [estimateLoop, estimateCells, estimateCell, estimateRowName, scenarioArgs, LENGTH,
      List.getD_cons_zero]
    simp only [Bool.false_eq_true, if_false, List.length_singleton]
    congr 1
    have : (0 : Int) ≤ (s.length : Int) := Int.ofNat_nonneg _
    split <;> omega
  · rw [writeBatch_single]
    have h : sameType [Column.STRSXP [some s]] = 16 := by
      simp [sameType, isFactor, isInteger64, TYPEOF]
    rw [h]
    simp [writeRow, writeRowName, writeCell, writeString, scenarioArgs]

/-- A row longer than the buffer: one string of 1048576 bytes with `buffMB = 1`.
`maxLineLen` is 1048578, above `buffSize = 1048576`, so `rowsPerBatch` is 1, and the
only batch holds the 1048577 bytes of the row, within `maxLineLen` and beyond the
`buffSize` bytes of the worker's buffer. -/
theorem long_row_overruns_buffer :
    estimateMaxLineLen specLookups ⟨[], ',', '.', Rboolean.FALSE, true⟩ scenarioSys scenarioArgs
      [Column.STRSXP [some (List.replicate 1048576 'x')]] 1 = Except.ok 1048578 ∧
    buffSizeOf 1 = 1048576 ∧
    rowsPerBatchOf 1048578 (buffSizeOf 1) 1 = 1 ∧
    batches 1 1 = [(0, 1)] ∧
    (writeBatch specLookups ⟨[], ',', '.', Rboolean.FALSE, true⟩ noLibc scenarioArgs
      [Column.STRSXP [some (List.replicate 1048576 'x')]] 0 1).length = 1048577 := by
  refine ⟨?_, by decide, by decide, by decide, ?_⟩
  · rw [(one_string_table (List.replicate 1048576 'x')).1, List.length_replicate]
    rfl
  · rw [(one_string_table (List.replicate 1048576 'x')).2, List.length_append,
      List.length_replicate]
    rfl

/-! ## The relative error of the double operations -/

/-- Rounding moves a value by at most `2^-53` of the rounded value. -/
theorem rnd_rel (n d : Nat) (e : Int) (hn : 0 < n) (hd : 0 < d) :
    |(rnd n d e).val - (n : ℚ) / (d : ℚ) * (2 : ℚ) ^ e| ≤
      (rnd n d e).val / 9007199254740992 := by
  have h1 := rnd_error n d e hn hd
  have h2 := (rnd_m_bounds n d e hn hd).1
  refine le_trans h1 ?_
  unfold Dbl.val
  have two : (2 : ℚ) ≠ 0 := by norm_num
  rw [zpow_sub₀ two, zpow_one]
  have hm : (4503599627370496 : ℚ) ≤ ((rnd n d e).m : ℚ) := by
    have : 4503599627370496 ≤ (rnd n d e).m := by
      have e52 : (2 : Nat) ^ 52 = 4503599627370496 := by norm_num
      rw [e52] at h2
      exact h2
    exact_mod_cast this
  have hp : (0 : ℚ) < (2 : ℚ) ^ (rnd n d e).e := by positivity
  have e : (2 : ℚ) ^ (rnd n d e).e / 2 =
      4503599627370496 * (2 : ℚ) ^ (rnd n d e).e / 9007199254740992 := by ring
  rw [e]
  apply div_le_div_of_nonneg_right _ (by norm_num)
  exact mul_le_mul_of_nonneg_right hm hp.le

theorem Dbl.mul_rel (a b : Dbl) (ha : 0 < a.m) (hb : 0 < b.m) :
    |(a.mul b).val - a.val * b.val| ≤ (a.mul b).val / 9007199254740992 := by
  have := rnd_rel (a.m * b.m) 1 (a.e + b.e) (Nat.mul_pos ha hb) (by norm_num)
  rw [Dbl.mul_exact_prod] at this
  exact this

theorem Dbl.div_rel (a b : Dbl) (ha : 0 < a.m) (hb : 0 < b.m) :
    |(a.div b).val - a.val / b.val| ≤ (a.div b).val / 9007199254740992 := by
  have := rnd_rel a.m b.m (a.e - b.e) ha hb
  rw [Dbl.div_exact_quot] at this
  exact this

/-- The tables modelled from section 4.H have the precision the section gives
them. -/
theorem specLookups_accurate : specLookups.Accurate := by
  intro i h1 h2
  show |(expsigSpec i).val - (2 : ℚ) ^ ((i : Int) - 1023) / (10 : ℚ) ^ (exppowSpec i)| ≤
    (expsigSpec i).val / 9007199254740992 + 1 / 10 ^ 40
  have key : ∀ (N Dn : Nat), 0 < Dn → 10 ^ 40 * Dn ≤ N * 10 ^ 40 →
      |(rnd (roundDiv (N * 10 ^ 40) Dn) (10 ^ 40) 0).val - (N : ℚ) / (Dn : ℚ)| ≤
        (rnd (roundDiv (N * 10 ^ 40) Dn) (10 ^ 40) 0).val / 9007199254740992 + 1 / 10 ^ 40 := by
    intro N Dn hDn hge
    have hm : 0 < roundDiv (N * 10 ^ 40) Dn := by
      have h := le_roundDiv (N * 10 ^ 40) Dn
      have : 10 ^ 40 ≤ N * 10 ^ 40 / Dn := (Nat.le_div_iff_mul_le hDn).mpr hge
      have : 0 < 10 ^ 40 := by norm_num
      omega
    have hr := rnd_rel (roundDiv (N * 10 ^ 40) Dn) (10 ^ 40) 0 hm (by norm_num)
    have hd := roundDiv_error (N * 10 ^ 40) Dn hDn
    rw [zpow_zero, mul_one] at hr
    have hDq : (0 : ℚ) < (Dn : ℚ) := by exact_mod_cast hDn
    have e1 : ((N * 10 ^ 40 : ℕ) : ℚ) / (Dn : ℚ) = (N : ℚ) / (Dn : ℚ) * 10 ^ 40 := by
      push_cast
      ring
    rw [e1] at hd
    have e2 : ((10 ^ 40 : ℕ) : ℚ) = 10 ^ 40 := by norm_num
    rw [e2] at hr
    set r := (rnd (roundDiv (N * 10 ^ 40) Dn) (10 ^ 40) 0).val with hrdef
    set m := ((roundDiv (N * 10 ^ 40) Dn : ℕ) : ℚ) with hmdef
    have hd2 : |m / 10 ^ 40 - (N : ℚ) / (Dn : ℚ)| ≤ 1 / 10 ^ 40 := by
      have : m / 10 ^ 40 - (N : ℚ) / (Dn : ℚ) = (m - (N : ℚ) / (Dn : ℚ) * 10 ^ 40) / 10 ^ 40 := by
        field_simp
        ring
      rw [this, abs_div, abs_of_pos (by positivity : (0 : ℚ) < 10 ^ 40)]
      exact div_le_div_of_nonneg_right (le_trans hd (by norm_num)) (by positivity)
    calc |r - (N : ℚ) / (Dn : ℚ)|
        = |(r - m / 10 ^ 40) + (m / 10 ^ 40 - (N : ℚ) / (Dn : ℚ))| := by ring_nf
      _ ≤ |r - m / 10 ^ 40| + |m / 10 ^ 40 - (N : ℚ) / (Dn : ℚ)| := abs_add _ _
      _ ≤ r / 9007199254740992 + 1 / 10 ^ 40 := add_le_add hr hd2
  have two : (2 : ℚ) ≠ 0 := by norm_num
  have ten : (10 : ℚ) ≠ 0 := by norm_num
  unfold expsigSpec exppowSpec
  simp only []
  by_cases hi : 1023 ≤ i
  · rw [if_pos hi, if_pos hi]
    have hN : 0 < 2 ^ (i - 1023) := Nat.pow_pos (by norm_num)
    obtain ⟨b1, _⟩ := decLen_bounds _ hN
    have hL := decLen_pos _ hN
    set L := decLen (2 ^ (i - 1023)) with hLdef
    have hp : 10 ^ L = 10 * 10 ^ (L - 1) := by
      have : L = (L - 1) + 1 := by omega
      rw [this, pow_succ, Nat.mul_comm]
      simp
    have hge : 10 ^ 40 * 10 ^ (L - 1) ≤ 2 ^ (i - 1023) * 10 ^ 40 := by
      rw [hp] at b1
      have : 10 ^ (L - 1) ≤ 2 ^ (i - 1023) := by omega
      calc 10 ^ 40 * 10 ^ (L - 1) ≤ 10 ^ 40 * 2 ^ (i - 1023) := Nat.mul_le_mul_left _ this
        _ = 2 ^ (i - 1023) * 10 ^ 40 := Nat.mul_comm _ _
    have := key (2 ^ (i - 1023)) (10 ^ (L - 1)) (Nat.pow_pos (by norm_num)) hge
    have e1 : (2 : ℚ) ^ ((i : Int) - 1023) / (10 : ℚ) ^ ((L : Int) - 1) =
        ((2 ^ (i - 1023) : ℕ) : ℚ) / ((10 ^ (L - 1) : ℕ) : ℚ) := by
      have a1 : ((i : Int) - 1023) = ((i - 1023 : ℕ) : Int) := by omega
      have a2 : ((L : Int) - 1) = ((L - 1 : ℕ) : Int) := by omega
      rw [a1, a2, zpow_natCast, zpow_natCast]
      push_cast
      rfl
    rw [e1]
    exact this
  · rw [if_neg hi, if_neg hi]
    have hM : 0 < 2 ^ (1023 - i) := Nat.pow_pos (by norm_num)
    obtain ⟨_, b2⟩ := decLen_bounds _ hM
    set L := decLen (2 ^ (1023 - i)) with hLdef
    have hge : 10 ^ 40 * 2 ^ (1023 - i) ≤ 10 ^ L * 10 ^ 40 := by
      calc 10 ^ 40 * 2 ^ (1023 - i) ≤ 10 ^ 40 * 10 ^ L := Nat.mul_le_mul_left _ b2.le
        _ = 10 ^ L * 10 ^ 40 := Nat.mul_comm _ _
    have := key (10 ^ L) (2 ^ (1023 - i)) hM hge
    have e1 : (2 : ℚ) ^ ((i : Int) - 1023) / (10 : ℚ) ^ (-(L : Int)) =
        ((10 ^ L : ℕ) : ℚ) / ((2 ^ (1023 - i) : ℕ) : ℚ) := by
      have a1 : ((i : Int) - 1023) = -((1023 - i : ℕ) : Int) := by omega
      rw [a1, zpow_neg, zpow_neg, zpow_natCast, zpow_natCast]
      push_cast
      field_simp
    rw [e1]
    exact this

/-! ## The double nearest to a number -/

/-- A double that is nearest to `q` is a normal double with the sign of `q` and a
magnitude within half a unit of its last place of that of `q`. -/
theorem nearestDouble_normal (q : ℚ) (x : Nat) (hq0 : q ≠ 0) (hx : nearestDouble q = some x) :
    1 ≤ exponentOf x ∧ exponentOf x ≤ 2046 ∧ signOf x = decide (q < 0) ∧
    abs (((4503599627370496 + fractionOf x : ℕ) : ℚ) * (2 : ℚ) ^ ((exponentOf x : Int) - 1075) -
      abs q) ≤ (2 : ℚ) ^ ((exponentOf x : Int) - 1076) := by
  have hnum0 : q.num ≠ 0 := Rat.num_ne_zero.mpr hq0
  have hn : 0 < q.num.natAbs := Int.natAbs_pos.mpr hnum0
  have hd : 0 < q.den := q.den_pos
  have hqe : (q.num.natAbs : ℚ) / (q.den : ℚ) * (2 : ℚ) ^ (0 : Int) = |q| := by
    have h1 : ((q.num.natAbs : ℕ) : ℚ) = |((q.num : Int) : ℚ)| := by
      rw [Nat.cast_natAbs, Int.cast_abs]
    have h2 : |(q.den : ℚ)| = (q.den : ℚ) := abs_of_pos (by exact_mod_cast hd)
    rw [h1, zpow_zero, mul_one]
    nth_rewrite 3 [← Rat.num_div_den q]
    rw [abs_div, h2]
  have hmb := rnd_m_bounds q.num.natAbs q.den 0 hn hd
  have herr := rnd_error q.num.natAbs q.den 0 hn hd
  rw [hqe] at herr
  unfold nearestDouble at hx
  rw [if_neg hq0] at hx
  simp only [] at hx
  set a := rnd q.num.natAbs q.den 0 with ha
  set S : Nat := if q < 0 then 9223372036854775808 else 0 with hSdef
  have hS : S = 0 ∨ S = 9223372036854775808 := by
    rw [hSdef]
    split
    · exact Or.inr rfl
    · exact Or.inl rfl
  have hSsign : decide (S = 9223372036854775808) = decide (q < 0) := by
    rw [hSdef]
    by_cases hneg : q < 0
    · simp [hneg]
    · simp [hneg]
  have h52 : (2 : Nat) ^ 52 = 4503599627370496 := by norm_num
  have h53 : (2 : Nat) ^ 53 = 9007199254740992 := by norm_num
  rw [h52, h53] at hmb
  have two : (2 : ℚ) ≠ 0 := by norm_num
  by_cases hc : a.m = 9007199254740992
  · simp only [hc, if_true] at hx
    split at hx
    · next hE =>
      have hxe := (Option.some.inj hx).symm
      have hEn : (a.e + 1 + 1075).toNat < 2048 := by omega
      obtain ⟨f1, f2, f3⟩ := fields_of_bits S (a.e + 1 + 1075).toNat 0 hS hEn (by norm_num)
      have hxe' : x = S + (a.e + 1 + 1075).toNat * 4503599627370496 + 0 := by
        rw [hxe]
      rw [hxe', f1, f2, f3]
      have hEc : (((a.e + 1 + 1075).toNat : ℕ) : Int) = a.e + 1 + 1075 :=
        Int.toNat_of_nonneg (by omega)
      refine ⟨by omega, by omega, hSsign, ?_⟩
      rw [hEc]
      have hval : a.val = ((4503599627370496 + 0 : ℕ) : ℚ) * (2 : ℚ) ^ (a.e + 1 + 1075 - 1075) := by
        have e1 : a.e + 1 + 1075 - 1075 = a.e + 1 := by ring
        rw [e1, zpow_add₀ two, zpow_one]
        simp only [Dbl.val, hc]
        push_cast
        ring
      rw [← hval]
      refine le_trans herr ?_
      exact zpow_le_zpow_right₀ (by norm_num) (by omega)
    · exact absurd hx (by simp)
  · simp only [hc, if_false] at hx
    split at hx
    · next hE =>
      have hxe := (Option.some.inj hx).symm
      have hEn : (a.e + 1075).toNat < 2048 := by omega
      have hfr : a.m - 4503599627370496 < 4503599627370496 := by omega
      obtain ⟨f1, f2, f3⟩ :=
        fields_of_bits S (a.e + 1075).toNat (a.m - 4503599627370496) hS hEn hfr
      have hxe' : x = S + (a.e + 1075).toNat * 4503599627370496 + (a.m - 4503599627370496) := by
        rw [hxe]
      rw [hxe', f1, f2, f3]
      have hEc : (((a.e + 1075).toNat : ℕ) : Int) = a.e + 1075 :=
        Int.toNat_of_nonneg (by omega)
      refine ⟨by omega, by omega, hSsign, ?_⟩
      rw [hEc]
      have hm : 4503599627370496 + (a.m - 4503599627370496) = a.m := by omega
      have hval : a.val =
          ((4503599627370496 + (a.m - 4503599627370496) : ℕ) : ℚ) *
            (2 : ℚ) ^ (a.e + 1075 - 1075) := by
        have e1 : a.e + 1075 - 1075 = a.e := by ring
        rw [hm, e1]
        simp only [Dbl.val]
      rw [← hval]
      refine le_trans herr ?_
      exact zpow_le_zpow_right₀ (by norm_num) (by omega)
    · exact absurd hx (by simp)

/-! ## The error of the significand stage -/

theorem abs_rel_bounds (a b u : ℚ) (h : |a - b| ≤ a * u) :
    a * (1 - u) ≤ b ∧ b ≤ a * (1 + u) := by
  obtain ⟨h1, h2⟩ := abs_le.mp h
  constructor <;> linarith

/-- The roundings of lines 144-147 in one chain: from the value `V` the double `X`
stands for, through the table entry `S` for the mantissa `M`, the product (and its
division by `d = 10`) `y1`, and the product `w` by `K = 10^15`, to the integer part
`l` of `w`. -/
theorem chain_bounds (u t s S M y1 w V X P d c1 c2 K : ℚ) (l : ℕ)
    (hu0 : 0 ≤ u) (hu1 : u ≤ 1) (ht : 0 ≤ t) (hs0 : 0 ≤ s) (hs2 : s ≤ 2)
    (hP : 0 < P) (hd : 1 ≤ d) (hK : 0 ≤ K)
    (hc1 : 0 ≤ c1) (hc2 : 0 ≤ c2)
    (hXV : |X - V| ≤ X * u) (hX : X = s * M * P) (hS : |S - M| ≤ S * u + t)
    (hy_up : s * S / d ≤ y1 * c1) (hy_lo : y1 * c2 ≤ s * S / d)
    (hw : |w - y1 * K| ≤ w * u) (hl1 : (l : ℚ) ≤ w) (hl2 : w ≤ (l : ℚ) + 1) :
    (l : ℚ) * (c2 * (1 - u) ^ 3) - 2 * t * K ≤ V / (P * d) * K ∧
    V / (P * d) * K ≤ ((l : ℚ) + 1) * (c1 * (1 + u) ^ 3) + 4 * t * K := by
  obtain ⟨v1, v2⟩ := abs_rel_bounds X V u hXV
  obtain ⟨w1, w2⟩ := abs_rel_bounds w (y1 * K) u hw
  obtain ⟨m1, m2⟩ := abs_le.mp hS
  have hd0 : 0 < d := by linarith
  have hPd : 0 < P * d := mul_pos hP hd0
  have h1u : 0 ≤ 1 - u := by linarith
  have h1p : 0 ≤ 1 + u := by linarith
  have h1p2 : 1 + u ≤ 2 := by linarith
  have hl0 : (0 : ℚ) ≤ (l : ℚ) := by positivity
  have hsM0 : 0 ≤ s * t := mul_nonneg hs0 ht
  have eV : V / (P * d) * K = V / P / d * K := by
    rw [div_div]
  have eX : X / P = s * M := by
    rw [hX]
    field_simp
  constructor
  · -- lower bound
    have a1 : s * M * (1 - u) ≤ V / P := by
      rw [le_div_iff₀ hP]
      calc s * M * (1 - u) * P = X * (1 - u) := by rw [hX]; ring
        _ ≤ V := v1
    have a2 : s * (S * (1 - u) - t) ≤ s * M := by
      apply mul_le_mul_of_nonneg_left _ hs0
      linarith
    have a3 : (s * S) * (1 - u) ^ 2 - 2 * t ≤ V / P := by
      have h := mul_le_mul_of_nonneg_right a2 h1u
      have h2 : s * t * (1 - u) ≤ 2 * t := by
        have : s * t ≤ 2 * t := mul_le_mul_of_nonneg_right hs2 ht
        have : s * t * (1 - u) ≤ s * t * 1 := mul_le_mul_of_nonneg_left (by linarith) hsM0
        linarith
      have e : s * (S * (1 - u) - t) * (1 - u) = (s * S) * (1 - u) ^ 2 - s * t * (1 - u) := by
        ring
      rw [e] at h
      linarith
    have a4 : (s * S / d) * (1 - u) ^ 2 - 2 * t ≤ V / P / d := by
      rw [le_div_iff₀ hd0]
      have e : ((s * S / d) * (1 - u) ^ 2 - 2 * t) * d = (s * S) * (1 - u) ^ 2 - 2 * t * d := by
        field_simp
        ring
      rw [e]
      have : 2 * t * 1 ≤ 2 * t * d := mul_le_mul_of_nonneg_left hd (by linarith)
      linarith
    have a5 : y1 * c2 * (1 - u) ^ 2 - 2 * t ≤ V / P / d := by
      have := mul_le_mul_of_nonneg_right hy_lo (by positivity : (0 : ℚ) ≤ (1 - u) ^ 2)
      linarith
    have a6 : (y1 * K) * (c2 * (1 - u) ^ 2) - 2 * t * K ≤ V / P / d * K := by
      have := mul_le_mul_of_nonneg_right a5 hK
      have e : (y1 * c2 * (1 - u) ^ 2 - 2 * t) * K = (y1 * K) * (c2 * (1 - u) ^ 2) - 2 * t * K := by
        ring
      rw [e] at this
      exact this
    have hc : 0 ≤ c2 * (1 - u) ^ 2 := by positivity
    have a7 : w * (1 - u) * (c2 * (1 - u) ^ 2) ≤ (y1 * K) * (c2 * (1 - u) ^ 2) :=
      mul_le_mul_of_nonneg_right w1 hc
    have a8 : (l : ℚ) * ((1 - u) * (c2 * (1 - u) ^ 2)) ≤ w * ((1 - u) * (c2 * (1 - u) ^ 2)) :=
      mul_le_mul_of_nonneg_right hl1 (by positivity)
    rw [eV]
    have e : (l : ℚ) * (c2 * (1 - u) ^ 3) = (l : ℚ) * ((1 - u) * (c2 * (1 - u) ^ 2)) := by ring
    rw [e]
    linarith
  · -- upper bound
    have a1 : V / P ≤ s * M * (1 + u) := by
      rw [div_le_iff₀ hP]
      calc V ≤ X * (1 + u) := v2
        _ = s * M * (1 + u) * P := by rw [hX]; ring
    have a2 : s * M ≤ s * (S * (1 + u) + t) := by
      apply mul_le_mul_of_nonneg_left _ hs0
      linarith
    have a3 : V / P ≤ (s * S) * (1 + u) ^ 2 + 4 * t := by
      have h := mul_le_mul_of_nonneg_right a2 h1p
      have h2 : s * t * (1 + u) ≤ 4 * t := by
        have h3 : s * t ≤ 2 * t := mul_le_mul_of_nonneg_right hs2 ht
        have h4 : s * t * (1 + u) ≤ s * t * 2 := mul_le_mul_of_nonneg_left h1p2 hsM0
        linarith
      have e : s * (S * (1 + u) + t) * (1 + u) = (s * S) * (1 + u) ^ 2 + s * t * (1 + u) := by
        ring
      rw [e] at h
      linarith
    have a4 : V / P / d ≤ (s * S / d) * (1 + u) ^ 2 + 4 * t := by
      rw [div_le_iff₀ hd0]
      have e : ((s * S / d) * (1 + u) ^ 2 + 4 * t) * d = (s * S) * (1 + u) ^ 2 + 4 * t * d := by
        field_simp
      rw [e]
      have : 4 * t * 1 ≤ 4 * t * d := mul_le_mul_of_nonneg_left hd (by linarith)
      linarith
    have a5 : V / P / d ≤ y1 * c1 * (1 + u) ^ 2 + 4 * t := by
      have := mul_le_mul_of_nonneg_right hy_up (by positivity : (0 : ℚ) ≤ (1 + u) ^ 2)
      linarith
    have a6 : V / P / d * K ≤ (y1 * K) * (c1 * (1 + u) ^ 2) + 4 * t * K := by
      have := mul_le_mul_of_nonneg_right a5 hK
      have e : (y1 * c1 * (1 + u) ^ 2 + 4 * t) * K = (y1 * K) * (c1 * (1 + u) ^ 2) + 4 * t * K := by
        ring
      rw [e] at this
      exact this
    have hc : 0 ≤ c1 * (1 + u) ^ 2 := by positivity
    have a7 : (y1 * K) * (c1 * (1 + u) ^ 2) ≤ w * (1 + u) * (c1 * (1 + u) ^ 2) :=
      mul_le_mul_of_nonneg_right w2 hc
    have a8 : w * ((1 + u) * (c1 * (1 + u) ^ 2)) ≤
        ((l : ℚ) + 1) * ((1 + u) * (c1 * (1 + u) ^ 2)) :=
      mul_le_mul_of_nonneg_right hl2 (by positivity)
    rw [eV]
    have e : ((l : ℚ) + 1) * (c1 * (1 + u) ^ 3) =
        ((l : ℚ) + 1) * ((1 + u) * (c1 * (1 + u) ^ 2)) := by ring
    rw [e]
    linarith

/-- The conversion to `unsigned long long` takes the integer part. -/
theorem Dbl.toULL_floor_val (a : Dbl) (h : a.val < 18446744073709551616) :
    (a.toULL : ℚ) ≤ a.val ∧ a.val < (a.toULL : ℚ) + 1 := by
  have key : ((if 0 ≤ a.e then a.m * 2 ^ a.e.toNat else a.m / 2 ^ (-a.e).toNat : ℕ) : ℚ) ≤ a.val ∧
      a.val < ((if 0 ≤ a.e then a.m * 2 ^ a.e.toNat else a.m / 2 ^ (-a.e).toNat : ℕ) : ℚ) + 1 := by
    by_cases he : 0 ≤ a.e
    · rw [if_pos he]
      have hv : a.val = ((a.m * 2 ^ a.e.toNat : ℕ) : ℚ) := by
        simp only [Dbl.val, Nat.cast_mul, Nat.cast_pow, Nat.cast_ofNat]
        rw [← zpow_natCast, Int.toNat_of_nonneg he]
      rw [hv]
      constructor
      · exact le_rfl
      · linarith
    · rw [if_neg he]
      have hne : (0 : Int) ≤ -a.e := by omega
      have hpos : (0 : ℚ) < ((2 ^ (-a.e).toNat : ℕ) : ℚ) := by positivity
      have hv : a.val = (a.m : ℚ) / ((2 ^ (-a.e).toNat : ℕ) : ℚ) := by
        simp only [Dbl.val, Nat.cast_pow, Nat.cast_ofNat]
        rw [← zpow_natCast, Int.toNat_of_nonneg hne, zpow_neg, div_inv_eq_mul]
      rw [hv]
      constructor
      · exact Nat.cast_div_le
      · rw [div_lt_iff₀ hpos]
        have h1 := Nat.lt_succ_iff.mpr (le_refl (a.m / 2 ^ (-a.e).toNat))
        have h2 : a.m < (a.m / 2 ^ (-a.e).toNat + 1) * 2 ^ (-a.e).toNat :=
          Nat.lt_mul_of_div_lt (by omega) (Nat.pow_pos (by norm_num))
        have : ((a.m : ℕ) : ℚ) < (((a.m / 2 ^ (-a.e).toNat + 1) * 2 ^ (-a.e).toNat : ℕ) : ℚ) := by
          exact_mod_cast h2
        push_cast at this ⊢
        exact this
  have hlt : (if 0 ≤ a.e then a.m * 2 ^ a.e.toNat else a.m / 2 ^ (-a.e).toNat) <
      18446744073709551616 := by
    have h1 := lt_of_le_of_lt key.1 h
    exact_mod_cast h1
  unfold Dbl.toULL
  rw [Nat.mod_eq_of_lt hlt]
  exact key

/-- Lines 144-147 by cases on `y >= 10.0`. -/
theorem significand_cases (T : Lookups) (f E : Nat) :
    ∃ sd y : Dbl, sd = (Dbl.ofNat 1).add (sumFraction T f) ∧ y = sd.mul (T.expsig E) ∧
      ((y.ge (Dbl.ofNat 10) = true ∧ ∃ y1 w : Dbl, y1 = y.div (Dbl.ofNat 10) ∧
          w = y1.mul (Dbl.ofNat SIZE_SF) ∧ significand T f E = (w.toULL, T.exppow E + 1)) ∨
        (y.ge (Dbl.ofNat 10) = false ∧ ∃ w : Dbl,
          w = y.mul (Dbl.ofNat SIZE_SF) ∧ significand T f E = (w.toULL, T.exppow E))) := by
  refine ⟨_, _, rfl, rfl, ?_⟩
  by_cases hbig : (((Dbl.ofNat 1).add (sumFraction T f)).mul (T.expsig E)).ge (Dbl.ofNat 10) = true
  · left
    refine ⟨hbig, _, _, rfl, rfl, ?_⟩
    unfold significand
    simp only [hbig, if_true]
  · right
    have hbig2 := Bool.eq_false_iff.mpr hbig
    refine ⟨hbig2, _, rfl, ?_⟩
    unfold significand
    simp only [hbig2, Bool.false_eq_true, if_false]

/-- The doubles of lines 144-147 and their rounding errors: the sum `sd`, the
product `y`, and the product `w` of the last `y` by `10^15`. -/
theorem significand_values (T : Lookups) (hT : T.WellFormed) (f E : Nat)
    (hf : f < 2 ^ 52) (hE2 : E ≤ 2046) (sd y : Dbl)
    (hsd : sd = (Dbl.ofNat 1).add (sumFraction T f)) (hy : y = sd.mul (T.expsig E)) :
    sd.val = ((4503599627370496 + f : ℕ) : ℚ) * (2 : ℚ) ^ (-52 : Int) ∧
    1 ≤ sd.val ∧ sd.val ≤ 2 ∧ 0 < y.m ∧ y.val ≤ 20 ∧
    y.val * (1 - 1 / 9007199254740992) ≤ sd.val * (T.expsig E).val ∧
    sd.val * (T.expsig E).val ≤ y.val * (1 + 1 / 9007199254740992) := by
  have hacc := sumFraction_val T hT f hf
  have hone : (Dbl.ofNat 1).val = 1 := by
    have := Dbl.ofNat_val 1 (by norm_num)
    simpa using this
  have hfq : (f : ℚ) < 4503599627370496 := by exact_mod_cast hf
  have hf0 : (0 : ℚ) ≤ (f : ℚ) := by positivity
  have hs : sd.val = ((4503599627370496 + f : ℕ) : ℚ) * (2 : ℚ) ^ (-52 : Int) := by
    rw [hsd]
    apply Dbl.add_exact _ _ (4503599627370496 + f) (-52) (by norm_num at hf ⊢; omega)
    rw [hone, hacc]
    push_cast
    norm_num
    ring
  have h252 : (2 : ℚ) ^ (-52 : Int) = 1 / 4503599627370496 := by norm_num
  have hs1 : 1 ≤ sd.val := by
    rw [hs, h252]
    push_cast
    linarith
  have hs2 : sd.val ≤ 2 := by
    rw [hs, h252]
    push_cast
    linarith
  obtain ⟨hx1, hx2⟩ := hT.expsig_range E (by omega)
  have hsdm : 0 < sd.m := Dbl.m_pos_of_val_pos _ (by linarith)
  have hSm : 0 < (T.expsig E).m := Dbl.m_pos_of_val_pos _ (by linarith)
  have hyrel := Dbl.mul_rel sd (T.expsig E) hsdm hSm
  rw [← hy] at hyrel
  obtain ⟨y1b, y2b⟩ := abs_rel_bounds y.val (sd.val * (T.expsig E).val) (1 / 9007199254740992)
    (by rw [mul_one_div]; exact hyrel)
  have hprod1 : 1 ≤ sd.val * (T.expsig E).val := by nlinarith
  have hy0 : 0 < y.val := by
    by_contra hc
    have h2 : y.val * (1 + 1 / 9007199254740992) ≤ 0 :=
      mul_nonpos_of_nonpos_of_nonneg (not_lt.mp hc) (by norm_num)
    linarith
  have hyle : y.val ≤ 20 := by
    have := Dbl.mul_le sd (T.expsig E) 20 0 (by norm_num) (by
      have : sd.val * (T.expsig E).val ≤ 2 * 10 := mul_le_mul hs2 hx2 (by linarith) (by norm_num)
      simpa using (by linarith : sd.val * (T.expsig E).val ≤ 20))
    rw [← hy] at this
    simpa using this
  exact ⟨hs, hs1, hs2, Dbl.m_pos_of_val_pos _ hy0, hyle, y1b, y2b⟩

/-- The last product and its integer part. -/
theorem significand_last (y1 w : Dbl) (hw : w = y1.mul (Dbl.ofNat SIZE_SF)) (A a : Nat)
    (hA : A < 2 ^ 53) (hB : A * 2 ^ a ≤ 10000000000000000) (h0 : 0 < y1.val)
    (hy : y1.val * 10 ^ 15 ≤ ((A * 2 ^ a : ℕ) : ℚ)) :
    |w.val - y1.val * 10 ^ 15| ≤ w.val * (1 / 9007199254740992) ∧
    (w.toULL : ℚ) ≤ w.val ∧ w.val ≤ (w.toULL : ℚ) + 1 ∧ w.toULL ≤ A * 2 ^ a := by
  have hsize : (Dbl.ofNat SIZE_SF).val = 10 ^ 15 := by
    have := Dbl.ofNat_val SIZE_SF (by norm_num [SIZE_SF])
    rw [this]
    norm_num [SIZE_SF]
  have hsizem : 0 < (Dbl.ofNat SIZE_SF).m := Dbl.m_pos_of_val_pos _ (by rw [hsize]; norm_num)
  have hy1m : 0 < y1.m := Dbl.m_pos_of_val_pos _ h0
  have hwrel := Dbl.mul_rel y1 (Dbl.ofNat SIZE_SF) hy1m hsizem
  have hwle : (y1.mul (Dbl.ofNat SIZE_SF)).val ≤ ((A * 2 ^ a : ℕ) : ℚ) := by
    have := Dbl.mul_le y1 (Dbl.ofNat SIZE_SF) A (a : Int) hA (by
      rw [hsize, zpow_natCast]
      push_cast at hy
      exact hy)
    rw [zpow_natCast] at this
    push_cast
    exact this
  rw [← hw] at hwrel hwle
  rw [hsize] at hwrel
  have hlt : w.val < 18446744073709551616 := by
    have : ((A * 2 ^ a : ℕ) : ℚ) ≤ ((10000000000000000 : ℕ) : ℚ) := by
      exact_mod_cast hB
    have h2 : ((10000000000000000 : ℕ) : ℚ) < 18446744073709551616 := by norm_num
    linarith
  obtain ⟨fl1, fl2⟩ := Dbl.toULL_floor_val w hlt
  refine ⟨by rw [mul_one_div]; exact hwrel, fl1, fl2.le, ?_⟩
  have : (w.toULL : ℚ) ≤ ((A * 2 ^ a : ℕ) : ℚ) := le_trans fl1 hwle
  exact_mod_cast this

/-- The integer `l` of lines 144-147 against the number `V` that the double is
nearest to: `l` is `V`, scaled by the decimal exponent the code arrives at, up to
the four roundings on the way (five, with an `l` below `2 * 10^15`, when `y` is
divided by 10). -/
theorem significand_error (T : Lookups) (hT : T.WellFormed) (hTa : T.Accurate) (f E : Nat)
    (hf : f < 2 ^ 52) (hE1 : 1 ≤ E) (hE2 : E ≤ 2046) (V : ℚ)
    (hV : |((4503599627370496 + f : ℕ) : ℚ) * (2 : ℚ) ^ ((E : Int) - 1075) - V| ≤
      (2 : ℚ) ^ ((E : Int) - 1076)) :
    ∃ c2 c1 : ℚ,
      ((c2 = (1 - 1 / 9007199254740992) ^ 4 ∧ c1 = (1 + 1 / 9007199254740992) ^ 4) ∨
        (c2 = (1 - 1 / 9007199254740992) ^ 5 ∧ c1 = (1 + 1 / 9007199254740992) ^ 5 ∧
          (significand T f E).1 ≤ 2000000000000000)) ∧
      ((significand T f E).1 : ℚ) * c2 - 1 / 10 ^ 20 ≤
        V / (10 : ℚ) ^ (significand T f E).2 * 10 ^ 15 ∧
      V / (10 : ℚ) ^ (significand T f E).2 * 10 ^ 15 ≤
        (((significand T f E).1 : ℚ) + 1) * c1 + 1 / 10 ^ 20 := by
  have two : (2 : ℚ) ≠ 0 := by norm_num
  have ten : (10 : ℚ) ≠ 0 := by norm_num
  obtain ⟨sd, y, hsd, hy, hcases⟩ := significand_cases T f E
  obtain ⟨hs, hs1, hs2, hym, hyle, y1b, y2b⟩ := significand_values T hT f E hf hE2 sd y hsd hy
  have hacc2 := hTa E hE1 hE2
  obtain ⟨hx1, hx2⟩ := hT.expsig_range E (by omega)
  have hten : (Dbl.ofNat 10).val = 10 := by
    have := Dbl.ofNat_val 10 (by norm_num)
    simpa using this
  have htenm : 0 < (Dbl.ofNat 10).m := Dbl.m_pos_of_val_pos _ (by rw [hten]; norm_num)
  obtain ⟨S, hSdef⟩ : ∃ S : ℚ, S = (T.expsig E).val := ⟨_, rfl⟩
  rw [← hSdef] at hx1 hx2 hacc2 y1b y2b
  obtain ⟨p, hpdef⟩ : ∃ p : Int, p = T.exppow E := ⟨_, rfl⟩
  rw [← hpdef] at hacc2 hcases
  have hy0 : 0 < y.val := by
    by_contra hc
    have h2 : y.val * (1 + 1 / 9007199254740992) ≤ 0 :=
      mul_nonpos_of_nonpos_of_nonneg (not_lt.mp hc) (by norm_num)
    have h3 : 1 * 1 ≤ sd.val * S := mul_le_mul hs1 hx1 (by norm_num) (by linarith)
    linarith
  have hP : (0 : ℚ) < (10 : ℚ) ^ p := by positivity
  have hX : ((4503599627370496 + f : ℕ) : ℚ) * (2 : ℚ) ^ ((E : Int) - 1075) =
      sd.val * ((2 : ℚ) ^ ((E : Int) - 1023) / (10 : ℚ) ^ p) * (10 : ℚ) ^ p := by
    rw [hs]
    have e1 : ((E : Int) - 1075) = (-52) + ((E : Int) - 1023) := by ring
    rw [e1, zpow_add₀ two]
    field_simp
    ring
  have hXV : |((4503599627370496 + f : ℕ) : ℚ) * (2 : ℚ) ^ ((E : Int) - 1075) - V| ≤
      ((4503599627370496 + f : ℕ) : ℚ) * (2 : ℚ) ^ ((E : Int) - 1075) *
        (1 / 9007199254740992) := by
    refine le_trans hV ?_
    have e1 : ((E : Int) - 1075) = ((E : Int) - 1076) + 1 := by ring
    rw [e1, zpow_add₀ two, zpow_one]
    have hpos : (0 : ℚ) < (2 : ℚ) ^ ((E : Int) - 1076) := by positivity
    have hf0 : (0 : ℚ) ≤ (f : ℚ) := by positivity
    have e2 : ((4503599627370496 + f : ℕ) : ℚ) * ((2 : ℚ) ^ ((E : Int) - 1076) * 2) *
        (1 / 9007199254740992) =
        (2 : ℚ) ^ ((E : Int) - 1076) + (f : ℚ) * (2 : ℚ) ^ ((E : Int) - 1076) / 4503599627370496 := by
      push_cast
      ring
    rw [e2]
    have : 0 ≤ (f : ℚ) * (2 : ℚ) ^ ((E : Int) - 1076) / 4503599627370496 := by positivity
    linarith
  have hSacc : |S - (2 : ℚ) ^ ((E : Int) - 1023) / (10 : ℚ) ^ p| ≤
      S * (1 / 9007199254740992) + 1 / 10 ^ 40 := by
    rw [mul_one_div]
    exact hacc2
  clear hV hacc2 hs hsd hy hpdef hSdef hT hTa
  rcases hcases with ⟨hbig, y1, w, hy1def, hwdef, hsig⟩ | ⟨hbig2, w, hwdef, hsig⟩
  · -- `y >= 10`: one more rounding, and `l` is small
    have h10 : (10 : ℚ) ≤ y.val := by
      have := (Dbl.ge_iff y (Dbl.ofNat 10)).mp hbig
      rwa [hten] at this
    have hy1rel := Dbl.div_rel y (Dbl.ofNat 10) hym htenm
    have hy1le : (y.div (Dbl.ofNat 10)).val ≤ 2 := by
      have := Dbl.div_le y (Dbl.ofNat 10) 2 0 htenm (by norm_num) (by
        rw [hten, div_le_iff₀ (by norm_num)]
        norm_num
        linarith)
      simpa using this
    rw [← hy1def] at hy1rel hy1le
    rw [hten] at hy1rel
    obtain ⟨d1b, d2b⟩ := abs_rel_bounds y1.val (y.val / 10) (1 / 9007199254740992)
      (by rw [mul_one_div]; exact hy1rel)
    have hy1pos : 0 < y1.val := by
      by_contra hc
      have h2 : y1.val * (1 + 1 / 9007199254740992) ≤ 0 :=
        mul_nonpos_of_nonpos_of_nonneg (not_lt.mp hc) (by norm_num)
      linarith
    obtain ⟨hwrel, fl1, fl2, hl2e15⟩ := significand_last y1 w hwdef 2000000000000000 0
      (by norm_num) (by norm_num) hy1pos (by
        have := mul_le_mul_of_nonneg_right hy1le (by norm_num : (0 : ℚ) ≤ 10 ^ 15)
        calc y1.val * 10 ^ 15 ≤ 2 * 10 ^ 15 := this
          _ = ((2000000000000000 * 2 ^ 0 : ℕ) : ℚ) := by norm_num)
    have hup : sd.val * S / 10 ≤ y1.val * (1 + 1 / 9007199254740992) ^ 2 := by
      have a1 : sd.val * S / 10 ≤ y.val / 10 * (1 + 1 / 9007199254740992) := by
        rw [div_mul_eq_mul_div]
        exact div_le_div_of_nonneg_right y2b (by norm_num)
      have a2 := mul_le_mul_of_nonneg_right d2b
        (by norm_num : (0 : ℚ) ≤ 1 + 1 / 9007199254740992)
      calc sd.val * S / 10 ≤ y.val / 10 * (1 + 1 / 9007199254740992) := a1
        _ ≤ y1.val * (1 + 1 / 9007199254740992) * (1 + 1 / 9007199254740992) := a2
        _ = y1.val * (1 + 1 / 9007199254740992) ^ 2 := by ring
    have hlo : y1.val * (1 - 1 / 9007199254740992) ^ 2 ≤ sd.val * S / 10 := by
      have a1 : y.val / 10 * (1 - 1 / 9007199254740992) ≤ sd.val * S / 10 := by
        rw [div_mul_eq_mul_div]
        exact div_le_div_of_nonneg_right y1b (by norm_num)
      have a2 := mul_le_mul_of_nonneg_right d1b
        (by norm_num : (0 : ℚ) ≤ 1 - 1 / 9007199254740992)
      calc y1.val * (1 - 1 / 9007199254740992) ^ 2
          = y1.val * (1 - 1 / 9007199254740992) * (1 - 1 / 9007199254740992) := by ring
        _ ≤ y.val / 10 * (1 - 1 / 9007199254740992) := a2
        _ ≤ sd.val * S / 10 := a1
    obtain ⟨r1, r2⟩ := chain_bounds (1 / 9007199254740992) (1 / 10 ^ 40) sd.val S
      ((2 : ℚ) ^ ((E : Int) - 1023) / (10 : ℚ) ^ p) y1.val w.val V
      (((4503599627370496 + f : ℕ) : ℚ) * (2 : ℚ) ^ ((E : Int) - 1075)) ((10 : ℚ) ^ p) 10
      ((1 + 1 / 9007199254740992) ^ 2) ((1 - 1 / 9007199254740992) ^ 2) (10 ^ 15) w.toULL
      (by norm_num) (by norm_num) (by norm_num) (by linarith) hs2 hP (by norm_num)
      (by norm_num) (by positivity) (by positivity) hXV hX hSacc hup hlo hwrel fl1 fl2
    rw [hsig]
    refine ⟨(1 - 1 / 9007199254740992) ^ 5, (1 + 1 / 9007199254740992) ^ 5,
      Or.inr ⟨rfl, rfl, by simpa using hl2e15⟩, ?_, ?_⟩
    · show (w.toULL : ℚ) * (1 - 1 / 9007199254740992) ^ 5 - 1 / 10 ^ 20 ≤
        V / (10 : ℚ) ^ (p + 1) * 10 ^ 15
      have e : (10 : ℚ) ^ (p + 1) = (10 : ℚ) ^ p * 10 := by
        rw [zpow_add₀ ten, zpow_one]
      rw [e]
      have e2 : (1 - 1 / 9007199254740992 : ℚ) ^ 5 =
          (1 - 1 / 9007199254740992) ^ 2 * (1 - 1 / 9007199254740992) ^ 3 := by ring
      rw [e2]
      have h20 : (2 : ℚ) * (1 / 10 ^ 40) * 10 ^ 15 ≤ 1 / 10 ^ 20 := by norm_num
      exact le_trans (sub_le_sub_left h20 _) r1
    · show V / (10 : ℚ) ^ (p + 1) * 10 ^ 15 ≤
        ((w.toULL : ℚ) + 1) * (1 + 1 / 9007199254740992) ^ 5 + 1 / 10 ^ 20
      have e : (10 : ℚ) ^ (p + 1) = (10 : ℚ) ^ p * 10 := by
        rw [zpow_add₀ ten, zpow_one]
      rw [e]
      have e2 : (1 + 1 / 9007199254740992 : ℚ) ^ 5 =
          (1 + 1 / 9007199254740992) ^ 2 * (1 + 1 / 9007199254740992) ^ 3 := by ring
      rw [e2]
      have h20 : (4 : ℚ) * (1 / 10 ^ 40) * 10 ^ 15 ≤ 1 / 10 ^ 20 := by norm_num
      exact le_trans r2 (add_le_add_left h20 _)
  · -- `y < 10`
    have h10 : y.val < 10 := by
      by_contra hc
      have : y.ge (Dbl.ofNat 10) = true := by
        rw [Dbl.ge_iff, hten]
        exact not_lt.mp hc
      rw [hbig2] at this
      exact absurd this (by decide)
    obtain ⟨hwrel, fl1, fl2, _⟩ := significand_last y w hwdef 152587890625 16
      (by norm_num) (by norm_num) hy0 (by
        have := mul_le_mul_of_nonneg_right h10.le (by norm_num : (0 : ℚ) ≤ 10 ^ 15)
        calc y.val * 10 ^ 15 ≤ 10 * 10 ^ 15 := this
          _ = ((152587890625 * 2 ^ 16 : ℕ) : ℚ) := by norm_num)
    obtain ⟨r1, r2⟩ := chain_bounds (1 / 9007199254740992) (1 / 10 ^ 40) sd.val S
      ((2 : ℚ) ^ ((E : Int) - 1023) / (10 : ℚ) ^ p) y.val w.val V
      (((4503599627370496 + f : ℕ) : ℚ) * (2 : ℚ) ^ ((E : Int) - 1075)) ((10 : ℚ) ^ p) 1
      (1 + 1 / 9007199254740992) (1 - 1 / 9007199254740992) (10 ^ 15) w.toULL
      (by norm_num) (by norm_num) (by norm_num) (by linarith) hs2 hP (by norm_num)
      (by norm_num) (by norm_num) (by norm_num) hXV hX hSacc
      (by rw [div_one]; exact y2b) (by rw [div_one]; exact y1b) hwrel fl1 fl2
    rw [hsig]
    refine ⟨(1 - 1 / 9007199254740992) ^ 4, (1 + 1 / 9007199254740992) ^ 4,
      Or.inl ⟨rfl, rfl⟩, ?_, ?_⟩
    · show (w.toULL : ℚ) * (1 - 1 / 9007199254740992) ^ 4 - 1 / 10 ^ 20 ≤
        V / (10 : ℚ) ^ p * 10 ^ 15
      rw [mul_one] at r1
      have e2 : (1 - 1 / 9007199254740992 : ℚ) ^ 4 =
          (1 - 1 / 9007199254740992) * (1 - 1 / 9007199254740992) ^ 3 := by ring
      rw [e2]
      have h20 : (2 : ℚ) * (1 / 10 ^ 40) * 10 ^ 15 ≤ 1 / 10 ^ 20 := by norm_num
      exact le_trans (sub_le_sub_left h20 _) r1
    · show V / (10 : ℚ) ^ p * 10 ^ 15 ≤
        ((w.toULL : ℚ) + 1) * (1 + 1 / 9007199254740992) ^ 4 + 1 / 10 ^ 20
      rw [mul_one] at r2
      have e2 : (1 + 1 / 9007199254740992 : ℚ) ^ 4 =
          (1 + 1 / 9007199254740992) * (1 + 1 / 9007199254740992) ^ 3 := by ring
      rw [e2]
      have h20 : (4 : ℚ) * (1 / 10 ^ 40) * 10 ^ 15 ≤ 1 / 10 ^ 20 := by norm_num
      exact le_trans r2 (add_le_add_left h20 _)

/-- From the error bounds to the digits: an `l` of 16 digits that is within the
rounding errors of `D * 10^j`, with `D` of 15 digits, is rounded to `D` (and
`j = 1`), or `D` is `10^14`, `j = 2` and `l` is rounded up to `10^15`. -/
theorem decimal_of_bounds (l0 D : Nat) (j : Int) (c2 c1 : ℚ)
    (hc : (c2 = (1 - 1 / 9007199254740992) ^ 4 ∧ c1 = (1 + 1 / 9007199254740992) ^ 4) ∨
      (c2 = (1 - 1 / 9007199254740992) ^ 5 ∧ c1 = (1 + 1 / 9007199254740992) ^ 5 ∧
        l0 ≤ 2000000000000000))
    (hl1 : 1000000000000000 ≤ l0) (hl2 : l0 ≤ 10000000000000000)
    (hD1 : 100000000000000 ≤ D) (hD2 : D < 1000000000000000)
    (lo : (l0 : ℚ) * c2 - 1 / 10 ^ 20 ≤ (D : ℚ) * (10 : ℚ) ^ j)
    (hi : (D : ℚ) * (10 : ℚ) ^ j ≤ ((l0 : ℚ) + 1) * c1 + 1 / 10 ^ 20) :
    (j = 1 ∧ roundLast l0 = D) ∨
      (j = 2 ∧ D = 100000000000000 ∧ roundLast l0 = 1000000000000000) := by
  have hl1q : (1000000000000000 : ℚ) ≤ (l0 : ℚ) := by exact_mod_cast hl1
  have hl2q : (l0 : ℚ) ≤ 10000000000000000 := by exact_mod_cast hl2
  have hD1q : (100000000000000 : ℚ) ≤ (D : ℚ) := by exact_mod_cast hD1
  have hD2q : (D : ℚ) ≤ 999999999999999 := by
    have : D ≤ 999999999999999 := by omega
    exact_mod_cast this
  -- the two factors as `1 - r2` and `1 + r1`
  obtain ⟨r2, r1, e2, e1, h2a, h2b, h2c, h1a, h1b, h1c⟩ : ∃ r2 r1 : ℚ, c2 = 1 - r2 ∧ c1 = 1 + r1 ∧
      0 ≤ r2 ∧ r2 ≤ 56 / 10 ^ 17 ∧ (l0 : ℚ) * r2 ≤ 445 / 100 ∧
      0 ≤ r1 ∧ r1 ≤ 56 / 10 ^ 17 ∧ ((l0 : ℚ) + 1) * r1 ≤ 445 / 100 := by
    rcases hc with ⟨h2, h1⟩ | ⟨h2, h1, hl⟩
    · refine ⟨1 - (1 - 1 / 9007199254740992) ^ 4, (1 + 1 / 9007199254740992) ^ 4 - 1,
        by rw [h2]; ring, by rw [h1]; ring, by norm_num, by norm_num, ?_, by norm_num,
        by norm_num, ?_⟩
      · have := mul_le_mul_of_nonneg_right hl2q
          (by norm_num : (0 : ℚ) ≤ 1 - (1 - 1 / 9007199254740992) ^ 4)
        refine le_trans this ?_
        norm_num
      · have h : (l0 : ℚ) + 1 ≤ 10000000000000001 := by linarith
        have := mul_le_mul_of_nonneg_right h
          (by norm_num : (0 : ℚ) ≤ (1 + 1 / 9007199254740992) ^ 4 - 1)
        refine le_trans this ?_
        norm_num
    · have hlq : (l0 : ℚ) ≤ 2000000000000000 := by exact_mod_cast hl
      refine ⟨1 - (1 - 1 / 9007199254740992) ^ 5, (1 + 1 / 9007199254740992) ^ 5 - 1,
        by rw [h2]; ring, by rw [h1]; ring, by norm_num, by norm_num, ?_, by norm_num,
        by norm_num, ?_⟩
      · have := mul_le_mul_of_nonneg_right hlq
          (by norm_num : (0 : ℚ) ≤ 1 - (1 - 1 / 9007199254740992) ^ 5)
        refine le_trans this ?_
        norm_num
      · have h : (l0 : ℚ) + 1 ≤ 2000000000000001 := by linarith
        have := mul_le_mul_of_nonneg_right h
          (by norm_num : (0 : ℚ) ≤ (1 + 1 / 9007199254740992) ^ 5 - 1)
        refine le_trans this ?_
        norm_num
  clear hc
  subst e2 e1
  have lo1 : (l0 : ℚ) - 446 / 100 ≤ (D : ℚ) * (10 : ℚ) ^ j := by
    have e : (l0 : ℚ) * (1 - r2) = (l0 : ℚ) - (l0 : ℚ) * r2 := by ring
    rw [e] at lo
    have : (1 : ℚ) / 10 ^ 20 ≤ 1 / 100 := by norm_num
    linarith
  have hi1 : (D : ℚ) * (10 : ℚ) ^ j ≤ (l0 : ℚ) + 546 / 100 := by
    have e : ((l0 : ℚ) + 1) * (1 + r1) = (l0 : ℚ) + 1 + ((l0 : ℚ) + 1) * r1 := by ring
    rw [e] at hi
    have : (1 : ℚ) / 10 ^ 20 ≤ 1 / 100 := by norm_num
    linarith
  have lo2 : (999999999999999 : ℚ) + 4 / 10 ≤ (D : ℚ) * (10 : ℚ) ^ j := by
    have h1 : (1000000000000000 : ℚ) * (1 - r2) ≤ (l0 : ℚ) * (1 - r2) :=
      mul_le_mul_of_nonneg_right hl1q (by linarith [show (56 : ℚ) / 10 ^ 17 ≤ 1 by norm_num])
    have h2 : (1000000000000000 : ℚ) * r2 ≤ 1000000000000000 * (56 / 10 ^ 17) :=
      mul_le_mul_of_nonneg_left h2b (by norm_num)
    have h3 : (1000000000000000 : ℚ) * (56 / 10 ^ 17) = 56 / 100 := by norm_num
    have h4 : (1 : ℚ) / 10 ^ 20 ≤ 1 / 100 := by norm_num
    linarith
  clear lo hi h2a h2b h2c h1a h1b h1c
  have ten1 : (1 : ℚ) ≤ 10 := by norm_num
  have hD0 : (0 : ℚ) ≤ (D : ℚ) := by positivity
  rcases lt_trichotomy j 1 with hj | hj | hj
  · -- `j ≤ 0`
    exfalso
    have h : (10 : ℚ) ^ j ≤ (10 : ℚ) ^ (0 : Int) := zpow_le_zpow_right₀ ten1 (by omega)
    rw [zpow_zero] at h
    have := mul_le_mul_of_nonneg_left h hD0
    linarith
  · left
    subst hj
    rw [zpow_one] at lo1 hi1
    refine ⟨rfl, ?_⟩
    have a1 : ((10 * D : ℕ) : ℚ) < ((l0 + 6 : ℕ) : ℚ) := by
      push_cast
      linarith
    have a2 : ((l0 : ℕ) : ℚ) < ((10 * D + 5 : ℕ) : ℚ) := by
      push_cast
      linarith
    have b1 : 10 * D < l0 + 6 := by exact_mod_cast a1
    have b2 : l0 < 10 * D + 5 := by exact_mod_cast a2
    rw [roundLast_eq l0 hl2]
    omega
  · rcases lt_trichotomy j 2 with hj2 | hj2 | hj2
    · omega
    · right
      subst hj2
      have e : (10 : ℚ) ^ (2 : Int) = 100 := by norm_num
      rw [e] at lo1 hi1
      have a1 : ((100 * D : ℕ) : ℚ) < ((l0 + 6 : ℕ) : ℚ) := by
        push_cast
        linarith
      have b1 : 100 * D < l0 + 6 := by exact_mod_cast a1
      have hD : D = 100000000000000 := by omega
      refine ⟨rfl, hD, ?_⟩
      rw [roundLast_eq l0 hl2]
      omega
    · exfalso
      have h : (10 : ℚ) ^ (3 : Int) ≤ (10 : ℚ) ^ j := zpow_le_zpow_right₀ ten1 (by omega)
      have e : (10 : ℚ) ^ (3 : Int) = 1000 := by norm_num
      rw [e] at h
      have := mul_le_mul_of_nonneg_left h hD0
      nlinarith

/-- For a normal double within half a unit of its last place of `D * 10^k`, with `D`
of 15 digits, the rounded integer and the decimal exponent of writeNumeric stand
for `D * 10^k`. -/
theorem significand_decimal (T : Lookups) (hT : T.WellFormed) (hTa : T.Accurate) (f E : Nat)
    (hf : f < 2 ^ 52) (hE1 : 1 ≤ E) (hE2 : E ≤ 2046) (D : Nat) (k : Int)
    (hD1 : 100000000000000 ≤ D) (hD2 : D < 1000000000000000)
    (herr : |((4503599627370496 + f : ℕ) : ℚ) * (2 : ℚ) ^ ((E : Int) - 1075) -
      (D : ℚ) * (10 : ℚ) ^ k| ≤ (2 : ℚ) ^ ((E : Int) - 1076)) :
    (roundLast (significand T f E).1 : ℚ) * (10 : ℚ) ^ ((significand T f E).2 - 14) =
      (D : ℚ) * (10 : ℚ) ^ k ∧
    ((significand T f E).2 = k + 14 ∨ (significand T f E).2 = k + 13) := by
  have ten : (10 : ℚ) ≠ 0 := by norm_num
  obtain ⟨hl1, hl2⟩ := significand_bounds T hT f E hf (by omega)
  obtain ⟨c2, c1, hc, lo, hi⟩ := significand_error T hT hTa f E hf hE1 hE2 _ herr
  obtain ⟨l0, hl0⟩ : ∃ l0, l0 = (significand T f E).1 := ⟨_, rfl⟩
  obtain ⟨e, he⟩ : ∃ e, e = (significand T f E).2 := ⟨_, rfl⟩
  rw [← hl0] at hl1 hl2 hc lo hi ⊢
  rw [← he] at lo hi ⊢
  have hV : (D : ℚ) * (10 : ℚ) ^ k / (10 : ℚ) ^ e * 10 ^ 15 = (D : ℚ) * (10 : ℚ) ^ (k - e + 15) := by
    rw [zpow_add₀ ten, zpow_sub₀ ten]
    norm_num
    ring
  rw [hV] at lo hi
  rcases decimal_of_bounds l0 D (k - e + 15) c2 c1 hc hl1 hl2 hD1 hD2 lo hi with
    ⟨hj, hr⟩ | ⟨hj, hD, hr⟩
  · have hek : e = k + 14 := by omega
    rw [hr, hek]
    refine ⟨?_, Or.inl rfl⟩
    have : k + 14 - 14 = k := by ring
    rw [this]
  · have hek : e = k + 13 := by omega
    rw [hr, hek, hD]
    refine ⟨?_, Or.inr rfl⟩
    have : k + 13 - 14 = k - 1 := by ring
    rw [this, zpow_sub₀ ten, zpow_one]
    push_cast
    ring

/-! ## The text writeNumeric gives a 15-digit number -/

/-- The digits written for a rounded `R` of 15 digits (or `10^15`) and the
exponent `e` read back as `R * 10^(e - 14)`, and they do not begin with a sign. -/
theorem writeDigits_value (g : Globals) (hs1 : digitVal g.dec_sep = none)
    (hs2 : g.dec_sep ≠ 'e') (R : Nat) (e : Int) (h1 : 100000000000000 ≤ R)
    (h2 : R ≤ 1000000000000000) (he : |e| < 999) :
    decimalValue g.dec_sep (writeDigits g R e) = some ((R : ℚ) * (10 : ℚ) ^ (e - 14)) ∧
    (writeDigits g R e).head? ≠ some '-' := by
  have ten : (10 : ℚ) ≠ 0 := by norm_num
  obtain ⟨he1, he2⟩ := abs_lt.mp he
  obtain ⟨t, ht, hR, hlast, h15, hn⟩ := normalise_spec R e h1 h2
  rw [writeDigits_eq_layout, hn]
  simp only []
  -- the three results of the normalisation as `l`, `n` digits and `x`
  obtain ⟨l, n, x, hl, hnn, hx, hval, hxb⟩ : ∃ (l n : Nat) (x : Int),
      (R / 10 ^ t = l) ∧ ((if t = 15 then (1 : Int) else 15 - (t : Int)) = (n : Int)) ∧
      ((if t = 15 then e + 1 else e) = x) ∧
      ((l : ℚ) * (10 : ℚ) ^ (x - (n : Int) + 1) = (R : ℚ) * (10 : ℚ) ^ (e - 14)) ∧
      (1 ≤ n ∧ l < 10 ^ n ∧ |x| < 1000) := by
    by_cases h : t = 15
    · have hR15 := h15.mp h
      subst h
      refine ⟨1, 1, e + 1, by rw [hR15]; norm_num, by simp, by simp, ?_, by norm_num, by norm_num,
        by rw [abs_lt]; constructor <;> omega⟩
      rw [hR15]
      have e1 : e + 1 - ((1 : ℕ) : Int) + 1 = (e - 14) + 15 := by push_cast; ring
      rw [e1, zpow_add₀ ten]
      norm_num
      ring
    · have hlt : R < 1000000000000000 := by
        rcases Nat.lt_or_ge R 1000000000000000 with h3 | h3
        · exact h3
        · exact absurd (h15.mpr (by omega)) h
      have ht14 : t ≤ 14 := by omega
      obtain ⟨d1, d2⟩ := normalise_digits R t h1 hlt ht14 hR
      refine ⟨R / 10 ^ t, 15 - t, e, rfl, by rw [if_neg h]; omega, by rw [if_neg h], ?_,
        by omega, d2, by rw [abs_lt]; constructor <;> omega⟩
      have e1 : e - ((15 - t : ℕ) : Int) + 1 = (e - 14) + (t : Int) := by omega
      rw [e1, zpow_add₀ ten, zpow_natCast]
      have hq : ((R / 10 ^ t * 10 ^ t : Nat) : ℚ) = (R : ℚ) := by rw [hR]
      push_cast at hq
      rw [← hq]
      ring
  rw [hl, hnn, hx, ← hval]
  obtain ⟨hn1, hl2, hxa⟩ := hxb
  clear hl hnn hx hval hn hR hlast h15
  unfold writeLayout
  simp only []
  by_cases hu : useDecimal (decimalShape (n : Int) x).2.2 (n : Int) x = true
  · simp only [hu, if_true]
    obtain ⟨hdv, ip, fp, hip, hfp, hne, htext, _⟩ := writeDecimal_spec g hs1 hs2 l n x hn1 hl2
    refine ⟨hdv, ?_⟩
    rw [htext]
    cases ip with
    | nil => exact absurd rfl hne
    | cons c rest =>
      simp only [List.cons_append, List.head?_cons, ne_eq, Option.some.injEq]
      obtain ⟨d, hd, rfl⟩ := hip c (List.mem_cons_self _ _)
      exact (digitChar_not_sign d hd).2
  · have hu2 : useDecimal (decimalShape (n : Int) x).2.2 (n : Int) x = false :=
      Bool.eq_false_iff.mpr hu
    simp only [hu2, Bool.false_eq_true, if_false]
    constructor
    · obtain ⟨k, rfl⟩ : ∃ k, n = k + 1 := ⟨n - 1, by omega⟩
      have e : ((k + 1 : Nat) : Int) = (k : Int) + 1 := by push_cast; rfl
      rw [e, decimalValue_scientific g hs1 hs2 l k x hl2 hxa]
      have e2 : x - (k : Int) = x - ((k : Int) + 1) + 1 := by omega
      rw [e2]
    · obtain ⟨d, fp2, ex, hd, _, _, _, _, hst⟩ := writeScientific_shape g l n x hn1 hl2 hxa
      rw [hst]
      simp only [List.head?_cons, ne_eq, Option.some.injEq]
      exact (digitChar_not_sign d hd).2

/-- A number of 15 digits times `10^k` that is within half a unit in the last place
of a normal double has a `k` of at most three digits. -/
theorem decimal_exponent_bound (f E D : Nat) (k : Int) (hf : f < 2 ^ 52) (hE1 : 1 ≤ E)
    (hE2 : E ≤ 2046) (hD1 : 100000000000000 ≤ D) (hD2 : D < 1000000000000000)
    (herr : |((4503599627370496 + f : ℕ) : ℚ) * (2 : ℚ) ^ ((E : Int) - 1075) -
      (D : ℚ) * (10 : ℚ) ^ k| ≤ (2 : ℚ) ^ ((E : Int) - 1076)) :
    -400 < k ∧ k < 400 := by
  have two1 : (1 : ℚ) ≤ 2 := by norm_num
  have ten1 : (1 : ℚ) ≤ 10 := by norm_num
  have two : (2 : ℚ) ≠ 0 := by norm_num
  obtain ⟨e1, e2⟩ := abs_le.mp herr
  have hfq : (f : ℚ) < 4503599627370496 := by exact_mod_cast hf
  have hf0 : (0 : ℚ) ≤ (f : ℚ) := by positivity
  have hD1q : (100000000000000 : ℚ) ≤ (D : ℚ) := by exact_mod_cast hD1
  have hD2q : (D : ℚ) < 1000000000000000 := by exact_mod_cast hD2
  have hp : (0 : ℚ) < (2 : ℚ) ^ ((E : Int) - 1076) := by positivity
  have hX : ((4503599627370496 + f : ℕ) : ℚ) * (2 : ℚ) ^ ((E : Int) - 1075) =
      (2 * (4503599627370496 + (f : ℚ))) * (2 : ℚ) ^ ((E : Int) - 1076) := by
    have : ((E : Int) - 1075) = ((E : Int) - 1076) + 1 := by ring
    rw [this, zpow_add₀ two, zpow_one]
    push_cast
    ring
  rw [hX] at e1 e2
  have hk : (0 : ℚ) < (10 : ℚ) ^ k := by positivity
  -- `2^52 * 2^(E-1076) < D * 10^k < 2^55 * 2^(E-1076)`
  have lo : (2 : ℚ) ^ (-1024 : Int) < (D : ℚ) * (10 : ℚ) ^ k := by
    have h1 : (2 : ℚ) ^ (-1075 : Int) ≤ (2 : ℚ) ^ ((E : Int) - 1076) :=
      zpow_le_zpow_right₀ two1 (by omega)
    have h2 : (2 : ℚ) ^ (-1024 : Int) = 2251799813685248 * (2 : ℚ) ^ (-1075 : Int) := by
      have : (-1024 : Int) = 51 + (-1075) := by norm_num
      rw [this, zpow_add₀ two]
      norm_num
    rw [h2]
    nlinarith
  have hi : (D : ℚ) * (10 : ℚ) ^ k < (2 : ℚ) ^ (1025 : Int) := by
    have h1 : (2 : ℚ) ^ ((E : Int) - 1076) ≤ (2 : ℚ) ^ (970 : Int) :=
      zpow_le_zpow_right₀ two1 (by omega)
    have h2 : (2 : ℚ) ^ (1025 : Int) = 36028797018963968 * (2 : ℚ) ^ (970 : Int) := by
      have : (1025 : Int) = 55 + 970 := by norm_num
      rw [this, zpow_add₀ two]
      norm_num
    rw [h2]
    nlinarith
  constructor
  · by_contra hc
    have hk2 : k ≤ -400 := by omega
    have h1 : (10 : ℚ) ^ k ≤ (10 : ℚ) ^ (-400 : Int) := zpow_le_zpow_right₀ ten1 hk2
    have h2 : (1000000000000000 : ℚ) * (10 : ℚ) ^ (-400 : Int) ≤ (2 : ℚ) ^ (-1024 : Int) := by
      rw [zpow_neg, zpow_neg]
      norm_num
    have h3 : (D : ℚ) * (10 : ℚ) ^ k ≤ 1000000000000000 * (10 : ℚ) ^ (-400 : Int) := by
      apply mul_le_mul hD2q.le h1 hk.le (by norm_num)
    linarith
  · by_contra hc
    have hk2 : 400 ≤ k := by omega
    have h1 : (10 : ℚ) ^ (400 : Int) ≤ (10 : ℚ) ^ k := zpow_le_zpow_right₀ ten1 hk2
    have h2 : (2 : ℚ) ^ (1025 : Int) ≤ 1 * (10 : ℚ) ^ (400 : Int) := by
      norm_num
    have h3 : 1 * (10 : ℚ) ^ (400 : Int) ≤ (D : ℚ) * (10 : ℚ) ^ k := by
      apply mul_le_mul (by linarith) h1 (by positivity) (by positivity)
    linarith

/-- A positive number below `10^15` times a power of ten has 15 digits. -/
theorem fifteen_digits_scale (D : Nat) (h0 : 0 < D) (h : D < 1000000000000000) :
    ∃ j : Nat, 100000000000000 ≤ D * 10 ^ j ∧ D * 10 ^ j < 1000000000000000 := by
  have hlo := Nat.pow_log_le_self 10 (Nat.pos_iff_ne_zero.mp h0)
  have hhi := Nat.lt_pow_succ_log_self (by norm_num : 1 < 10) D
  have hlog : Nat.log 10 D < 15 := by
    by_contra hc
    have : 10 ^ 15 ≤ 10 ^ Nat.log 10 D := Nat.pow_le_pow_right (by norm_num) (by omega)
    have e : (10 : Nat) ^ 15 = 1000000000000000 := by norm_num
    omega
  refine ⟨14 - Nat.log 10 D, ?_, ?_⟩
  · have e : (10 : Nat) ^ Nat.log 10 D * 10 ^ (14 - Nat.log 10 D) = 100000000000000 := by
      rw [← pow_add]
      have : Nat.log 10 D + (14 - Nat.log 10 D) = 14 := by omega
      rw [this]
      norm_num
    rw [← e]
    exact Nat.mul_le_mul_right _ hlo
  · have e : (10 : Nat) ^ (Nat.log 10 D).succ * 10 ^ (14 - Nat.log 10 D) = 1000000000000000 := by
      rw [← pow_add]
      have : (Nat.log 10 D).succ + (14 - Nat.log 10 D) = 15 := by omega
      rw [this]
      norm_num
    rw [← e]
    exact Nat.mul_lt_mul_of_pos_right hhi (by positivity)

/-- The text written for the double `+0`. -/
theorem writeNumeric_zero_value (T : Lookups) (g : Globals)
    (hs1 : digitVal g.dec_sep = none) :
    decimalValue g.dec_sep (writeNumeric T g 0 []) = some 0 := by
  have hw : writeNumeric T g 0 [] = ['0'] := by
    unfold writeNumeric
    have h1 : R_FINITE 0 = true := by decide
    have h2 : isZero 0 = true := by decide
    simp [h1, h2]
  have hne : ¬ ('0' = g.dec_sep) := by
    intro h
    rw [← h] at hs1
    exact absurd hs1 (by decide)
  rw [hw]
  have hd : readDigitsFrom 0 ['0'] = some 0 := by decide
  simp [decimalValue, readUnsigned, readFixed, List.span, List.span.loop, hne, readDigits, hd]

/-! ## Reading a field back -/

theorem unescape_length_le (n : Nat) : ∀ (t : List Char), t.length ≤ n →
    (unescape t).length ≤ t.length := by
  induction n with
  | zero =>
    intro t h
    have ht : t = [] := List.length_eq_zero.mp (Nat.le_zero.mp h)
    subst ht
    simp [unescape]
  | succ n ih =>
    intro t h
    match t, h with
    | [], _ => simp [unescape]
    | [_], _ => simp [unescape]
    | c :: d :: r, h =>
      have h1 := ih r (by simp only [List.length_cons] at h; omega)
      have h2 := ih (d :: r) (by simp only [List.length_cons] at h ⊢; omega)
      unfold unescape
      split
      · simp only [List.length_cons] at h1 ⊢
        omega
      · simp only [List.length_cons] at h2 ⊢
        omega

theorem undouble_length_le (n : Nat) : ∀ (t : List Char), t.length ≤ n →
    (undouble t).length ≤ t.length := by
  induction n with
  | zero =>
    intro t h
    have ht : t = [] := List.length_eq_zero.mp (Nat.le_zero.mp h)
    subst ht
    simp [undouble]
  | succ n ih =>
    intro t h
    match t, h with
    | [], _ => simp [undouble]
    | [_], _ => simp [undouble]
    | c :: d :: r, h =>
      have h1 := ih r (by simp only [List.length_cons] at h; omega)
      have h2 := ih (d :: r) (by simp only [List.length_cons] at h ⊢; omega)
      unfold undouble
      split
      · simp only [List.length_cons] at h1 ⊢
        omega
      · simp only [List.length_cons] at h2 ⊢
        omega

theorem undoEscaping_length_le (g : Globals) (t : List Char) :
    (undoEscaping g t).length ≤ t.length := by
  unfold undoEscaping
  split
  · exact unescape_length_le _ t le_rfl
  · exact undouble_length_le _ t le_rfl

/-- A field that reads as quoted is not read back as itself. -/
theorem decodeField_looksQuoted_ne (g : Globals) (s : List Char) (h : looksQuoted s) :
    decodeField g s ≠ s := by
  intro he
  have hl := undoEscaping_length_le g s.tail.dropLast
  unfold decodeField at he
  rw [if_pos h] at he
  rw [he] at hl
  simp only [List.length_dropLast, List.length_tail] at hl
  have := h.1
  omega

/-- The quoted field of a string is read back as the string. -/
theorem decodeField_writeQuoted (g : Globals) (s : List Char) (h0 : NUL ∉ s) :
    decodeField g (writeQuoted g s) = s := by
  have hw : writeQuoted g s =
      '"' :: ((if g.qmethod_escape then escapeBody s else doubleBody s) ++ ['"']) := by
    rw [writeQuoted_eq g s h0]
    simp
  rw [hw]
  obtain ⟨body, hbody⟩ : ∃ body, body = (if g.qmethod_escape then escapeBody s else doubleBody s) :=
    ⟨_, rfl⟩
  rw [← hbody]
  have hlq : looksQuoted ('"' :: (body ++ ['"'])) := by
    refine ⟨by simp, rfl, ?_⟩
    rw [← List.cons_append, List.getLast?_append]
    rfl
  unfold decodeField
  rw [if_pos hlq]
  simp only [List.tail_cons, List.dropLast_concat]
  rw [hbody]
  unfold undoEscaping
  cases g.qmethod_escape
  · simpa using undouble_doubleBody s
  · simpa using unescape_escapeBody s

/-- In auto mode, with a separator that is not the double quote, every separator
or newline byte of the output lies between the quotes. -/
theorem writeString_auto_sepInside (g : Globals) (s : List Char)
    (hq : g.quote = Rboolean.NA_LOGICAL) (h0 : NUL ∉ s) (hsep : g.col_sep ≠ '"') :
    sepOnlyInsideQuotes g (writeString g (some s)) := by
  by_cases ht : hasTrigger g s
  · have hw : writeString g (some s) =
        '"' :: ((if g.qmethod_escape then escapeBody s else doubleBody s) ++ ['"']) := by
      rw [writeString_auto_trigger g s hq h0 ht, writeQuoted_eq g s h0]
      simp
    intro i hi hc
    rw [hw] at hi hc ⊢
    set body := (if g.qmethod_escape then escapeBody s else doubleBody s) with hbody
    have hq1 : ('"' : Char) ≠ g.col_sep := fun h => hsep h.symm
    have hq2 : ('"' : Char) ≠ '\n' := by decide
    simp only [List.length_cons, List.length_append, List.length_nil] at hi
    refine ⟨?_, ?_, rfl, ?_⟩
    rotate_left 2
    · rw [← List.cons_append, List.getLast?_append]
      rfl
    · rcases Nat.eq_zero_or_pos i with h | h
      · subst h
        simp only [List.getD_cons_zero] at hc
        rcases hc with hc | hc
        · exact absurd hc hq1
        · exact absurd hc hq2
      · exact h
    · simp only [List.length_cons, List.length_append, List.length_nil]
      by_contra hlast
      have hi2 : i = body.length + 1 := by omega
      subst hi2
      have hget : ('"' :: (body ++ ['"'])).getD (body.length + 1) NUL = '"' := by
        simp [List.getD_eq_getElem?_getD]
      rw [hget] at hc
      rcases hc with hc | hc
      · exact absurd hc hq1
      · exact absurd hc hq2
  · have hw := writeString_auto_plain g s hq h0 ht
    intro i hi hc
    rw [hw] at hi hc
    exfalso
    apply ht
    have hmem : s.getD i NUL ∈ s := by
      rw [List.getD_eq_getElem?_getD, List.getElem?_eq_getElem hi]
      exact List.getElem_mem hi
    rcases hc with hc | hc
    · exact Or.inl (hc ▸ hmem)
    · exact Or.inr (hc ▸ hmem)

/-! ## The claims -/

/-- C1, as stated, fails: the double `1 + 2^-52` (bits `0x3FF0000000000001`) is
written with 15 significant digits as `1`, and `1` reads back as the double
`1.0`, which has other bits. -/
theorem writeNumeric_roundtrip_fails :
    writeNumeric specLookups scenarioGlobals 0x3FF0000000000001 [] = ['1'] ∧
    parseDouble '.' (writeNumeric specLookups scenarioGlobals 0x3FF0000000000001 []) =
      some 0x3FF0000000000000 ∧
    parseDouble '.' (writeNumeric specLookups scenarioGlobals 0x3FF0000000000001 []) ≠
      some 0x3FF0000000000001 := by
  set_option maxRecDepth 100000 in
  decide

/-- C1, amended: for every decimal `q = ± D * 10^k` of at most 15 significant
digits (`D < 10^15`) and the double `x` nearest to it, a normal double or `+0`,
the bytes writeNumeric emits for `x` denote exactly `q`, and reading them back as
a double gives `x` again, bit for bit. The lookup tables are taken to be as
section 4.H describes them, and `dec_sep` is neither a digit nor `e`. -/
theorem writeNumeric_roundtrip_15 (T : Lookups) (hT : T.WellFormed) (hTa : T.Accurate)
    (g : Globals) (hs1 : digitVal g.dec_sep = none) (hs2 : g.dec_sep ≠ 'e') (x D : Nat)
    (k : Int) (q : ℚ) (hD : D < 1000000000000000) (hq : |q| = (D : ℚ) * (10 : ℚ) ^ k)
    (hx : nearestDouble q = some x) :
    decimalValue g.dec_sep (writeNumeric T g x []) = some q ∧
    parseDouble g.dec_sep (writeNumeric T g x []) = some x := by
  have ten : (10 : ℚ) ≠ 0 := by norm_num
  have hval : decimalValue g.dec_sep (writeNumeric T g x []) = some q := by
    rcases Nat.eq_zero_or_pos D with hD0 | hD0
    · have hq0 : q = 0 := by
        rw [hD0] at hq
        simpa using hq
      rw [hq0] at hx ⊢
      have hx0 : x = 0 := by
        have : nearestDouble 0 = some 0 := by simp [nearestDouble]
        rw [this] at hx
        exact (Option.some.inj hx).symm
      rw [hx0]
      exact writeNumeric_zero_value T g hs1
    · obtain ⟨j, hj1, hj2⟩ := fifteen_digits_scale D hD0 hD
      have hq2 : |q| = ((D * 10 ^ j : ℕ) : ℚ) * (10 : ℚ) ^ (k - (j : Int)) := by
        rw [hq, zpow_sub₀ ten, zpow_natCast]
        push_cast
        field_simp
        ring
      obtain ⟨D2, hD2⟩ : ∃ D2, D2 = D * 10 ^ j := ⟨_, rfl⟩
      obtain ⟨k2, hk2⟩ : ∃ k2, k2 = k - (j : Int) := ⟨_, rfl⟩
      rw [← hD2] at hj1 hj2 hq2
      rw [← hk2] at hq2
      clear hq hD hD0 hD2 hk2
      have hpos : (0 : ℚ) < (D2 : ℚ) * (10 : ℚ) ^ k2 := by
        have : (0 : ℚ) < (D2 : ℚ) := by
          have : 0 < D2 := by omega
          exact_mod_cast this
        positivity
      have hq0 : q ≠ 0 := by
        intro h
        rw [h, abs_zero] at hq2
        linarith
      obtain ⟨hE1, hE2, hsign, herr⟩ := nearestDouble_normal q x hq0 hx
      rw [hq2] at herr
      have hf := fractionOf_lt x
      obtain ⟨hk1, hk3⟩ := decimal_exponent_bound (fractionOf x) (exponentOf x) D2 k2 hf hE1 hE2
        hj1 hj2 herr
      obtain ⟨hv, he⟩ := significand_decimal T hT hTa (fractionOf x) (exponentOf x) hf hE1 hE2
        D2 k2 hj1 hj2 herr
      obtain ⟨hl1, hl2⟩ := significand_bounds T hT (fractionOf x) (exponentOf x) hf (by omega)
      obtain ⟨hr1, hr2⟩ := roundLast_bounds _ hl1 hl2
      have hea : |(significand T (fractionOf x) (exponentOf x)).2| < 999 := by
        rw [abs_lt]
        rcases he with he | he <;> rw [he] <;> constructor <;> omega
      obtain ⟨hdv, hhead⟩ := writeDigits_value g hs1 hs2 _ _ hr1 hr2 hea
      rw [hv, ← hq2] at hdv
      have hfin : R_FINITE x = true := by
        have : exponentOf x ≠ 2047 := by omega
        simp [R_FINITE, this]
      have hz : isZero x = false := by
        have : exponentOf x ≠ 0 := by omega
        simp [isZero, this]
      have hR0 : ¬ (roundLast (significand T (fractionOf x) (exponentOf x)).1 = 0) := by omega
      by_cases hneg : q < 0
      · have hs : signOf x = true := by simp [hsign, hneg]
        have hw : writeNumeric T g x [] = '-' :: writeDigits g
            (roundLast (significand T (fractionOf x) (exponentOf x)).1)
            (significand T (fractionOf x) (exponentOf x)).2 := by
          unfold writeNumeric
          simp only [hfin, hz, hs, Bool.not_true, Bool.false_eq_true, if_false, if_true, hR0,
            List.nil_append, List.singleton_append]
        rw [hw, decimalValue_neg_of g.dec_sep _ _ hdv hhead, abs_of_neg hneg, neg_neg]
      · have hs : signOf x = false := by simp [hsign, hneg]
        have hw : writeNumeric T g x [] = writeDigits g
            (roundLast (significand T (fractionOf x) (exponentOf x)).1)
            (significand T (fractionOf x) (exponentOf x)).2 := by
          unfold writeNumeric
          simp only [hfin, hz, hs, Bool.not_true, Bool.false_eq_true, if_false, hR0,
            List.nil_append]
        rw [hw, hdv, abs_of_nonneg (not_lt.mp hneg)]
  refine ⟨hval, ?_⟩
  unfold parseDouble
  rw [hval]
  exact hx

/-- Witness for C1 (amended): 3.1416, whose nearest double has the bits
`0x400921FF2E48E8A7`, in the binade of exponent field 1024. -/
theorem writeNumeric_roundtrip_15_witness :
    decimalValue '.' (writeNumeric specLookups scenarioGlobals 0x400921FF2E48E8A7 []) =
      some (3927 / 1250) ∧
    parseDouble '.' (writeNumeric specLookups scenarioGlobals 0x400921FF2E48E8A7 []) =
      some 0x400921FF2E48E8A7 := by
  have hq : |(3927 / 1250 : ℚ)| = ((31416 : ℕ) : ℚ) * (10 : ℚ) ^ (-4 : Int) := by
    rw [abs_of_pos (by norm_num)]
    norm_num
  have hx : nearestDouble (3927 / 1250) = some 0x400921FF2E48E8A7 := by
    have hq0 : ¬ ((3927 : ℚ) / 1250 = 0) := by norm_num
    have hneg : ¬ ((3927 : ℚ) / 1250 < 0) := by norm_num
    have hnum : ((3927 : ℚ) / 1250).num = 3927 := by
      have := Rat.num_div_eq_of_coprime (a := 3927) (b := 1250) (by norm_num) (by decide)
      simpa using this
    have hden : ((3927 : ℚ) / 1250).den = 1250 := by
      have := Rat.den_div_eq_of_coprime (a := 3927) (b := 1250) (by norm_num) (by decide)
      have h2 : ((((3927 : ℚ) / 1250).den : ℕ) : Int) = 1250 := by simpa using this
      exact_mod_cast h2
    unfold nearestDouble
    rw [if_neg hq0]
    simp only [hnum, hden, if_neg hneg]
    set_option maxRecDepth 100000 in
    decide
  exact writeNumeric_roundtrip_15 specLookups specLookups_wellFormed specLookups_accurate
    scenarioGlobals (by decide) (by decide) 0x400921FF2E48E8A7 31416 (-4) (3927 / 1250)
    (by decide) hq hx

/-- C2: for every signed 64-bit integer `x` other than the NA sentinel `NAINT64`,
writeInteger emits the canonical decimal text of `x`: `0` for zero, otherwise an
optional single `-` and then the digits, most significant first, without a leading
zero and without a `+`; reading that text as a signed 64-bit integer gives `x`. -/
theorem writeInteger_canonical (x : Int) (hlo : NAINT64 ≤ x) (hhi : x ≤ INT64_MAX)
    (hna : x ≠ NAINT64) :
    writeInteger x = decimalText x ∧
    (x = 0 → writeInteger x = ['0']) ∧
    (x ≠ 0 → ∃ ds : List Nat, ds ≠ [] ∧ (∀ d ∈ ds, d < 10) ∧ ds.head? ≠ some 0 ∧
      writeInteger x = (if x < 0 then ['-'] else []) ++ ds.map Nat.digitChar) ∧
    '+' ∉ writeInteger x ∧
    parseInt64 (writeInteger x) = some x := by
  have h1 : NAINT64 < x := lt_of_le_of_ne hlo (Ne.symm hna)
  refine ⟨writeInteger_eq_decimalText x h1, ?_, writeInteger_shape x h1, ?_, ?_⟩
  · intro h0
    subst h0
    rfl
  · by_cases h0 : x = 0
    · subst h0
      decide
    · obtain ⟨ds, _, hd, _, hw⟩ := writeInteger_shape x h1 h0
      rw [hw]
      intro hm
      rcases List.mem_append.mp hm with hm | hm
      · split at hm
        · simp at hm
        · simp at hm
      · obtain ⟨d, hd1, hd2⟩ := List.mem_map.mp hm
        exact (digitChar_not_sign d (hd d hd1)).1 hd2
  · rw [writeInteger_eq_decimalText x h1]
    exact parseInt64_decimalText x hlo hhi

/-- Witness for C2 at `x = -907`. -/
theorem writeInteger_canonical_witness :
    writeInteger (-907) = ['-', '9', '0', '7'] ∧ parseInt64 (writeInteger (-907)) = some (-907) :=
  ⟨by decide,
    (writeInteger_canonical (-907) (by decide) (by decide) (by decide)).2.2.2.2⟩

/-- C4: for every `na_str`, writeNumeric appends `na_str` for a NaN, `Inf` for
plus infinity, `-Inf` for minus infinity, and the single byte `0`, with no sign
and no decimal separator, for both zeros. -/
theorem writeNumeric_special (T : Lookups) (g : Globals) (ch : List Char) :
    (∀ x, ISNAN x = true → writeNumeric T g x ch = ch ++ g.na_str) ∧
    writeNumeric T g 0x7FF0000000000000 ch = ch ++ ['I', 'n', 'f'] ∧
    writeNumeric T g 0xFFF0000000000000 ch = ch ++ ['-', 'I', 'n', 'f'] ∧
    writeNumeric T g 0x0000000000000000 ch = ch ++ ['0'] ∧
    writeNumeric T g 0x8000000000000000 ch = ch ++ ['0'] := by
  refine ⟨fun x h => writeNumeric_nan T g x ch h, ?_, ?_, ?_, ?_⟩
  · have h1 : R_FINITE 0x7FF0000000000000 = false := by decide
    have h2 : ISNAN 0x7FF0000000000000 = false := by decide
    have h3 : signOf 0x7FF0000000000000 = false := by decide
    simp [writeNumeric, h1, h2, h3]
  · have h1 : R_FINITE 0xFFF0000000000000 = false := by decide
    have h2 : ISNAN 0xFFF0000000000000 = false := by decide
    have h3 : signOf 0xFFF0000000000000 = true := by decide
    simp [writeNumeric, h1, h2, h3]
  · have h1 : R_FINITE 0x0000000000000000 = true := by decide
    have h2 : isZero 0x0000000000000000 = true := by decide
    simp [writeNumeric, h1, h2]
  · have h1 : R_FINITE 0x8000000000000000 = true := by decide
    have h2 : isZero 0x8000000000000000 = true := by decide
    simp [writeNumeric, h1, h2]

/-- Witness for C4: the quiet NaN and R's `NA_real_` with `na_str = "NA"`. -/
theorem writeNumeric_special_witness :
    writeNumeric specLookups ⟨['N', 'A'], ',', '.', Rboolean.TRUE, true⟩ 0x7FF8000000000000 [] =
      ['N', 'A'] ∧
    writeNumeric specLookups ⟨['N', 'A'], ',', '.', Rboolean.TRUE, true⟩ 0x7FF00000000007A2 [] =
      ['N', 'A'] :=
  ⟨(writeNumeric_special specLookups ⟨['N', 'A'], ',', '.', Rboolean.TRUE, true⟩ []).1 _
      (by decide),
    (writeNumeric_special specLookups ⟨['N', 'A'], ',', '.', Rboolean.TRUE, true⟩ []).1 _
      (by decide)⟩

/-- C5: with quote="auto", for every string `s` that is not `NA_STRING` (its bytes
hold no NUL), writeString emits the quoted form of `s` exactly when `s` holds
`col_sep` or a newline; in that case the output is `s` between double quotes,
with the body escaped by the quote method (and equal to `s` itself when `s` holds
no `"` and no `\`); otherwise the bytes of `s` are emitted as they are, also when
`s` holds a `"`. -/
theorem writeString_auto (g : Globals) (s : List Char) (hq : g.quote = Rboolean.NA_LOGICAL)
    (h0 : NUL ∉ s) :
    (hasTrigger g s → writeString g (some s) =
      ['"'] ++ (if g.qmethod_escape then escapeBody s else doubleBody s) ++ ['"']) ∧
    (hasTrigger g s → '"' ∉ s → '\\' ∉ s → writeString g (some s) = ['"'] ++ s ++ ['"']) ∧
    (¬ hasTrigger g s → writeString g (some s) = s) ∧
    (writeString g (some s) =
      ['"'] ++ (if g.qmethod_escape then escapeBody s else doubleBody s) ++ ['"'] ↔
        hasTrigger g s) := by
  have hA : hasTrigger g s → writeString g (some s) =
      ['"'] ++ (if g.qmethod_escape then escapeBody s else doubleBody s) ++ ['"'] := by
    intro ht
    rw [writeString_auto_trigger g s hq h0 ht, writeQuoted_eq g s h0]
  refine ⟨hA, ?_, writeString_auto_plain g s hq h0, ?_⟩
  · intro ht h1 h2
    rw [hA ht, escapeBody_plain s h1 h2, doubleBody_plain s h1]
    simp
  · constructor
    · intro h
      by_contra ht
      have hlen := writeQuoted_length_gt g s h0
      rw [writeQuoted_eq g s h0, ← h, writeString_auto_plain g s hq h0 ht] at hlen
      exact lt_irrefl _ hlen
    · exact hA

/-- Witness for C5: with `,` as separator `a,b` is emitted as `"a,b"`. -/
theorem writeString_auto_witness :
    writeString scenarioGlobals (some ['a', ',', 'b']) = ['"', 'a', ',', 'b', '"'] :=
  (writeString_auto scenarioGlobals ['a', ',', 'b'] rfl (by decide)).2.1 (by decide)
    (by decide) (by decide)

/-- The second example of C5: `c"d` holds no separator and is emitted as it is. -/
theorem writeString_auto_inner_quote :
    writeString scenarioGlobals (some ['c', '"', 'd']) = ['c', '"', 'd'] := by
  decide

/-- C6, as stated, fails in two ways. When `col_sep` is the double quote, the
string `"` is emitted as `"\""`, whose first and last byte are `col_sep` bytes
that do not lie between the quotes. And a string without separator or newline is
emitted as it stands, so with `,` as separator the string `"a"` is read back as
`a`, and the string `a\b` (qmethod "escape") as `ab`. -/
theorem autoFieldClaim_fails :
    ¬ autoFieldClaim ⟨[], '"', '.', Rboolean.NA_LOGICAL, true⟩ ['"'] ∧
    (writeString scenarioGlobals (some ['"', 'a', '"']) = ['"', 'a', '"'] ∧
      decodeField scenarioGlobals ['"', 'a', '"'] = ['a'] ∧
      ¬ autoFieldClaim scenarioGlobals ['"', 'a', '"']) ∧
    (writeString scenarioGlobals (some ['a', '\\', 'b']) = ['a', '\\', 'b'] ∧
      decodeField scenarioGlobals ['a', '\\', 'b'] = ['a', 'b'] ∧
      ¬ autoFieldClaim scenarioGlobals ['a', '\\', 'b']) := by
  refine ⟨?_, ⟨by decide, by decide, ?_⟩, ⟨by decide, by decide, ?_⟩⟩
  · intro h
    have h1 := h.1 0 (by decide) (by decide)
    exact absurd h1.1 (by decide)
  · intro h
    exact absurd h.2 (by decide)
  · intro h
    exact absurd h.2 (by decide)

/-- C6, amended: with quote="auto", for every string `s` that is not `NA_STRING`
(its bytes hold no NUL), either quote method and every `col_sep` other than the
double quote, every `col_sep` or newline byte of the output lies between an
opening and a closing quote; and the emitted field, read back, is `s` exactly
when the writer quoted (`s` holds `col_sep` or a newline), or `s` neither reads
as quoted itself nor is changed by undoing the escaping of the quote method; it
is so, in particular, when `s` holds neither `"` nor `\`. -/
theorem autoFieldClaim_iff (g : Globals) (s : List Char)
    (hq : g.quote = Rboolean.NA_LOGICAL) (h0 : NUL ∉ s) (hsep : g.col_sep ≠ '"') :
    sepOnlyInsideQuotes g (writeString g (some s)) ∧
    (autoFieldClaim g s ↔
      hasTrigger g s ∨ (¬ looksQuoted s ∧ undoEscaping g s = s)) ∧
    ('"' ∉ s → '\\' ∉ s → autoFieldClaim g s) := by
  have hsepIn := writeString_auto_sepInside g s hq h0 hsep
  have key : autoFieldClaim g s ↔
      hasTrigger g s ∨ (¬ looksQuoted s ∧ undoEscaping g s = s) := by
    unfold autoFieldClaim
    by_cases ht : hasTrigger g s
    · rw [writeString_auto_trigger g s hq h0 ht] at hsepIn ⊢
      exact ⟨fun _ => Or.inl ht, fun _ => ⟨hsepIn, decodeField_writeQuoted g s h0⟩⟩
    · rw [writeString_auto_plain g s hq h0 ht] at hsepIn ⊢
      constructor
      · rintro ⟨_, hd⟩
        right
        by_cases hl : looksQuoted s
        · exact absurd hd (decodeField_looksQuoted_ne g s hl)
        · refine ⟨hl, ?_⟩
          unfold decodeField at hd
          rw [if_neg hl] at hd
          exact hd
      · rintro (h | ⟨hl, hu⟩)
        · exact absurd h ht
        · refine ⟨hsepIn, ?_⟩
          unfold decodeField
          rw [if_neg hl]
          exact hu
  refine ⟨hsepIn, key, ?_⟩
  intro h1 h2
  apply key.mpr
  right
  constructor
  · rintro ⟨_, hh, _⟩
    cases s with
    | nil => simp at hh
    | cons c t =>
      simp only [List.head?_cons, Option.some.injEq] at hh
      exact h1 (hh ▸ List.mem_cons_self _ _)
  · unfold undoEscaping
    split
    · have h := unescape_escapeBody s
      rw [escapeBody_plain s h1 h2] at h
      exact h
    · have h := undouble_doubleBody s
      rw [doubleBody_plain s h1] at h
      exact h

/-- Witness for C6 (amended): with `,` as separator, the field `a,"b`, which is
quoted, and the field `c"d`, which is not, are both read back as they were. -/
theorem autoFieldClaim_iff_witness :
    autoFieldClaim scenarioGlobals ['a', ',', '"', 'b'] ∧
    autoFieldClaim scenarioGlobals ['c', '"', 'd'] :=
  ⟨(autoFieldClaim_iff scenarioGlobals ['a', ',', '"', 'b'] rfl (by decide) (by decide)).2.1.mpr
      (Or.inl (by decide)),
    (autoFieldClaim_iff scenarioGlobals ['c', '"', 'd'] rfl (by decide) (by decide)).2.1.mpr
      (Or.inr ⟨by decide, by decide⟩)⟩

/-- C7: whenever writeString quotes a string `s` that is not `NA_STRING` (quote is
TRUE, or auto with a trigger), the output is `"` + body + `"`; with qmethod
"escape" the body is `s` with a backslash put before every `"` and every `\`,
with qmethod "double" it is `s` with every `"` written twice and every `\` left
alone; in both cases the matching decoding of the body gives `s` back. -/
theorem writeString_quoted (g : Globals) (s : List Char) (h0 : NUL ∉ s)
    (hq : g.quote = Rboolean.TRUE ∨ (g.quote = Rboolean.NA_LOGICAL ∧ hasTrigger g s)) :
    ∃ body, writeString g (some s) = ['"'] ++ body ++ ['"'] ∧
      (g.qmethod_escape = true → body = escapeBody s ∧ unescape body = s) ∧
      (g.qmethod_escape = false → body = doubleBody s ∧ undouble body = s) := by
  have hw : writeString g (some s) = writeQuoted g s := by
    rcases hq with hq | ⟨hq, ht⟩
    · simp [writeString, hq]
    · exact writeString_auto_trigger g s hq h0 ht
  refine ⟨if g.qmethod_escape then escapeBody s else doubleBody s, ?_, ?_, ?_⟩
  · rw [hw, writeQuoted_eq g s h0]
  · intro he
    rw [he]
    exact ⟨rfl, unescape_escapeBody s⟩
  · intro he
    rw [he]
    exact ⟨rfl, undouble_doubleBody s⟩

/-- Witness for C7: `a"\` written with quote=TRUE and qmethod="escape". -/
theorem writeString_quoted_witness :
    ∃ body, writeString ⟨[], ',', '.', Rboolean.TRUE, true⟩ (some ['a', '"', '\\']) =
        ['"'] ++ body ++ ['"'] ∧
      (true = true → body = escapeBody ['a', '"', '\\'] ∧ unescape body = ['a', '"', '\\']) ∧
      (true = false → body = doubleBody ['a', '"', '\\'] ∧ undouble body = ['a', '"', '\\']) :=
  writeString_quoted ⟨[], ',', '.', Rboolean.TRUE, true⟩ ['a', '"', '\\'] (by decide)
    (Or.inl rfl)

/-- C8: for every column type, every quote mode and quote method, and every setting
of `logicalAsInt` and `turbo`, a missing cell is written as exactly the bytes of
`na_str`, with no quotes round them, on the general path and in the all-double
and all-integer loops; a missing string is not quoted even when quote is TRUE,
and with an empty `na_str` a missing cell adds no byte. -/
theorem writeCell_missing (T : Lookups) (g : Globals) (L : Libc) (A : Args)
    (column : Column) (i : Nat) (ch : List Char) (h : isMissing column i = true) :
    writeCell T g L A column i ch = ch ++ g.na_str ∧
    writeString g none = g.na_str ∧
    (g.na_str = [] → writeCell T g L A column i ch = ch) ∧
    (TYPEOF column = 14 → isInteger64 column = false →
      writeCellReal T g column i ch = ch ++ g.na_str) ∧
    (TYPEOF column = 13 → writeCellInt g column i ch = ch ++ g.na_str) := by
  refine ⟨writeCell_missing_eq T g L A column i ch h, rfl, ?_, ?_, ?_⟩
  · intro hna
    rw [writeCell_missing_eq T g L A column i ch h, hna, List.append_nil]
  · intro ht h64
    cases column with
    | REALSXP v integer64 =>
      cases integer64 with
      | true => simp [isInteger64] at h64
      | false =>
        simp only [isMissing] at h
        exact writeNumeric_nan T g _ ch h
    | LGLSXP v => simp [TYPEOF] at ht
    | INTSXP v levels => simp [TYPEOF] at ht
    | STRSXP v => simp [TYPEOF] at ht
    | OTHER len => simp [TYPEOF] at ht
  · intro ht
    cases column with
    | INTSXP v levels =>
      simp only [isMissing, decide_eq_true_eq] at h
      simp only [writeCellInt, integerAt]
      rw [if_pos h]
    | LGLSXP v => simp [TYPEOF] at ht
    | REALSXP v integer64 => simp [TYPEOF] at ht
    | STRSXP v => simp [TYPEOF] at ht
    | OTHER len => simp [TYPEOF] at ht

/-- Witness for C8: a missing string in row 1 with quote=TRUE and `na_str = "NA"`. -/
theorem writeCell_missing_witness :
    writeCell specLookups ⟨['N', 'A'], ',', '.', Rboolean.TRUE, true⟩ noLibc scenarioArgs
        (Column.STRSXP [some ['x'], none]) 1 ['x', ','] = ['x', ',', 'N', 'A'] :=
  (writeCell_missing specLookups ⟨['N', 'A'], ',', '.', Rboolean.TRUE, true⟩ noLibc
    scenarioArgs (Column.STRSXP [some ['x'], none]) 1 ['x', ','] (by decide)).1

/-- C9: for every table with at least one column and every row `i`, the bytes the
row loop appends are: the row-name field and one `col_sep` (only with
`doRowNames`), then the fields of the columns in column order with one `col_sep`
between neighbours, then `row_sep` once, with no `col_sep` before it. Beyond
the fields the row therefore holds `ncol-1` separators (`ncol` with a row name)
and one `row_sep`. Without row names in the table the row-name field is the
1-based decimal row number, between double quotes unless quote is FALSE. The
lookup tables are taken to be as section 4.H describes them. -/
theorem writeRow_layout (T : Lookups) (hT : T.WellFormed) (g : Globals) (L : Libc) (A : Args)
    (DF : List Column) (i : Nat) (ch : List Char) (hncol : DF ≠ []) :
    writeRow T g L A DF i ch =
      ch ++ (if A.doRowNames then rowNameField g A i ++ [g.col_sep] else []) ++
        [g.col_sep].intercalate (DF.map (fun column => writeCell T g L A column i [])) ++
        A.row_sep ∧
    (writeRow T g L A DF i ch).length =
      ch.length + (if A.doRowNames then (rowNameField g A i).length + 1 else 0) +
        ((DF.map (fun column => writeCell T g L A column i [])).map List.length).sum +
        (DF.length - 1) + A.row_sep.length ∧
    (A.rowNames = none → rowNameField g A i =
      if g.quote = Rboolean.FALSE then decimalText ((i : Int) + 1)
      else ['"'] ++ decimalText ((i : Int) + 1) ++ ['"']) := by
  have hfields : DF.map (fun column => writeCell T g L A column i []) ≠ [] := by
    simpa using hncol
  have hrow : writeRow T g L A DF i ch =
      ch ++ (if A.doRowNames then rowNameField g A i ++ [g.col_sep] else []) ++
        [g.col_sep].intercalate (DF.map (fun column => writeCell T g L A column i [])) ++
        A.row_sep := by
    unfold writeRow
    simp only []
    rw [foldl_cells (fun column c => writeCell T g L A column i c) g.col_sep
      (fun column c => writeCell_append T hT g L A column i c)]
    have hmap : (DF.map (fun column => writeCell T g L A column i [] ++ [g.col_sep])) =
        (DF.map (fun column => writeCell T g L A column i [])).map
          (fun fld => fld ++ [g.col_sep]) := by
      rw [List.map_map]
      rfl
    rw [hmap, flatten_sep g.col_sep _ hfields, ← List.append_assoc, List.dropLast_concat]
    congr 2
    unfold writeRowName
    split <;> simp
  refine ⟨hrow, ?_, ?_⟩
  · rw [hrow]
    have hlen := length_intercalate g.col_sep _ hfields
    have hpos : 0 < DF.length := List.length_pos.mpr hncol
    simp only [List.length_append, List.length_map] at hlen ⊢
    split
    · simp only [List.length_append, List.length_cons, List.length_nil]
      omega
    · simp only [List.length_nil]
      omega
  · intro hrn
    have hx : NAINT64 < (i : Int) + 1 := by
      unfold NAINT64
      omega
    unfold rowNameField
    rw [hrn]
    simp only []
    rw [writeInteger_eq_decimalText _ hx]
    by_cases hq : g.quote = Rboolean.FALSE
    · simp [hq]
    · simp [hq]

/-- Witness for C9: row 1 of a table with an integer and a string column, written
with row numbers. -/
theorem writeRow_layout_witness :
    writeRow specLookups scenarioGlobals noLibc ⟨['\n'], false, true, true, none⟩
        [Column.INTSXP [1, 2] none, Column.STRSXP [some ['x'], some ['y']]] 1 [] =
      ['"', '2', '"', ',', '2', ',', 'y', '\n'] := by
  have h := (writeRow_layout specLookups specLookups_wellFormed scenarioGlobals noLibc
    ⟨['\n'], false, true, true, none⟩
    [Column.INTSXP [1, 2] none, Column.STRSXP [some ['x'], some ['y']]] 1 []
    (by simp)).1
  rw [h]
  decide

/-- C10: on the general row path with `turbo` set, a cell that is not missing is
written by the formatter of its type: a logical as `0`/`1` with `logicalAsInt`
and as `TRUE`/`FALSE` without, an integer and an integer64 by writeInteger, a
double by writeNumeric, a string by writeString, and a factor cell with code `c`
by writeString on the level `c-1` (so the quoting rules apply to levels). The
single integer column `{1, NA, 3}` with empty `na_str` and newline `row_sep` is
written as `1\n\n3\n`, on the general path and by the batch loop. -/
theorem writeCell_turbo (T : Lookups) (g : Globals) (L : Libc) (A : Args) (i : Nat)
    (ch : List Char) (hturbo : A.turbo = true) :
    (∀ v : List Int, v.getD i NA_INTEGER = 0 →
      writeCell T g L A (Column.LGLSXP v) i ch =
        ch ++ (if A.logicalAsInt then ['0'] else ['F', 'A', 'L', 'S', 'E'])) ∧
    (∀ v : List Int, v.getD i NA_INTEGER = 1 →
      writeCell T g L A (Column.LGLSXP v) i ch =
        ch ++ (if A.logicalAsInt then ['1'] else ['T', 'R', 'U', 'E'])) ∧
    (∀ v : List Int, v.getD i NA_INTEGER ≠ NA_INTEGER →
      writeCell T g L A (Column.INTSXP v none) i ch =
        ch ++ writeInteger (v.getD i NA_INTEGER)) ∧
    (∀ v : List Nat, asInt64 (v.getD i 0) ≠ NAINT64 →
      writeCell T g L A (Column.REALSXP v true) i ch =
        ch ++ writeInteger (asInt64 (v.getD i 0))) ∧
    (∀ v : List Nat,
      writeCell T g L A (Column.REALSXP v false) i ch = writeNumeric T g (v.getD i 0) ch) ∧
    (∀ v : List SEXPstr,
      writeCell T g L A (Column.STRSXP v) i ch = ch ++ writeString g (v.getD i none)) ∧
    (∀ (v : List Int) (lev : List SEXPstr) (c : Int) (label : SEXPstr),
      v.getD i NA_INTEGER = c → c ≠ NA_INTEGER → 1 ≤ c → lev[(c - 1).toNat]? = some label →
      writeCell T g L A (Column.INTSXP v (some lev)) i ch = ch ++ writeString g label) ∧
    (List.range 3).foldl (fun c k => writeRow T scenarioGlobals L scenarioArgs
        [Column.INTSXP [1, NA_INTEGER, 3] none] k c) [] = ['1', '\n', '\n', '3', '\n'] ∧
    writeBatch T scenarioGlobals L scenarioArgs [Column.INTSXP [1, NA_INTEGER, 3] none] 0 3 =
      ['1', '\n', '\n', '3', '\n'] := by
  refine ⟨?_, ?_, ?_, ?_, ?_, ?_, ?_, ?_, ?_⟩
  · intro v hv
    simp only [writeCell, writeLogical, hv]
    have h1 : ¬ ((0 : Int) = NA_INTEGER) := by decide
    rw [if_neg h1]
    split
    · rfl
    · simp
  · intro v hv
    simp only [writeCell, writeLogical, hv]
    have h1 : ¬ ((1 : Int) = NA_INTEGER) := by decide
    rw [if_neg h1]
    split
    · rfl
    · simp
  · intro v hv
    simp only [writeCell, hturbo, if_true]
    rw [if_neg hv]
  · intro v hv
    simp only [writeCell, hturbo, if_true]
    rw [if_neg hv]
  · intro v
    simp only [writeCell, hturbo, if_true, Bool.false_eq_true, if_false]
  · intro v
    simp only [writeCell]
  · intro v lev c label hv hc _ hlab
    simp only [writeCell, hv]
    rw [if_neg hc, List.getD_eq_getElem?_getD, hlab]
    rfl
  · rfl
  · rfl

/-- Witness for C10: with `turbo` set, the factor cell with code 2 and levels
`a`, `b,c` is written as the quoted level `"b,c"`. -/
theorem writeCell_turbo_witness :
    writeCell specLookups scenarioGlobals noLibc scenarioArgs
        (Column.INTSXP [2] (some [some ['a'], some ['b', ',', 'c']])) 0 [] =
      ['"', 'b', ',', 'c', '"'] :=
  (writeCell_turbo specLookups scenarioGlobals noLibc scenarioArgs 0 [] rfl).2.2.2.2.2.2.1
    [2] [some ['a'], some ['b', ',', 'c']] 2 (some ['b', ',', 'c']) rfl (by decide)
    (by decide) rfl

/-- C11: with `turbo` on and no row names, for a table whose columns are all plain
doubles (no integer64) the all-double loop, and for a table whose columns are
all plain integers (no factor) the all-integer loop, leaves the same bytes for
any rows `start ≤ i < stop` as the general loop with its switch on every
cell; these tables do take the specialised loop (`sameType` is REALSXP,
respectively INTSXP), so that the batch is the bytes of the general loop. -/
theorem writeBatch_fast_eq_general (T : Lookups) (g : Globals) (L : Libc) (A : Args)
    (DF : List Column) (start stop : Nat) (hne : DF ≠ [])
    (hturbo : A.turbo = true) (hrn : A.doRowNames = false) :
    ((∀ column ∈ DF, ∃ v, column = Column.REALSXP v false) →
      sameType DF = 14 ∧
      ((List.range (stop - start)).map (fun k => start + k)).foldl
          (fun c i => writeRowReal T g A DF i c) [] =
        ((List.range (stop - start)).map (fun k => start + k)).foldl
          (fun c i => writeRow T g L A DF i c) [] ∧
      writeBatch T g L A DF start stop =
        ((List.range (stop - start)).map (fun k => start + k)).foldl
          (fun c i => writeRow T g L A DF i c) []) ∧
    ((∀ column ∈ DF, ∃ v, column = Column.INTSXP v none) →
      sameType DF = 13 ∧
      ((List.range (stop - start)).map (fun k => start + k)).foldl
          (fun c i => writeRowInt g A DF i c) [] =
        ((List.range (stop - start)).map (fun k => start + k)).foldl
          (fun c i => writeRow T g L A DF i c) [] ∧
      writeBatch T g L A DF start stop =
        ((List.range (stop - start)).map (fun k => start + k)).foldl
          (fun c i => writeRow T g L A DF i c) []) := by
  constructor
  · intro hDF
    have hst := sameType_plain_real DF hne hDF
    have hloop : ((List.range (stop - start)).map (fun k => start + k)).foldl
          (fun c i => writeRowReal T g A DF i c) [] =
        ((List.range (stop - start)).map (fun k => start + k)).foldl
          (fun c i => writeRow T g L A DF i c) [] := by
      apply List.foldl_ext
      intro c i _
      exact writeRow_plain_real T g L A DF i c hturbo hrn hDF
    refine ⟨hst, hloop, ?_⟩
    unfold writeBatch
    simp only [hturbo, hst, hrn, Bool.false_eq_true, not_false_eq_true, and_self, if_true]
    exact hloop
  · intro hDF
    have hst := sameType_plain_int DF hne hDF
    have hloop : ((List.range (stop - start)).map (fun k => start + k)).foldl
          (fun c i => writeRowInt g A DF i c) [] =
        ((List.range (stop - start)).map (fun k => start + k)).foldl
          (fun c i => writeRow T g L A DF i c) [] := by
      apply List.foldl_ext
      intro c i _
      exact writeRow_plain_int T g L A DF i c hturbo hrn hDF
    refine ⟨hst, hloop, ?_⟩
    unfold writeBatch
    simp only [hturbo, hst, hrn, Bool.false_eq_true, not_false_eq_true, and_self, if_true]
    simp only [show ¬ ((13 : Nat) = 14) by decide, and_false, false_and, if_false]
    exact hloop

/-- Witness for C11: a table of two plain integer columns, rows 0 and 1. -/
theorem writeBatch_fast_eq_general_witness :
    sameType [Column.INTSXP [1, -2] none, Column.INTSXP [30, NA_INTEGER] none] = 13 ∧
    writeBatch specLookups scenarioGlobals noLibc scenarioArgs
        [Column.INTSXP [1, -2] none, Column.INTSXP [30, NA_INTEGER] none] 0 2 =
      ((List.range (2 - 0)).map (fun k => 0 + k)).foldl
        (fun c i => writeRow specLookups scenarioGlobals noLibc scenarioArgs
          [Column.INTSXP [1, -2] none, Column.INTSXP [30, NA_INTEGER] none] i c) [] :=
  have h := (writeBatch_fast_eq_general specLookups scenarioGlobals noLibc scenarioArgs
    [Column.INTSXP [1, -2] none, Column.INTSXP [30, NA_INTEGER] none] 0 2 (by simp) rfl rfl).2
    (by simp)
  ⟨h.1, h.2.2⟩

/-- C14: the shared variables `failed`, `failed_reason` and the bytes handed to the
sink move by steps, one for a worker whose malloc fails and one for each pass
of the batch loop. A failed malloc sets the latch with reason -1, and a write
that returns -1 sets it with the `errno`, neither adding a byte; and once the
latch is set after some steps, it is still set after any further steps and
the bytes in the sink are the same. The parallel region with one worker is
such a run: its malloc, then the passes of the loop in order. -/
theorem failure_latch (T : Lookups) (g : Globals) (L : Libc) (S : Sys) (A : Args)
    (DF : List Column) (toStdout : Bool) (nrow rpb : Nat) (s : SinkState)
    (pre post : List Event)
    (hf : (pre.foldl (step T g L S A DF toStdout nrow rpb) s).failed = true) :
    ((pre ++ post).foldl (step T g L S A DF toStdout nrow rpb) s).failed = true ∧
    ((pre ++ post).foldl (step T g L S A DF toStdout nrow rpb) s).sink =
      (pre.foldl (step T g L S A DF toStdout nrow rpb) s).sink ∧
    step T g L S A DF toStdout nrow rpb s Event.alloc = ⟨true, -1, s.sink⟩ ∧
    (∀ (start : Nat) (errno : Int), s.failed = false → toStdout = false →
      S.writeErr (start / rpb) = some errno →
      step T g L S A DF toStdout nrow rpb s (Event.batch start) = ⟨true, errno, s.sink⟩) ∧
    parallelRegion T g L S A DF toStdout nrow rpb s =
      ((if S.mallocBuffer then [] else [Event.alloc]) ++
        (batchStarts nrow rpb nrow 0).map Event.batch).foldl
        (step T g L S A DF toStdout nrow rpb) s := by
  rw [List.foldl_append]
  have h := foldl_step_failed T g L S A DF toStdout nrow rpb post _ hf
  refine ⟨h.1, h.2, rfl, ?_, ?_⟩
  · intro start errno hs ht hw
    simp [step, batchStep, orderedWrite, hs, ht, hw]
  · unfold parallelRegion
    rw [List.foldl_append, List.foldl_map]
    cases S.mallocBuffer <;> rfl

/-- Witness for C14: three rows in batches of one row; the write of batch 1 fails
with `errno` 28, and the pass for batch 2 adds nothing to the one row in the
file. -/
theorem failure_latch_witness :
    ([Event.batch 0, Event.batch 1].foldl
        (step specLookups scenarioGlobals noLibc
          ⟨fun _ => 0, fun b => b, true, true, true, none,
            fun k => if k = 1 then some 28 else none, true⟩
          scenarioArgs [Column.INTSXP [1, 2, 3] none] false 3 1) ⟨false, 0, []⟩).failed = true ∧
    (([Event.batch 0, Event.batch 1] ++ [Event.batch 2]).foldl
        (step specLookups scenarioGlobals noLibc
          ⟨fun _ => 0, fun b => b, true, true, true, none,
            fun k => if k = 1 then some 28 else none, true⟩
          scenarioArgs [Column.INTSXP [1, 2, 3] none] false 3 1) ⟨false, 0, []⟩).failed = true ∧
    (([Event.batch 0, Event.batch 1] ++ [Event.batch 2]).foldl
        (step specLookups scenarioGlobals noLibc
          ⟨fun _ => 0, fun b => b, true, true, true, none,
            fun k => if k = 1 then some 28 else none, true⟩
          scenarioArgs [Column.INTSXP [1, 2, 3] none] false 3 1) ⟨false, 0, []⟩).sink =
      ['1', '\n'] :=
  have h := failure_latch specLookups scenarioGlobals noLibc
    ⟨fun _ => 0, fun b => b, true, true, true, none,
      fun k => if k = 1 then some 28 else none, true⟩
    scenarioArgs [Column.INTSXP [1, 2, 3] none] false 3 1 ⟨false, 0, []⟩
    [Event.batch 0, Event.batch 1] [Event.batch 2] (by decide)
  ⟨by decide, h.1, h.2.1.trans (by decide)⟩

/-- C15, as stated, fails: with row names and quote=FALSE the line of column names
begins with the separator alone, not with the two bytes `""`; the run writes
`,n,s` and then the rows with their unquoted row numbers. -/
theorem header_never_mode_fails :
    writeColNames ⟨[], ',', '.', Rboolean.FALSE, true⟩ ⟨['\n'], false, true, true, none⟩
        [some ['n'], some ['s']] = ",n,s\n".toList ∧
    (writeColNames ⟨[], ',', '.', Rboolean.FALSE, true⟩ ⟨['\n'], false, true, true, none⟩
        [some ['n'], some ['s']]).take 3 ≠ ['"', '"', ','] ∧
    writefile specLookups ⟨[], ',', '.', Rboolean.FALSE, true⟩ noLibc scenarioSys
        ⟨[Column.INTSXP [1, 2] none, Column.STRSXP [some ['x'], some ['y']]],
          some [some ['n'], some ['s']], false, ⟨['\n'], false, true, true, none⟩, true, 8⟩ =
      ⟨none, ",n,s\n1,1,x\n2,2,y\n".toList⟩ := by
  refine ⟨by decide, by decide, ?_⟩
  set_option maxRecDepth 100000 in decide

/-- C15, amended: in a run to a file that succeeds, with `col_names` on and at
least one row, the bytes written are the line of column names once, then the
rows. That line is the names, each written by writeString under the current
quote and qmethod, with `col_sep` between them and `row_sep` at the end; when
row names are written it begins with the two bytes `""` and `col_sep` if
quote is TRUE or "auto", and with `col_sep` alone if quote is FALSE. -/
theorem header_row (T : Lookups) (hT : T.WellFormed) (g : Globals) (L : Libc) (S : Sys)
    (C : Call) (names : List SEXPstr) (maxLineLen : Int)
    (hne : C.DF ≠ [])
    (hlens : checkLengths (nrowOf C.DF) C.DF.tail 1 = none)
    (hfile : C.toStdout = false) (hopen : S.openOK = true)
    (hest : estimateMaxLineLen T g S C.args C.DF (nrowOf C.DF) = Except.ok maxLineLen)
    (hcol : C.col_names = true) (hnames : C.names = some names)
    (hlen : names.length = C.DF.length)
    (hmn : S.mallocNames = true) (hwn : S.writeNamesErr = none)
    (hrows : 1 ≤ nrowOf C.DF) (hMB : 1 ≤ C.buffMB ∧ C.buffMB ≤ 1024)
    (hrpb : 1 ≤ rowsPerBatchOf maxLineLen (buffSizeOf C.buffMB) (nrowOf C.DF))
    (hmb : S.mallocBuffer = true) (hw : ∀ k, S.writeErr k = none)
    (hclose : S.closeOK = true) :
    (C.args.doRowNames = false →
      writeColNames g C.args names =
        [g.col_sep].intercalate (names.map (writeString g)) ++ C.args.row_sep) ∧
    (C.args.doRowNames = true → g.quote ≠ Rboolean.FALSE →
      writeColNames g C.args names =
        ['"', '"'] ++ [g.col_sep] ++
          [g.col_sep].intercalate (names.map (writeString g)) ++ C.args.row_sep) ∧
    (C.args.doRowNames = true → g.quote = Rboolean.FALSE →
      writeColNames g C.args names =
        [g.col_sep] ++ [g.col_sep].intercalate (names.map (writeString g)) ++
          C.args.row_sep) ∧
    writefile T g L S C =
      ⟨none, writeColNames g C.args names ++
        (List.range (nrowOf C.DF)).flatMap
          (fun i => writeBatch T g L C.args C.DF i (i + 1))⟩ := by
  have hn : names ≠ [] := by
    intro h0
    rw [h0] at hlen
    exact hne (List.length_eq_zero.mp hlen.symm)
  have e := writeColNames_eq g C.args names hn
  refine ⟨?_, ?_, ?_, writefile_ok T hT g L S C names maxLineLen hne hlens hfile hopen hest
    hcol hnames hlen hmn hwn hrows hMB hrpb hmb hw hclose⟩
  · intro h1
    rw [e]; simp [h1]
  · intro h1 h2
    rw [e]; simp [h1, h2]
  · intro h1 h2
    rw [e]; simp [h1, h2]

/-- Witness for C15: the columns `n = {1,2}` and `s = {"x","y"}` with their names
give `n,s`, `1,x`, `2,y`, each ended by a newline. -/
theorem header_row_witness :
    writefile specLookups scenarioGlobals noLibc scenarioSys
        ⟨[Column.INTSXP [1, 2] none, Column.STRSXP [some ['x'], some ['y']]],
          some [some ['n'], some ['s']], false, scenarioArgs, true, 8⟩ =
      ⟨none, "n,s\n1,x\n2,y\n".toList⟩ :=
  (header_row specLookups specLookups_wellFormed scenarioGlobals noLibc scenarioSys
    ⟨[Column.INTSXP [1, 2] none, Column.STRSXP [some ['x'], some ['y']]],
      some [some ['n'], some ['s']], false, scenarioArgs, true, 8⟩
    [some ['n'], some ['s']] 5 (by simp) (by decide) rfl rfl (by rfl) rfl rfl (by decide)
    rfl rfl (by decide) (by decide) (by set_option maxRecDepth 100000 in decide)
    rfl (fun _ => rfl) rfl).2.2.2.trans (by decide)

/-- C16: for a non-empty list of columns that all have length 0, when the file
opens and closes and, with `col_names` on, the names are as many as the
columns and their buffer and write succeed, writefile returns without error
having written the line of column names if `col_names` is on and nothing
otherwise (to the console the line ends in a newline and goes through
Rprintf). The formatters, `buffMB`, the workers' malloc and the writes of
the batches play no part: the estimate samples no row and the batch loop has
no pass. -/
theorem writefile_no_rows (T : Lookups) (g : Globals) (L : Libc) (S : Sys) (C : Call)
    (names : List SEXPstr) (hne : C.DF ≠ []) (h0 : nrowOf C.DF = 0)
    (hlens : checkLengths 0 C.DF.tail 1 = none)
    (hopen : C.toStdout = false → S.openOK = true)
    (hclose : C.toStdout = false → S.closeOK = true)
    (hhdr : C.col_names = true →
      C.names = some names ∧ names.length = C.DF.length ∧ S.mallocNames = true ∧
        (C.toStdout = false → S.writeNamesErr = none)) :
    writefile T g L S C =
      ⟨none,
        if C.col_names then
          (if C.toStdout then
            S.Rprintf (writeColNames g { C.args with row_sep := ['\n'] } names)
          else writeColNames g C.args names)
        else []⟩ ∧
    sampleRows 0 = [] ∧ (∀ rpb, batches 0 rpb = []) := by
  refine ⟨?_, rfl, fun rpb => rfl⟩
  have hlen0 : C.DF.length ≠ 0 := by
    intro h; exact hne (List.length_eq_zero.mp h)
  unfold writefile
  rw [if_neg hlen0]
  simp only [h0, hlens, estimateMaxLineLen_zero]
  cases hs : C.toStdout with
  | true =>
    cases hc : C.col_names with
    | false => simp [headerStep, hc]
    | true =>
      obtain ⟨h1, h2, h3, _⟩ := hhdr hc
      simp [headerStep, hc, hs, h1, h2, h3]
  | false =>
    have ho := hopen hs
    have hcl := hclose hs
    cases hc : C.col_names with
    | false => simp [headerStep, hc, ho, hcl]
    | true =>
      obtain ⟨h1, h2, h3, h4⟩ := hhdr hc
      simp [headerStep, hc, hs, h1, h2, h3, h4 hs, ho, hcl]

/-- Witness for C16: an integer and a string column without rows, named `n` and `s`,
give the one line `n,s`. -/
theorem writefile_no_rows_witness :
    writefile specLookups scenarioGlobals noLibc scenarioSys
        ⟨[Column.INTSXP [] none, Column.STRSXP []], some [some ['n'], some ['s']], false,
          scenarioArgs, true, 8⟩ =
      ⟨none, ['n', ',', 's', '\n']⟩ :=
  (writefile_no_rows specLookups scenarioGlobals noLibc scenarioSys
    ⟨[Column.INTSXP [] none, Column.STRSXP []], some [some ['n'], some ['s']], false,
      scenarioArgs, true, 8⟩ [some ['n'], some ['s']] (by simp) rfl rfl (fun _ => rfl)
    (fun _ => rfl) (fun _ => ⟨rfl, rfl, rfl, fun _ => rfl⟩)).1.trans (by decide)

/-- C17, as stated, fails: a table whose one column has a type without a case in the
switch, and no rows: the estimate samples no row and raises nothing, and
writefile returns without error after writing the line of column names. -/
theorem unsupported_column_no_rows :
    writefile specLookups scenarioGlobals noLibc scenarioSys
        ⟨[Column.OTHER 0], some [some ['v']], false, scenarioArgs, true, 8⟩ =
      ⟨none, ['v', '\n']⟩ := by
  decide

/-- C17, amended: for a table with at least one row and columns of equal length
that has a column whose type has no case in the switch, once the file is
open (or the output goes to the console) writefile raises the column type
error, for the first such column, from the estimate of the line length, and
no byte has been handed to the sink, neither of the column names nor of the
rows. -/
theorem unsupported_column_error (T : Lookups) (g : Globals) (L : Libc) (S : Sys) (C : Call)
    (hlens : checkLengths (nrowOf C.DF) C.DF.tail 1 = none)
    (hopen : C.toStdout = false → S.openOK = true)
    (hrows : 1 ≤ nrowOf C.DF)
    (hbad : ∃ column ∈ C.DF, ∃ n, column = Column.OTHER n) :
    ∃ j, j < C.DF.length ∧ (∃ n, C.DF[j]? = some (Column.OTHER n)) ∧
      (∀ k, k < j → ∀ n, C.DF[k]? ≠ some (Column.OTHER n)) ∧
      estimateMaxLineLen T g S
        (if C.toStdout then { C.args with row_sep := ['\n'] } else C.args) C.DF (nrowOf C.DF) =
          Except.error j ∧
      writefile T g L S C = ⟨some (FwriteError.columnType j), []⟩ := by
  obtain ⟨j, hj, hjo, hmin, herr⟩ := estimateMaxLineLen_error T g S
    (if C.toStdout then { C.args with row_sep := ['\n'] } else C.args) C.DF (nrowOf C.DF)
    hrows hbad
  refine ⟨j, hj, hjo, hmin, herr, ?_⟩
  have hlen0 : C.DF.length ≠ 0 := by omega
  unfold writefile
  rw [if_neg hlen0]
  simp only [hlens]
  have ho : ¬ (¬ C.toStdout = true ∧ ¬ S.openOK = true) := by
    rintro ⟨h1, h2⟩
    exact h2 (hopen (by simpa using h1))
  rw [if_neg ho]
  simp only [herr]

/-- Witness for C17: an integer column and a column of a type without a case, two
rows: the error names column 1 and nothing is written. -/
theorem unsupported_column_error_witness :
    writefile specLookups scenarioGlobals noLibc scenarioSys
        ⟨[Column.INTSXP [1, 2] none, Column.OTHER 2], some [some ['n'], some ['v']], false,
          scenarioArgs, true, 8⟩ =
      ⟨some (FwriteError.columnType 1), []⟩ := by
  obtain ⟨j, hj, ⟨n, hn⟩, _, _, hw⟩ :=
    unsupported_column_error specLookups scenarioGlobals noLibc scenarioSys
      ⟨[Column.INTSXP [1, 2] none, Column.OTHER 2], some [some ['n'], some ['v']], false,
        scenarioArgs, true, 8⟩ (by decide) (fun _ => rfl) (by decide)
      ⟨Column.OTHER 2, by simp, 2, rfl⟩
  have h1 : j = 1 := by
    rcases j with _ | _ | j
    · simp at hn
    · rfl
    · have h2 : j + 1 + 1 < 2 := hj
      omega
  rw [h1] at hw
  exact hw

/-- C18, as stated, fails: with `nrow = 3`, `buffMB = 1` and `maxLineLen = 10` the
product `10 * maxLineLen` does not exceed `buffSize` and the floor of
`0.9 * buffSize / maxLineLen` is 94371, but `rowsPerBatch` is 3: line 482
lowers it to `nrow`. -/
theorem rowsPerBatch_clamped_to_nrow :
    rowsPerBatchOf 10 (buffSizeOf 1) 3 = 3 ∧
    ¬ (10 * 10 > buffSizeOf 1) ∧
    max 1 ⌊(9 / 10 : ℚ) * ((buffSizeOf 1 : Int) : ℚ) / ((10 : Int) : ℚ)⌋ = 94371 := by
  refine ⟨by set_option maxRecDepth 100000 in decide, by decide, ?_⟩
  have : ⌊(9 / 10 : ℚ) * ((buffSizeOf 1 : Int) : ℚ) / ((10 : Int) : ℚ)⌋ = 94371 := by
    rw [Int.floor_eq_iff]
    unfold buffSizeOf
    constructor <;> norm_num
  rw [this]
  decide

/-- C18, amended: for `nrow >= 1`, `buffMB` in 1..1024 and `maxLineLen >= 1` with
`10 * maxLineLen` within the range of `int`, `rowsPerBatch` is the smaller of
`nrow` and the following number: 1 when `10 * maxLineLen > buffSize`, and
otherwise `max(1, floor(0.9 * buffSize / maxLineLen))`, which the double
arithmetic of line 481 gives without error; and `rowsPerBatch >= 1`. -/
theorem rowsPerBatch_rule (maxLineLen buffMB nrow : Int) (hrow : 1 ≤ nrow)
    (hMB1 : 1 ≤ buffMB) (hMB2 : buffMB ≤ 1024) (hlen : 1 ≤ maxLineLen)
    (hfit : 10 * maxLineLen ≤ INT_MAX) :
    rowsPerBatchOf maxLineLen (buffSizeOf buffMB) nrow =
      min nrow (if 10 * maxLineLen > buffSizeOf buffMB then 1
        else max 1 ⌊(9 / 10 : ℚ) * ((buffSizeOf buffMB : Int) : ℚ) / ((maxLineLen : Int) : ℚ)⌋) ∧
    1 ≤ rowsPerBatchOf maxLineLen (buffSizeOf buffMB) nrow := by
  lift maxLineLen to ℕ using (by omega) with L
  lift buffMB to ℕ using (by omega) with b
  have hL : 1 ≤ L := by exact_mod_cast hlen
  have hb1 : 1 ≤ b := by exact_mod_cast hMB1
  have hb2 : b ≤ 1024 := by exact_mod_cast hMB2
  obtain ⟨h1, h2⟩ := rowsPerBatchOf_eq L b nrow hrow hb1 hb2 hL hfit
  have hBq : ((buffSizeOf (b : Int) : Int) : ℚ) = ((1048576 * b : Nat) : ℚ) := by
    unfold buffSizeOf; push_cast; ring
  have hfl : ⌊(9 / 10 : ℚ) * ((buffSizeOf (b : Int) : Int) : ℚ) / (((L : Int) : Int) : ℚ)⌋ =
      ((9 * (1048576 * b) / (10 * L) : Nat) : Int) := by
    rw [hBq, Int.cast_natCast]
    exact floor_nine_tenths (1048576 * b) L hL
  rw [hfl, h1]
  by_cases h : 10 * (L : Int) > buffSizeOf (b : Int)
  · rw [if_pos h, if_pos h]
    refine ⟨rfl, ?_⟩
    rw [min_def]; split <;> omega
  · rw [if_neg h, if_neg h]
    have h9 := h2 h
    have hmax : max (1 : Int) ((9 * (1048576 * b) / (10 * L) : Nat) : Int) =
        ((9 * (1048576 * b) / (10 * L) : Nat) : Int) := by
      apply max_eq_right
      omega
    rw [hmax]
    refine ⟨rfl, ?_⟩
    rw [min_def]; split <;> omega

/-- Witness for C18: lines of 5 bytes, the default 8 MB and two rows give batches
of two rows. -/
theorem rowsPerBatch_rule_witness :
    (1 ≤ (2 : Int) ∧ 1 ≤ (8 : Int) ∧ (8 : Int) ≤ 1024 ∧ 1 ≤ (5 : Int) ∧ 10 * (5 : Int) ≤ INT_MAX) ∧
    1 ≤ rowsPerBatchOf 5 (buffSizeOf 8) 2 ∧ rowsPerBatchOf 5 (buffSizeOf 8) 2 = 2 :=
  ⟨by decide, (rowsPerBatch_rule 5 8 2 (by decide) (by decide) (by decide) (by decide)
    (by decide)).2, by set_option maxRecDepth 100000 in decide⟩

/-- C19: for `nrow >= 1` and `rowsPerBatch >= 1`, `numBatches` is the ceiling of
`nrow / rowsPerBatch`; the batch loop visits that many row ranges, the `k`-th
being `[k * rowsPerBatch, min(nrow, k * rowsPerBatch + rowsPerBatch))`; every
range is non-empty and inside `[0, nrow)`, an earlier range ends at or before
the start of a later one, every row below `nrow` is in exactly one range; and
the thread count asked for is `min(nth, numBatches)`. -/
theorem batches_partition (nrow rpb : Nat) (h1 : 1 ≤ nrow) (h : 1 ≤ rpb) :
    numBatches nrow rpb = ⌈(nrow : ℚ) / (rpb : ℚ)⌉ ∧
    ((batches nrow rpb).length : Int) = numBatches nrow rpb ∧
    (∀ k, k < (batches nrow rpb).length →
      (batches nrow rpb)[k]? = some (k * rpb, min nrow (k * rpb + rpb))) ∧
    (∀ b ∈ batches nrow rpb, b.1 < b.2 ∧ b.2 ≤ nrow) ∧
    (∀ (j k : Nat) (bj bk : Nat × Nat), j < k → (batches nrow rpb)[j]? = some bj →
      (batches nrow rpb)[k]? = some bk → bj.1 < bk.1 ∧ bj.2 ≤ bk.1) ∧
    (∀ i, i < nrow → ∃! k : Nat, ∃ b : Nat × Nat, (batches nrow rpb)[k]? = some b ∧ b.1 ≤ i ∧ i < b.2) ∧
    (∀ nth : Int, clampThreads nth (numBatches nrow rpb) = min nth (numBatches nrow rpb)) := by
  have hlen := batches_length nrow rpb h1 h
  refine ⟨numBatches_ceil nrow rpb h1 h, ?_, ?_, ?_, ?_, ?_, ?_⟩
  · rw [numBatches_eq nrow rpb h1, hlen]
  · intro k hk
    exact batches_getElem? nrow rpb k h1 h (by omega)
  · intro b hb
    obtain ⟨k, hk⟩ := List.getElem?_of_mem hb
    obtain ⟨hlt, rfl⟩ := batches_getElem?_some nrow rpb k b h1 h hk
    have := batch_start_lt nrow rpb k h1 hlt
    exact ⟨lt_min this (by omega), min_le_left _ _⟩
  · intro j k bj bk hjk hj hk
    obtain ⟨_, rfl⟩ := batches_getElem?_some nrow rpb j bj h1 h hj
    obtain ⟨_, rfl⟩ := batches_getElem?_some nrow rpb k bk h1 h hk
    have h2 : (j + 1) * rpb ≤ k * rpb := Nat.mul_le_mul_right rpb hjk
    rw [Nat.add_mul, Nat.one_mul] at h2
    exact ⟨by show j * rpb < k * rpb; omega,
      le_trans (min_le_right _ _) h2⟩
  · intro i hi
    refine ⟨i / rpb, ⟨_, batches_getElem? nrow rpb (i / rpb) h1 h
      (batch_index_lt nrow rpb i hi), ?_⟩, ?_⟩
    · exact (batch_of_row nrow rpb i (i / rpb) h hi).mpr rfl
    · rintro k ⟨b, hb, hlo, hhi⟩
      obtain ⟨_, rfl⟩ := batches_getElem?_some nrow rpb k b h1 h hb
      exact (batch_of_row nrow rpb i k h hi).mp ⟨hlo, hhi⟩
  · intro nth
    unfold clampThreads
    rw [min_def]
    split <;> split <;> omega

/-- Witness for C19: five rows in batches of two give the three ranges
`[0,2)`, `[2,4)`, `[4,5)`. -/
theorem batches_partition_witness :
    (1 ≤ 5 ∧ 1 ≤ 2) ∧ ((batches 5 2).length : Int) = numBatches 5 2 ∧
      (batches 5 2)[2]? = some (2 * 2, min 5 (2 * 2 + 2)) ∧
      batches 5 2 = [(0, 2), (2, 4), (4, 5)] :=
  ⟨by decide, (batches_partition 5 2 (by decide) (by decide)).2.1,
    (batches_partition 5 2 (by decide) (by decide)).2.2.1 2 (by decide), by decide⟩

/-- C20: for a string `s` of `n` bytes without a NUL that is not `NA_STRING`, under
every quote and qmethod, writeString stores only to offsets below `2n + 2`
from the start of the field, the optimistic copy of auto mode included; it
moves the cursor by at most `2n + 2` bytes, all of them among the bytes
stored to; and it moves it by exactly `2n + 2` if and only if the field is
written between quotes and every byte of `s` gets a byte put before it. -/
theorem writeString_reach (g : Globals) (s : List Char) (h0 : NUL ∉ s) :
    writeStringReach g (some s) ≤ 2 * s.length + 2 ∧
    (writeString g (some s)).length ≤ writeStringReach g (some s) ∧
    (writeString g (some s)).length ≤ 2 * s.length + 2 ∧
    ((writeString g (some s)).length = 2 * s.length + 2 ↔
      (isQuoted g s = true ∧ ∀ c ∈ s, needsEscape g c = true)) := by
  have hq := writeQuoted_length_le g s h0
  have hmax := writeQuoted_length_max g s h0
  have hsc := scanCopy_length_le g.col_sep s
  cases hquote : g.quote with
  | NA_LOGICAL =>
    simp only [writeStringReach, writeString, isQuoted, hquote]
    by_cases hd : deref (scanCopy g.col_sep s).2 = NUL
    · simp only [if_pos hd]
      refine ⟨by omega, le_refl _, by omega, ?_⟩
      constructor
      · intro h; omega
      · rintro ⟨h, _⟩; simp [hd] at h
    · simp only [if_neg hd]
      refine ⟨max_le (by omega) hq, le_max_right _ _, hq, ?_⟩
      rw [hmax]
      simp [hd]
  | FALSE =>
    simp only [writeStringReach, writeString, isQuoted, hquote]
    refine ⟨by omega, le_refl _, by omega, ?_⟩
    constructor
    · intro h; omega
    · rintro ⟨h, _⟩; simp at h
  | TRUE =>
    simp only [writeStringReach, writeString, isQuoted, hquote]
    refine ⟨hq, le_refl _, hq, ?_⟩
    rw [hmax]
    simp

/-- Witness for C20: the string `"\` quoted under qmethod "escape" takes
`2 * 2 + 2` bytes, and the string `a"` one byte less. -/
theorem writeString_reach_witness :
    NUL ∉ ['"', '\\'] ∧
    ((writeString ⟨[], ',', '.', Rboolean.TRUE, true⟩ (some ['"', '\\'])).length =
        2 * ['"', '\\'].length + 2 ↔
      (isQuoted ⟨[], ',', '.', Rboolean.TRUE, true⟩ ['"', '\\'] = true ∧
        ∀ c ∈ ['"', '\\'], needsEscape ⟨[], ',', '.', Rboolean.TRUE, true⟩ c = true)) ∧
    writeString ⟨[], ',', '.', Rboolean.TRUE, true⟩ (some ['"', '\\']) =
      ['"', '\\', '"', '\\', '\\', '"'] ∧
    writeString ⟨[], ',', '.', Rboolean.TRUE, true⟩ (some ['a', '"']) =
      ['"', 'a', '\\', '"', '"'] :=
  ⟨by decide,
    (writeString_reach ⟨[], ',', '.', Rboolean.TRUE, true⟩ ['"', '\\'] (by decide)).2.2.2,
    by decide, by decide⟩

/-- C21: with well-formed tables, for a double that is not a NaN writeNumeric
appends between 1 and 22 bytes (a sign and at most 21 bytes of digits, or
`Inf`, `-Inf`, `0`), all stored at the offsets it moves the cursor over, so
within 32 bytes. For a NaN it appends the whole of `na_str`, whatever its
length: with an `na_str` of more than 32 bytes the array `tmp[32]` of the
estimate, which line 407 hands to writeNumeric without the test for a missing
value that lines 398 and 405 make, is too small. -/
theorem writeNumeric_extent (T : Lookups) (hT : T.WellFormed) (g : Globals) (x : Nat)
    (ch : List Char) :
    (ISNAN x = true → writeNumeric T g x ch = ch ++ g.na_str) ∧
    (ISNAN x = false →
      ∃ out, writeNumeric T g x ch = ch ++ out ∧ 1 ≤ out.length ∧ out.length ≤ 22) := by
  constructor
  · intro h
    exact writeNumeric_nan T g x ch h
  · intro hnan
    by_cases hfin : R_FINITE x = true
    · by_cases hz : isZero x = true
      · exact ⟨['0'], by simp [writeNumeric, hfin, hz], by simp, by simp⟩
      · exact writeNumeric_finite_length T hT g x ch hfin (by simpa using hz)
    · have hfin2 : R_FINITE x = false := by simpa using hfin
      by_cases hs : signOf x = true
      · exact ⟨['-', 'I', 'n', 'f'], by simp [writeNumeric, hfin2, hnan, hs], by simp,
          by simp⟩
      · exact ⟨['I', 'n', 'f'], by simp [writeNumeric, hfin2, hnan, hs], by simp, by simp⟩

/-- Witness for C21: a NaN with an `na_str` of 33 bytes: writeNumeric writes 33
bytes from the start of the scratch array, and the estimate counts them. -/
theorem writeNumeric_extent_witness :
    ISNAN 9221120237041090560 = true ∧
    writeNumeric specLookups ⟨List.replicate 33 'N', ',', '.', Rboolean.NA_LOGICAL, true⟩
        9221120237041090560 [] = [] ++ List.replicate 33 'N' ∧
    (writeNumeric specLookups ⟨List.replicate 33 'N', ',', '.', Rboolean.NA_LOGICAL, true⟩
        9221120237041090560 []).length = 33 ∧
    estimateCell specLookups ⟨List.replicate 33 'N', ',', '.', Rboolean.NA_LOGICAL, true⟩
        scenarioArgs (Column.REALSXP [9221120237041090560] false) 0 0 = some 33 :=
  ⟨by decide,
    (writeNumeric_extent specLookups specLookups_wellFormed
      ⟨List.replicate 33 'N', ',', '.', Rboolean.NA_LOGICAL, true⟩ 9221120237041090560 []).1
      (by decide),
    by decide, by decide⟩

/-- With 1005 rows the step is 100 and the loop of the estimate makes an eleventh pass,
over rows 1000 to 1004, where the comment of line 373 speaks of 10 places. -/
theorem sample_ranges_eleven :
    (sampleRanges 1005).length = 11 ∧ (sampleRanges 1005)[10]? = some (1000, 1005) := by
  decide

/-- C22: while the loop counter stays within an `int`, the estimate visits contiguous
row ranges that are not empty, have at most 100 rows, begin at the multiples of the
step (100 below 1000 rows, else `nrow / 10`) and end at or before `nrow`; the counter
never passes `INT_MAX`; the rows read are exactly those of the ranges, all in
`[0, nrow)`. There are at most 10 ranges when `nrow` is below 1000 or a multiple of 10.
For every other `nrow` there are 11, one more than the 10 places of the comment at
line 373: `nrow / 10` is rounded down, and the last range holds the `nrow % 10` rows
left over. -/
theorem sample_ranges (nrow : Nat) (hfit : nrow + nrow / 10 ≤ 2147483647) :
    (sampleRanges nrow).length ≤ 11 ∧
    ((nrow < 1000 ∨ nrow % 10 = 0) → (sampleRanges nrow).length ≤ 10) ∧
    ((1000 ≤ nrow ∧ nrow % 10 ≠ 0) → (sampleRanges nrow).length = 11) ∧
    sampleStep nrow = (if nrow < 1000 then 100 else nrow / 10) ∧
    (∀ (k : Nat) (b : Nat × Nat), (sampleRanges nrow)[k]? = some b →
      b.1 = k * sampleStep nrow ∧ b.1 < b.2 ∧ b.2 ≤ nrow ∧ b.2 - b.1 ≤ 100 ∧
      b.1 + sampleStep nrow ≤ 2147483647) ∧
    sampleRows nrow =
      (sampleRanges nrow).flatMap (fun b => (List.range (b.2 - b.1)).map (fun k => b.1 + k)) ∧
    (∀ i ∈ sampleRows nrow, i < nrow) := by
  have hlen : 1 ≤ nrow → (sampleRanges nrow).length = (nrow - 1) / sampleStep nrow + 1 := by
    intro h1
    rw [sampleRanges_eq nrow h1, List.length_map, List.length_range]
  refine ⟨?_, ?_, ?_, rfl, ?_, sampleRows_eq nrow, sampleRows_lt nrow⟩
  · rcases Nat.eq_zero_or_pos nrow with h0 | h1
    · subst h0; decide
    · rw [hlen h1]; exact (sampleRanges_count nrow h1).1
  · intro h
    rcases Nat.eq_zero_or_pos nrow with h0 | h1
    · subst h0; decide
    · rw [hlen h1]; exact (sampleRanges_count nrow h1).2.1 h
  · intro h
    have h1 : 1 ≤ nrow := by omega
    rw [hlen h1]; exact (sampleRanges_count nrow h1).2.2 h
  · intro k b hb
    obtain ⟨h1, h2, h3, h4⟩ := sampleRanges_range nrow k b hb
    refine ⟨h1, h2, h3, h4, ?_⟩
    have hs : sampleStep nrow ≤ 100 ∨ sampleStep nrow ≤ nrow / 10 ∧ 1000 ≤ nrow := by
      unfold sampleStep
      split <;> omega
    clear hb h1
    omega

theorem sample_ranges_witness :
    1005 + 1005 / 10 ≤ 2147483647 ∧
    sampleRanges 250 = [(0, 100), (100, 200), (200, 250)] ∧
    (sampleRanges 1005).length = 11 ∧
    (sampleRanges 2000).length ≤ 10 ∧
    (∀ i ∈ sampleRows 1005, i < 1005) :=
  ⟨by decide, by decide, (sample_ranges 1005 (by decide)).2.2.1 (by decide),
    (sample_ranges 2000 (by decide)).2.1 (by decide), (sample_ranges 1005 (by decide)).2.2.2.2.2.2⟩

/-- C23, as stated, fails: the estimate of a string cell is the length of the string,
without the quotes writeString may add. With quote "auto", the one-column row `a,b`
is estimated at 5 bytes and written as `"a,b"` and a newline, 6 bytes. -/
theorem estimate_below_row :
    sampleRows 1 = [0] ∧
    estimateRow specLookups scenarioGlobals scenarioSys scenarioArgs
      [Column.STRSXP [some ['a', ',', 'b']]] 1 0 = Except.ok 5 ∧
    estimateMaxLineLen specLookups scenarioGlobals scenarioSys scenarioArgs
      [Column.STRSXP [some ['a', ',', 'b']]] 1 = Except.ok 5 ∧
    writeRow specLookups scenarioGlobals noLibc scenarioArgs
      [Column.STRSXP [some ['a', ',', 'b']]] 0 [] = ['"', 'a', ',', 'b', '"', '\n'] ∧
    (writeRow specLookups scenarioGlobals noLibc scenarioArgs
      [Column.STRSXP [some ['a', ',', 'b']]] 0 []).length = 6 :=
  ⟨by decide, rfl, rfl, by decide, by decide⟩

/-- C23 (amended): for a table whose columns are integer, double or character
(factors included), the value the estimate gives a row is the sum of the row name
or row number estimate, for every column the estimate of its cell and one
separator, and the length of the row terminator. For a sampled row it exceeds the
number of bytes the row encoder writes when `turbo` is on, every string of the row
(cell, factor level, row name) is written without quotes, a missing string goes
with an `na` text of at most 2 bytes, and row numbers are written with quote TRUE
or FALSE and `(int)log10(nrow)` not below the digits of `nrow`. `maxLineLen` is the
largest of these values over the sampled rows (and 0). -/
theorem estimate_row_sum (T : Lookups) (hT : T.WellFormed) (g : Globals) (L : Libc) (S : Sys)
    (A : Args) (DF : List Column) (hne : DF ≠ []) (nrow : Nat)
    (hsup : ∀ column ∈ DF, TYPEOF column = 13 ∨ TYPEOF column = 14 ∨ TYPEOF column = 16) :
    (∀ i, estimateRow T g S A DF nrow i = Except.ok (sumLineLen T g S A DF nrow i)) ∧
    (∀ i ∈ sampleRows nrow, A.turbo = true →
      (∀ column ∈ DF, ∀ x, stringAt column i = some x → plainField g x) →
      (A.doRowNames = true → A.rowNames = none →
        g.quote ≠ Rboolean.NA_LOGICAL ∧ nrow < 10 ^ (1 + S.log10 nrow).toNat) →
      (A.doRowNames = true → ∀ rn, A.rowNames = some rn → plainField g (rn.getD i none)) →
      ((writeRow T g L A DF i []).length : Int) + 1 ≤ sumLineLen T g S A DF nrow i) ∧
    estimateMaxLineLen T g S A DF nrow = Except.ok (maxSumLineLen T g S A DF nrow) ∧
    (∀ i ∈ sampleRows nrow, sumLineLen T g S A DF nrow i ≤ maxSumLineLen T g S A DF nrow) ∧
    (maxSumLineLen T g S A DF nrow = 0 ∨
      ∃ i ∈ sampleRows nrow, maxSumLineLen T g S A DF nrow = sumLineLen T g S A DF nrow i) := by
  have hs : ∀ column ∈ DF, (∀ v, column ≠ Column.LGLSXP v) ∧ ∀ n, column ≠ Column.OTHER n :=
    fun column hm => typeof_supported column (hsup column hm)
  have hrow := estimateRow_eq_sum T g S A DF hs nrow
  refine ⟨hrow, ?_, ?_, ?_, ?_⟩
  · intro i hi hturbo hstr hnum hnam
    exact writeRow_lt_estimate T hT g L S A DF hne nrow i (sampleRows_lt nrow i hi) hturbo
      (fun column hm => (hs column hm).1) hstr hnum hnam
  · exact estimateLoop_eq_max T g S A DF nrow (sumLineLen T g S A DF nrow) hrow (sampleRows nrow) 0
  · exact (foldl_max_ge (sumLineLen T g S A DF nrow) (sampleRows nrow) 0).2
  · exact foldl_max_mem (sumLineLen T g S A DF nrow) (sampleRows nrow) 0

set_option maxRecDepth 100000 in
/-- Witness for C23: the row `1,3.1416,ab` with its row number, quote FALSE: 12 bytes
written, 13 estimated. -/
theorem estimate_row_sum_witness :
    writeRow specLookups ⟨[], ',', '.', Rboolean.FALSE, true⟩ noLibc
      ⟨['\n'], false, true, true, none⟩
      [Column.REALSXP [4614256673094690983] false, Column.STRSXP [some ['a', 'b']]] 0 [] =
      "1,3.1416,ab\n".toList ∧
    sumLineLen specLookups ⟨[], ',', '.', Rboolean.FALSE, true⟩ scenarioSys
      ⟨['\n'], false, true, true, none⟩
      [Column.REALSXP [4614256673094690983] false, Column.STRSXP [some ['a', 'b']]] 1 0 = 13 ∧
    estimateMaxLineLen specLookups ⟨[], ',', '.', Rboolean.FALSE, true⟩ scenarioSys
      ⟨['\n'], false, true, true, none⟩
      [Column.REALSXP [4614256673094690983] false, Column.STRSXP [some ['a', 'b']]] 1 =
      Except.ok 13 ∧
    ((writeRow specLookups ⟨[], ',', '.', Rboolean.FALSE, true⟩ noLibc
      ⟨['\n'], false, true, true, none⟩
      [Column.REALSXP [4614256673094690983] false, Column.STRSXP [some ['a', 'b']]] 0 []).length
        : Int) + 1 ≤
      sumLineLen specLookups ⟨[], ',', '.', Rboolean.FALSE, true⟩ scenarioSys
        ⟨['\n'], false, true, true, none⟩
        [Column.REALSXP [4614256673094690983] false, Column.STRSXP [some ['a', 'b']]] 1 0 :=
  ⟨by decide, by decide, rfl,
    (estimate_row_sum specLookups specLookups_wellFormed ⟨[], ',', '.', Rboolean.FALSE, true⟩
      noLibc scenarioSys ⟨['\n'], false, true, true, none⟩
      [Column.REALSXP [4614256673094690983] false, Column.STRSXP [some ['a', 'b']]]
      (List.cons_ne_nil _ _) 1 (by decide)).2.1 0 (by decide) rfl
      (by simp [stringAt, plainField, isQuoted])
      (fun _ _ => ⟨by decide, by decide⟩)
      (fun _ rn h => by cases h)⟩

/-- C24: in the layout stage, for `sf >= 1` digits and every exponent `exp`, with
`dr`, `dl0` and `width` as lines 167-174 set them, the decimal format is used
if and only if `width <= sf + (sf>1 ? 1 : 0) + 2 + (|exp| > 99 ? 3 : 2)`; the
decimal format takes exactly `width` bytes and the scientific format exactly
`sf + (sf>1 ? 1 : 0) + 2 + (|exp| > 99 ? 3 : 2)`, so that the field, without
its sign, has the smaller of the two lengths, the decimal format being taken
when they are equal. -/
theorem layout_choice (g : Globals) (l : Nat) (sf exp : Int) (hsf : 1 ≤ sf) :
    (useDecimal (decimalShape sf exp).2.2 sf exp = true ↔
      (decimalShape sf exp).2.2 ≤
        sf + (if sf > 1 then 1 else 0) + 2 + (if |exp| > 99 then 3 else 2)) ∧
    writeLayout g l sf exp =
      (if (decimalShape sf exp).2.2 ≤
          sf + (if sf > 1 then 1 else 0) + 2 + (if |exp| > 99 then 3 else 2) then
        writeDecimal g l sf (decimalShape sf exp).1 (decimalShape sf exp).2.1
      else writeScientific g l sf exp) ∧
    ((writeDecimal g l sf (decimalShape sf exp).1 (decimalShape sf exp).2.1).length : Int) =
      (decimalShape sf exp).2.2 ∧
    ((writeScientific g l sf exp).length : Int) =
      sf + (if sf > 1 then 1 else 0) + 2 + (if |exp| > 99 then 3 else 2) ∧
    ((writeLayout g l sf exp).length : Int) =
      min (decimalShape sf exp).2.2
        (sf + (if sf > 1 then 1 else 0) + 2 + (if |exp| > 99 then 3 else 2)) := by
  lift sf to ℕ using (by omega) with n
  have hn : 1 ≤ n := by exact_mod_cast hsf
  refine ⟨useDecimal_iff _ _ _, ?_, writeDecimal_length g l n exp,
    writeScientific_length g l n exp hn, writeLayout_length g l n exp hn⟩
  unfold writeLayout
  simp only []
  by_cases h : useDecimal (decimalShape (n : Int) exp).2.2 (n : Int) exp = true
  · rw [if_pos h, if_pos ((useDecimal_iff _ _ _).mp h)]
  · rw [if_neg h, if_neg (fun h2 => h ((useDecimal_iff _ _ _).mpr h2))]

/-- Witness for C24: one digit with exponent 300 or -300 has `width` 301 or 302
against 6 bytes in scientific format, and is written `1e+300` or `1e-300`;
so are the doubles nearest to these numbers with the tables of section
4.H. -/
theorem layout_choice_witness :
    (decimalShape 1 300).2.2 = 301 ∧ (decimalShape 1 (-300)).2.2 = 302 ∧
    ((writeLayout scenarioGlobals 1 1 300).length : Int) =
      min (decimalShape 1 300).2.2 (1 + (if (1 : Int) > 1 then 1 else 0) + 2 +
        (if |(300 : Int)| > 99 then 3 else 2)) ∧
    writeLayout scenarioGlobals 1 1 300 = "1e+300".toList ∧
    writeLayout scenarioGlobals 1 1 (-300) = "1e-300".toList ∧
    writeNumeric specLookups scenarioGlobals 9094988921128908188 [] = "1e+300".toList ∧
    writeNumeric specLookups scenarioGlobals 118622047889322841 [] = "1e-300".toList :=
  ⟨by decide, by decide, (layout_choice scenarioGlobals 1 1 300 (by decide)).2.2.2.2,
    by decide, by decide,
    by set_option maxRecDepth 100000 in decide,
    by set_option maxRecDepth 100000 in decide⟩

/-- C25: in the layout stage, for `l` of exactly `sf` digits (`1 <= sf <= 15`), an
exponent `exp` between -324 and 308, and a `dec_sep` that is neither a digit
nor `e`, the text written, read as a decimal numeral with `dec_sep` as the
decimal point, denotes `l * 10^(exp - sf + 1)`. In the decimal format the
text is digits with at most one `dec_sep`, the digits before it being a
single `0` when the value is below 1; in the scientific format it is one
digit, then `dec_sep` and `sf - 1` digits if `sf > 1`, then `e`, the sign of
the exponent, and two digits of exponent for `|exp| < 100`, three otherwise. -/
theorem layout_value (g : Globals) (hs1 : digitVal g.dec_sep = none) (hs2 : g.dec_sep ≠ 'e')
    (l : Nat) (sf exp : Int) (hsf1 : 1 ≤ sf) (hsf2 : sf ≤ 15)
    (hl1 : 10 ^ (sf.toNat - 1) ≤ l) (hl2 : l < 10 ^ sf.toNat)
    (he1 : -324 ≤ exp) (he2 : exp ≤ 308) :
    decimalValue g.dec_sep (writeLayout g l sf exp) =
      some ((l : ℚ) * (10 : ℚ) ^ (exp - sf + 1)) ∧
    (useDecimal (decimalShape sf exp).2.2 sf exp = true →
      ∃ ip fp : List Char, IsDigits ip ∧ IsDigits fp ∧ ip ≠ [] ∧
        writeLayout g l sf exp = ip ++ (if fp = [] then [] else g.dec_sep :: fp) ∧
        ((l : ℚ) * (10 : ℚ) ^ (exp - sf + 1) < 1 → ip = ['0'])) ∧
    (useDecimal (decimalShape sf exp).2.2 sf exp = false →
      ∃ (d : Nat) (fp ex : List Char), d < 10 ∧ IsDigits fp ∧ IsDigits ex ∧
        (fp.length : Int) + 1 = sf ∧ ex.length = (if |exp| < 100 then 2 else 3) ∧
        writeLayout g l sf exp =
          Nat.digitChar d :: ((if sf = 1 then [] else g.dec_sep :: fp) ++
            'e' :: (if exp < 0 then '-' else '+') :: ex)) := by
  lift sf to ℕ using (by omega) with n
  have hn : 1 ≤ n := by exact_mod_cast hsf1
  rw [Int.toNat_ofNat] at hl1 hl2
  have hexp : |exp| < 1000 := by
    rw [abs_lt]; constructor <;> omega
  obtain ⟨hdv, ip, fp, hip, hfp, hne, htext, hzero⟩ :=
    writeDecimal_spec g hs1 hs2 l n exp hn hl2
  have hsv : decimalValue g.dec_sep (writeScientific g l (n : Int) exp) =
      some ((l : ℚ) * (10 : ℚ) ^ (exp - (n : Int) + 1)) := by
    obtain ⟨k, rfl⟩ : ∃ k, n = k + 1 := ⟨n - 1, by omega⟩
    have e : ((k + 1 : Nat) : Int) = (k : Int) + 1 := by push_cast; rfl
    rw [e, decimalValue_scientific g hs1 hs2 l k exp hl2 hexp]
    have e2 : exp - (k : Int) = exp - ((k : Int) + 1) + 1 := by omega
    rw [e2]
  unfold writeLayout
  simp only []
  by_cases hu : useDecimal (decimalShape (n : Int) exp).2.2 (n : Int) exp = true
  · simp only [hu, if_true]
    refine ⟨hdv, fun _ => ⟨ip, fp, hip, hfp, hne, htext, ?_⟩, fun h => absurd h (by simp)⟩
    intro hlt
    apply hzero
    by_contra hc
    have hge := layout_value_ge l n exp hn hl1
    have h1 : (1 : ℚ) ≤ (10 : ℚ) ^ exp := by
      have h0 : (0 : Int) ≤ exp := by omega
      lift exp to ℕ using h0 with m
      rw [zpow_natCast]
      exact one_le_pow₀ (by norm_num)
    linarith
  · have hu2 : useDecimal (decimalShape (n : Int) exp).2.2 (n : Int) exp = false := by
      simpa using hu
    simp only [hu2, Bool.false_eq_true, if_false]
    refine ⟨hsv, fun h => absurd h (by simp), fun _ => ?_⟩
    obtain ⟨d, fp2, ex, hd, hfp2, hex, hlen, hexl, hst⟩ :=
      writeScientific_shape g l n exp hn hl2 hexp
    refine ⟨d, fp2, ex, hd, hfp2, hex, by exact_mod_cast hlen, hexl, ?_⟩
    rw [hst]
    have : ((n : Int) = 1) ↔ (n = 1) := by omega
    simp only [this]

/-- Witness for C25: `l = 31416` with `exp = 0` gives `3.1416`, `l = 3046` with
`exp = 4` gives `30460`, `l = 72` with `exp = -3` gives `0.0072`; these are
also the bytes writeNumeric gives for the three doubles of the scenario. -/
theorem layout_value_witness :
    decimalValue '.' (writeLayout scenarioGlobals 31416 5 0) =
      some ((31416 : ℚ) * (10 : ℚ) ^ ((0 : Int) - 5 + 1)) ∧
    writeLayout scenarioGlobals 31416 5 0 = "3.1416".toList ∧
    writeLayout scenarioGlobals 3046 4 4 = "30460".toList ∧
    writeLayout scenarioGlobals 72 2 (-3) = "0.0072".toList ∧
    writeNumeric specLookups scenarioGlobals 4614256673094690983 [] = "3.1416".toList ∧
    writeNumeric specLookups scenarioGlobals 4674101995001348096 [] = "30460".toList ∧
    writeNumeric specLookups scenarioGlobals 4574951056986852242 [] = "0.0072".toList :=
  ⟨(layout_value scenarioGlobals (by decide) (by decide) 31416 5 0 (by decide) (by decide)
      (by decide) (by decide) (by decide) (by decide)).1,
    by decide, by decide, by decide,
    by set_option maxRecDepth 100000 in decide,
    by set_option maxRecDepth 100000 in decide,
    by set_option maxRecDepth 100000 in decide⟩

/-- C26: for every `l0` of 16 digits and every `e`, lines 152-153 leave
`floor((l0 + 5) / 10)`, which lies between `10^14` and `10^15` and so is not
0; lines 157-162 then give `(l, sf, exp)` with `1 <= sf <= 15`, `l` of
exactly `sf` digits, the last not 0, and
`l * 10^(exp - sf + 1) = floor((l0 + 5) / 10) * 10^(e - 14)`; when the
rounding gives `10^15` the result is `l = 1`, `sf = 1`, `exp = e + 1`. -/
theorem round_and_normalise (l0 : Nat) (e : Int) (h1 : 1000000000000000 ≤ l0)
    (h2 : l0 < 10000000000000000) :
    roundLast l0 = (l0 + 5) / 10 ∧
    100000000000000 ≤ roundLast l0 ∧ roundLast l0 ≤ 1000000000000000 ∧ roundLast l0 ≠ 0 ∧
    1 ≤ (normalise (roundLast l0) e).2.1 ∧ (normalise (roundLast l0) e).2.1 ≤ 15 ∧
    10 ^ ((normalise (roundLast l0) e).2.1.toNat - 1) ≤ (normalise (roundLast l0) e).1 ∧
    (normalise (roundLast l0) e).1 < 10 ^ (normalise (roundLast l0) e).2.1.toNat ∧
    (normalise (roundLast l0) e).1 % 10 ≠ 0 ∧
    ((normalise (roundLast l0) e).1 : ℚ) *
        (10 : ℚ) ^ ((normalise (roundLast l0) e).2.2 - (normalise (roundLast l0) e).2.1 + 1) =
      (((l0 + 5) / 10 : Nat) : ℚ) * (10 : ℚ) ^ (e - 14) ∧
    (roundLast l0 = 1000000000000000 → normalise (roundLast l0) e = (1, 1, e + 1)) := by
  have hr := roundLast_eq l0 (by omega)
  obtain ⟨hb1, hb2⟩ := roundLast_bounds l0 h1 (by omega)
  obtain ⟨t, ht, hR, hlast, h15, hn⟩ := normalise_spec (roundLast l0) e hb1 hb2
  have ten : (10 : ℚ) ≠ 0 := by norm_num
  refine ⟨hr, hb1, hb2, by omega, ?_⟩
  rw [hn, ← hr]
  generalize roundLast l0 = R at hb1 hb2 hR hlast h15
  by_cases h : t = 15
  · have hR15 := h15.mp h
    subst h
    have hl : R / 10 ^ 15 = 1 := by rw [hR15]; norm_num
    simp only [if_true, hl]
    refine ⟨by norm_num, by norm_num, by norm_num, by norm_num, by norm_num, ?_, fun _ => trivial⟩
    rw [hR15]
    have e1 : e + 1 - 1 + 1 = (e - 14) + 15 := by ring
    rw [e1, zpow_add₀ ten]
    norm_num
    ring
  · have hlt : R < 1000000000000000 := by
      rcases Nat.lt_or_ge R 1000000000000000 with h3 | h3
      · exact h3
      · exact absurd (h15.mpr (by omega)) h
    have ht14 : t ≤ 14 := by omega
    obtain ⟨d1, d2⟩ := normalise_digits R t hb1 hlt ht14 hR
    simp only [if_neg h]
    have hsf : ((15 : Int) - (t : Int)).toNat = 15 - t := by omega
    rw [hsf]
    have e14 : 15 - t - 1 = 14 - t := by omega
    rw [e14]
    refine ⟨by omega, by omega, d1, d2, hlast, ?_, fun h3 => absurd h3 (by omega)⟩
    have e1 : e - (15 - (t : Int)) + 1 = (e - 14) + (t : Int) := by ring
    rw [e1, zpow_add₀ ten, zpow_natCast]
    have hq : ((R / 10 ^ t * 10 ^ t : Nat) : ℚ) = (R : ℚ) := by rw [hR]
    push_cast at hq
    rw [← hq]
    ring

/-- Witness for C26: `l0 = 9999999999999996` is rounded up to `10^15`, which leaves
`l = 1`, `sf = 1` and `exp` one more. -/
theorem round_and_normalise_witness :
    (1000000000000000 ≤ 9999999999999996 ∧ 9999999999999996 < 10000000000000000) ∧
    roundLast 9999999999999996 = (9999999999999996 + 5) / 10 ∧
    roundLast 9999999999999996 = 1000000000000000 ∧
    normalise (roundLast 9999999999999996) 7 = (1, 1, 8) :=
  have h := round_and_normalise 9999999999999996 7 (by decide) (by decide)
  ⟨by decide, h.1, by decide, h.2.2.2.2.2.2.2.2.2.2 (by decide)⟩

/-- C27: for a table with at least one row and `buffMB` between 1 and 1024,
`maxLineLen` is at least 1. When `maxLineLen` is below `buffSize`, the product
`10*maxLineLen` is within an `int`, and the batch loop formats at most `maxLineLen`
bytes for every row, `rowsPerBatch` is at least 1 and the bytes of every batch and
one more (the `NUL` for the console, or the last `col_sep` before the cursor steps
back) fit in `buffSize`. Nothing bounds `maxLineLen` by `buffSize`: with a larger
`maxLineLen` a batch is one row, which the buffer of `buffSize` bytes, never
resized, may not hold. -/
theorem batch_within_buffer (T : Lookups) (hT : T.WellFormed) (g : Globals) (L : Libc)
    (S : Sys) (A : Args) (DF : List Column) (hne : DF ≠ []) (nrow : Nat) (h1 : 1 ≤ nrow)
    (hlog : 0 ≤ S.log10 nrow) (buffMB : Int) (hb1 : 1 ≤ buffMB) (hb2 : buffMB ≤ 1024)
    (maxLineLen : Int)
    (hest : estimateMaxLineLen T g S A DF nrow = Except.ok maxLineLen) :
    1 ≤ maxLineLen ∧
    (maxLineLen < buffSizeOf buffMB → 10 * maxLineLen ≤ INT_MAX →
      (∀ i, i < nrow → ((writeBatch T g L A DF i (i + 1)).length : Int) ≤ maxLineLen) →
      1 ≤ rowsPerBatchOf maxLineLen (buffSizeOf buffMB) nrow ∧
      ∀ bt ∈ batches nrow (rowsPerBatchOf maxLineLen (buffSizeOf buffMB) nrow).toNat,
        ((writeBatch T g L A DF bt.1 bt.2).length : Int) + 1 ≤ buffSizeOf buffMB) := by
  have hpos := estimateMaxLineLen_pos T g S A DF hne nrow h1 hlog maxLineLen hest
  refine ⟨hpos, ?_⟩
  intro hlt hfit hrows
  obtain ⟨m, rfl⟩ : ∃ m : Nat, maxLineLen = (m : Int) := ⟨maxLineLen.toNat, by omega⟩
  obtain ⟨b, rfl⟩ : ∃ b : Nat, buffMB = (b : Int) := ⟨buffMB.toNat, by omega⟩
  have hB : buffSizeOf (b : Int) = ((1048576 * b : Nat) : Int) := by
    unfold buffSizeOf; push_cast; ring
  have h := batch_fits T hT g L A DF hne nrow h1 m b (by omega) (by omega) (by omega)
    (by rw [hB] at hlt; exact_mod_cast hlt) hfit
    (fun i hi => by exact_mod_cast hrows i hi)
  refine ⟨h.1, ?_⟩
  intro bt hbt
  have := h.2 bt hbt
  rw [hB]
  exact_mod_cast this

set_option maxRecDepth 100000 in
/-- Witness for C27: three rows of one integer column, `buffMB = 1`: `maxLineLen` is
3, one batch of three rows and 6 bytes. And a row the buffer does not hold: one
string of 1048576 bytes gives `maxLineLen = 1048578`, above `buffSize = 1048576`, so
`rowsPerBatch` is 1 and the only batch has the 1048577 bytes of the row. -/
theorem batch_within_buffer_witness :
    (estimateMaxLineLen specLookups scenarioGlobals scenarioSys scenarioArgs
      [Column.INTSXP [1, 2, 3] none] 3 = Except.ok 3 ∧
    (1 : Int) ≤ 3 ∧
    1 ≤ rowsPerBatchOf 3 (buffSizeOf 1) (3 : Nat) ∧
    ∀ bt ∈ batches 3 (rowsPerBatchOf 3 (buffSizeOf 1) (3 : Nat)).toNat,
      ((writeBatch specLookups scenarioGlobals noLibc scenarioArgs
        [Column.INTSXP [1, 2, 3] none] bt.1 bt.2).length : Int) + 1 ≤ buffSizeOf 1) ∧
    (estimateMaxLineLen specLookups ⟨[], ',', '.', Rboolean.FALSE, true⟩ scenarioSys scenarioArgs
      [Column.STRSXP [some (List.replicate 1048576 'x')]] 1 = Except.ok 1048578 ∧
    buffSizeOf 1 = 1048576 ∧
    rowsPerBatchOf 1048578 (buffSizeOf 1) 1 = 1 ∧
    batches 1 1 = [(0, 1)] ∧
    (writeBatch specLookups ⟨[], ',', '.', Rboolean.FALSE, true⟩ noLibc scenarioArgs
      [Column.STRSXP [some (List.replicate 1048576 'x')]] 0 1).length = 1048577) :=
  ⟨⟨rfl,
    (batch_within_buffer specLookups specLookups_wellFormed scenarioGlobals noLibc scenarioSys
      scenarioArgs [Column.INTSXP [1, 2, 3] none] (List.cons_ne_nil _ _) 3 (by decide)
      (by decide) 1 (by decide) (by decide) 3 rfl).1,
    (batch_within_buffer specLookups specLookups_wellFormed scenarioGlobals noLibc scenarioSys
      scenarioArgs [Column.INTSXP [1, 2, 3] none] (List.cons_ne_nil _ _) 3 (by decide)
      (by decide) 1 (by decide) (by decide) 3 rfl).2 (by decide) (by decide) (by decide)⟩,
    long_row_overruns_buffer⟩

end Fwrite
